import Mathlib

/-!
# Growable buffers, searching, sorting and the linked list of smyk07/dsa

A shallow embedding of `src/dynamic_array.c` (the eager buffer), of
`src/stacks.c` (the stack built the same way), of `src/1.4.1_array_queue.c`
(the queue) and of `src/1.1_dynamic_array.c` (the lazy buffer) at the level of
bytes, of `src/2.2_binary_search.c`, `src/quick_sort.c` and
`src/merge_sort.c` on arrays of `int`, and of `src/singly_linked_list.c` on a
heap of nodes.

Modelling conventions.

* A byte is a `Fin 256`.  A block of memory is a `List Byte`; the block a
  pointer designates is `some block`, the null pointer is `none`.
* `size_t` values are natural numbers.  The products `capacity * 2` and
  `item_size * capacity` are not reduced modulo `2 ^ 64`: a wrap needs a
  capacity of `2 ^ 63` slots, that is `2 ^ 62` live elements of at least one
  byte each written into one block.
* `unsigned int` values (the `count` and `capacity` of the queue and of the
  lazy buffer, the bounds of `quick_sort`) are natural numbers below `2 ^ 32`,
  and the operations on them that can leave that range are reduced modulo
  `2 ^ 32`: a queue of `2 ^ 31` one-byte elements is a block of 2 GiB.
* `int` values are integers; an `int` operation whose result lies outside
  `[INT_MIN, INT_MAX]` is undefined, as is an access to an array of `int`
  outside the array.  An array of `int` is a `List Int`.
* A recursive function takes a fuel argument, one unit for each call, and
  returns `none` when the fuel runs out.
* A `void` function that may call `exit` returns an `outcome`: it returns to its
  caller, ends the process, or is undefined because it reads or writes outside
  a block.
* The allocator is an oracle.  Each call of `malloc` or `realloc` consumes one
  answer: `none` (the call returns NULL) or `some junk` (the call returns a
  block, whose bytes that are not copied from the old block are read off
  `junk`, so that fresh memory has arbitrary contents).
* A C function that mutates `*da` returns its result code together with the
  struct after the call; one that writes through `item` also returns the
  destination block after the call.
* The functions of the lazy buffer, which have no guard that keeps their
  accesses inside the block, also return whether the accesses of the call lay
  inside it.
* The nodes of the linked list live in a heap, a list whose entry at index `p`
  is the node at address `p`.  A pointer to a node is an address or `none`; an
  access through NULL or through an address that holds no live node is
  undefined.  The allocator of nodes answers NULL or an address; it may hand
  out again an address that was freed.
-/

namespace Mem

/-- One byte of memory. -/
abbrev Byte := Fin 256

/-- The `n` bytes of `mem` that start at offset `off`. -/
def readBytes (mem : List Byte) (off n : Nat) : List Byte :=
  (mem.drop off).take n

/-- The block `mem` with the bytes `bs` stored from offset `off` on. -/
def writeBytes (mem : List Byte) (off : Nat) (bs : List Byte) : List Byte :=
  mem.take off ++ bs ++ mem.drop (off + bs.length)

/-- One answer of the allocator: `none` is NULL, `some junk` grants the block
and fixes the contents of its fresh bytes. -/
abbrev AllocAnswer := Option (List Byte)

/-- Fresh memory of `n` bytes with the contents the allocator chose. -/
def freshBytes (junk : List Byte) (n : Nat) : List Byte :=
  (List.range n).map (fun j => junk.getD j 0)

/-- The C `malloc(size)`: NULL, or a block of `size` bytes of arbitrary
contents. -/
def malloc (size : Nat) (a : AllocAnswer) : Option (List Byte) :=
  match a with
  | none => none
  | some junk => some (freshBytes junk size)

/-- The C `realloc(old, size)` on a present block: NULL (the old block stays),
or a block of `size` bytes that starts with the first `min size old.length` bytes
of the old block. -/
def realloc (old : List Byte) (size : Nat) (a : AllocAnswer) : Option (List Byte) :=
  match a with
  | none => none
  | some junk => some (old.take size ++ freshBytes junk (size - old.length))

/-- The C `memcpy(block + off, src, n)`, as the block after the call. -/
def memcpy_into (block : Option (List Byte)) (off : Nat) (src : List Byte) (n : Nat) :
    Option (List Byte) :=
  block.map (fun mem => writeBytes mem off (src.take n))

/-- The C `memcpy(dst, block + off, n)`, as the destination after the call. -/
def memcpy_out (dst : List Byte) (block : List Byte) (off n : Nat) : List Byte :=
  writeBytes dst 0 (readBytes block off n)

/-- The C `memmove(block + dstOff, block + srcOff, n)`, as the block after
the call: the source bytes are read before any byte is written. -/
def memmove (block : Option (List Byte)) (dstOff srcOff n : Nat) : Option (List Byte) :=
  block.map (fun mem => writeBytes mem dstOff (readBytes mem srcOff n))

/-- The C `realloc(p, size)` on a pointer that may be null: on a null pointer it
is `malloc(size)`. -/
def realloc_ptr (p : Option (List Byte)) (size : Nat) (a : AllocAnswer) : Option (List Byte) :=
  match p with
  | none => malloc size a
  | some old => realloc old size a

/-- The C `memcpy(block + off, src, n)` with its precondition: `none` when the
block is absent or the `n` bytes written do not lie inside it (undefined
behaviour in C), else the block after the call. -/
def memcpy_into_checked (block : Option (List Byte)) (off : Nat) (src : List Byte) (n : Nat) :
    Option (List Byte) :=
  match block with
  | none => none
  | some mem => if off + n ≤ mem.length then some (writeBytes mem off (src.take n)) else none

/-- The C `memcpy(dst, block + off, n)` with its precondition on the block:
`none` when the block is absent or the `n` bytes read do not lie inside it, else
the destination after the call. -/
def memcpy_out_checked (dst : List Byte) (block : Option (List Byte)) (off n : Nat) :
    Option (List Byte) :=
  match block with
  | none => none
  | some mem => if off + n ≤ mem.length then some (memcpy_out dst mem off n) else none

/-- The C `memmove(block + dstOff, block + srcOff, n)` with its precondition:
`none` when the block is absent or one of the two ranges does not lie inside it,
else the block after the call. -/
def memmove_checked (block : Option (List Byte)) (dstOff srcOff n : Nat) :
    Option (List Byte) :=
  match block with
  | none => none
  | some mem =>
    if dstOff + n ≤ mem.length ∧ srcOff + n ≤ mem.length then
      some (writeBytes mem dstOff (readBytes mem srcOff n))
    else none

/-- The number of values of an `unsigned int`: arithmetic on `unsigned int`
is modulo this number. -/
def UINT_RANGE : Nat := 2 ^ 32

/-- How a call of a `void` function that may call `exit` ends. -/
inductive outcome (α : Type) where
  /-- The call returns to its caller; `a` is the state it leaves. -/
  | returned (a : α)
  /-- The call ends the process with `exit(status)`. -/
  | exited (status : Int)
  /-- The call reads or writes outside a block or through a null pointer. -/
  | undefined
  deriving DecidableEq, Repr

/-- Slot `k` of a block of slots of `sz` bytes each. -/
def slotAt (mem : List Byte) (sz k : Nat) : List Byte :=
  readBytes mem (k * sz) sz

/-- The first `n` slots of a block, in storage order. -/
def slots (mem : List Byte) (sz n : Nat) : List (List Byte) :=
  (List.range n).map (slotAt mem sz)

end Mem

namespace DynamicArray

open Mem

/-- The `enum da_errors` of `src/dynamic_array.c`. -/
inductive da_errors where
  | DA_SUCCESS
  | DA_ERR_NULL
  | DA_ERR_INDEX
  | DA_ERR_UNINIT
  | DA_ERR_ALLOC
  | DA_ERR_RESIZE
  | DA_ERR_EMPTY
  deriving DecidableEq, Repr

open da_errors

/-- The integer value of each enumerator. -/
def da_errors.code : da_errors → Int
  | DA_SUCCESS => 0
  | DA_ERR_NULL => 1
  | DA_ERR_INDEX => 2
  | DA_ERR_UNINIT => 3
  | DA_ERR_ALLOC => 4
  | DA_ERR_RESIZE => 5
  | DA_ERR_EMPTY => 6

/-- The `struct dynamic_array`. -/
structure dynamic_array where
  items : Option (List Byte)
  item_size : Nat
  count : Nat
  capacity : Nat
  deriving DecidableEq, Repr

/-- The constant `DA_INITIAL_CAPACITY`. -/
def DA_INITIAL_CAPACITY : Nat := 4

/-- The constant `DA_RESIZE_FACTOR`. -/
def DA_RESIZE_FACTOR : Nat := 2

/-- The function `da_init`: `da` is the struct the handle points to, with
whatever contents it had. -/
def da_init (da : Option dynamic_array) (size : Nat) (a : AllocAnswer) :
    da_errors × Option dynamic_array :=
  match da with
  | none => (DA_ERR_NULL, none)
  | some d =>
    let d1 := { d with item_size := size }
    let d2 := { d1 with capacity := DA_INITIAL_CAPACITY }
    let d3 := { d2 with items := malloc (d2.item_size * d2.capacity) a }
    if d3.items.isNone then
      (DA_ERR_ALLOC, some { d3 with capacity := 0 })
    else
      (DA_SUCCESS, some { d3 with count := 0 })

/-- The function `da_expand`. -/
def da_expand (da : Option dynamic_array) (a : AllocAnswer) :
    da_errors × Option dynamic_array :=
  match da with
  | none => (DA_ERR_NULL, none)
  | some d =>
    match d.items with
    | none => (DA_ERR_UNINIT, some d)
    | some mem =>
      let new_capacity := d.capacity * DA_RESIZE_FACTOR
      match realloc mem (d.item_size * new_capacity) a with
      | none => (DA_ERR_ALLOC, some d)
      | some new_items =>
        (DA_SUCCESS, some { d with items := some new_items, capacity := new_capacity })

/-- The function `da_shrink`. -/
def da_shrink (da : Option dynamic_array) (a : AllocAnswer) :
    da_errors × Option dynamic_array :=
  match da with
  | none => (DA_ERR_NULL, none)
  | some d =>
    match d.items with
    | none => (DA_ERR_UNINIT, some d)
    | some mem =>
      let new_capacity :=
        if d.capacity / DA_RESIZE_FACTOR < DA_INITIAL_CAPACITY then DA_INITIAL_CAPACITY
        else d.capacity / DA_RESIZE_FACTOR
      match realloc mem (new_capacity * d.item_size) a with
      | none => (DA_ERR_ALLOC, some d)
      | some new_items =>
        (DA_SUCCESS, some { d with items := some new_items, capacity := new_capacity })

/-- The function `da_get_item`: the second component is the destination
block after the call. -/
def da_get_item (da : Option dynamic_array) (index : Nat) (item : Option (List Byte)) :
    da_errors × Option (List Byte) :=
  match da, item with
  | none, _ => (DA_ERR_NULL, item)
  | some _, none => (DA_ERR_NULL, none)
  | some d, some dst =>
    if index ≥ d.count then (DA_ERR_INDEX, some dst)
    else
      match d.items with
      | none => (DA_ERR_UNINIT, some dst)
      | some mem =>
        (DA_SUCCESS, some (memcpy_out dst mem (index * d.item_size) d.item_size))

/-- The function `da_set_item`. -/
def da_set_item (da : Option dynamic_array) (index : Nat) (item : Option (List Byte)) :
    da_errors × Option dynamic_array :=
  match da, item with
  | none, _ => (DA_ERR_NULL, none)
  | some d, none => (DA_ERR_NULL, some d)
  | some d, some x =>
    if index ≥ d.count then (DA_ERR_INDEX, some d)
    else if d.items.isNone then (DA_ERR_UNINIT, some d)
    else
      (DA_SUCCESS,
        some { d with items := memcpy_into d.items (index * d.item_size) x d.item_size })

/-- The function `da_push`. -/
def da_push (da : Option dynamic_array) (item : Option (List Byte)) (a : AllocAnswer) :
    da_errors × Option dynamic_array :=
  match da, item with
  | none, _ => (DA_ERR_NULL, none)
  | some d, none => (DA_ERR_NULL, some d)
  | some d, some x =>
    if d.items.isNone ∨ d.item_size = 0 then (DA_ERR_UNINIT, some d)
    else
      let r := if d.count = d.capacity then da_expand (some d) a else (DA_SUCCESS, some d)
      if r.1 ≠ DA_SUCCESS then (DA_ERR_RESIZE, r.2)
      else
        (DA_SUCCESS, r.2.map (fun d1 =>
          { d1 with
            items := memcpy_into d1.items (d1.count * d1.item_size) x d1.item_size
            count := d1.count + 1 }))

/-- The function `da_insert_item`. -/
def da_insert_item (da : Option dynamic_array) (index : Nat) (item : Option (List Byte))
    (a : AllocAnswer) : da_errors × Option dynamic_array :=
  match da, item with
  | none, _ => (DA_ERR_NULL, none)
  | some d, none => (DA_ERR_NULL, some d)
  | some d, some x =>
    if index ≥ d.count then (DA_ERR_INDEX, some d)
    else if d.items.isNone ∨ d.item_size = 0 then (DA_ERR_UNINIT, some d)
    else
      let r := if d.count = d.capacity then da_expand (some d) a else (DA_SUCCESS, some d)
      if r.1 ≠ DA_SUCCESS then (DA_ERR_RESIZE, r.2)
      else
        (DA_SUCCESS, r.2.map (fun d1 =>
          let moved := memmove d1.items ((index + 1) * d1.item_size) (index * d1.item_size)
            ((d1.count - index) * d1.item_size)
          { d1 with
            items := memcpy_into moved (index * d1.item_size) x d1.item_size
            count := d1.count + 1 }))

/-- The function `da_remove_item`. -/
def da_remove_item (da : Option dynamic_array) (index : Nat) (a : AllocAnswer) :
    da_errors × Option dynamic_array :=
  match da with
  | none => (DA_ERR_NULL, none)
  | some d =>
    if index ≥ d.count then (DA_ERR_INDEX, some d)
    else if d.items.isNone ∨ d.item_size = 0 then (DA_ERR_UNINIT, some d)
    else
      let d1 :=
        if index ≠ d.count - 1 then
          { d with
            items := memmove d.items (index * d.item_size)
              (index * d.item_size + d.item_size) ((d.count - index - 1) * d.item_size) }
        else d
      let d2 := { d1 with count := d1.count - 1 }
      if d2.count < d2.capacity / DA_RESIZE_FACTOR then
        let r := da_shrink (some d2) a
        if r.1 ≠ DA_SUCCESS then (DA_ERR_RESIZE, r.2) else (DA_SUCCESS, r.2)
      else (DA_SUCCESS, some d2)

/-- The function `da_pop_item`: the third component is the destination block
after the call. -/
def da_pop_item (da : Option dynamic_array) (item : Option (List Byte)) (a : AllocAnswer) :
    da_errors × Option dynamic_array × Option (List Byte) :=
  match da with
  | none => (DA_ERR_NULL, none, item)
  | some d =>
    if d.items.isNone ∨ d.item_size = 0 then (DA_ERR_UNINIT, some d, item)
    else if d.count = 0 then (DA_ERR_EMPTY, some d, item)
    else
      let g := da_get_item (some d) (d.count - 1) item
      if g.1 ≠ DA_SUCCESS then (g.1, some d, g.2)
      else
        let d1 := { d with count := d.count - 1 }
        if d1.count < d1.capacity / DA_RESIZE_FACTOR then
          let r := da_shrink (some d1) a
          if r.1 ≠ DA_SUCCESS then (DA_ERR_RESIZE, r.2, g.2) else (DA_SUCCESS, r.2, g.2)
        else (DA_SUCCESS, some d1, g.2)

/-- The function `da_free`. -/
def da_free (da : Option dynamic_array) : Option dynamic_array :=
  match da with
  | none => none
  | some _ => some { items := none, count := 0, capacity := 0, item_size := 0 }

/-- The live sequence of a buffer: the contents of the slots `[0, count)`, in
storage order. -/
def live (d : dynamic_array) : List (List Byte) :=
  slots (d.items.getD []) d.item_size d.count

/-- An initialised buffer: storage is present and is a block of
`item_size * capacity` bytes, `count` is within `capacity`, and `capacity` is
at least the initial one.  Every state that follows a successful `da_init` is
of this kind (`initialised_run_calls`). -/
def initialised (d : dynamic_array) : Prop :=
  ∃ mem, d.items = some mem ∧ mem.length = d.item_size * d.capacity ∧
    d.count ≤ d.capacity ∧ DA_INITIAL_CAPACITY ≤ d.capacity

/-- One call of the public interface, with the arguments of the caller and, for
the calls that may reallocate, the answer of the allocator. -/
inductive da_call where
  | push (item : Option (List Byte)) (a : AllocAnswer)
  | insert_item (index : Nat) (item : Option (List Byte)) (a : AllocAnswer)
  | remove_item (index : Nat) (a : AllocAnswer)
  | pop_item (item : Option (List Byte)) (a : AllocAnswer)
  | set_item (index : Nat) (item : Option (List Byte))
  | get_item (index : Nat) (item : Option (List Byte))

/-- The struct after one call, whatever the call returned. -/
def da_call.run (c : da_call) (da : Option dynamic_array) : Option dynamic_array :=
  match c with
  | .push item a => (da_push da item a).2
  | .insert_item index item a => (da_insert_item da index item a).2
  | .remove_item index a => (da_remove_item da index a).2
  | .pop_item item a => (da_pop_item da item a).2.1
  | .set_item index item => (da_set_item da index item).2
  | .get_item _ _ => da

/-- The struct after a sequence of calls, first call first. -/
def run_calls (cs : List da_call) (da : Option dynamic_array) : Option dynamic_array :=
  cs.foldl (fun d c => c.run d) da

/-- The allocator grants what the call asks: the answer a call carries is a
block, not NULL.  Calls that never reallocate carry no answer. -/
def da_call.granted : da_call → Bool
  | .push _ a => a.isSome
  | .insert_item _ _ a => a.isSome
  | .remove_item _ a => a.isSome
  | .pop_item _ a => a.isSome
  | .set_item _ _ => true
  | .get_item _ _ => true

/-- The struct after `da_push` of each item in turn: every entry is an item
together with the contents `junk` of the block with which the allocator answers
if that push asks it. -/
def push_all (xs : List (List Byte × List Byte)) (da : Option dynamic_array) :
    Option dynamic_array :=
  xs.foldl (fun d p => (da_push d (some p.1) (some p.2)).2) da

/-- The results of `da_pop_item` called once per entry, first call first: every
entry is the destination block before the call together with the contents
`junk` of the block with which the allocator answers if that pop asks it.  The
list holds the code and the destination after each call. -/
def pop_all : List (List Byte × List Byte) → Option dynamic_array →
    List (da_errors × List Byte) × Option dynamic_array
  | [], da => ([], da)
  | p :: ps, da =>
    let r := da_pop_item da (some p.1) (some p.2)
    let rest := pop_all ps r.2.1
    ((r.1, r.2.2.getD []) :: rest.1, rest.2)

/-- The number of calls, in a run of `da_push` calls like that of `push_all`,
after which the capacity differs from the capacity before the call. -/
def growth_events : List (List Byte × List Byte) → Option dynamic_array → Nat
  | [], _ => 0
  | p :: ps, da =>
    let r := (da_push da (some p.1) (some p.2)).2
    (if r.map (fun d => d.capacity) ≠ da.map (fun d => d.capacity) then 1 else 0)
      + growth_events ps r

/-- A struct before its first `da_init`. -/
def example_blank : dynamic_array :=
  { items := none, item_size := 0, count := 0, capacity := 0 }

/-- The four bytes of a small `int`, least significant byte first. -/
def int_bytes (n : Byte) : List Byte := [n, 0, 0, 0]

/-- The buffer of `int`s right after `da_init`, the allocator having handed
out zeroed memory. -/
def example_empty : dynamic_array :=
  { items := some (List.replicate 16 0), item_size := 4, count := 0, capacity := 4 }

/-- A buffer of `int`s holding 10, 20, 30, 40 in a block of four slots. -/
def example_four : dynamic_array :=
  { items := some (int_bytes 10 ++ int_bytes 20 ++ int_bytes 30 ++ int_bytes 40)
    item_size := 4, count := 4, capacity := 4 }

/-- A buffer of `int`s holding 10, 20, 30, 40 in a block of eight slots, as
after a growth to eight slots and a removal. -/
def example_wide : dynamic_array :=
  { items := some (int_bytes 10 ++ int_bytes 20 ++ int_bytes 30 ++ int_bytes 40 ++
      List.replicate 16 0)
    item_size := 4, count := 4, capacity := 8 }

/-- A struct with left-over contents, as an automatic variable has before its
first `da_init`. -/
def example_stale : dynamic_array :=
  { items := some [1, 2, 3], item_size := 7, count := 99, capacity := 3 }

end DynamicArray

namespace Stacks

open Mem

/-- The `enum stack_errors` of `src/stacks.c`. -/
inductive stack_errors where
  | STACK_SUCCESS
  | STACK_ERR_NULL
  | STACK_ERR_INDEX
  | STACK_ERR_UNINIT
  | STACK_ERR_ALLOC
  | STACK_ERR_RESIZE
  | STACK_ERR_EMPTY
  deriving DecidableEq, Repr

open stack_errors

/-- The integer value of each enumerator. -/
def stack_errors.code : stack_errors → Int
  | STACK_SUCCESS => 0
  | STACK_ERR_NULL => 1
  | STACK_ERR_INDEX => 2
  | STACK_ERR_UNINIT => 3
  | STACK_ERR_ALLOC => 4
  | STACK_ERR_RESIZE => 5
  | STACK_ERR_EMPTY => 6

/-- The `struct stack`. -/
structure stack where
  items : Option (List Byte)
  item_size : Nat
  count : Nat
  capacity : Nat
  deriving DecidableEq, Repr

/-- The constant `STACK_INITIAL_CAPACITY`. -/
def STACK_INITIAL_CAPACITY : Nat := 4

/-- The constant `STACK_RESIZE_FACTOR`. -/
def STACK_RESIZE_FACTOR : Nat := 2

/-- The function `stack_init`. -/
def stack_init (s : Option stack) (item_size : Nat) (a : AllocAnswer) :
    stack_errors × Option stack :=
  match s with
  | none => (STACK_ERR_NULL, none)
  | some d =>
    let d1 := { d with item_size := item_size }
    let d2 := { d1 with capacity := STACK_INITIAL_CAPACITY }
    let d3 := { d2 with items := malloc (d2.item_size * d2.capacity) a }
    if d3.items.isNone then
      (STACK_ERR_ALLOC, some { d3 with capacity := 0 })
    else
      (STACK_SUCCESS, some { d3 with count := 0 })

/-- The function `stack_expand`. -/
def stack_expand (s : Option stack) (a : AllocAnswer) : stack_errors × Option stack :=
  match s with
  | none => (STACK_ERR_NULL, none)
  | some d =>
    match d.items with
    | none => (STACK_ERR_UNINIT, some d)
    | some mem =>
      let new_capacity := d.capacity * STACK_RESIZE_FACTOR
      match realloc mem (d.item_size * new_capacity) a with
      | none => (STACK_ERR_ALLOC, some d)
      | some new_items =>
        (STACK_SUCCESS, some { d with items := some new_items, capacity := new_capacity })

/-- The function `stack_shrink`. -/
def stack_shrink (s : Option stack) (a : AllocAnswer) : stack_errors × Option stack :=
  match s with
  | none => (STACK_ERR_NULL, none)
  | some d =>
    match d.items with
    | none => (STACK_ERR_UNINIT, some d)
    | some mem =>
      let new_capacity :=
        if d.capacity / STACK_RESIZE_FACTOR < STACK_INITIAL_CAPACITY then STACK_INITIAL_CAPACITY
        else d.capacity / STACK_RESIZE_FACTOR
      match realloc mem (new_capacity * d.item_size) a with
      | none => (STACK_ERR_ALLOC, some d)
      | some new_items =>
        (STACK_SUCCESS, some { d with items := some new_items, capacity := new_capacity })

/-- The function `stack_push`. -/
def stack_push (s : Option stack) (item : Option (List Byte)) (a : AllocAnswer) :
    stack_errors × Option stack :=
  match s, item with
  | none, _ => (STACK_ERR_NULL, none)
  | some d, none => (STACK_ERR_NULL, some d)
  | some d, some x =>
    if d.items.isNone ∨ d.item_size = 0 then (STACK_ERR_UNINIT, some d)
    else
      let r := if d.count = d.capacity then stack_expand (some d) a else (STACK_SUCCESS, some d)
      if r.1 ≠ STACK_SUCCESS then (STACK_ERR_RESIZE, r.2)
      else
        (STACK_SUCCESS, r.2.map (fun d1 =>
          { d1 with
            items := memcpy_into d1.items (d1.count * d1.item_size) x d1.item_size
            count := d1.count + 1 }))

/-- The function `stack_pop`: the third component is the destination block
after the call. -/
def stack_pop (s : Option stack) (item : Option (List Byte)) (a : AllocAnswer) :
    stack_errors × Option stack × Option (List Byte) :=
  match s, item with
  | none, _ => (STACK_ERR_NULL, none, item)
  | some d, none => (STACK_ERR_NULL, some d, none)
  | some d, some dst =>
    match d.items with
    | none => (STACK_ERR_UNINIT, some d, some dst)
    | some mem =>
      if d.item_size = 0 then (STACK_ERR_UNINIT, some d, some dst)
      else if d.count = 0 then (STACK_ERR_EMPTY, some d, some dst)
      else
        let out := memcpy_out dst mem ((d.count - 1) * d.item_size) d.item_size
        let d1 := { d with count := d.count - 1 }
        if d1.count < d1.capacity / STACK_RESIZE_FACTOR then
          let r := stack_shrink (some d1) a
          if r.1 ≠ STACK_SUCCESS then (STACK_ERR_RESIZE, r.2, some out)
          else (STACK_SUCCESS, r.2, some out)
        else (STACK_SUCCESS, some d1, some out)

/-- The function `stack_free`. -/
def stack_free (s : Option stack) : Option stack :=
  match s with
  | none => none
  | some _ => some { items := none, item_size := 0, count := 0, capacity := 0 }

/-- A `struct stack` read as a `struct dynamic_array`: the two structs have
the same four fields. -/
def da_of_stack (s : stack) : DynamicArray.dynamic_array :=
  { items := s.items, item_size := s.item_size, count := s.count, capacity := s.capacity }

/-- A `struct dynamic_array` read as a `struct stack`. -/
def stack_of_da (d : DynamicArray.dynamic_array) : stack :=
  { items := d.items, item_size := d.item_size, count := d.count, capacity := d.capacity }

/-- The enumerator of `enum stack_errors` with the value of the given
enumerator of `enum da_errors`. -/
def stack_error_of : DynamicArray.da_errors → stack_errors
  | .DA_SUCCESS => STACK_SUCCESS
  | .DA_ERR_NULL => STACK_ERR_NULL
  | .DA_ERR_INDEX => STACK_ERR_INDEX
  | .DA_ERR_UNINIT => STACK_ERR_UNINIT
  | .DA_ERR_ALLOC => STACK_ERR_ALLOC
  | .DA_ERR_RESIZE => STACK_ERR_RESIZE
  | .DA_ERR_EMPTY => STACK_ERR_EMPTY

/-- The struct after `stack_push` of each item in turn: every entry is an
item together with the contents `junk` of the block with which the allocator
answers if that push asks it. -/
def stack_push_all (xs : List (List Byte × List Byte)) (s : Option stack) : Option stack :=
  xs.foldl (fun d p => (stack_push d (some p.1) (some p.2)).2) s

/-- The results of `stack_pop` called once per entry, first call first: every
entry is the destination block before the call together with the contents
`junk` of the block with which the allocator answers if that pop asks it.  The
list holds the code and the destination after each call. -/
def stack_pop_all : List (List Byte × List Byte) → Option stack →
    List (stack_errors × List Byte) × Option stack
  | [], s => ([], s)
  | p :: ps, s =>
    let r := stack_pop s (some p.1) (some p.2)
    let rest := stack_pop_all ps r.2.1
    ((r.1, r.2.2.getD []) :: rest.1, rest.2)

/-- A `struct stack` with left-over contents, before `stack_init`. -/
def example_stack_blank : stack :=
  { items := none, item_size := 0, count := 0, capacity := 0 }

/-- The stack of `int`s right after `stack_init`, the allocator having handed
out zeroed memory. -/
def example_stack_empty : stack :=
  { items := some (List.replicate 16 0), item_size := 4, count := 0, capacity := 4 }

end Stacks

namespace ArrayQueue

open Mem

/-- The `struct queue` of `src/1.4.1_array_queue.c`; `count` and `capacity`
are `unsigned int`. -/
structure queue where
  items : Option (List Byte)
  item_size : Nat
  count : Nat
  capacity : Nat
  deriving DecidableEq, Repr

/-- The constant `QUEUE_INITIAL_CAPACITY`. -/
def QUEUE_INITIAL_CAPACITY : Nat := 4

/-- The constant `QUEUE_RESIZE_FACTOR`. -/
def QUEUE_RESIZE_FACTOR : Nat := 2

/-- The function `queue_init`; it writes through `q` without a null test. -/
def queue_init (q : Option queue) (item_size : Nat) : outcome queue :=
  match q with
  | none => .undefined
  | some _ => .returned { items := none, item_size := item_size, count := 0, capacity := 0 }

/-- The function `queue_enqueue`: `a1` answers the `malloc` and `a2` the
`realloc`, when the call reaches them. -/
def queue_enqueue (q : Option queue) (item : Option (List Byte)) (a1 a2 : AllocAnswer) :
    outcome queue :=
  match q, item with
  | none, _ => .exited 1
  | some _, none => .exited 1
  | some d, some x =>
    if d.item_size = 0 then .exited 1
    else
      let r1 : Option queue :=
        if d.capacity = 0 then
          let d1 := { d with capacity := QUEUE_INITIAL_CAPACITY }
          match malloc (d1.item_size * d1.capacity) a1 with
          | none => none
          | some m => some { d1 with items := some m }
        else some d
      match r1 with
      | none => .exited (-1)
      | some d1 =>
        let r2 : Option queue :=
          if d1.count = d1.capacity then
            let new_capacity := (d1.capacity * QUEUE_RESIZE_FACTOR) % UINT_RANGE
            match realloc_ptr d1.items (d1.item_size * new_capacity) a2 with
            | none => none
            | some new_items => some { d1 with items := some new_items, capacity := new_capacity }
          else some d1
        match r2 with
        | none => .exited (-1)
        | some d2 =>
          match memcpy_into_checked d2.items (d2.count * d2.item_size) x d2.item_size with
          | none => .undefined
          | some m => .returned { d2 with items := some m, count := (d2.count + 1) % UINT_RANGE }

/-- The function `queue_dequeue`: the second component is the destination
block after the call. -/
def queue_dequeue (q : Option queue) (item : Option (List Byte)) (a : AllocAnswer) :
    outcome (queue × List Byte) :=
  match q, item with
  | none, _ => .exited 1
  | some _, none => .exited 1
  | some d, some dst =>
    if d.item_size = 0 ∨ d.count = 0 then .exited 1
    else
      match memcpy_out_checked dst d.items 0 d.item_size with
      | none => .undefined
      | some out =>
        let d1 := { d with count := d.count - 1 }
        match memmove_checked d1.items 0 d1.item_size (d1.item_size * d1.count) with
        | none => .undefined
        | some moved =>
          let d2 := { d1 with items := some moved }
          if d2.count < d2.capacity / QUEUE_RESIZE_FACTOR then
            let new_capacity := d2.capacity / QUEUE_RESIZE_FACTOR
            if new_capacity < QUEUE_INITIAL_CAPACITY then .returned (d2, out)
            else
              match realloc moved (new_capacity * d2.item_size) a with
              | none => .exited (-1)
              | some new_items =>
                .returned ({ d2 with items := some new_items, capacity := new_capacity }, out)
          else .returned (d2, out)

/-- The function `queue_free`. -/
def queue_free (q : Option queue) : Option queue :=
  match q with
  | none => none
  | some _ => some { items := none, item_size := 0, count := 0, capacity := 0 }

/-- The live sequence of a queue: the contents of the slots `[0, count)`,
front first. -/
def live (q : queue) : List (List Byte) :=
  slots (q.items.getD []) q.item_size q.count

/-- A queue in working order: either as `queue_init` leaves it, or with a
block of `item_size * capacity` bytes, `count` within `capacity` and `capacity`
at least the initial one. -/
def well_formed (q : queue) : Prop :=
  (q.items = none ∧ q.count = 0 ∧ q.capacity = 0) ∨
  (∃ mem, q.items = some mem ∧ mem.length = q.item_size * q.capacity ∧
    q.count ≤ q.capacity ∧ QUEUE_INITIAL_CAPACITY ≤ q.capacity)

/-- The outcome of `queue_enqueue` of each item in turn, as long as the calls
return: every entry is an item together with the contents `junk` of the block
with which the allocator answers if that call asks it. -/
def queue_enqueue_all : List (List Byte × List Byte) → outcome queue → outcome queue
  | [], o => o
  | p :: ps, .returned q =>
    queue_enqueue_all ps (queue_enqueue (some q) (some p.1) (some p.2) (some p.2))
  | _ :: _, .exited status => .exited status
  | _ :: _, .undefined => .undefined

/-- The outcome of `queue_dequeue` called once per entry, as long as the calls
return: every entry is the destination block before the call together with the
contents `junk` of the block with which the allocator answers if that call asks
it.  The list holds the destination after each call. -/
def queue_dequeue_all : List (List Byte × List Byte) → queue →
    outcome (List (List Byte) × queue)
  | [], q => .returned ([], q)
  | p :: ps, q =>
    match queue_dequeue (some q) (some p.1) (some p.2) with
    | .returned r =>
      match queue_dequeue_all ps r.1 with
      | .returned rest => .returned (r.2 :: rest.1, rest.2)
      | .exited status => .exited status
      | .undefined => .undefined
    | .exited status => .exited status
    | .undefined => .undefined

/-- A `struct queue` before `queue_init`. -/
def example_queue_blank : queue :=
  { items := none, item_size := 0, count := 0, capacity := 0 }

/-- One call on a queue, with the arguments of the caller and the answers of
the allocator. -/
inductive queue_call where
  | enqueue (item : Option (List Byte)) (a1 a2 : AllocAnswer)
  | dequeue (item : Option (List Byte)) (a : AllocAnswer)

/-- The outcome of one call on a present queue, as far as the queue goes. -/
def queue_call.run (c : queue_call) (q : queue) : outcome queue :=
  match c with
  | .enqueue item a1 a2 => queue_enqueue (some q) item a1 a2
  | .dequeue item a =>
    match queue_dequeue (some q) item a with
    | .returned r => .returned r.1
    | .exited status => .exited status
    | .undefined => .undefined

/-- The outcome of a sequence of calls, first call first, as long as the calls
return. -/
def queue_run_calls : List queue_call → outcome queue → outcome queue
  | [], o => o
  | c :: cs, .returned q => queue_run_calls cs (c.run q)
  | _ :: _, .exited status => .exited status
  | _ :: _, .undefined => .undefined

/-- A `struct queue` read as a `struct dynamic_array` of `src/dynamic_array.c`:
the same four fields. -/
def da_of_queue (q : queue) : DynamicArray.dynamic_array :=
  { items := q.items, item_size := q.item_size, count := q.count, capacity := q.capacity }

/-- What every queue state that calls have returned satisfies
(`queue_inv_run_calls`): it is in working order, its capacity is 0 or
`4 * 2 ^ k` within `unsigned int`, and it holds elements only if `item_size` is
positive. -/
def queue_inv (q : queue) : Prop :=
  well_formed q ∧ (q.capacity = 0 ∨ ∃ k, q.capacity = 4 * 2 ^ k) ∧ q.capacity < UINT_RANGE ∧
    (q.count = 0 ∨ 0 < q.item_size)

/-- An empty queue of `int`s with a block of four slots. -/
def example_queue_empty : queue :=
  { items := some (List.replicate 16 0), item_size := 4, count := 0, capacity := 4 }

/-- A queue of `int`s holding 1, 2, 3 in a block of four slots. -/
def example_queue_three : queue :=
  { items := some (DynamicArray.int_bytes 1 ++ DynamicArray.int_bytes 2 ++
      DynamicArray.int_bytes 3 ++ DynamicArray.int_bytes 0)
    item_size := 4, count := 3, capacity := 4 }

end ArrayQueue

/-! ## The lazy buffer of `src/1.1_dynamic_array.c` -/

namespace LazyArray

open Mem

/-- The struct `dynamic_array` of `src/1.1_dynamic_array.c`; `count` and
`capacity` are `unsigned int`. -/
structure dynamic_array where
  /-- The storage block, `none` for NULL. -/
  items : Option (List Byte)
  /-- The size of one element in bytes. -/
  item_size : Nat
  /-- The number of live elements. -/
  count : Nat
  /-- The number of slots the block is meant to hold. -/
  capacity : Nat
  deriving DecidableEq, Repr

/-- The macro `DA_INITIAL_CAPACITY`. -/
def DA_INITIAL_CAPACITY : Nat := 4

/-- The macro `DA_RESIZE_FACTOR`. -/
def DA_RESIZE_FACTOR : Nat := 2

/-- What a call of one of the `int` functions leaves: the `int` it returns, the
struct and the caller's item block after the call, and whether every access the
call made to the storage lay inside the block.  Where `in_bounds` is `false` the
call has undefined behaviour in C; `value` and the fields are then the ones of
an execution that goes on, in which a store past the end of the block lands in
the bytes that follow it. -/
structure call_result where
  /-- The returned `int`. -/
  value : Int
  /-- The struct after the call. -/
  da : Option dynamic_array
  /-- The caller's item block after the call. -/
  item : Option (List Byte)
  /-- The accesses of the call lay inside the storage block. -/
  in_bounds : Bool
  deriving DecidableEq, Repr

/-- The function `da_init`: it allocates nothing. -/
def da_init (da : dynamic_array) (size : Nat) : dynamic_array :=
  { da with items := none, item_size := size, count := 0, capacity := 0 }

/-- The function `da_get_item`. -/
def da_get_item (da : Option dynamic_array) (index : Nat) (item : Option (List Byte)) :
    call_result :=
  match da, item with
  | some d, some dst =>
    if index ≥ d.count then ⟨-1, da, item, true⟩
    else
      match d.items with
      | none => ⟨-1, da, item, true⟩
      | some mem =>
        ⟨0, da, some (memcpy_out dst mem (index * d.item_size) d.item_size),
          (memcpy_out_checked dst d.items (index * d.item_size) d.item_size).isSome⟩
  | _, _ => ⟨-1, da, item, true⟩

/-- The function `da_set_item`. -/
def da_set_item (da : Option dynamic_array) (index : Nat) (item : Option (List Byte)) :
    call_result :=
  match da, item with
  | some d, some src =>
    if d.items = none ∨ d.item_size = 0 ∨ index ≥ d.count ∨ d.capacity = 0 then
      ⟨-1, da, item, true⟩
    else
      ⟨0, some { d with items := memcpy_into d.items (index * d.item_size) src d.item_size },
        item, (memcpy_into_checked d.items (index * d.item_size) src d.item_size).isSome⟩
  | _, _ => ⟨-1, da, item, true⟩

/-- The last three statements of `da_append`: the store at slot `count`, the
increment of `count` and `return 0`. -/
def da_append_store (d : dynamic_array) (src : List Byte) : call_result :=
  ⟨0, some { d with
      items := memcpy_into d.items (d.count * d.item_size) src d.item_size
      count := (d.count + 1) % UINT_RANGE },
    some src, (memcpy_into_checked d.items (d.count * d.item_size) src d.item_size).isSome⟩

/-- The second `if` of `da_append` and what follows it: the growth when
`count == capacity`, then the store. -/
def da_append_grow (d : dynamic_array) (src : List Byte) (a : AllocAnswer) : call_result :=
  if d.count = d.capacity then
    let new_capacity := d.capacity * DA_RESIZE_FACTOR % UINT_RANGE
    match realloc_ptr d.items (d.item_size * new_capacity) a with
    | none => ⟨-1, some d, some src, true⟩
    | some new_items =>
      da_append_store { d with items := some new_items, capacity := new_capacity } src
  else da_append_store d src

/-- The function `da_append`; `a1` answers the `malloc` of the first block and
`a2` the `realloc` of the growth. -/
def da_append (da : Option dynamic_array) (item : Option (List Byte)) (a1 a2 : AllocAnswer) :
    call_result :=
  match da, item with
  | some d, some src =>
    if d.item_size = 0 then ⟨-1, da, item, true⟩
    else if d.capacity = 0 then
      let d1 := { d with capacity := DA_INITIAL_CAPACITY }
      let d2 := { d1 with items := malloc (d1.item_size * d1.capacity) a1 }
      if d2.items = none then ⟨-1, some d2, item, true⟩
      else da_append_grow d2 src a2
    else da_append_grow d src a2
  | _, _ => ⟨-1, da, item, true⟩

/-- The two stores of `da_insert_item`, the increment of `count` and
`return 0`: the `memmove` has the destination `items + index * item_size`, the
source one slot higher and the length
`count * item_size - (count - index) * item_size`. -/
def da_insert_item_store (d : dynamic_array) (index : Nat) (src : List Byte) : call_result :=
  let n := d.count * d.item_size - (d.count - index) * d.item_size
  let moved := memmove d.items (index * d.item_size) (index * d.item_size + d.item_size) n
  ⟨0, some { d with
      items := memcpy_into moved (index * d.item_size) src d.item_size
      count := (d.count + 1) % UINT_RANGE },
    some src,
    (memmove_checked d.items (index * d.item_size) (index * d.item_size + d.item_size) n).isSome
      && (memcpy_into_checked moved (index * d.item_size) src d.item_size).isSome⟩

/-- The function `da_insert_item`. -/
def da_insert_item (da : Option dynamic_array) (index : Nat) (item : Option (List Byte))
    (a : AllocAnswer) : call_result :=
  match da, item with
  | some d, some src =>
    if d.item_size = 0 ∨ index > d.count then ⟨-1, da, item, true⟩
    else if d.count = d.capacity then
      let new_capacity := d.capacity * DA_RESIZE_FACTOR % UINT_RANGE
      match realloc_ptr d.items (d.item_size * new_capacity) a with
      | none => ⟨-1, da, item, true⟩
      | some new_items =>
        da_insert_item_store { d with items := some new_items, capacity := new_capacity }
          index src
    else da_insert_item_store d index src
  | _, _ => ⟨-1, da, item, true⟩

/-- The function `da_remove_item`. -/
def da_remove_item (da : Option dynamic_array) (index : Nat) : call_result :=
  match da with
  | some d =>
    if d.item_size = 0 ∨ index ≥ d.count then ⟨-1, da, none, true⟩
    else if index ≠ d.count - 1 then
      ⟨0, some { d with
          items := memmove d.items (index * d.item_size) (index * d.item_size + d.item_size)
            ((d.count - index - 1) * d.item_size)
          count := d.count - 1 },
        none,
        (memmove_checked d.items (index * d.item_size) (index * d.item_size + d.item_size)
          ((d.count - index - 1) * d.item_size)).isSome⟩
    else ⟨0, some { d with count := d.count - 1 }, none, true⟩
  | none => ⟨-1, da, none, true⟩

/-- The function `da_pop_item`. -/
def da_pop_item (da : Option dynamic_array) (item : Option (List Byte)) : call_result :=
  match da with
  | some d =>
    if d.item_size = 0 ∨ d.count = 0 then ⟨-1, da, item, true⟩
    else
      let got := da_get_item da (d.count - 1) item
      if got.value ≠ 0 then got
      else ⟨0, some { d with count := d.count - 1 }, got.item, got.in_bounds⟩
  | none => ⟨-1, da, item, true⟩

/-- The function `da_free`. -/
def da_free (da : Option dynamic_array) : Option dynamic_array :=
  da.map (fun d => { d with items := none, count := 0, capacity := 0, item_size := 0 })

/-- A struct with left-over contents, before `da_init`. -/
def example_blank : dynamic_array :=
  { items := none, item_size := 0, count := 0, capacity := 0 }

/-- The four bytes of a small `int`, least significant byte first. -/
def int_bytes (n : Byte) : List Byte := [n, 0, 0, 0]

/-- The buffer of `int`s 10, 20, 30, 40 with four free slots, whose bytes are
zero. -/
def example_four : dynamic_array :=
  { items := some (int_bytes 10 ++ int_bytes 20 ++ int_bytes 30 ++ int_bytes 40
      ++ List.replicate 16 0)
    item_size := 4
    count := 4
    capacity := 8 }

/-- The live elements of a buffer, in order. -/
def live (d : dynamic_array) : List (List Byte) :=
  match d.items with
  | none => []
  | some mem => slots mem d.item_size d.count

end LazyArray

/-! ## Arrays of `int`: `src/2.2_binary_search.c` and `src/quick_sort.c` -/

namespace IntArray

/-- The largest `int`. -/
def INT_MAX : Int := 2147483647

/-- The least `int`. -/
def INT_MIN : Int := -2147483648

/-- The conversion of an `unsigned int` to `int`: the value itself when it is
at most `INT_MAX`, else the value less `2 ^ 32`. -/
def to_int (u : Nat) : Int :=
  if (u : Int) ≤ INT_MAX then (u : Int) else (u : Int) - 4294967296

/-- The conversion of an `int` to `unsigned int`: the value modulo `2 ^ 32`. -/
def to_unsigned (v : Int) : Nat :=
  (v % 4294967296).toNat

/-- The read of `arr[k]` for an `int` index: `none` when `k` is not an index
of the array. -/
def read (arr : List Int) (k : Int) : Option Int :=
  if 0 ≤ k then arr[k.toNat]? else none

/-- The macro `swap(arr[x], arr[y])` of `src/quick_sort.c`:
`temp = arr[x]; arr[x] = arr[y]; arr[y] = temp`, `none` when `x` or `y` is not an
index of the array. -/
def swap (arr : List Int) (x y : Int) : Option (List Int) :=
  match read arr x, read arr y with
  | some vx, some vy => some ((arr.set x.toNat vy).set y.toNat vx)
  | _, _ => none

end IntArray

namespace BinarySearch

open Mem IntArray

/-- The recursive `binary_search` of `src/2.2_binary_search.c`; each call uses
one unit of `fuel`, and `none` says the fuel ran out.  The sum `low + high` is
`int` arithmetic: outside the range of `int` it is undefined, as is a read of
`arr[mid]` outside the array.  (`mid + 1` cannot leave the range, `mid` being
half of an `int`.)  The division of C truncates toward zero. -/
def binary_search : Nat → List Int → Int → Int → Int → Option (outcome Int)
  | 0, _, _, _, _ => none
  | fuel + 1, arr, low, high, search_key =>
    if low > high then some (.returned (-1))
    else if low + high < INT_MIN ∨ INT_MAX < low + high then some .undefined
    else
      let mid := Int.tdiv (low + high) 2
      match read arr mid with
      | none => some .undefined
      | some v =>
        if v = search_key then some (.returned mid)
        else if v < search_key then binary_search fuel arr (mid + 1) high search_key
        else binary_search fuel arr low mid search_key

/-- The array of `main` in `src/2.2_binary_search.c`. -/
def main_array : List Int :=
  [0, 1, 2, 3, 5, 6, 7, 8, 9, 10, 11, 12, 13, 14, 15,
   16, 17, 18, 19, 20, 21, 22, 24, 25, 27, 28, 29, 30, 31, 32,
   33, 34, 35, 36, 37, 38, 40, 41, 42, 43, 45, 46, 47, 49, 50,
   51, 54, 55, 58, 61, 62, 63, 64, 65, 66, 67, 70, 71, 74, 75,
   76, 77, 79, 80, 83, 84, 87, 91, 92, 93, 94, 95, 97, 98, 99]

end BinarySearch

namespace QuickSort

open Mem IntArray

/-- The loop `for (int j = low; j < high; j++)` of `partition`, from the test of
`j < high` on, with the current `i`, `j` and array; each iteration uses one unit
of `fuel`.  The comparison `j < high` converts `j` to `unsigned int`; `i++` and
`j++` are `int` arithmetic. -/
def partition_loop (pivot : Int) (high : Nat) :
    Nat → Int → Int → List Int → Option (outcome (List Int × Int))
  | fuel, i, j, arr =>
    if to_unsigned j < high then
      match fuel with
      | 0 => none
      | fuel + 1 =>
        match read arr j with
        | none => some .undefined
        | some v =>
          if v ≤ pivot then
            if INT_MAX < i + 1 then some .undefined
            else
              match swap arr (i + 1) j with
              | none => some .undefined
              | some arr1 =>
                if INT_MAX < j + 1 then some .undefined
                else partition_loop pivot high fuel (i + 1) (j + 1) arr1
          else if INT_MAX < j + 1 then some .undefined
          else partition_loop pivot high fuel i (j + 1) arr
    else some (.returned (arr, i))

/-- The function `partition`: the loop is given `high - low` units of fuel, the
number of its iterations. -/
def partition (arr : List Int) (low high : Nat) : Option (outcome (List Int × Int)) :=
  match arr[high]? with
  | none => some .undefined
  | some pivot =>
    match partition_loop pivot high (high - low)
        (to_int ((low + UINT_RANGE - 1) % UINT_RANGE)) (to_int low) arr with
    | some (.returned (arr1, i)) =>
      if INT_MAX < i + 1 then some .undefined
      else
        match swap arr1 (i + 1) (high : Int) with
        | none => some .undefined
        | some arr2 => some (.returned (arr2, i + 1))
    | other => other

/-- The function `quick_sort`; each call uses one unit of `fuel`, and `none`
says the fuel ran out. -/
def quick_sort : Nat → List Int → Nat → Nat → Option (outcome (List Int))
  | 0, _, _, _ => none
  | fuel + 1, arr, low, high =>
    if low < high then
      match partition arr low high with
      | some (.returned (arr1, mid)) =>
        match (if mid > 0 then quick_sort fuel arr1 low (to_unsigned (mid - 1))
            else some (.returned arr1)) with
        | some (.returned arr2) =>
          if INT_MAX < mid + 1 then some .undefined
          else quick_sort fuel arr2 (to_unsigned (mid + 1)) high
        | other => other
      | some .undefined => some .undefined
      | some (.exited status) => some (.exited status)
      | none => none
    else some (.returned arr)

end QuickSort

/-! ## Merge sort: `src/merge_sort.c` -/

namespace IntArray

/-- The store `arr[k] = v` for an `int` index: `none` when `k` is not an index
of the array. -/
def write (arr : List Int) (k : Int) (v : Int) : Option (List Int) :=
  if 0 ≤ k ∧ k.toNat < arr.length then some (arr.set k.toNat v) else none

end IntArray

namespace MergeSort

open Mem IntArray

/-- What follows a call or a loop that may not return: `f` on the state it
returns with; the other ways of ending are passed on. -/
def and_then {α β : Type} (r : Option (outcome α)) (f : α → Option (outcome β)) :
    Option (outcome β) :=
  match r with
  | some (.returned a) => f a
  | some (.exited status) => some (.exited status)
  | some .undefined => some .undefined
  | none => none

/-- The loops `for (i = 0; i < n; i++) dst[i] = arr[start + i]` that fill `left`
and `right`: the `n` values read, `none` when a read falls outside the array.
The index `start + i` is `unsigned int` arithmetic. -/
def copy_out (arr : List Int) : Nat → Nat → Option (List Int)
  | _, 0 => some []
  | start, n + 1 =>
    match arr[start % UINT_RANGE]? with
    | none => none
    | some v => (copy_out arr (start + 1) n).map (fun rest => v :: rest)

/-- The loop `while (i < n1 && j < n2)` of `merge`, from its test on, with the
current `i`, `j`, `k` and array; each iteration uses one unit of `fuel`.  The
increments are `int` arithmetic. -/
def merge_both (left right : List Int) (n1 n2 : Int) :
    Nat → Int → Int → Int → List Int → Option (outcome (Int × Int × Int × List Int))
  | fuel, i, j, k, arr =>
    if i < n1 ∧ j < n2 then
      match fuel with
      | 0 => none
      | fuel + 1 =>
        match read left i, read right j with
        | some l, some r =>
          if l ≤ r then
            match write arr k l with
            | none => some .undefined
            | some arr1 =>
              if INT_MAX < i + 1 ∨ INT_MAX < k + 1 then some .undefined
              else merge_both left right n1 n2 fuel (i + 1) j (k + 1) arr1
          else
            match write arr k r with
            | none => some .undefined
            | some arr1 =>
              if INT_MAX < j + 1 ∨ INT_MAX < k + 1 then some .undefined
              else merge_both left right n1 n2 fuel i (j + 1) (k + 1) arr1
        | _, _ => some .undefined
    else some (.returned (i, j, k, arr))

/-- The loops `while (i < n1)` and `while (j < n2)` of `merge`, which copy the
rest of `left` and of `right`: `src` is the array copied from, `n` its bound and
`i` the running index.  It returns the last `k` and the array. -/
def merge_rest (src : List Int) (n : Int) :
    Nat → Int → Int → List Int → Option (outcome (Int × List Int))
  | fuel, i, k, arr =>
    if i < n then
      match fuel with
      | 0 => none
      | fuel + 1 =>
        match read src i with
        | none => some .undefined
        | some v =>
          match write arr k v with
          | none => some .undefined
          | some arr1 =>
            if INT_MAX < i + 1 ∨ INT_MAX < k + 1 then some .undefined
            else merge_rest src n fuel (i + 1) (k + 1) arr1
    else some (.returned (k, arr))

/-- The three `while` loops of `merge` in sequence, from `i`, `j` and `k` on:
the first loop has `fuel` units of fuel, the second `n1` and the third `n2`, the
bounds of their running indices. -/
def merge_loops (left right : List Int) (n1 n2 : Int) (fuel : Nat) (i j k : Int)
    (arr : List Int) : Option (outcome (List Int)) :=
  and_then (merge_both left right n1 n2 fuel i j k arr) fun s1 =>
    and_then (merge_rest left n1 n1.toNat s1.1 s1.2.2.1 s1.2.2.2) fun s2 =>
      and_then (merge_rest right n2 n2.toNat s1.2.1 s2.1 s2.2) fun s3 =>
        some (.returned s3.2)

/-- The function `merge`.  The lengths `n1 = mid - low + 1` and
`n2 = high - mid` are computed in `unsigned int` and converted to `int`; an
array of variable length whose length is not positive is undefined.  The
arrays `left` and `right` are lists, and the stack they are allocated on has no
bound.  The loops are given `n1 + n2` units of fuel, the number of values they
store. -/
def merge (arr : List Int) (low mid high : Nat) : Option (outcome (List Int)) :=
  let n1 := to_int ((mid + UINT_RANGE - low + 1) % UINT_RANGE)
  let n2 := to_int ((high + UINT_RANGE - mid) % UINT_RANGE)
  if n1 ≤ 0 ∨ n2 ≤ 0 then some .undefined
  else
    match copy_out arr low n1.toNat, copy_out arr (mid + 1) n2.toNat with
    | some left, some right =>
      merge_loops left right n1 n2 (n1.toNat + n2.toNat) 0 0 (to_int low) arr
    | _, _ => some .undefined

/-- The function `merge_sort`; each call uses one unit of `fuel`, and `none`
says the fuel ran out.  The sum `low + high` is `unsigned int` arithmetic, and
`mid + 1` is `int` arithmetic. -/
def merge_sort : Nat → List Int → Nat → Nat → Option (outcome (List Int))
  | 0, _, _, _ => none
  | fuel + 1, arr, low, high =>
    if low < high then
      let mid := to_int ((low + high) % UINT_RANGE / 2)
      and_then (merge_sort fuel arr low (to_unsigned mid)) fun arr1 =>
        if INT_MAX < mid + 1 then some .undefined
        else
          and_then (merge_sort fuel arr1 (to_unsigned (mid + 1)) high) fun arr2 =>
            merge arr2 low (to_unsigned mid) high
    else some (.returned arr)

end MergeSort

/-! ## The singly linked list of `src/singly_linked_list.c` -/

namespace LinkedList

open Mem

/-- The `enum sll_errors`. -/
inductive sll_errors where
  | SLL_SUCCESS
  | SLL_ERR_NULL
  | SLL_ERR_INDEX
  | SLL_ERR_UNINIT
  | SLL_ERR_ALLOC
  deriving DecidableEq, Repr

open sll_errors

/-- The integer value of each enumerator. -/
def sll_errors.code : sll_errors → Int
  | SLL_SUCCESS => 0
  | SLL_ERR_NULL => 1
  | SLL_ERR_INDEX => 2
  | SLL_ERR_UNINIT => 3
  | SLL_ERR_ALLOC => 4

/-- The `struct Node`: pointers are addresses, `none` is NULL. -/
structure Node where
  /-- The pointer `data`. -/
  data : Option Nat
  /-- The pointer `next`. -/
  next : Option Nat
  deriving DecidableEq, Repr

/-- The nodes in memory: the entry at index `p` is the node at address `p`,
`none` when no live node is there. -/
abbrev Heap := List (Option Node)

/-- The `struct List` (`List` is the name of the lists of Lean). -/
structure SList where
  /-- The pointer `head`. -/
  head : Option Nat
  /-- The pointer `tail`. -/
  tail : Option Nat
  /-- The field `length`. -/
  length : Nat
  deriving DecidableEq, Repr

/-- The live node at address `p`, if there is one. -/
def load (h : Heap) (p : Nat) : Option Node :=
  h.getD p none

/-- The read of `p->next`: `none` when `p` is NULL or no live node is at
`p`. -/
def get_next (h : Heap) (p : Option Nat) : Option (Option Nat) :=
  match p with
  | none => none
  | some a => (load h a).map (fun nd => nd.next)

/-- The store `p->next = q`: `none` when `p` is NULL or no live node is at
`p`. -/
def set_next (h : Heap) (p : Option Nat) (q : Option Nat) : Option Heap :=
  match p with
  | none => none
  | some a =>
    match load h a with
    | none => none
    | some nd => some (h.set a (some { nd with next := q }))

/-- The call `free(p)`: nothing for NULL, `none` when no live node is at
`p`. -/
def free (h : Heap) (p : Option Nat) : Option Heap :=
  match p with
  | none => some h
  | some a => if (load h a).isSome then some (h.set a none) else none

/-- The address at which the allocator places a node when its answer is `p`:
`p` itself if no live node is there, else the first address past the heap.
Every address that holds no live node is the address of some answer. -/
def fresh (h : Heap) (p : Nat) : Nat :=
  if (load h p).isSome then h.length else p

/-- The heap with the node `n` placed at the address `q`. -/
def place (h : Heap) (q : Nat) (n : Node) : Heap :=
  (h ++ List.replicate (q + 1 - h.length) none).set q (some n)

/-- The function `sll_create_node`: the allocator answers NULL (`none`) or an
address. -/
def sll_create_node (h : Heap) (data : Option Nat) (a : Option Nat) : Heap × Option Nat :=
  match a with
  | none => (h, none)
  | some p => (place h (fresh h p) { data := data, next := none }, some (fresh h p))

/-- The function `sll_list_init`; it dereferences `list` without a test. -/
def sll_list_init (h : Heap) (list : Option SList) (data : Option Nat) (a : Option Nat) :
    outcome (sll_errors × Heap × Option SList) :=
  match list with
  | none => .undefined
  | some l =>
    let r := sll_create_node h data a
    let l1 := { l with head := r.2 }
    if l1.head = none then .returned (SLL_ERR_ALLOC, r.1, some l1)
    else .returned (SLL_SUCCESS, r.1, some { l1 with tail := l1.head, length := 1 })

/-- The loop `while (pos < index) { node = node->next; pos++; }`: `n` steps of
`node = node->next` from `p`. -/
def walk (h : Heap) : Nat → Option Nat → outcome (Option Nat)
  | 0, p => .returned p
  | n + 1, p =>
    match get_next h p with
    | none => .undefined
    | some q => walk h n q

/-- The function `sll_get_at_index`. -/
def sll_get_at_index (h : Heap) (list : Option SList) (index : Nat) : outcome (Option Nat) :=
  match list with
  | none => .returned none
  | some l =>
    if l.head = none ∨ l.length = 0 ∨ index ≥ l.length then .returned none
    else walk h index l.head

/-- The function `sll_prepend_node`. -/
def sll_prepend_node (h : Heap) (list : Option SList) (data : Option Nat) (a : Option Nat) :
    outcome (sll_errors × Heap × Option SList) :=
  match data, list with
  | some _, some l =>
    if l.head = none ∨ l.length = 0 then .returned (SLL_ERR_UNINIT, h, list)
    else
      let r := sll_create_node h data a
      if r.2 = none then .returned (SLL_ERR_ALLOC, r.1, list)
      else
        match set_next r.1 r.2 l.head with
        | none => .undefined
        | some h1 =>
          .returned (SLL_SUCCESS, h1, some { l with head := r.2, length := l.length + 1 })
  | _, _ => .returned (SLL_ERR_NULL, h, list)

/-- The function `sll_append_node`. -/
def sll_append_node (h : Heap) (list : Option SList) (data : Option Nat) (a : Option Nat) :
    outcome (sll_errors × Heap × Option SList) :=
  match data, list with
  | some _, some l =>
    if l.head = none ∨ l.length = 0 then .returned (SLL_ERR_UNINIT, h, list)
    else
      let r := sll_create_node h data a
      if r.2 = none then .returned (SLL_ERR_ALLOC, r.1, list)
      else
        match set_next r.1 l.tail r.2 with
        | none => .undefined
        | some h1 =>
          .returned (SLL_SUCCESS, h1, some { l with tail := r.2, length := l.length + 1 })
  | _, _ => .returned (SLL_ERR_NULL, h, list)

/-- The function `sll_insert_node`. -/
def sll_insert_node (h : Heap) (list : Option SList) (index : Nat) (data : Option Nat)
    (a : Option Nat) : outcome (sll_errors × Heap × Option SList) :=
  match data, list with
  | some _, some l =>
    if l.head = none ∨ l.length = 0 then .returned (SLL_ERR_UNINIT, h, list)
    else if index = 0 then sll_prepend_node h list data a
    else if index > l.length then .returned (SLL_ERR_INDEX, h, list)
    else
      match walk h (index - 1) l.head, sll_get_at_index h list index with
      | .returned prev_node, .returned at_index =>
        let r := sll_create_node h data a
        if r.2 = none then .returned (SLL_ERR_ALLOC, r.1, list)
        else
          match set_next r.1 prev_node r.2 with
          | none => .undefined
          | some h1 =>
            match set_next h1 r.2 at_index with
            | none => .undefined
            | some h2 =>
              let l1 := if index = l.length then { l with tail := r.2 } else l
              .returned (SLL_SUCCESS, h2, some { l1 with length := l1.length + 1 })
      | _, _ => .undefined
  | _, _ => .returned (SLL_ERR_NULL, h, list)

/-- The function `sll_delete_head`. -/
def sll_delete_head (h : Heap) (list : Option SList) :
    outcome (sll_errors × Heap × Option SList) :=
  match list with
  | none => .returned (SLL_ERR_NULL, h, list)
  | some l =>
    if l.head = none ∨ l.length = 0 then .returned (SLL_ERR_UNINIT, h, list)
    else
      match get_next h l.head with
      | none => .undefined
      | some next =>
        let l1 := { l with head := next }
        let l2 := if l1.length = 1 then { l1 with tail := none } else l1
        match free h l.head with
        | none => .undefined
        | some h1 => .returned (SLL_SUCCESS, h1, some { l2 with length := l2.length - 1 })

/-- The loop `while (new_tail->next->next != NULL) new_tail = new_tail->next;`
of `sll_delete_tail`, from its test on; each test uses one unit of `fuel`, and
`none` says the fuel ran out. -/
def find_new_tail (h : Heap) : Nat → Option Nat → Option (outcome (Option Nat))
  | 0, _ => none
  | fuel + 1, new_tail =>
    match get_next h new_tail with
    | none => some .undefined
    | some next =>
      match get_next h next with
      | none => some .undefined
      | some after => if after ≠ none then find_new_tail h fuel next
        else some (.returned new_tail)

/-- The function `sll_delete_tail`; `fuel` bounds the iterations of its loop. -/
def sll_delete_tail (fuel : Nat) (h : Heap) (list : Option SList) :
    Option (outcome (sll_errors × Heap × Option SList)) :=
  match list with
  | none => some (.returned (SLL_ERR_NULL, h, list))
  | some l =>
    if l.head = none ∨ l.length = 0 then some (.returned (SLL_ERR_UNINIT, h, list))
    else if l.length = 1 then
      match free h l.head with
      | none => some .undefined
      | some h1 =>
        some (.returned (SLL_SUCCESS, h1,
          some { l with head := none, tail := none, length := l.length - 1 }))
    else
      match find_new_tail h fuel l.head with
      | none => none
      | some (.returned new_tail) =>
        match get_next h new_tail with
        | none => some .undefined
        | some last =>
          match free h last with
          | none => some .undefined
          | some h1 =>
            match set_next h1 new_tail none with
            | none => some .undefined
            | some h2 =>
              some (.returned (SLL_SUCCESS, h2,
                some { l with tail := new_tail, length := l.length - 1 }))
      | some _ => some .undefined

/-- The function `sll_delete_at_index`; `fuel` is that of `sll_delete_tail`. -/
def sll_delete_at_index (fuel : Nat) (h : Heap) (list : Option SList) (index : Nat) :
    Option (outcome (sll_errors × Heap × Option SList)) :=
  match list with
  | none => some (.returned (SLL_ERR_NULL, h, list))
  | some l =>
    if l.head = none ∨ l.length = 0 then some (.returned (SLL_ERR_UNINIT, h, list))
    else if index ≥ l.length then some (.returned (SLL_ERR_INDEX, h, list))
    else if index = 0 then some (sll_delete_head h list)
    else if index = l.length - 1 then sll_delete_tail fuel h list
    else
      match walk h (index - 1) l.head, sll_get_at_index h list index,
          sll_get_at_index h list (index + 1) with
      | .returned prev_node, .returned at_index, .returned next_node =>
        match set_next h prev_node next_node with
        | none => some .undefined
        | some h1 =>
          match free h1 at_index with
          | none => some .undefined
          | some h2 => some (.returned (SLL_SUCCESS, h2, some { l with length := l.length - 1 }))
      | _, _, _ => some .undefined

/-- One call of the interface that changes the list, with the arguments of the
caller, the answer of the allocator and the fuel of the loop of
`sll_delete_tail`. -/
inductive sll_call where
  | prepend (data : Option Nat) (a : Option Nat)
  | append (data : Option Nat) (a : Option Nat)
  | insert (index : Nat) (data : Option Nat) (a : Option Nat)
  | delete_head
  | delete_tail (fuel : Nat)
  | delete_at_index (index : Nat) (fuel : Nat)

/-- The heap and the struct after one call that returns, whatever code it
returns. -/
def sll_call.run (c : sll_call) (s : Heap × Option SList) :
    Option (outcome (Heap × Option SList)) :=
  let r : Option (outcome (sll_errors × Heap × Option SList)) :=
    match c with
    | .prepend data a => some (sll_prepend_node s.1 s.2 data a)
    | .append data a => some (sll_append_node s.1 s.2 data a)
    | .insert index data a => some (sll_insert_node s.1 s.2 index data a)
    | .delete_head => some (sll_delete_head s.1 s.2)
    | .delete_tail fuel => sll_delete_tail fuel s.1 s.2
    | .delete_at_index index fuel => sll_delete_at_index fuel s.1 s.2 index
  match r with
  | some (.returned x) => some (.returned x.2)
  | some (.exited status) => some (.exited status)
  | some .undefined => some .undefined
  | none => none

/-- The heap and the struct after a sequence of calls, first call first: the
run stops at the first call that does not return. -/
def sll_run_calls : List sll_call → Heap × Option SList →
    Option (outcome (Heap × Option SList))
  | [], s => some (.returned s)
  | c :: cs, s =>
    match c.run s with
    | some (.returned s1) => sll_run_calls cs s1
    | other => other

/-- The fuel a call carries is at least `n`; calls without a loop of unknown
length carry none. -/
def sll_call.fuel_ge (n : Nat) : sll_call → Bool
  | .delete_tail fuel => decide (n ≤ fuel)
  | .delete_at_index _ fuel => decide (n ≤ fuel)
  | _ => true

/-- The addresses `nodes` are, in order, the nodes of the chain that starts at
the pointer `p` and follows `next` up to the pointer `stop`. -/
def chain_to (h : Heap) (stop : Option Nat) : Option Nat → List Nat → Bool
  | p, [] => decide (p = stop)
  | p, a :: rest =>
    decide (p = some a) &&
      match load h a with
      | none => false
      | some nd => chain_to h stop nd.next rest

/-- The bookkeeping of a list: `nodes` are, in order and without repetition, the
nodes of the chain from `head` to NULL, `length` is their number and `tail` is
the last of them (NULL when there is none). -/
def linked (h : Heap) (l : SList) (nodes : List Nat) : Prop :=
  chain_to h none l.head nodes = true ∧ nodes.Nodup ∧ nodes.length = l.length ∧
    l.tail = nodes.getLast?

/-- A struct before `sll_list_init`. -/
def example_list : SList :=
  { head := none, tail := none, length := 0 }

end LinkedList

/-! ## Memory blocks: reads, writes and slots -/

namespace Mem

theorem getElem?_readBytes (mem : List Byte) (off n j : Nat) :
    (readBytes mem off n)[j]? = if j < n then mem[off + j]? else none := by
  unfold readBytes
  by_cases h : j < n
  · simp [h, List.getElem?_take_of_lt, List.getElem?_drop]
  · simp [h, List.getElem?_take_eq_none (Nat.le_of_not_lt h)]

theorem getElem?_writeBytes (mem : List Byte) (off : Nat) (bs : List Byte) (j : Nat)
    (h : off ≤ mem.length) :
    (writeBytes mem off bs)[j]? =
      if j < off then mem[j]? else if j < off + bs.length then bs[j - off]? else mem[j]? := by
  unfold writeBytes
  by_cases h1 : j < off
  · rw [if_pos h1, List.append_assoc, List.getElem?_append_left (by simp; omega)]
    simp [List.getElem?_take_of_lt, h1]
  · rw [if_neg h1, List.append_assoc, List.getElem?_append_right (by simp; omega)]
    have hl : (List.take off mem).length = off := by simp; omega
    rw [hl]
    by_cases h2 : j < off + bs.length
    · rw [if_pos h2, List.getElem?_append_left (by omega)]
    · rw [if_neg h2, List.getElem?_append_right (by omega), List.getElem?_drop]
      congr 1
      omega

theorem length_readBytes (mem : List Byte) (off n : Nat) (h : off + n ≤ mem.length) :
    (readBytes mem off n).length = n := by
  unfold readBytes
  simp
  omega

theorem length_writeBytes (mem : List Byte) (off : Nat) (bs : List Byte)
    (h : off + bs.length ≤ mem.length) : (writeBytes mem off bs).length = mem.length := by
  unfold writeBytes
  simp
  omega


theorem readBytes_writeBytes_below (mem : List Byte) (off : Nat) (bs : List Byte) (o n : Nat)
    (h : off ≤ mem.length) (hb : o + n ≤ off) :
    readBytes (writeBytes mem off bs) o n = readBytes mem o n := by
  apply List.ext_getElem?
  intro j
  rw [getElem?_readBytes, getElem?_readBytes]
  by_cases hj : j < n
  · rw [if_pos hj, if_pos hj, getElem?_writeBytes _ _ _ _ h, if_pos (by omega)]
  · rw [if_neg hj, if_neg hj]

theorem readBytes_writeBytes_above (mem : List Byte) (off : Nat) (bs : List Byte) (o n : Nat)
    (h : off ≤ mem.length) (hb : off + bs.length ≤ o) :
    readBytes (writeBytes mem off bs) o n = readBytes mem o n := by
  apply List.ext_getElem?
  intro j
  rw [getElem?_readBytes, getElem?_readBytes]
  by_cases hj : j < n
  · rw [if_pos hj, if_pos hj, getElem?_writeBytes _ _ _ _ h, if_neg (by omega),
      if_neg (by omega)]
  · rw [if_neg hj, if_neg hj]

theorem readBytes_writeBytes_inside (mem : List Byte) (off : Nat) (bs : List Byte) (a n : Nat)
    (h : off ≤ mem.length) (hb : a + n ≤ bs.length) :
    readBytes (writeBytes mem off bs) (off + a) n = readBytes bs a n := by
  apply List.ext_getElem?
  intro j
  rw [getElem?_readBytes, getElem?_readBytes]
  by_cases hj : j < n
  · rw [if_pos hj, if_pos hj, getElem?_writeBytes _ _ _ _ h, if_neg (by omega),
      if_pos (by omega)]
    congr 1
    omega
  · rw [if_neg hj, if_neg hj]

theorem readBytes_readBytes (mem : List Byte) (s n a m : Nat) (h : a + m ≤ n) :
    readBytes (readBytes mem s n) a m = readBytes mem (s + a) m := by
  apply List.ext_getElem?
  intro j
  rw [getElem?_readBytes, getElem?_readBytes, getElem?_readBytes]
  by_cases hj : j < m
  · rw [if_pos hj, if_pos hj, if_pos (by omega)]
    congr 1
    omega
  · rw [if_neg hj, if_neg hj]

theorem readBytes_all (bs : List Byte) : readBytes bs 0 bs.length = bs := by
  simp [readBytes]

theorem length_realloc (old : List Byte) (size : Nat) (a : AllocAnswer) (new : List Byte)
    (h : realloc old size a = some new) : new.length = size := by
  cases a with
  | none => simp [realloc] at h
  | some junk =>
    simp only [realloc, Option.some.injEq] at h
    subst h
    simp [freshBytes]
    omega

theorem readBytes_realloc (old : List Byte) (size : Nat) (a : AllocAnswer) (new : List Byte)
    (h : realloc old size a = some new) (o n : Nat) (h1 : o + n ≤ size)
    (h2 : o + n ≤ old.length) : readBytes new o n = readBytes old o n := by
  cases a with
  | none => simp [realloc] at h
  | some junk =>
    simp only [realloc, Option.some.injEq] at h
    subst h
    apply List.ext_getElem?
    intro j
    rw [getElem?_readBytes, getElem?_readBytes]
    by_cases hj : j < n
    · rw [if_pos hj, if_pos hj, List.getElem?_append_left (by simp; omega),
        List.getElem?_take_of_lt (by omega)]
    · rw [if_neg hj, if_neg hj]

theorem realloc_isSome (old : List Byte) (size : Nat) (a : AllocAnswer) (h : a ≠ none) :
    ∃ new, realloc old size a = some new := by
  cases a with
  | none => exact absurd rfl h
  | some junk => exact ⟨_, rfl⟩

/-- The first `n` bytes of the destination of a `memcpy` are the bytes read. -/
theorem take_memcpy_out (dst block : List Byte) (off n : Nat) (h : off + n ≤ block.length) :
    (memcpy_out dst block off n).take n = readBytes block off n := by
  unfold memcpy_out writeBytes
  have hl := length_readBytes block off n h
  simp [hl]


theorem length_slots (mem : List Byte) (sz n : Nat) : (slots mem sz n).length = n := by
  simp [slots]

theorem getElem?_slots (mem : List Byte) (sz n k : Nat) :
    (slots mem sz n)[k]? = if k < n then some (slotAt mem sz k) else none := by
  unfold slots
  by_cases h : k < n
  · simp [h, List.getElem?_range]
  · simp [h]
    omega

theorem slot_end_le (sz : Nat) {k c : Nat} (h : k < c) : k * sz + sz ≤ c * sz := by
  have := Nat.mul_le_mul_right sz (Nat.succ_le_of_lt h)
  rw [Nat.succ_mul] at this
  exact this

theorem slots_congr (mem mem2 : List Byte) (sz n : Nat)
    (h : ∀ k, k < n → slotAt mem2 sz k = slotAt mem sz k) : slots mem2 sz n = slots mem sz n := by
  apply List.ext_getElem?
  intro k
  rw [getElem?_slots, getElem?_slots]
  by_cases hk : k < n
  · rw [if_pos hk, if_pos hk, h k hk]
  · rw [if_neg hk, if_neg hk]

theorem slotAt_realloc (old : List Byte) (size : Nat) (a : AllocAnswer) (new : List Byte)
    (h : realloc old size a = some new) (sz k : Nat) (h1 : k * sz + sz ≤ size)
    (h2 : k * sz + sz ≤ old.length) : slotAt new sz k = slotAt old sz k :=
  readBytes_realloc old size a new h _ _ h1 h2

theorem slotAt_store_below (mem : List Byte) (sz c : Nat) (bs : List Byte) (k : Nat)
    (hc : c * sz ≤ mem.length) (hk : k < c) :
    slotAt (writeBytes mem (c * sz) bs) sz k = slotAt mem sz k :=
  readBytes_writeBytes_below mem _ bs _ _ hc (slot_end_le sz hk)

theorem slotAt_store_same (mem : List Byte) (sz c : Nat) (bs : List Byte)
    (hc : c * sz ≤ mem.length) (hb : bs.length = sz) :
    slotAt (writeBytes mem (c * sz) bs) sz c = bs := by
  unfold slotAt
  have := readBytes_writeBytes_inside mem (c * sz) bs 0 sz hc (by omega)
  rw [Nat.add_zero] at this
  rw [this, ← hb, readBytes_all]

theorem slotAt_store_above (mem : List Byte) (sz c : Nat) (bs : List Byte) (k : Nat)
    (hc : c * sz ≤ mem.length) (hb : bs.length = sz) (hk : c < k) :
    slotAt (writeBytes mem (c * sz) bs) sz k = slotAt mem sz k :=
  readBytes_writeBytes_above mem _ bs _ _ hc (by have := slot_end_le sz hk; omega)

/-- Moving the slots `[i, c)` one slot up leaves the slots up to `i` alone. -/
theorem slotAt_move_up_low (mem : List Byte) (sz i c k : Nat)
    (hm : (i + 1) * sz ≤ mem.length) (hk : k ≤ i) :
    slotAt (writeBytes mem ((i + 1) * sz) (readBytes mem (i * sz) ((c - i) * sz))) sz k
      = slotAt mem sz k :=
  readBytes_writeBytes_below mem _ _ _ _ hm (slot_end_le sz (Nat.lt_succ_of_le hk))

/-- Moving the slots `[i, c)` one slot up puts the old slot `k - 1` at `k`. -/
theorem slotAt_move_up_high (mem : List Byte) (sz i c k : Nat)
    (hm : (c + 1) * sz ≤ mem.length) (hi : i < k) (hk : k ≤ c) :
    slotAt (writeBytes mem ((i + 1) * sz) (readBytes mem (i * sz) ((c - i) * sz))) sz k
      = slotAt mem sz (k - 1) := by
  unfold slotAt
  have e1 : k * sz = (i + 1) * sz + (k - 1 - i) * sz := by
    rw [← Nat.add_mul]; congr 1; omega
  have e2 : (k - 1) * sz = i * sz + (k - 1 - i) * sz := by
    rw [← Nat.add_mul]; congr 1; omega
  have e3 : (k - 1 - i) * sz + sz ≤ (c - i) * sz := slot_end_le sz (by omega)
  have e4 : (i + 1) * sz ≤ (c + 1) * sz := Nat.mul_le_mul_right sz (by omega)
  have e5 : i * sz + (c - i) * sz = c * sz := by
    rw [← Nat.add_mul]; congr 1; omega
  have e6 : c * sz ≤ (c + 1) * sz := Nat.mul_le_mul_right sz (by omega)
  have hlen : (readBytes mem (i * sz) ((c - i) * sz)).length = (c - i) * sz :=
    length_readBytes _ _ _ (by omega)
  rw [e1, readBytes_writeBytes_inside _ _ _ _ _ (by omega) (by omega),
    readBytes_readBytes _ _ _ _ _ e3, ← e2]

/-- Moving the slots `[i + 1, c)` one slot down leaves the slots below `i`
alone. -/
theorem slotAt_move_down_low (mem : List Byte) (sz i c k : Nat)
    (hm : i * sz ≤ mem.length) (hk : k < i) :
    slotAt (writeBytes mem (i * sz) (readBytes mem (i * sz + sz) ((c - i - 1) * sz))) sz k
      = slotAt mem sz k :=
  readBytes_writeBytes_below mem _ _ _ _ hm (slot_end_le sz hk)

/-- Moving the slots `[i + 1, c)` one slot down puts the old slot `k + 1` at
`k`. -/
theorem slotAt_move_down_high (mem : List Byte) (sz i c k : Nat)
    (hm : c * sz ≤ mem.length) (hi : i ≤ k) (hk : k + 1 < c) :
    slotAt (writeBytes mem (i * sz) (readBytes mem (i * sz + sz) ((c - i - 1) * sz))) sz k
      = slotAt mem sz (k + 1) := by
  unfold slotAt
  have e1 : k * sz = i * sz + (k - i) * sz := by
    rw [← Nat.add_mul]; congr 1; omega
  have e2 : (k + 1) * sz = i * sz + sz + (k - i) * sz := by
    rw [Nat.add_mul, e1]; omega
  have e3 : (k - i) * sz + sz ≤ (c - i - 1) * sz := slot_end_le sz (by omega)
  have e5 : i * sz + sz + (c - i - 1) * sz = c * sz := by
    have : i * sz + sz = (i + 1) * sz := by rw [Nat.add_mul]; omega
    rw [this, ← Nat.add_mul]; congr 1; omega
  have hlen : (readBytes mem (i * sz + sz) ((c - i - 1) * sz)).length = (c - i - 1) * sz :=
    length_readBytes _ _ _ (by omega)
  rw [e1, readBytes_writeBytes_inside _ _ _ _ _ (by omega) (by omega),
    readBytes_readBytes _ _ _ _ _ e3, ← e2]

end Mem

/-! ## The eager buffer: `da_expand`, `da_shrink` and the stores -/

namespace DynamicArray

open Mem da_errors

theorem da_expand_fail (d : dynamic_array) (mem : List Byte) (h : d.items = some mem) :
    da_expand (some d) none = (DA_ERR_ALLOC, some d) := by
  simp [da_expand, h, realloc]

theorem da_expand_ok (d : dynamic_array) (mem junk : List Byte) (h : d.items = some mem) :
    da_expand (some d) (some junk) =
      (DA_SUCCESS, some { d with
        items := some (mem.take (d.item_size * (d.capacity * DA_RESIZE_FACTOR)) ++
          freshBytes junk (d.item_size * (d.capacity * DA_RESIZE_FACTOR) - mem.length))
        capacity := d.capacity * DA_RESIZE_FACTOR }) := by
  simp [da_expand, h, realloc]

theorem da_shrink_fail (d : dynamic_array) (mem : List Byte) (h : d.items = some mem) :
    da_shrink (some d) none = (DA_ERR_ALLOC, some d) := by
  simp [da_shrink, h, realloc]

/-- What `da_expand` does to an initialised buffer: either nothing, or the
capacity doubles and every slot of the old block keeps its contents. -/
theorem da_expand_spec (d : dynamic_array) (a : AllocAnswer) (h : initialised d) :
    (a = none ∧ da_expand (some d) a = (DA_ERR_ALLOC, some d)) ∨
    (a ≠ none ∧ ∃ d1, da_expand (some d) a = (DA_SUCCESS, some d1) ∧ initialised d1 ∧
      d1.item_size = d.item_size ∧ d1.count = d.count ∧ d1.capacity = 2 * d.capacity ∧
      live d1 = live d) := by
  obtain ⟨mem, hm, hlen, hc, h4⟩ := h
  cases a with
  | none => exact Or.inl ⟨rfl, da_expand_fail d mem hm⟩
  | some junk =>
    right
    refine ⟨by simp, _, da_expand_ok d mem junk hm, ?_, rfl, rfl, ?_, ?_⟩
    · refine ⟨_, rfl, ?_, ?_, ?_⟩
      · exact length_realloc mem _ (some junk) _ rfl
      · simp only [DA_RESIZE_FACTOR]; omega
      · simp only [DA_RESIZE_FACTOR]; omega
    · simp only [DA_RESIZE_FACTOR]; omega
    · unfold live
      simp only [hm, Option.getD_some]
      apply slots_congr
      intro k hk
      have hk2 := slot_end_le d.item_size (Nat.lt_of_lt_of_le hk hc)
      have e : d.item_size * d.capacity = d.capacity * d.item_size := Nat.mul_comm _ _
      have e2 : d.item_size * (d.capacity * DA_RESIZE_FACTOR)
          = d.capacity * d.item_size + d.capacity * d.item_size := by
        simp only [DA_RESIZE_FACTOR]
        rw [Nat.mul_comm d.item_size, Nat.mul_assoc, Nat.mul_comm 2, ← Nat.mul_assoc, Nat.mul_two]
      exact slotAt_realloc mem _ (some junk) _ rfl _ _ (by omega) (by omega)

/-- What `da_shrink` does to an initialised buffer whose count is below half
the capacity: either nothing, or the capacity becomes half the old one (at
least the initial capacity) and the live slots keep their contents. -/
theorem da_shrink_spec (d : dynamic_array) (a : AllocAnswer) (h : initialised d)
    (hlt : d.count < d.capacity / DA_RESIZE_FACTOR) :
    (a = none ∧ da_shrink (some d) a = (DA_ERR_ALLOC, some d)) ∨
    (a ≠ none ∧ ∃ d1, da_shrink (some d) a = (DA_SUCCESS, some d1) ∧ initialised d1 ∧
      d1.item_size = d.item_size ∧ d1.count = d.count ∧
      d1.capacity = max (d.capacity / 2) DA_INITIAL_CAPACITY ∧ live d1 = live d) := by
  obtain ⟨mem, hm, hlen, hc, h4⟩ := h
  simp only [DA_RESIZE_FACTOR] at hlt
  cases a with
  | none => exact Or.inl ⟨rfl, da_shrink_fail d mem hm⟩
  | some junk =>
    right
    have hcap : (if d.capacity / DA_RESIZE_FACTOR < DA_INITIAL_CAPACITY then DA_INITIAL_CAPACITY
        else d.capacity / DA_RESIZE_FACTOR) = max (d.capacity / 2) DA_INITIAL_CAPACITY := by
      simp only [DA_RESIZE_FACTOR, DA_INITIAL_CAPACITY]
      split <;> omega
    have hle : max (d.capacity / 2) DA_INITIAL_CAPACITY ≤ d.capacity := by
      simp only [DA_INITIAL_CAPACITY] at h4 ⊢
      omega
    refine ⟨by simp, { d with
        items := some (mem.take (max (d.capacity / 2) DA_INITIAL_CAPACITY * d.item_size) ++
          freshBytes junk (max (d.capacity / 2) DA_INITIAL_CAPACITY * d.item_size - mem.length))
        capacity := max (d.capacity / 2) DA_INITIAL_CAPACITY }, ?_, ?_, rfl, rfl, rfl, ?_⟩
    · simp only [da_shrink, hm, realloc, hcap]
    · refine ⟨_, rfl, ?_, ?_, ?_⟩
      · rw [length_realloc mem _ (some junk) _ rfl]
        exact Nat.mul_comm _ _
      · show d.count ≤ max (d.capacity / 2) DA_INITIAL_CAPACITY
        omega
      · show DA_INITIAL_CAPACITY ≤ max (d.capacity / 2) DA_INITIAL_CAPACITY
        omega
    · unfold live
      simp only [hm, Option.getD_some]
      apply slots_congr
      intro k hk
      have hk1 : k < max (d.capacity / 2) DA_INITIAL_CAPACITY := by omega
      have hk2 := slot_end_le d.item_size hk1
      have hk3 := Nat.mul_le_mul_right d.item_size hle
      have e : d.item_size * d.capacity = d.capacity * d.item_size := Nat.mul_comm _ _
      exact slotAt_realloc mem _ (some junk) _ rfl _ _ hk2 (by omega)

/-- The store at the end of `da_push` keeps the buffer initialised, whatever
the item is. -/
theorem push_store_initialised (d : dynamic_array) (x : List Byte) (h : initialised d)
    (hc : d.count < d.capacity) :
    initialised { d with
      items := memcpy_into d.items (d.count * d.item_size) x d.item_size
      count := d.count + 1 } := by
  obtain ⟨mem, hm, hlen, -, h4⟩ := h
  have hk := slot_end_le d.item_size hc
  have e : d.item_size * d.capacity = d.capacity * d.item_size := Nat.mul_comm _ _
  refine ⟨writeBytes mem (d.count * d.item_size) (x.take d.item_size), ?_, ?_, ?_, h4⟩
  · simp [memcpy_into, hm]
  · rw [length_writeBytes _ _ _ (by simp; omega)]
    exact hlen
  · show d.count + 1 ≤ d.capacity
    omega

/-- The store at the end of `da_push` appends the item to the live sequence. -/
theorem push_store_live (d : dynamic_array) (x : List Byte) (h : initialised d)
    (hc : d.count < d.capacity) (hx : x.length = d.item_size) :
    live { d with
      items := memcpy_into d.items (d.count * d.item_size) x d.item_size
      count := d.count + 1 } = live d ++ [x] := by
  obtain ⟨mem, hm, hlen, -, h4⟩ := h
  have hk := slot_end_le d.item_size hc
  have e : d.item_size * d.capacity = d.capacity * d.item_size := Nat.mul_comm _ _
  have hx2 : x.take d.item_size = x := by rw [← hx]; exact List.take_length x
  unfold live
  simp only [hm, memcpy_into, Option.map_some', Option.getD_some, hx2]
  apply List.ext_getElem?
  intro k
  rw [getElem?_slots]
  by_cases h1 : k < d.count
  · rw [if_pos (by omega), List.getElem?_append_left (by rw [length_slots]; exact h1),
      getElem?_slots, if_pos h1, slotAt_store_below _ _ _ _ _ (by omega) h1]
  · rw [List.getElem?_append_right (by rw [length_slots]; omega), length_slots]
    by_cases h2 : k = d.count
    · subst h2
      rw [if_pos (by omega), slotAt_store_same _ _ _ _ (by omega) hx]
      simp
    · rw [if_neg (by omega)]
      have : k - d.count = (k - d.count - 1) + 1 := by omega
      rw [this]
      simp

end DynamicArray

namespace DynamicArray

open Mem da_errors

theorem getElem?_insert_at {α : Type} (l : List α) (i : Nat) (x : α) (hi : i ≤ l.length)
    (k : Nat) :
    (l.take i ++ [x] ++ l.drop i)[k]? =
      if k < i then l[k]? else if k = i then some x else l[k - 1]? := by
  have hl : (l.take i).length = i := by simp; omega
  by_cases h1 : k < i
  · rw [if_pos h1, List.append_assoc, List.getElem?_append_left (by omega),
      List.getElem?_take_of_lt h1]
  · rw [if_neg h1, List.append_assoc, List.getElem?_append_right (by omega), hl]
    by_cases h2 : k = i
    · subst h2
      simp
    · rw [if_neg h2]
      have : k - i = (k - i - 1) + 1 := by omega
      rw [this, List.singleton_append, List.getElem?_cons_succ, List.getElem?_drop]
      congr 1
      omega

theorem getElem?_remove_at {α : Type} (l : List α) (i : Nat) (hi : i ≤ l.length) (k : Nat) :
    (l.take i ++ l.drop (i + 1))[k]? = if k < i then l[k]? else l[k + 1]? := by
  have hl : (l.take i).length = i := by simp; omega
  by_cases h1 : k < i
  · rw [if_pos h1, List.getElem?_append_left (by omega), List.getElem?_take_of_lt h1]
  · rw [if_neg h1, List.getElem?_append_right (by omega), hl, List.getElem?_drop]
    congr 1
    omega

/-- The move and the store at the end of `da_insert_item` keep the buffer
initialised, whatever the item is. -/
theorem insert_store_initialised (d : dynamic_array) (i : Nat) (x : List Byte)
    (h : initialised d) (hc : d.count < d.capacity) (hi : i ≤ d.count) :
    initialised { d with
      items := memcpy_into
        (memmove d.items ((i + 1) * d.item_size) (i * d.item_size)
          ((d.count - i) * d.item_size))
        (i * d.item_size) x d.item_size
      count := d.count + 1 } := by
  obtain ⟨mem, hm, hlen, -, h4⟩ := h
  have hk := slot_end_le d.item_size hc
  have e : d.item_size * d.capacity = d.capacity * d.item_size := Nat.mul_comm _ _
  have e1 : i * d.item_size + (d.count - i) * d.item_size = d.count * d.item_size := by
    rw [← Nat.add_mul]; congr 1; omega
  have e2 : (i + 1) * d.item_size = i * d.item_size + d.item_size := Nat.succ_mul _ _
  have hr : (readBytes mem (i * d.item_size) ((d.count - i) * d.item_size)).length
      = (d.count - i) * d.item_size := length_readBytes _ _ _ (by omega)
  have hw : (writeBytes mem ((i + 1) * d.item_size)
      (readBytes mem (i * d.item_size) ((d.count - i) * d.item_size))).length = mem.length :=
    length_writeBytes _ _ _ (by omega)
  refine ⟨writeBytes (writeBytes mem ((i + 1) * d.item_size)
    (readBytes mem (i * d.item_size) ((d.count - i) * d.item_size))) (i * d.item_size)
    (x.take d.item_size), ?_, ?_, ?_, h4⟩
  · simp only [memcpy_into, memmove, hm, Option.map_some']
  · rw [length_writeBytes _ _ _ (by simp; omega), hw]
    exact hlen
  · show d.count + 1 ≤ d.capacity
    omega

/-- The move and the store at the end of `da_insert_item` put the item at
position `i` of the live sequence and move the rest one position up. -/
theorem insert_store_live (d : dynamic_array) (i : Nat) (x : List Byte)
    (h : initialised d) (hc : d.count < d.capacity) (hi : i ≤ d.count)
    (hx : x.length = d.item_size) :
    live { d with
      items := memcpy_into
        (memmove d.items ((i + 1) * d.item_size) (i * d.item_size)
          ((d.count - i) * d.item_size))
        (i * d.item_size) x d.item_size
      count := d.count + 1 } = (live d).take i ++ [x] ++ (live d).drop i := by
  obtain ⟨mem, hm, hlen, -, h4⟩ := h
  have hk := slot_end_le d.item_size hc
  have e : d.item_size * d.capacity = d.capacity * d.item_size := Nat.mul_comm _ _
  have e1 : i * d.item_size + (d.count - i) * d.item_size = d.count * d.item_size := by
    rw [← Nat.add_mul]; congr 1; omega
  have e2 : (i + 1) * d.item_size = i * d.item_size + d.item_size := Nat.succ_mul _ _
  have e3 : (d.count + 1) * d.item_size = d.count * d.item_size + d.item_size :=
    Nat.succ_mul _ _
  have hr : (readBytes mem (i * d.item_size) ((d.count - i) * d.item_size)).length
      = (d.count - i) * d.item_size := length_readBytes _ _ _ (by omega)
  have hw : (writeBytes mem ((i + 1) * d.item_size)
      (readBytes mem (i * d.item_size) ((d.count - i) * d.item_size))).length = mem.length :=
    length_writeBytes _ _ _ (by omega)
  have hx2 : x.take d.item_size = x := by rw [← hx]; exact List.take_length x
  unfold live
  simp only [hm, memcpy_into, memmove, Option.map_some', Option.getD_some, hx2]
  apply List.ext_getElem?
  intro k
  rw [getElem?_insert_at _ _ _ (by rw [length_slots]; exact hi), getElem?_slots, getElem?_slots,
    getElem?_slots]
  by_cases h1 : k < i
  · rw [if_pos (by omega), if_pos h1, if_pos (by omega),
      slotAt_store_below _ _ _ _ _ (by omega) h1,
      slotAt_move_up_low _ _ _ _ _ (by omega) (by omega)]
  · rw [if_neg h1]
    by_cases h2 : k = i
    · subst h2
      rw [if_pos (by omega), if_pos rfl, slotAt_store_same _ _ _ _ (by omega) hx]
    · rw [if_neg h2]
      by_cases h3 : k < d.count + 1
      · rw [if_pos h3, if_pos (by omega), slotAt_store_above _ _ _ _ _ (by omega) hx (by omega),
          slotAt_move_up_high _ _ _ _ _ (by omega) (by omega) (by omega)]
      · rw [if_neg h3, if_neg (by omega)]

/-- The move of `da_remove_item` and the decrement of `count` keep the buffer
initialised. -/
theorem remove_move_initialised (d : dynamic_array) (i : Nat) (h : initialised d)
    (hi : i < d.count) :
    initialised { d with
      items := memmove d.items (i * d.item_size) (i * d.item_size + d.item_size)
        ((d.count - i - 1) * d.item_size)
      count := d.count - 1 } := by
  obtain ⟨mem, hm, hlen, hc, h4⟩ := h
  have e : d.item_size * d.capacity = d.capacity * d.item_size := Nat.mul_comm _ _
  have hcm := Nat.mul_le_mul_right d.item_size hc
  have e1 : i * d.item_size + d.item_size + (d.count - i - 1) * d.item_size
      = d.count * d.item_size := by
    have : i * d.item_size + d.item_size = (i + 1) * d.item_size := (Nat.succ_mul _ _).symm
    rw [this, ← Nat.add_mul]; congr 1; omega
  have hr : (readBytes mem (i * d.item_size + d.item_size)
      ((d.count - i - 1) * d.item_size)).length = (d.count - i - 1) * d.item_size :=
    length_readBytes _ _ _ (by omega)
  refine ⟨writeBytes mem (i * d.item_size) (readBytes mem (i * d.item_size + d.item_size)
    ((d.count - i - 1) * d.item_size)), ?_, ?_, ?_, h4⟩
  · simp only [memmove, hm, Option.map_some']
  · rw [length_writeBytes _ _ _ (by omega)]
    exact hlen
  · show d.count - 1 ≤ d.capacity
    omega

/-- The decrement of `count` alone keeps the buffer initialised. -/
theorem drop_last_initialised (d : dynamic_array) (h : initialised d) :
    initialised { d with count := d.count - 1 } := by
  obtain ⟨mem, hm, hlen, hc, h4⟩ := h
  exact ⟨mem, hm, hlen, by show d.count - 1 ≤ d.capacity; omega, h4⟩

/-- The move of `da_remove_item` and the decrement of `count` take the
element at position `i` out of the live sequence and move the rest one position
down. -/
theorem remove_move_live (d : dynamic_array) (i : Nat) (h : initialised d)
    (hi : i < d.count) :
    live { d with
      items := memmove d.items (i * d.item_size) (i * d.item_size + d.item_size)
        ((d.count - i - 1) * d.item_size)
      count := d.count - 1 } = (live d).take i ++ (live d).drop (i + 1) := by
  obtain ⟨mem, hm, hlen, hc, h4⟩ := h
  have e : d.item_size * d.capacity = d.capacity * d.item_size := Nat.mul_comm _ _
  have hcm := Nat.mul_le_mul_right d.item_size hc
  have hik := slot_end_le d.item_size hi
  apply List.ext_getElem?
  intro k
  rw [getElem?_remove_at _ _ (by unfold live; rw [length_slots]; omega)]
  unfold live
  simp only [hm, memmove, Option.map_some', Option.getD_some]
  rw [getElem?_slots, getElem?_slots, getElem?_slots]
  by_cases h1 : k < i
  · rw [if_pos (by omega), if_pos h1, if_pos (by omega),
      slotAt_move_down_low _ _ _ _ _ (by omega) h1]
  · rw [if_neg h1]
    by_cases h2 : k < d.count - 1
    · rw [if_pos h2, if_pos (by omega),
        slotAt_move_down_high _ _ _ _ _ (by omega) (by omega) (by omega)]
    · rw [if_neg h2, if_neg (by omega)]

/-- The decrement of `count` alone takes the last element out of the live
sequence. -/
theorem drop_last_live (d : dynamic_array) (i : Nat) (hi : i < d.count)
    (hl : ¬ i ≠ d.count - 1) :
    live { d with count := d.count - 1 } = (live d).take i ++ (live d).drop (i + 1) := by
  apply List.ext_getElem?
  intro k
  rw [getElem?_remove_at _ _ (by unfold live; rw [length_slots]; omega)]
  unfold live
  rw [getElem?_slots, getElem?_slots, getElem?_slots]
  show (if k < d.count - 1 then _ else _) = _
  by_cases h1 : k < i
  · rw [if_pos (by omega), if_pos h1, if_pos (by omega)]
  · rw [if_neg h1, if_neg (by omega), if_neg (by omega)]

end DynamicArray

/-! ## The eager buffer: the public operations -/

namespace DynamicArray

open Mem da_errors

theorem initialised_items (d : dynamic_array) (h : initialised d) : d.items.isNone = false := by
  obtain ⟨mem, hm, -⟩ := h
  simp [hm]

theorem initialised_le (d : dynamic_array) (h : initialised d) : d.count ≤ d.capacity := by
  obtain ⟨-, -, -, hc, -⟩ := h
  exact hc

theorem initialised_cap (d : dynamic_array) (h : initialised d) : 4 ≤ d.capacity := by
  obtain ⟨-, -, -, -, h4⟩ := h
  exact h4

/-- The function `da_push` on an initialised buffer and an item of `item_size`
bytes: it fails, without any change, exactly when the buffer is full and
the reallocation fails; otherwise the item is the new last element. -/
theorem da_push_spec (d : dynamic_array) (x : List Byte) (a : AllocAnswer)
    (h : initialised d) (hsz : 0 < d.item_size) (hx : x.length = d.item_size) :
    (d.count = d.capacity ∧ a = none ∧
      da_push (some d) (some x) a = (DA_ERR_RESIZE, some d)) ∨
    (¬ (d.count = d.capacity ∧ a = none) ∧
      ∃ d1, da_push (some d) (some x) a = (DA_SUCCESS, some d1) ∧ initialised d1 ∧
        d1.item_size = d.item_size ∧ d1.count = d.count + 1 ∧
        d1.capacity = (if d.count = d.capacity then 2 * d.capacity else d.capacity) ∧
        live d1 = live d ++ [x]) := by
  have hi := initialised_items d h
  have hsz2 : d.item_size ≠ 0 := by omega
  by_cases hfull : d.count = d.capacity
  · rcases da_expand_spec d a h with ⟨ha, he⟩ | ⟨ha, d1, he, hi1, hs1, hc1, hcap1, hl1⟩
    · left
      refine ⟨hfull, ha, ?_⟩
      simp [da_push, hi, hsz2, hfull, he]
    · right
      have h4 := initialised_cap d h
      have hlt : d1.count < d1.capacity := by omega
      refine ⟨fun hh => ha hh.2, _, ?_, push_store_initialised d1 x hi1 hlt, hs1, ?_, ?_, ?_⟩
      · simp [da_push, hi, hsz2, hfull, he]
      · show d1.count + 1 = d.count + 1
        rw [hc1]
      · rw [if_pos hfull]
        exact hcap1
      · rw [push_store_live d1 x hi1 hlt (by rw [hs1]; exact hx), hl1]
  · right
    have hc := initialised_le d h
    have hlt : d.count < d.capacity := by omega
    refine ⟨fun hh => hfull hh.1, _, ?_, push_store_initialised d x h hlt, rfl, rfl, ?_, ?_⟩
    · simp [da_push, hi, hsz2, hfull]
    · rw [if_neg hfull]
    · exact push_store_live d x h hlt hx

/-- The function `da_push` keeps an initialised buffer initialised, whatever
its arguments and the allocator are. -/
theorem da_push_initialised (d : dynamic_array) (item : Option (List Byte)) (a : AllocAnswer)
    (h : initialised d) : ∃ d1, (da_push (some d) item a).2 = some d1 ∧ initialised d1 := by
  have hi := initialised_items d h
  cases item with
  | none => exact ⟨d, rfl, h⟩
  | some x =>
    by_cases hsz : d.item_size = 0
    · exact ⟨d, by simp [da_push, hsz], h⟩
    by_cases hfull : d.count = d.capacity
    · rcases da_expand_spec d a h with ⟨ha, he⟩ | ⟨ha, d1, he, hi1, hs1, hc1, hcap1, hl1⟩
      · exact ⟨d, by simp [da_push, hi, hsz, hfull, he], h⟩
      · have h4 := initialised_cap d h
        have hlt : d1.count < d1.capacity := by omega
        exact ⟨_, by simp [da_push, hi, hsz, hfull, he], push_store_initialised d1 x hi1 hlt⟩
    · have hc := initialised_le d h
      have hlt : d.count < d.capacity := by omega
      exact ⟨_, by simp [da_push, hi, hsz, hfull], push_store_initialised d x h hlt⟩

end DynamicArray

namespace DynamicArray

open Mem da_errors

/-- The function `da_insert_item` on an initialised buffer, an index in the
live range and an item of `item_size` bytes: it fails, without any change,
exactly when the buffer is full and the reallocation fails; otherwise the item
is at position `i` and the former elements from `i` on are one position up. -/
theorem da_insert_item_spec (d : dynamic_array) (i : Nat) (x : List Byte) (a : AllocAnswer)
    (h : initialised d) (hsz : 0 < d.item_size) (hx : x.length = d.item_size)
    (hi : i < d.count) :
    (d.count = d.capacity ∧ a = none ∧
      da_insert_item (some d) i (some x) a = (DA_ERR_RESIZE, some d)) ∨
    (¬ (d.count = d.capacity ∧ a = none) ∧
      ∃ d1, da_insert_item (some d) i (some x) a = (DA_SUCCESS, some d1) ∧ initialised d1 ∧
        d1.item_size = d.item_size ∧ d1.count = d.count + 1 ∧
        d1.capacity = (if d.count = d.capacity then 2 * d.capacity else d.capacity) ∧
        live d1 = (live d).take i ++ [x] ++ (live d).drop i) := by
  have hit := initialised_items d h
  have hsz2 : d.item_size ≠ 0 := by omega
  have hi2 : ¬ d.count ≤ i := by omega
  have hc := initialised_le d h
  have h4 := initialised_cap d h
  by_cases hfull : d.count = d.capacity
  · rcases da_expand_spec d a h with ⟨ha, he⟩ | ⟨ha, d1, he, hi1, hs1, hc1, hcap1, hl1⟩
    · left
      refine ⟨hfull, ha, ?_⟩
      have hi3 : ¬ d.capacity ≤ i := by omega
      simp [da_insert_item, hi3, hit, hsz2, hfull, he]
    · right
      have hlt : d1.count < d1.capacity := by omega
      refine ⟨fun hh => ha hh.2, _, ?_,
        insert_store_initialised d1 i x hi1 hlt (by omega), hs1, ?_, ?_, ?_⟩
      · have hi3 : ¬ d.capacity ≤ i := by omega
        simp [da_insert_item, hi3, hit, hsz2, hfull, he]
      · show d1.count + 1 = d.count + 1
        rw [hc1]
      · rw [if_pos hfull]
        exact hcap1
      · rw [insert_store_live d1 i x hi1 hlt (by omega) (by rw [hs1]; exact hx), hl1]
  · right
    have hlt : d.count < d.capacity := by omega
    refine ⟨fun hh => hfull hh.1, _, ?_,
      insert_store_initialised d i x h hlt (by omega), rfl, rfl, ?_, ?_⟩
    · simp [da_insert_item, hi2, hit, hsz2, hfull]
    · rw [if_neg hfull]
    · exact insert_store_live d i x h hlt (by omega) hx

/-- The function `da_insert_item` keeps an initialised buffer initialised,
whatever its arguments and the allocator are. -/
theorem da_insert_item_initialised (d : dynamic_array) (i : Nat) (item : Option (List Byte))
    (a : AllocAnswer) (h : initialised d) :
    ∃ d1, (da_insert_item (some d) i item a).2 = some d1 ∧ initialised d1 := by
  have hit := initialised_items d h
  have hc := initialised_le d h
  have h4 := initialised_cap d h
  cases item with
  | none => exact ⟨d, rfl, h⟩
  | some x =>
    by_cases hi : d.count ≤ i
    · exact ⟨d, by simp [da_insert_item, hi], h⟩
    by_cases hsz : d.item_size = 0
    · exact ⟨d, by simp [da_insert_item, hi, hsz], h⟩
    by_cases hfull : d.count = d.capacity
    · rcases da_expand_spec d a h with ⟨ha, he⟩ | ⟨ha, d1, he, hi1, hs1, hc1, hcap1, hl1⟩
      · have hi3 : ¬ d.capacity ≤ i := by omega
        exact ⟨d, by simp [da_insert_item, hi3, hit, hsz, hfull, he], h⟩
      · have hlt : d1.count < d1.capacity := by omega
        have hi3 : ¬ d.capacity ≤ i := by omega
        exact ⟨_, by simp [da_insert_item, hi3, hit, hsz, hfull, he],
          insert_store_initialised d1 i x hi1 hlt (by omega)⟩
    · have hlt : d.count < d.capacity := by omega
      exact ⟨_, by simp [da_insert_item, hi, hit, hsz, hfull],
        insert_store_initialised d i x h hlt (by omega)⟩

/-- The shrink test at the end of `da_remove_item` and `da_pop_item`, on an
initialised buffer whose count is already decremented: the code is
`DA_ERR_RESIZE` exactly when the shrink is due and the reallocation fails, the
capacity changes exactly when the shrink is due and the reallocation succeeds,
and the live sequence is kept in every case. -/
theorem shrink_tail_spec (d : dynamic_array) (a : AllocAnswer) (h : initialised d) :
    ∃ d1,
      (if d.count < d.capacity / DA_RESIZE_FACTOR then
        (if (da_shrink (some d) a).1 ≠ DA_SUCCESS then (DA_ERR_RESIZE, (da_shrink (some d) a).2)
          else (DA_SUCCESS, (da_shrink (some d) a).2))
        else (DA_SUCCESS, some d)) =
        ((if d.count < d.capacity / 2 ∧ a = none then DA_ERR_RESIZE else DA_SUCCESS), some d1) ∧
      initialised d1 ∧ d1.item_size = d.item_size ∧ d1.count = d.count ∧
      d1.capacity = (if d.count < d.capacity / 2 ∧ a ≠ none
        then max (d.capacity / 2) DA_INITIAL_CAPACITY else d.capacity) ∧
      live d1 = live d := by
  by_cases hlt : d.count < d.capacity / DA_RESIZE_FACTOR
  · have hlt2 : d.count < d.capacity / 2 := hlt
    rcases da_shrink_spec d a h hlt with ⟨ha, he⟩ | ⟨ha, d1, he, hi1, hs1, hc1, hcap1, hl1⟩
    · refine ⟨d, ?_, h, rfl, rfl, ?_, rfl⟩
      · rw [if_pos hlt, he]
        simp [hlt2, ha]
      · rw [if_neg (fun hh => hh.2 ha)]
    · refine ⟨d1, ?_, hi1, hs1, hc1, ?_, hl1⟩
      · rw [if_pos hlt, he]
        simp [ha]
      · rw [if_pos ⟨hlt2, ha⟩]
        exact hcap1
  · have hlt2 : ¬ d.count < d.capacity / 2 := hlt
    refine ⟨d, ?_, h, rfl, rfl, ?_, rfl⟩
    · rw [if_neg hlt, if_neg (fun hh => hlt2 hh.1)]
    · rw [if_neg (fun hh => hlt2 hh.1)]

/-- The function `da_remove_item` on an initialised buffer and an index in the
live range, as the move followed by the shrink test. -/
theorem da_remove_item_moved (d : dynamic_array) (i : Nat) (h : initialised d)
    (hsz : 0 < d.item_size) (hi : i < d.count) :
    ∃ d2, initialised d2 ∧ d2.item_size = d.item_size ∧ d2.count = d.count - 1 ∧
      d2.capacity = d.capacity ∧ live d2 = (live d).take i ++ (live d).drop (i + 1) ∧
      ∀ a, da_remove_item (some d) i a =
        (if d2.count < d2.capacity / DA_RESIZE_FACTOR then
          (if (da_shrink (some d2) a).1 ≠ DA_SUCCESS
            then (DA_ERR_RESIZE, (da_shrink (some d2) a).2)
            else (DA_SUCCESS, (da_shrink (some d2) a).2))
          else (DA_SUCCESS, some d2)) := by
  have hit := initialised_items d h
  have hsz2 : d.item_size ≠ 0 := by omega
  have hi2 : ¬ d.count ≤ i := by omega
  by_cases hne : i ≠ d.count - 1
  · refine ⟨_, remove_move_initialised d i h hi, rfl, rfl, rfl, remove_move_live d i h hi, ?_⟩
    intro a
    simp only [da_remove_item, ge_iff_le, hi2, hit, hsz2, if_false, if_pos hne, or_self,
      Bool.false_eq_true]
  · refine ⟨_, drop_last_initialised d h, rfl, rfl, rfl, drop_last_live d i hi hne, ?_⟩
    intro a
    simp only [da_remove_item, ge_iff_le, hi2, hit, hsz2, if_false, if_neg hne, or_self,
      Bool.false_eq_true]

/-- The function `da_remove_item` on an initialised buffer and an index in the
live range: the element at `i` leaves the live sequence, whatever the
allocator answers; the code is `DA_ERR_RESIZE` exactly when a shrink is due
and its reallocation fails. -/
theorem da_remove_item_spec (d : dynamic_array) (i : Nat) (a : AllocAnswer)
    (h : initialised d) (hsz : 0 < d.item_size) (hi : i < d.count) :
    ∃ d1, da_remove_item (some d) i a =
        ((if d.count - 1 < d.capacity / 2 ∧ a = none then DA_ERR_RESIZE else DA_SUCCESS),
          some d1) ∧
      initialised d1 ∧ d1.item_size = d.item_size ∧ d1.count = d.count - 1 ∧
      d1.capacity = (if d.count - 1 < d.capacity / 2 ∧ a ≠ none
        then max (d.capacity / 2) DA_INITIAL_CAPACITY else d.capacity) ∧
      live d1 = (live d).take i ++ (live d).drop (i + 1) := by
  obtain ⟨d2, hi2, hs2, hc2, hcap2, hl2, heq⟩ := da_remove_item_moved d i h hsz hi
  obtain ⟨d1, he, hi1, hs1, hc1, hcap1, hl1⟩ := shrink_tail_spec d2 a hi2
  refine ⟨d1, ?_, hi1, hs1.trans hs2, hc1.trans hc2, ?_, hl1.trans hl2⟩
  · rw [heq a, he, hc2, hcap2]
  · rw [hcap1, hc2, hcap2]

/-- The function `da_remove_item` keeps an initialised buffer initialised,
whatever its arguments and the allocator are. -/
theorem da_remove_item_initialised (d : dynamic_array) (i : Nat) (a : AllocAnswer)
    (h : initialised d) :
    ∃ d1, (da_remove_item (some d) i a).2 = some d1 ∧ initialised d1 := by
  by_cases hi : d.count ≤ i
  · exact ⟨d, by simp [da_remove_item, hi], h⟩
  by_cases hsz : d.item_size = 0
  · exact ⟨d, by simp [da_remove_item, hi, hsz], h⟩
  obtain ⟨d1, he, hi1, -⟩ := da_remove_item_spec d i a h (by omega) (by omega)
  exact ⟨d1, by rw [he], hi1⟩

end DynamicArray

namespace DynamicArray

open Mem da_errors

/-- The function `da_get_item` on an initialised buffer and an index in the
live range copies the element at that position into the destination. -/
theorem da_get_item_spec (d : dynamic_array) (i : Nat) (dst : List Byte) (h : initialised d)
    (hi : i < d.count) :
    ∃ out, da_get_item (some d) i (some dst) = (DA_SUCCESS, some out) ∧
      (live d)[i]? = some (out.take d.item_size) := by
  have hc := initialised_le d h
  obtain ⟨mem, hm, hlen, -, -⟩ := h
  have hi2 : ¬ d.count ≤ i := by omega
  have hk := slot_end_le d.item_size (Nat.lt_of_lt_of_le hi hc)
  have e : d.item_size * d.capacity = d.capacity * d.item_size := Nat.mul_comm _ _
  refine ⟨memcpy_out dst mem (i * d.item_size) d.item_size, ?_, ?_⟩
  · simp [da_get_item, hi2, hm]
  · rw [take_memcpy_out _ _ _ _ (by omega)]
    unfold live
    rw [getElem?_slots, if_pos hi, hm]
    rfl

/-- The store of `da_set_item` keeps the buffer initialised, whatever the item
is. -/
theorem da_set_item_initialised (d : dynamic_array) (i : Nat) (item : Option (List Byte))
    (h : initialised d) :
    ∃ d1, (da_set_item (some d) i item).2 = some d1 ∧ initialised d1 := by
  cases item with
  | none => exact ⟨d, rfl, h⟩
  | some x =>
    by_cases hi : d.count ≤ i
    · exact ⟨d, by simp [da_set_item, hi], h⟩
    have hit := initialised_items d h
    have hc := initialised_le d h
    obtain ⟨mem, hm, hlen, -, h4⟩ := h
    have hk := slot_end_le d.item_size (show i < d.capacity by omega)
    have e : d.item_size * d.capacity = d.capacity * d.item_size := Nat.mul_comm _ _
    refine ⟨{ d with items := memcpy_into d.items (i * d.item_size) x d.item_size },
      by simp [da_set_item, hi, hit], writeBytes mem (i * d.item_size)
      (x.take d.item_size), ?_, ?_, hc, h4⟩
    · simp [memcpy_into, hm]
    · rw [length_writeBytes _ _ _ (by simp; omega)]
      exact hlen

/-- The function `da_set_item` on an initialised buffer, an index in the live
range and an item of `item_size` bytes replaces the element at that position
and nothing else. -/
theorem da_set_item_spec (d : dynamic_array) (i : Nat) (x : List Byte) (h : initialised d)
    (hi : i < d.count) (hx : x.length = d.item_size) :
    ∃ d1, da_set_item (some d) i (some x) = (DA_SUCCESS, some d1) ∧ initialised d1 ∧
      d1.item_size = d.item_size ∧ d1.count = d.count ∧ d1.capacity = d.capacity ∧
      live d1 = (live d).set i x := by
  have hit := initialised_items d h
  have hc := initialised_le d h
  have hi2 : ¬ d.count ≤ i := by omega
  have he : da_set_item (some d) i (some x) = (DA_SUCCESS, some { d with
      items := memcpy_into d.items (i * d.item_size) x d.item_size }) := by
    simp [da_set_item, hi2, hit]
  obtain ⟨d1, h1, hi1⟩ := da_set_item_initialised d i (some x) h
  rw [he] at h1
  simp only [Option.some.injEq] at h1
  subst h1
  refine ⟨_, he, hi1, rfl, rfl, rfl, ?_⟩
  obtain ⟨mem, hm, hlen, -, h4⟩ := h
  have hk := slot_end_le d.item_size (show i < d.capacity by omega)
  have e : d.item_size * d.capacity = d.capacity * d.item_size := Nat.mul_comm _ _
  have hx2 : x.take d.item_size = x := by rw [← hx]; exact List.take_length x
  unfold live
  simp only [hm, memcpy_into, Option.map_some', Option.getD_some, hx2]
  apply List.ext_getElem?
  intro k
  rw [getElem?_slots, List.getElem?_set, length_slots, getElem?_slots]
  by_cases h1 : i = k
  · subst h1
    rw [if_pos hi, if_pos rfl, if_pos hi, slotAt_store_same _ _ _ _ (by omega) hx]
  · rw [if_neg h1]
    by_cases h2 : k < d.count
    · rw [if_pos h2, if_pos h2]
      by_cases h3 : k < i
      · rw [slotAt_store_below _ _ _ _ _ (by omega) h3]
      · rw [slotAt_store_above _ _ _ _ _ (by omega) hx (by omega)]
    · rw [if_neg h2, if_neg h2]

/-- The function `da_pop_item` on an initialised buffer with a live element:
the last element is copied into the destination and leaves the live sequence,
whatever the allocator answers; the code is `DA_ERR_RESIZE` exactly when a
shrink is due and its reallocation fails. -/
theorem da_pop_item_spec (d : dynamic_array) (dst : List Byte) (a : AllocAnswer)
    (h : initialised d) (hsz : 0 < d.item_size) (hpos : 0 < d.count) :
    ∃ d1 out, da_pop_item (some d) (some dst) a =
        ((if d.count - 1 < d.capacity / 2 ∧ a = none then DA_ERR_RESIZE else DA_SUCCESS),
          some d1, some out) ∧
      initialised d1 ∧ d1.item_size = d.item_size ∧ d1.count = d.count - 1 ∧
      d1.capacity = (if d.count - 1 < d.capacity / 2 ∧ a ≠ none
        then max (d.capacity / 2) DA_INITIAL_CAPACITY else d.capacity) ∧
      live d1 = (live d).take (d.count - 1) ∧
      (live d)[d.count - 1]? = some (out.take d.item_size) := by
  have hit := initialised_items d h
  have hsz2 : d.item_size ≠ 0 := by omega
  have hpos2 : d.count ≠ 0 := by omega
  obtain ⟨out, hg, hout⟩ := da_get_item_spec d (d.count - 1) dst h (by omega)
  obtain ⟨d1, he, hi1, hs1, hc1, hcap1, hl1⟩ :=
    shrink_tail_spec { d with count := d.count - 1 } a (drop_last_initialised d h)
  refine ⟨d1, out, ?_, hi1, hs1, hc1, hcap1, ?_, hout⟩
  · have key : ∀ (t : da_errors × Option dynamic_array) c2 d2, t = (c2, some d2) →
        (t.1, t.2, some out) = (c2, some d2, some out) := by
      intro t c2 d2 ht
      rw [ht]
    refine Eq.trans ?_ (key _ _ _ he)
    simp only [da_pop_item, hit, hsz2, hpos2, hg, or_self, Bool.false_eq_true, if_false,
      ne_eq, not_true_eq_false]
    split_ifs <;> rfl
  · rw [hl1]
    have := drop_last_live d (d.count - 1) (by omega) (by simp)
    rw [this, Nat.sub_add_cancel hpos]
    have hl : (live d).length = d.count := length_slots _ _ _
    rw [List.drop_of_length_le (by omega), List.append_nil]

/-- The function `da_pop_item` keeps an initialised buffer initialised,
whatever its arguments and the allocator are. -/
theorem da_pop_item_initialised (d : dynamic_array) (item : Option (List Byte))
    (a : AllocAnswer) (h : initialised d) :
    ∃ d1, (da_pop_item (some d) item a).2.1 = some d1 ∧ initialised d1 := by
  have hit := initialised_items d h
  by_cases hsz : d.item_size = 0
  · exact ⟨d, by simp [da_pop_item, hsz], h⟩
  by_cases hpos : d.count = 0
  · exact ⟨d, by simp [da_pop_item, hit, hsz, hpos], h⟩
  cases item with
  | none => exact ⟨d, by simp [da_pop_item, hit, hsz, hpos, da_get_item], h⟩
  | some dst =>
    obtain ⟨d1, out, he, hi1, -⟩ := da_pop_item_spec d dst a h (by omega) (by omega)
    exact ⟨d1, by rw [he], hi1⟩

/-- A successful `da_init` leaves an initialised, empty buffer of the initial
capacity. -/
theorem da_init_spec (d0 : dynamic_array) (size : Nat) (a : AllocAnswer) (d : dynamic_array)
    (h : da_init (some d0) size a = (DA_SUCCESS, some d)) :
    initialised d ∧ d.item_size = size ∧ d.count = 0 ∧ d.capacity = DA_INITIAL_CAPACITY := by
  cases a with
  | none => simp [da_init, malloc] at h
  | some junk =>
    simp only [da_init, malloc, Option.isNone_some, Bool.false_eq_true, if_false,
      Prod.mk.injEq, Option.some.injEq, true_and] at h
    subst h
    refine ⟨⟨_, rfl, ?_, ?_, ?_⟩, rfl, rfl, rfl⟩
    · simp [freshBytes]
    · show 0 ≤ DA_INITIAL_CAPACITY
      omega
    · exact Nat.le_refl _

/-- Every call of the interface keeps an initialised buffer initialised. -/
theorem initialised_run (c : da_call) (d : dynamic_array) (h : initialised d) :
    ∃ d1, c.run (some d) = some d1 ∧ initialised d1 := by
  cases c with
  | push item a => exact da_push_initialised d item a h
  | insert_item index item a => exact da_insert_item_initialised d index item a h
  | remove_item index a => exact da_remove_item_initialised d index a h
  | pop_item item a => exact da_pop_item_initialised d item a h
  | set_item index item => exact da_set_item_initialised d index item h
  | get_item index item => exact ⟨d, rfl, h⟩

/-- Every sequence of calls keeps an initialised buffer initialised. -/
theorem initialised_run_calls (cs : List da_call) (d : dynamic_array) (h : initialised d) :
    ∃ d1, run_calls cs (some d) = some d1 ∧ initialised d1 := by
  induction cs generalizing d with
  | nil => exact ⟨d, rfl, h⟩
  | cons c cs ih =>
    obtain ⟨d1, h1, hi1⟩ := initialised_run c d h
    obtain ⟨d2, h2, hi2⟩ := ih d1 hi1
    refine ⟨d2, ?_, hi2⟩
    simp only [run_calls, List.foldl_cons] at h2 ⊢
    rw [h1]
    exact h2

end DynamicArray

/-! ## The claims on the eager buffer -/

namespace DynamicArray

open Mem da_errors

/-- C1: in every state reached from a successful `da_init` by any sequence of
`da_push`, `da_insert_item`, `da_remove_item`, `da_pop_item`, `da_set_item` and
`da_get_item` calls, with any arguments and any answers of the allocator,
`count ≤ capacity` and `capacity ≥ DA_INITIAL_CAPACITY = 4`; after `da_free`
of that state, `count = capacity = 0`. -/
theorem reachable_count_le_capacity (d0 : dynamic_array) (size : Nat) (a0 : AllocAnswer)
    (d : dynamic_array) (h : da_init (some d0) size a0 = (DA_SUCCESS, some d))
    (cs : List da_call) :
    ∃ d1, run_calls cs (some d) = some d1 ∧ d1.count ≤ d1.capacity ∧
      DA_INITIAL_CAPACITY ≤ d1.capacity ∧ DA_INITIAL_CAPACITY = 4 ∧
      ∃ f, da_free (some d1) = some f ∧ f.count = 0 ∧ f.capacity = 0 := by
  obtain ⟨d1, h1, hi1⟩ := initialised_run_calls cs d (da_init_spec d0 size a0 d h).1
  exact ⟨d1, h1, initialised_le d1 hi1, initialised_cap d1 hi1, rfl, _, rfl, rfl, rfl⟩

theorem reachable_count_le_capacity_witness :
    da_init (some example_blank) 4 (some []) = (DA_SUCCESS, some example_empty) ∧
    ∃ d1, run_calls
        [da_call.push (some (int_bytes 1)) none, da_call.insert_item 0 (some (int_bytes 2)) none,
          da_call.remove_item 7 none, da_call.pop_item none none,
          da_call.pop_item (some (int_bytes 0)) (some [])]
        (some example_empty) = some d1 ∧ d1.count ≤ d1.capacity ∧
      DA_INITIAL_CAPACITY ≤ d1.capacity ∧ DA_INITIAL_CAPACITY = 4 ∧
      ∃ f, da_free (some d1) = some f ∧ f.count = 0 ∧ f.capacity = 0 :=
  ⟨by decide, reachable_count_le_capacity example_blank 4 (some []) example_empty (by decide) _⟩

theorem push_all_spec (xs : List (List Byte × List Byte)) (d : dynamic_array)
    (h : initialised d) (hsz : 0 < d.item_size) (hx : ∀ p ∈ xs, p.1.length = d.item_size) :
    ∃ d1, push_all xs (some d) = some d1 ∧ initialised d1 ∧ d1.item_size = d.item_size ∧
      d1.count = d.count + xs.length ∧ live d1 = live d ++ xs.map Prod.fst := by
  induction xs generalizing d with
  | nil => exact ⟨d, rfl, h, rfl, rfl, by simp⟩
  | cons p xs ih =>
    rcases da_push_spec d p.1 (some p.2) h hsz (hx p (List.mem_cons_self _ _)) with
      ⟨-, ha, -⟩ | ⟨-, d1, he, hi1, hs1, hc1, -, hl1⟩
    · exact absurd ha (by simp)
    · obtain ⟨d2, h2, hi2, hs2, hc2, hl2⟩ := ih d1 hi1 (by omega)
        (fun q hq => by rw [hs1]; exact hx q (List.mem_cons_of_mem _ hq))
      refine ⟨d2, ?_, hi2, hs2.trans hs1, ?_, ?_⟩
      · simp only [push_all, List.foldl_cons] at h2 ⊢
        rw [he]
        exact h2
      · rw [hc2, hc1, List.length_cons]
        omega
      · rw [hl2, hl1]
        simp

/-- C2: after a successful `da_init` with `item_size > 0` and `da_push` of
`x1 .. xn` (items of `item_size` bytes), every allocation succeeding, `count = n`
and `da_get_item(k)` returns `DA_SUCCESS` and copies the bytes of `x(k+1)` into
the destination, for every `k < n`. -/
theorem push_then_get (d0 : dynamic_array) (size : Nat) (a0 : AllocAnswer) (d : dynamic_array)
    (xs : List (List Byte × List Byte))
    (h : da_init (some d0) size a0 = (DA_SUCCESS, some d)) (hsz : 0 < size)
    (hx : ∀ p ∈ xs, p.1.length = size) :
    ∃ d1, push_all xs (some d) = some d1 ∧ d1.count = xs.length ∧
      ∀ k dst, k < xs.length →
        ∃ out, da_get_item (some d1) k (some dst) = (DA_SUCCESS, some out) ∧
          some (out.take size) = (xs.map Prod.fst)[k]? := by
  obtain ⟨hi, hs, hc, -⟩ := da_init_spec d0 size a0 d h
  obtain ⟨d1, h1, hi1, hs1, hc1, hl1⟩ := push_all_spec xs d hi (by omega)
    (fun p hp => by rw [hs]; exact hx p hp)
  refine ⟨d1, h1, by omega, ?_⟩
  intro k dst hk
  obtain ⟨out, hg, hout⟩ := da_get_item_spec d1 k dst hi1 (by omega)
  refine ⟨out, hg, ?_⟩
  have hl0 : live d = [] := by
    unfold live slots
    rw [hc]
    rfl
  rw [hl1, hl0, List.nil_append] at hout
  rw [hout, hs1, hs]

theorem push_then_get_witness :
    da_init (some example_blank) 4 (some []) = (DA_SUCCESS, some example_empty) ∧ 0 < 4 ∧
    (∀ p ∈ [(int_bytes 1, []), (int_bytes 2, []), (int_bytes 3, []), (int_bytes 4, []),
      (int_bytes 5, ([] : List Byte))], p.1.length = 4) ∧
    ∃ d1, push_all [(int_bytes 1, []), (int_bytes 2, []), (int_bytes 3, []), (int_bytes 4, []),
        (int_bytes 5, [])] (some example_empty) = some d1 ∧ d1.count = 5 ∧
      ∀ k dst, k < 5 →
        ∃ out, da_get_item (some d1) k (some dst) = (DA_SUCCESS, some out) ∧
          some (out.take 4) = ([(int_bytes 1, []), (int_bytes 2, []), (int_bytes 3, []),
            (int_bytes 4, []), (int_bytes 5, ([] : List Byte))].map Prod.fst)[k]? :=
  ⟨by decide, by decide, by decide,
    push_then_get example_blank 4 (some []) example_empty _ (by decide) (by decide) (by decide)⟩

/-- C3: on an initialised buffer with `item_size > 0`, for an index `i < count`
and an item of `item_size` bytes, a `da_insert_item(i, x)` whose growth (if any)
succeeds returns `DA_SUCCESS`, increments `count`, and makes the live sequence
`s[0..i) ++ [x] ++ s[i..count)`: the elements before `i` stay and every former
element at a position `k ≥ i` is at `k + 1`. -/
theorem insert_in_live_range (d : dynamic_array) (i : Nat) (x : List Byte) (a : AllocAnswer)
    (h : initialised d) (hsz : 0 < d.item_size) (hx : x.length = d.item_size)
    (hi : i < d.count) (hg : d.count = d.capacity → a ≠ none) :
    ∃ d1, da_insert_item (some d) i (some x) a = (DA_SUCCESS, some d1) ∧
      d1.count = d.count + 1 ∧
      live d1 = (live d).take i ++ [x] ++ (live d).drop i ∧
      (live d1)[i]? = some x ∧
      (∀ k, k < i → (live d1)[k]? = (live d)[k]?) ∧
      (∀ k, i ≤ k → (live d1)[k + 1]? = (live d)[k]?) := by
  rcases da_insert_item_spec d i x a h hsz hx hi with
    ⟨hf, ha, -⟩ | ⟨-, d1, he, -, -, hc1, -, hl1⟩
  · exact absurd ha (hg hf)
  · have hlen : i ≤ (live d).length := by
      unfold live
      rw [length_slots]
      omega
    refine ⟨d1, he, hc1, hl1, ?_, ?_, ?_⟩
    · rw [hl1, getElem?_insert_at _ _ _ hlen, if_neg (by omega), if_pos rfl]
    · intro k hk
      rw [hl1, getElem?_insert_at _ _ _ hlen, if_pos hk]
    · intro k hk
      rw [hl1, getElem?_insert_at _ _ _ hlen, if_neg (by omega), if_neg (by omega),
        Nat.add_sub_cancel]

theorem insert_in_live_range_witness :
    initialised example_four ∧ 0 < example_four.item_size ∧
    (int_bytes 99).length = example_four.item_size ∧ 2 < example_four.count ∧
    (example_four.count = example_four.capacity → (some [] : AllocAnswer) ≠ none) ∧
    ∃ d1, da_insert_item (some example_four) 2 (some (int_bytes 99)) (some [])
        = (DA_SUCCESS, some d1) ∧
      d1.count = example_four.count + 1 ∧
      live d1 = (live example_four).take 2 ++ [int_bytes 99] ++ (live example_four).drop 2 ∧
      (live d1)[2]? = some (int_bytes 99) ∧
      (∀ k, k < 2 → (live d1)[k]? = (live example_four)[k]?) ∧
      (∀ k, 2 ≤ k → (live d1)[k + 1]? = (live example_four)[k]?) :=
  ⟨⟨_, rfl, by decide, by decide, by decide⟩, by decide, by decide, by decide, by decide,
    insert_in_live_range example_four 2 (int_bytes 99) (some [])
      ⟨_, rfl, by decide, by decide, by decide⟩ (by decide) (by decide) (by decide) (by decide)⟩

end DynamicArray

namespace DynamicArray

open Mem da_errors

/-- The function `da_insert_item` rejects the index `count` on every buffer. -/
theorem da_insert_item_at_count (d : dynamic_array) (x : List Byte) (a : AllocAnswer) :
    da_insert_item (some d) d.count (some x) a = (DA_ERR_INDEX, some d) := by
  simp [da_insert_item]

/-- C4: `da_insert_item(count, x)` should succeed and act as `da_push(x)`.  On
the buffer right after `da_init` (count 0) the insertion at index 0 returns
`DA_ERR_INDEX` and changes nothing, while `da_push` of the same item returns
`DA_SUCCESS` and stores it. -/
theorem insert_at_count_is_rejected :
    da_insert_item (some example_empty) example_empty.count (some (int_bytes 7)) (some [])
      = (DA_ERR_INDEX, some example_empty) ∧
    da_push (some example_empty) (some (int_bytes 7)) (some [])
      = (DA_SUCCESS, some { example_empty with
          items := some (int_bytes 7 ++ List.replicate 12 0), count := 1 }) := by
  decide

/-- C5: on an initialised buffer with `item_size > 0` and an index `i < count`,
`da_remove_item(i)` decrements `count` and makes the live sequence
`s[0..i) ++ s[i+1..count)`: the elements before `i` stay and every element at a
position `k + 1 > i` is at `k`, whether a shrink happens, fails or is not due. -/
theorem remove_in_live_range (d : dynamic_array) (i : Nat) (a : AllocAnswer)
    (h : initialised d) (hsz : 0 < d.item_size) (hi : i < d.count) :
    ∃ c d1, da_remove_item (some d) i a = (c, some d1) ∧
      d1.count = d.count - 1 ∧
      live d1 = (live d).take i ++ (live d).drop (i + 1) ∧
      (∀ k, k < i → (live d1)[k]? = (live d)[k]?) ∧
      (∀ k, i ≤ k → (live d1)[k]? = (live d)[k + 1]?) := by
  obtain ⟨d1, he, -, -, hc1, -, hl1⟩ := da_remove_item_spec d i a h hsz hi
  have hlen : i ≤ (live d).length := by
    unfold live
    rw [length_slots]
    omega
  refine ⟨_, d1, he, hc1, hl1, ?_, ?_⟩
  · intro k hk
    rw [hl1, getElem?_remove_at _ _ hlen, if_pos hk]
  · intro k hk
    rw [hl1, getElem?_remove_at _ _ hlen, if_neg (by omega)]

theorem remove_in_live_range_witness :
    initialised example_four ∧ 0 < example_four.item_size ∧ 1 < example_four.count ∧
    ∃ c d1, da_remove_item (some example_four) 1 none = (c, some d1) ∧
      d1.count = example_four.count - 1 ∧
      live d1 = (live example_four).take 1 ++ (live example_four).drop (1 + 1) ∧
      (∀ k, k < 1 → (live d1)[k]? = (live example_four)[k]?) ∧
      (∀ k, 1 ≤ k → (live d1)[k]? = (live example_four)[k + 1]?) :=
  ⟨⟨_, rfl, by decide, by decide, by decide⟩, by decide, by decide,
    remove_in_live_range example_four 1 none ⟨_, rfl, by decide, by decide, by decide⟩
      (by decide) (by decide)⟩

theorem remove_at_insert_at {α : Type} (l : List α) (i : Nat) (x : α) (hi : i ≤ l.length) :
    (l.take i ++ [x] ++ l.drop i).take i ++ (l.take i ++ [x] ++ l.drop i).drop (i + 1) = l := by
  apply List.ext_getElem?
  intro k
  rw [getElem?_remove_at _ _ (by simp; omega)]
  by_cases hk : k < i
  · rw [if_pos hk, getElem?_insert_at _ _ _ hi, if_pos hk]
  · rw [if_neg hk, getElem?_insert_at _ _ _ hi, if_neg (by omega), if_neg (by omega),
      Nat.add_sub_cancel]

/-- C6: on an initialised buffer with `item_size > 0`, for an index `i < count`
and an item of `item_size` bytes, `da_insert_item(i, x)` followed by
`da_remove_item(i)`, every reallocation that is asked for succeeding, both
return `DA_SUCCESS` and leave `count` and the live sequence as they were. -/
theorem insert_then_remove (d : dynamic_array) (i : Nat) (x : List Byte) (a1 a2 : AllocAnswer)
    (h : initialised d) (hsz : 0 < d.item_size) (hx : x.length = d.item_size)
    (hi : i < d.count) (hg : d.count = d.capacity → a1 ≠ none)
    (hs : d.count < d.capacity / 2 → a2 ≠ none) :
    ∃ d1 d2, da_insert_item (some d) i (some x) a1 = (DA_SUCCESS, some d1) ∧
      da_remove_item (some d1) i a2 = (DA_SUCCESS, some d2) ∧
      d2.count = d.count ∧ live d2 = live d := by
  rcases da_insert_item_spec d i x a1 h hsz hx hi with
    ⟨hf, ha, -⟩ | ⟨-, d1, he, hi1, hs1, hc1, hcap1, hl1⟩
  · exact absurd ha (hg hf)
  · obtain ⟨d2, he2, -, -, hc2, -, hl2⟩ :=
      da_remove_item_spec d1 i a2 hi1 (by omega) (by omega)
    have hlen : i ≤ (live d).length := by
      unfold live
      rw [length_slots]
      omega
    have hcode : ¬ (d1.count - 1 < d1.capacity / 2 ∧ a2 = none) := by
      rintro ⟨hlt, ha2⟩
      rw [hc1, hcap1] at hlt
      by_cases hfull : d.count = d.capacity
      · rw [if_pos hfull] at hlt
        omega
      · rw [if_neg hfull] at hlt
        exact hs (by omega) ha2
    rw [if_neg hcode] at he2
    refine ⟨d1, d2, he, he2, by omega, ?_⟩
    rw [hl2, hl1, remove_at_insert_at _ _ _ hlen]

theorem insert_then_remove_witness :
    initialised example_four ∧ 0 < example_four.item_size ∧
    (int_bytes 99).length = example_four.item_size ∧ 2 < example_four.count ∧
    (example_four.count = example_four.capacity → (some [] : AllocAnswer) ≠ none) ∧
    (example_four.count < example_four.capacity / 2 → (some [] : AllocAnswer) ≠ none) ∧
    live example_four = [int_bytes 10, int_bytes 20, int_bytes 30, int_bytes 40] ∧
    (da_insert_item (some example_four) 2 (some (int_bytes 99)) (some [])).2.map live
      = some [int_bytes 10, int_bytes 20, int_bytes 99, int_bytes 30, int_bytes 40] ∧
    (da_remove_item (da_insert_item (some example_four) 2 (some (int_bytes 99)) (some [])).2
      2 (some [])).2.map live
      = some [int_bytes 10, int_bytes 20, int_bytes 30, int_bytes 40] ∧
    ∃ d1 d2, da_insert_item (some example_four) 2 (some (int_bytes 99)) (some [])
        = (DA_SUCCESS, some d1) ∧
      da_remove_item (some d1) 2 (some []) = (DA_SUCCESS, some d2) ∧
      d2.count = example_four.count ∧ live d2 = live example_four :=
  ⟨⟨_, rfl, by decide, by decide, by decide⟩, by decide, by decide, by decide, by decide,
    by decide, by decide, by decide, by decide,
    insert_then_remove example_four 2 (int_bytes 99) (some []) (some [])
      ⟨_, rfl, by decide, by decide, by decide⟩ (by decide) (by decide) (by decide) (by decide)
      (by decide)⟩

/-- C7: on an initialised buffer, for an index `i < count` and an item of
`item_size` bytes, `da_set_item(i, x)` returns `DA_SUCCESS` and a following
`da_get_item(i)` returns `DA_SUCCESS` and copies the bytes of `x` into the
destination. -/
theorem set_then_get (d : dynamic_array) (i : Nat) (x dst : List Byte) (h : initialised d)
    (hi : i < d.count) (hx : x.length = d.item_size) :
    ∃ d1 out, da_set_item (some d) i (some x) = (DA_SUCCESS, some d1) ∧
      da_get_item (some d1) i (some dst) = (DA_SUCCESS, some out) ∧
      out.take d.item_size = x := by
  obtain ⟨d1, he, hi1, hs1, hc1, -, hl1⟩ := da_set_item_spec d i x h hi hx
  obtain ⟨out, hg, hout⟩ := da_get_item_spec d1 i dst hi1 (by omega)
  refine ⟨d1, out, he, hg, ?_⟩
  have hlen : i < (live d).length := by
    unfold live
    rw [length_slots]
    exact hi
  rw [hl1, List.getElem?_set, if_pos rfl, if_pos hlen, hs1] at hout
  exact (Option.some.inj hout).symm

theorem set_then_get_witness :
    initialised example_four ∧ 3 < example_four.count ∧
    (int_bytes 77).length = example_four.item_size ∧
    ∃ d1 out, da_set_item (some example_four) 3 (some (int_bytes 77)) = (DA_SUCCESS, some d1) ∧
      da_get_item (some d1) 3 (some (int_bytes 0)) = (DA_SUCCESS, some out) ∧
      out.take example_four.item_size = int_bytes 77 :=
  ⟨⟨_, rfl, by decide, by decide, by decide⟩, by decide, by decide,
    set_then_get example_four 3 (int_bytes 77) (int_bytes 0)
      ⟨_, rfl, by decide, by decide, by decide⟩ (by decide) (by decide)⟩

/-- C8: on every buffer, for every index `≥ count` and present item pointers,
`da_get_item`, `da_set_item` and `da_remove_item` return `DA_ERR_INDEX` and
leave the struct (count, capacity, storage) and the destination as they were. -/
theorem index_beyond_count (d : dynamic_array) (i : Nat) (item dst : List Byte)
    (a : AllocAnswer) (hi : d.count ≤ i) :
    da_get_item (some d) i (some dst) = (DA_ERR_INDEX, some dst) ∧
    da_set_item (some d) i (some item) = (DA_ERR_INDEX, some d) ∧
    da_remove_item (some d) i a = (DA_ERR_INDEX, some d) := by
  simp [da_get_item, da_set_item, da_remove_item, hi]

theorem index_beyond_count_witness :
    example_four.count ≤ 4 ∧
    da_get_item (some example_four) 4 (some (int_bytes 0)) = (DA_ERR_INDEX, some (int_bytes 0)) ∧
    da_set_item (some example_four) 4 (some (int_bytes 5)) = (DA_ERR_INDEX, some example_four) ∧
    da_remove_item (some example_four) 4 (some []) = (DA_ERR_INDEX, some example_four) :=
  ⟨by decide, index_beyond_count example_four 4 (int_bytes 5) (int_bytes 0) (some []) (by decide)⟩

/-- C10: on a buffer with storage present, `item_size > 0`, `count > 0` and a
present destination, `da_get_item(count - 1)` returns `DA_SUCCESS` with the
destination that `da_pop_item` leaves, and `da_remove_item(count - 1)` under
the same allocator answer returns the code and the struct (count, capacity,
storage) that `da_pop_item` returns; the count after `da_pop_item` is
`count - 1`, and the one answer of the allocator is all that the one shrink
test consumes. -/
theorem pop_is_get_then_remove (d : dynamic_array) (dst : List Byte) (a : AllocAnswer)
    (hm : d.items ≠ none) (hsz : 0 < d.item_size) (hpos : 0 < d.count) :
    da_get_item (some d) (d.count - 1) (some dst)
      = (DA_SUCCESS, (da_pop_item (some d) (some dst) a).2.2) ∧
    da_remove_item (some d) (d.count - 1) a
      = ((da_pop_item (some d) (some dst) a).1, (da_pop_item (some d) (some dst) a).2.1) ∧
    ∃ d1, (da_pop_item (some d) (some dst) a).2.1 = some d1 ∧ d1.count = d.count - 1 := by
  cases hmem : d.items with
  | none => exact absurd hmem hm
  | some mem =>
    have hsz2 : d.item_size ≠ 0 := by omega
    have hpos2 : d.count ≠ 0 := by omega
    have hlt : ¬ d.count ≤ d.count - 1 := by omega
    have hg : da_get_item (some d) (d.count - 1) (some dst)
        = (DA_SUCCESS, some (memcpy_out dst mem ((d.count - 1) * d.item_size) d.item_size)) := by
      simp [da_get_item, hlt, hmem]
    by_cases hshr : d.count - 1 < d.capacity / DA_RESIZE_FACTOR
    · cases a with
      | none =>
        simp [da_pop_item, da_remove_item, da_shrink, realloc, hg, hmem, hsz2, hpos2, hlt, hshr]
      | some junk =>
        simp [da_pop_item, da_remove_item, da_shrink, realloc, hg, hmem, hsz2, hpos2, hlt, hshr]
    · simp [da_pop_item, da_remove_item, hg, hmem, hsz2, hpos2, hlt, hshr]

theorem pop_is_get_then_remove_witness :
    example_four.items ≠ none ∧ 0 < example_four.item_size ∧ 0 < example_four.count ∧
    da_get_item (some example_four) (example_four.count - 1) (some (int_bytes 0))
      = (DA_SUCCESS, (da_pop_item (some example_four) (some (int_bytes 0)) none).2.2) ∧
    da_remove_item (some example_four) (example_four.count - 1) none
      = ((da_pop_item (some example_four) (some (int_bytes 0)) none).1,
        (da_pop_item (some example_four) (some (int_bytes 0)) none).2.1) ∧
    ∃ d1, (da_pop_item (some example_four) (some (int_bytes 0)) none).2.1 = some d1 ∧
      d1.count = example_four.count - 1 :=
  ⟨by decide, by decide, by decide,
    pop_is_get_then_remove example_four (int_bytes 0) none (by decide) (by decide) (by decide)⟩

end DynamicArray

/-! ## The claims that involve the stack -/

namespace Stacks

open Mem DynamicArray DynamicArray.da_errors stack_errors

/-- C9: on a buffer and on a stack with storage present, `item_size > 0` and
`count = 0`, `da_pop_item` returns `DA_ERR_EMPTY` and `stack_pop` (with a
present destination) returns `STACK_ERR_EMPTY`; neither code is the index
error code, and the struct and the destination are left as they were. -/
theorem pop_on_empty (d : dynamic_array) (s : stack) (item : Option (List Byte))
    (dst : List Byte) (a : AllocAnswer)
    (hd : d.items ≠ none) (hdsz : 0 < d.item_size) (hdc : d.count = 0)
    (hs : s.items ≠ none) (hssz : 0 < s.item_size) (hsc : s.count = 0) :
    da_pop_item (some d) item a = (DA_ERR_EMPTY, some d, item) ∧
    stack_pop (some s) (some dst) a = (STACK_ERR_EMPTY, some s, some dst) ∧
    DA_ERR_EMPTY.code ≠ DA_ERR_INDEX.code ∧
    STACK_ERR_EMPTY.code ≠ STACK_ERR_INDEX.code := by
  refine ⟨?_, ?_, by decide, by decide⟩
  · have h1 : d.items.isNone = false := by
      cases hm : d.items with
      | none => exact absurd hm hd
      | some mem => rfl
    have h2 : d.item_size ≠ 0 := by omega
    simp [da_pop_item, h1, h2, hdc]
  · cases hm : s.items with
    | none => exact absurd hm hs
    | some mem =>
      have h2 : s.item_size ≠ 0 := by omega
      simp [stack_pop, hm, h2, hsc]

theorem pop_on_empty_witness :
    example_empty.items ≠ none ∧ 0 < example_empty.item_size ∧ example_empty.count = 0 ∧
    (⟨some (List.replicate 16 0), 4, 0, 4⟩ : stack).items ≠ none ∧
    0 < (⟨some (List.replicate 16 0), 4, 0, 4⟩ : stack).item_size ∧
    (⟨some (List.replicate 16 0), 4, 0, 4⟩ : stack).count = 0 ∧
    da_pop_item (some example_empty) (some (int_bytes 0)) none
      = (DA_ERR_EMPTY, some example_empty, some (int_bytes 0)) ∧
    stack_pop (some ⟨some (List.replicate 16 0), 4, 0, 4⟩) (some (int_bytes 0)) none
      = (STACK_ERR_EMPTY, some ⟨some (List.replicate 16 0), 4, 0, 4⟩, some (int_bytes 0)) ∧
    DA_ERR_EMPTY.code ≠ DA_ERR_INDEX.code ∧
    STACK_ERR_EMPTY.code ≠ STACK_ERR_INDEX.code :=
  ⟨by decide, by decide, by decide, by decide, by decide, by decide,
    pop_on_empty example_empty ⟨some (List.replicate 16 0), 4, 0, 4⟩ (some (int_bytes 0))
      (int_bytes 0) none (by decide) (by decide) (by decide) (by decide) (by decide)
      (by decide)⟩

end Stacks

/-! ## The eager buffer: failures, resize policy and release -/

namespace DynamicArray

open Mem da_errors

/-- C11: on an initialised buffer (`item_size > 0`) with `count = capacity`,
when the reallocation in `da_expand` fails, `da_push` and `da_insert_item` (at
an index `< count`) return `DA_ERR_RESIZE` and leave the struct (count,
capacity and every byte of storage) as it was. -/
theorem growth_failure_is_atomic (d : dynamic_array) (i : Nat) (x y : List Byte)
    (h : initialised d) (hsz : 0 < d.item_size) (hfull : d.count = d.capacity)
    (hi : i < d.count) :
    da_expand (some d) none = (DA_ERR_ALLOC, some d) ∧
    da_push (some d) (some x) none = (DA_ERR_RESIZE, some d) ∧
    da_insert_item (some d) i (some y) none = (DA_ERR_RESIZE, some d) := by
  have hit := initialised_items d h
  have hsz2 : d.item_size ≠ 0 := by omega
  have hi3 : ¬ d.capacity ≤ i := by omega
  obtain ⟨mem, hm, -⟩ := h
  have he := da_expand_fail d mem hm
  refine ⟨he, ?_, ?_⟩
  · simp [da_push, hit, hsz2, hfull, he]
  · simp [da_insert_item, hi3, hit, hsz2, hfull, he]

theorem growth_failure_is_atomic_witness :
    initialised example_four ∧ 0 < example_four.item_size ∧
    example_four.count = example_four.capacity ∧ 1 < example_four.count ∧
    da_expand (some example_four) none = (DA_ERR_ALLOC, some example_four) ∧
    da_push (some example_four) (some (int_bytes 50)) none
      = (DA_ERR_RESIZE, some example_four) ∧
    da_insert_item (some example_four) 1 (some (int_bytes 15)) none
      = (DA_ERR_RESIZE, some example_four) :=
  ⟨⟨_, rfl, by decide, by decide, by decide⟩, by decide, by decide, by decide,
    growth_failure_is_atomic example_four 1 (int_bytes 50) (int_bytes 15)
      ⟨_, rfl, by decide, by decide, by decide⟩ (by decide) (by decide) (by decide)⟩

/-- C12: on an initialised buffer (`item_size > 0`) and an index `i < count`,
when the removal makes a shrink due (`count - 1 < capacity / 2`) and the
reallocation in `da_shrink` fails, `da_remove_item` and `da_pop_item` return
`DA_ERR_RESIZE`, `count` is decremented, the live sequence is the original one
without the removed element, and `capacity` keeps its value. -/
theorem shrink_failure_keeps_removal (d : dynamic_array) (i : Nat) (dst : List Byte)
    (h : initialised d) (hsz : 0 < d.item_size) (hi : i < d.count)
    (hdue : d.count - 1 < d.capacity / 2) :
    (∃ d1, da_remove_item (some d) i none = (DA_ERR_RESIZE, some d1) ∧
      d1.count = d.count - 1 ∧ d1.capacity = d.capacity ∧
      live d1 = (live d).take i ++ (live d).drop (i + 1)) ∧
    (∃ d2 out, da_pop_item (some d) (some dst) none = (DA_ERR_RESIZE, some d2, some out) ∧
      d2.count = d.count - 1 ∧ d2.capacity = d.capacity ∧
      live d2 = (live d).take (d.count - 1) ∧
      (live d)[d.count - 1]? = some (out.take d.item_size)) := by
  constructor
  · obtain ⟨d1, he, -, -, hc1, hcap1, hl1⟩ := da_remove_item_spec d i none h hsz hi
    rw [if_pos ⟨hdue, rfl⟩] at he
    rw [if_neg (fun hh => hh.2 rfl)] at hcap1
    exact ⟨d1, he, hc1, hcap1, hl1⟩
  · obtain ⟨d2, out, he, -, -, hc2, hcap2, hl2, hout⟩ :=
      da_pop_item_spec d dst none h hsz (by omega)
    rw [if_pos ⟨hdue, rfl⟩] at he
    rw [if_neg (fun hh => hh.2 rfl)] at hcap2
    exact ⟨d2, out, he, hc2, hcap2, hl2, hout⟩

theorem shrink_failure_keeps_removal_witness :
    initialised example_wide ∧ 0 < example_wide.item_size ∧ 1 < example_wide.count ∧
    example_wide.count - 1 < example_wide.capacity / 2 ∧
    (∃ d1, da_remove_item (some example_wide) 1 none = (DA_ERR_RESIZE, some d1) ∧
      d1.count = example_wide.count - 1 ∧ d1.capacity = example_wide.capacity ∧
      live d1 = (live example_wide).take 1 ++ (live example_wide).drop (1 + 1)) ∧
    (∃ d2 out, da_pop_item (some example_wide) (some (int_bytes 0)) none
        = (DA_ERR_RESIZE, some d2, some out) ∧
      d2.count = example_wide.count - 1 ∧ d2.capacity = example_wide.capacity ∧
      live d2 = (live example_wide).take (example_wide.count - 1) ∧
      (live example_wide)[example_wide.count - 1]? = some (out.take example_wide.item_size)) :=
  ⟨⟨_, rfl, by decide, by decide, by decide⟩, by decide, by decide, by decide,
    shrink_failure_keeps_removal example_wide 1 (int_bytes 0)
      ⟨_, rfl, by decide, by decide, by decide⟩ (by decide) (by decide) (by decide)⟩

theorem da_expand_capacity (d : dynamic_array) (a : AllocAnswer) (r : Option dynamic_array)
    (h : da_expand (some d) a = (DA_SUCCESS, r)) :
    ∃ d1, r = some d1 ∧ d1.capacity = 2 * d.capacity ∧ d1.count = d.count ∧
      d1.item_size = d.item_size := by
  unfold da_expand at h
  cases hm : d.items with
  | none => simp [hm] at h
  | some mem =>
    cases a with
    | none => simp [hm, realloc] at h
    | some junk =>
      simp only [hm, realloc, Prod.mk.injEq, true_and] at h
      subst h
      exact ⟨_, rfl, Nat.mul_comm _ _, rfl, rfl⟩

theorem da_shrink_capacity (d : dynamic_array) (a : AllocAnswer) (r : Option dynamic_array)
    (h : da_shrink (some d) a = (DA_SUCCESS, r)) :
    ∃ d1, r = some d1 ∧ d1.capacity = max (d.capacity / 2) DA_INITIAL_CAPACITY ∧
      d1.count = d.count ∧ d1.item_size = d.item_size := by
  unfold da_shrink at h
  cases hm : d.items with
  | none => simp [hm] at h
  | some mem =>
    cases a with
    | none => simp [hm, realloc] at h
    | some junk =>
      simp only [hm, realloc, Prod.mk.injEq, true_and] at h
      subst h
      refine ⟨_, rfl, ?_, rfl, rfl⟩
      simp only [DA_RESIZE_FACTOR, DA_INITIAL_CAPACITY]
      split <;> omega

/-- The growth step shared by `da_push` and `da_insert_item`: when it does not
fail, the capacity is doubled if the buffer was full and kept otherwise. -/
theorem grow_step_capacity (d : dynamic_array) (a : AllocAnswer)
    (r : da_errors × Option dynamic_array)
    (hr : r = if d.count = d.capacity then da_expand (some d) a else (DA_SUCCESS, some d))
    (hs : r.1 = DA_SUCCESS) :
    ∃ d1, r.2 = some d1 ∧ d1.count = d.count ∧ d1.item_size = d.item_size ∧
      d1.capacity = (if d.count = d.capacity then 2 * d.capacity else d.capacity) := by
  by_cases hfull : d.count = d.capacity
  · rw [if_pos hfull] at hr
    obtain ⟨d1, h1, hcap, hc, hsz⟩ := da_expand_capacity d a r.2 (by rw [← hs, ← hr])
    exact ⟨d1, h1, hc, hsz, by rw [if_pos hfull]; exact hcap⟩
  · rw [if_neg hfull] at hr
    subst hr
    exact ⟨d, rfl, rfl, rfl, by rw [if_neg hfull]⟩

theorem da_expand_success_iff (d : dynamic_array) (a : AllocAnswer) :
    (da_expand (some d) a).1 = DA_SUCCESS ↔ d.items.isSome ∧ a.isSome := by
  unfold da_expand
  cases hm : d.items with
  | none => simp [hm]
  | some mem =>
    cases a with
    | none => simp [hm, realloc]
    | some junk => simp [hm, realloc]

/-- The growth step of `da_push` and `da_insert_item` succeeds exactly when the
buffer is not full or `da_expand` is granted its block. -/
theorem grow_step_success_iff (d : dynamic_array) (a : AllocAnswer) (hm : d.items.isSome) :
    (if d.count = d.capacity then da_expand (some d) a else (DA_SUCCESS, some d)).1 = DA_SUCCESS
      ↔ (d.count = d.capacity → a.isSome) := by
  by_cases hfull : d.count = d.capacity
  · rw [if_pos hfull, da_expand_success_iff]
    constructor
    · intro h _
      exact h.2
    · intro h
      exact ⟨hm, h hfull⟩
  · rw [if_neg hfull]
    constructor
    · intro _ h
      exact absurd h hfull
    · intro _
      rfl

/-- When `da_push` returns `DA_SUCCESS` it returns a struct with one more
element, whose capacity is doubled if the buffer was full and kept otherwise;
and it returns `DA_SUCCESS` exactly when the item and the storage are present,
`item_size` is not zero and, if the buffer is full, the allocator grants the
block. -/
theorem da_push_success (d : dynamic_array) (item : Option (List Byte)) (a : AllocAnswer) :
    ((da_push (some d) item a).1 = DA_SUCCESS →
      ∃ d1, da_push (some d) item a = (DA_SUCCESS, some d1) ∧
        d1.capacity = (if d.count = d.capacity then 2 * d.capacity else d.capacity) ∧
        d1.count = d.count + 1) ∧
    ((da_push (some d) item a).1 = DA_SUCCESS ↔
      item.isSome ∧ d.items.isSome ∧ d.item_size ≠ 0 ∧ (d.count = d.capacity → a.isSome)) := by
  cases item with
  | none =>
    refine ⟨fun h => ?_, ⟨fun h => ?_, fun h => ?_⟩⟩
    · exact absurd h (by simp [da_push])
    · exact absurd h (by simp [da_push])
    · exact absurd h.1 (by simp)
  | some x =>
    simp only [da_push]
    by_cases hu : d.items.isNone ∨ d.item_size = 0
    · rw [if_pos hu]
      refine ⟨fun h => ?_, ⟨fun h => ?_, fun h => ?_⟩⟩
      · exact absurd h (by simp)
      · exact absurd h (by simp)
      · rcases hu with hu | hu
        · have := h.2.1
          rw [Option.isSome_iff_ne_none] at this
          rw [Option.isNone_iff_eq_none] at hu
          exact absurd hu this
        · exact absurd hu h.2.2.1
    · rw [if_neg hu]
      have hm : d.items.isSome := by
        cases hmm : d.items with
        | none => exact absurd (Or.inl (by rw [hmm]; rfl)) hu
        | some mem => rfl
      have hz : d.item_size ≠ 0 := fun hh => hu (Or.inr hh)
      have hiff := grow_step_success_iff d a hm
      generalize hr : (if d.count = d.capacity then da_expand (some d) a
        else (DA_SUCCESS, some d)) = r at hiff
      by_cases hs : r.1 = DA_SUCCESS
      · obtain ⟨d2, h2, hc, -, hcap⟩ := grow_step_capacity d a r hr.symm hs
        rw [if_neg (not_not.mpr hs), h2]
        refine ⟨fun _ => ⟨_, rfl, hcap, by show d2.count + 1 = d.count + 1; rw [hc]⟩, ?_⟩
        constructor
        · intro _
          exact ⟨rfl, hm, hz, hiff.mp hs⟩
        · intro _
          rfl
      · rw [if_pos hs]
        refine ⟨fun h => ?_, ⟨fun h => ?_, fun h => ?_⟩⟩
        · exact absurd h (by simp)
        · exact absurd h (by simp)
        · exact absurd (hiff.mpr h.2.2.2) hs

/-- When `da_insert_item` returns `DA_SUCCESS` it returns a struct with one more
element, whose capacity is doubled if the buffer was full and kept otherwise;
and it returns `DA_SUCCESS` exactly when the item and the storage are present,
the index is below `count`, `item_size` is not zero and, if the buffer is full,
the allocator grants the block. -/
theorem da_insert_item_success (d : dynamic_array) (i : Nat) (item : Option (List Byte))
    (a : AllocAnswer) :
    ((da_insert_item (some d) i item a).1 = DA_SUCCESS →
      ∃ d1, da_insert_item (some d) i item a = (DA_SUCCESS, some d1) ∧
        d1.capacity = (if d.count = d.capacity then 2 * d.capacity else d.capacity) ∧
        d1.count = d.count + 1) ∧
    ((da_insert_item (some d) i item a).1 = DA_SUCCESS ↔
      item.isSome ∧ i < d.count ∧ d.items.isSome ∧ d.item_size ≠ 0 ∧
        (d.count = d.capacity → a.isSome)) := by
  cases item with
  | none =>
    refine ⟨fun h => ?_, ⟨fun h => ?_, fun h => ?_⟩⟩
    · exact absurd h (by simp [da_insert_item])
    · exact absurd h (by simp [da_insert_item])
    · exact absurd h.1 (by simp)
  | some x =>
    simp only [da_insert_item]
    by_cases hi : i ≥ d.count
    · rw [if_pos hi]
      refine ⟨fun h => ?_, ⟨fun h => ?_, fun h => ?_⟩⟩
      · exact absurd h (by simp)
      · exact absurd h (by simp)
      · exact absurd h.2.1 (by omega)
    · rw [if_neg hi]
      by_cases hu : d.items.isNone ∨ d.item_size = 0
      · rw [if_pos hu]
        refine ⟨fun h => ?_, ⟨fun h => ?_, fun h => ?_⟩⟩
        · exact absurd h (by simp)
        · exact absurd h (by simp)
        · rcases hu with hu | hu
          · have := h.2.2.1
            rw [Option.isSome_iff_ne_none] at this
            rw [Option.isNone_iff_eq_none] at hu
            exact absurd hu this
          · exact absurd hu h.2.2.2.1
      · rw [if_neg hu]
        have hm : d.items.isSome := by
          cases hmm : d.items with
          | none => exact absurd (Or.inl (by rw [hmm]; rfl)) hu
          | some mem => rfl
        have hz : d.item_size ≠ 0 := fun hh => hu (Or.inr hh)
        have hiff := grow_step_success_iff d a hm
        generalize hr : (if d.count = d.capacity then da_expand (some d) a
          else (DA_SUCCESS, some d)) = r at hiff
        by_cases hs : r.1 = DA_SUCCESS
        · obtain ⟨d2, h2, hc, -, hcap⟩ := grow_step_capacity d a r hr.symm hs
          rw [if_neg (not_not.mpr hs), h2]
          refine ⟨fun _ => ⟨_, rfl, hcap, by show d2.count + 1 = d.count + 1; rw [hc]⟩, ?_⟩
          constructor
          · intro _
            exact ⟨rfl, by omega, hm, hz, hiff.mp hs⟩
          · intro _
            rfl
        · rw [if_pos hs]
          refine ⟨fun h => ?_, ⟨fun h => ?_, fun h => ?_⟩⟩
          · exact absurd h (by simp)
          · exact absurd h (by simp)
          · exact absurd (hiff.mpr h.2.2.2.2) hs

/-- C13: a `da_push` or `da_insert_item` that returns `DA_SUCCESS` returns a
struct with one more element, whose capacity is `2 * capacity` if
`count = capacity` held on entry and `capacity` otherwise.  The calls return
`DA_SUCCESS` exactly when the item and the storage are present, `item_size` is
not zero, the index of `da_insert_item` is below `count`, and the allocator
grants the block if the buffer is full; on an initialised buffer the storage is
present, so there every such call succeeds. -/
theorem grow_policy (d : dynamic_array) (i : Nat) (item : Option (List Byte))
    (a : AllocAnswer) :
    ((da_push (some d) item a).1 = DA_SUCCESS →
      ∃ d1, da_push (some d) item a = (DA_SUCCESS, some d1) ∧
        d1.capacity = (if d.count = d.capacity then 2 * d.capacity else d.capacity) ∧
        d1.count = d.count + 1) ∧
    ((da_insert_item (some d) i item a).1 = DA_SUCCESS →
      ∃ d1, da_insert_item (some d) i item a = (DA_SUCCESS, some d1) ∧
        d1.capacity = (if d.count = d.capacity then 2 * d.capacity else d.capacity) ∧
        d1.count = d.count + 1) ∧
    ((da_push (some d) item a).1 = DA_SUCCESS ↔
      item.isSome ∧ d.items.isSome ∧ d.item_size ≠ 0 ∧ (d.count = d.capacity → a.isSome)) ∧
    ((da_insert_item (some d) i item a).1 = DA_SUCCESS ↔
      item.isSome ∧ i < d.count ∧ d.items.isSome ∧ d.item_size ≠ 0 ∧
        (d.count = d.capacity → a.isSome)) ∧
    (initialised d → item.isSome → d.item_size ≠ 0 → (d.count = d.capacity → a.isSome) →
      (da_push (some d) item a).1 = DA_SUCCESS ∧
      (i < d.count → (da_insert_item (some d) i item a).1 = DA_SUCCESS)) := by
  refine ⟨(da_push_success d item a).1, (da_insert_item_success d i item a).1,
    (da_push_success d item a).2, (da_insert_item_success d i item a).2, ?_⟩
  intro h hitem hz ha
  obtain ⟨mem, hm, -⟩ := h
  have hs : d.items.isSome := by
    rw [hm]
    rfl
  exact ⟨(da_push_success d item a).2.mpr ⟨hitem, hs, hz, ha⟩,
    fun hi => (da_insert_item_success d i item a).2.mpr ⟨hitem, hi, hs, hz, ha⟩⟩

theorem grow_policy_witness :
    da_push (some example_four) (some (int_bytes 50)) (some [])
      = (DA_SUCCESS, some { example_four with
        items := some (int_bytes 10 ++ int_bytes 20 ++ int_bytes 30 ++ int_bytes 40 ++
          int_bytes 50 ++ List.replicate 12 0)
        count := 5, capacity := 8 }) ∧
    da_insert_item (some example_wide) 1 (some (int_bytes 15)) none
      = (DA_SUCCESS, some { example_wide with
        items := some (int_bytes 10 ++ int_bytes 15 ++ int_bytes 20 ++ int_bytes 30 ++
          int_bytes 40 ++ List.replicate 12 0)
        count := 5 }) ∧
    (∃ d1, da_push (some example_four) (some (int_bytes 50)) (some []) = (DA_SUCCESS, some d1) ∧
      d1.capacity = (if example_four.count = example_four.capacity
        then 2 * example_four.capacity else example_four.capacity) ∧
      d1.count = example_four.count + 1) ∧
    (∃ d1, da_insert_item (some example_wide) 1 (some (int_bytes 15)) none
        = (DA_SUCCESS, some d1) ∧
      d1.capacity = (if example_wide.count = example_wide.capacity
        then 2 * example_wide.capacity else example_wide.capacity) ∧
      d1.count = example_wide.count + 1) ∧
    (da_push (some example_four) (some (int_bytes 50)) none).1 ≠ DA_SUCCESS :=
  ⟨by decide, by decide,
    (grow_policy example_four 0 (some (int_bytes 50)) (some [])).1 (by decide),
    (grow_policy example_wide 1 (some (int_bytes 15)) none).2.1 (by decide),
    by decide⟩

/-- The shrink test shared by `da_remove_item` and `da_pop_item`: when it does
not fail, the capacity is half the old one, at least the initial capacity, if
the count is below half the capacity, and is kept otherwise. -/
theorem shrink_step_capacity (d : dynamic_array) (a : AllocAnswer)
    (r : da_errors × Option dynamic_array)
    (hr : r = if d.count < d.capacity / DA_RESIZE_FACTOR then
        (if (da_shrink (some d) a).1 ≠ DA_SUCCESS then (DA_ERR_RESIZE, (da_shrink (some d) a).2)
          else (DA_SUCCESS, (da_shrink (some d) a).2))
      else (DA_SUCCESS, some d))
    (hs : r.1 = DA_SUCCESS) :
    ∃ d1, r.2 = some d1 ∧ d1.count = d.count ∧ d1.item_size = d.item_size ∧
      d1.capacity = (if d.count < d.capacity / 2
        then max (d.capacity / 2) DA_INITIAL_CAPACITY else d.capacity) := by
  by_cases hlt : d.count < d.capacity / DA_RESIZE_FACTOR
  · have hlt2 : d.count < d.capacity / 2 := hlt
    rw [if_pos hlt] at hr
    by_cases hc : (da_shrink (some d) a).1 = DA_SUCCESS
    · rw [if_neg (not_not.mpr hc)] at hr
      obtain ⟨d1, h1, hcap, hcnt, hsz⟩ := da_shrink_capacity d a (da_shrink (some d) a).2
        (by rw [← hc])
      refine ⟨d1, by rw [hr]; exact h1, hcnt, hsz, ?_⟩
      rw [if_pos hlt2]
      exact hcap
    · rw [if_pos hc] at hr
      rw [hr] at hs
      exact absurd hs (fun hh => da_errors.noConfusion hh)
  · have hlt2 : ¬ d.count < d.capacity / 2 := hlt
    rw [if_neg hlt] at hr
    subst hr
    exact ⟨d, rfl, rfl, rfl, by rw [if_neg hlt2]⟩

end DynamicArray

namespace DynamicArray

open Mem da_errors

/-- C14: a successful `da_remove_item` or `da_pop_item` leaves `count - 1`
elements and the capacity `max (capacity / 2) 4` if `count - 1 < capacity / 2`,
the old capacity otherwise; a capacity of at least `DA_INITIAL_CAPACITY` stays
at least `DA_INITIAL_CAPACITY`. -/
theorem shrink_policy (d : dynamic_array) (i : Nat) (item : Option (List Byte))
    (a : AllocAnswer) (d1 : dynamic_array) (out : Option (List Byte)) :
    (da_remove_item (some d) i a = (DA_SUCCESS, some d1) →
      d1.count = d.count - 1 ∧
      d1.capacity = (if d.count - 1 < d.capacity / 2
        then max (d.capacity / 2) 4 else d.capacity) ∧
      (DA_INITIAL_CAPACITY ≤ d.capacity → DA_INITIAL_CAPACITY ≤ d1.capacity)) ∧
    (da_pop_item (some d) item a = (DA_SUCCESS, some d1, out) →
      d1.count = d.count - 1 ∧
      d1.capacity = (if d.count - 1 < d.capacity / 2
        then max (d.capacity / 2) 4 else d.capacity) ∧
      (DA_INITIAL_CAPACITY ≤ d.capacity → DA_INITIAL_CAPACITY ≤ d1.capacity)) := by
  have fin : ∀ d2 : dynamic_array, d2.count = d.count - 1 →
      d2.capacity = (if d.count - 1 < d.capacity / 2
        then max (d.capacity / 2) DA_INITIAL_CAPACITY else d.capacity) →
      d2.count = d.count - 1 ∧
      d2.capacity = (if d.count - 1 < d.capacity / 2
        then max (d.capacity / 2) 4 else d.capacity) ∧
      (DA_INITIAL_CAPACITY ≤ d.capacity → DA_INITIAL_CAPACITY ≤ d2.capacity) := by
    intro d2 hc hcap
    refine ⟨hc, hcap, ?_⟩
    intro h4
    rw [hcap]
    simp only [DA_INITIAL_CAPACITY] at h4 ⊢
    split <;> omega
  have key : ∀ (d2 : dynamic_array) (r : da_errors × Option dynamic_array),
      d2.count = d.count - 1 → d2.capacity = d.capacity →
      r = (if d2.count < d2.capacity / DA_RESIZE_FACTOR then
        (if (da_shrink (some d2) a).1 ≠ DA_SUCCESS
          then (DA_ERR_RESIZE, (da_shrink (some d2) a).2)
          else (DA_SUCCESS, (da_shrink (some d2) a).2))
        else (DA_SUCCESS, some d2)) →
      r.1 = DA_SUCCESS → r.2 = some d1 → d1.count = d.count - 1 ∧
        d1.capacity = (if d.count - 1 < d.capacity / 2
          then max (d.capacity / 2) 4 else d.capacity) ∧
        (DA_INITIAL_CAPACITY ≤ d.capacity → DA_INITIAL_CAPACITY ≤ d1.capacity) := by
    intro d2 r hc2 hcap2 hr hs h1
    obtain ⟨d3, h3, hc, -, hcap⟩ := shrink_step_capacity d2 a r hr hs
    rw [h1] at h3
    simp only [Option.some.injEq] at h3
    subst h3
    rw [hc2, hcap2] at hcap
    exact fin _ (hc.trans hc2) hcap
  constructor
  · intro h
    simp only [da_remove_item] at h
    by_cases hi : i ≥ d.count
    · rw [if_pos hi] at h
      simp at h
    · rw [if_neg hi] at h
      by_cases hu : d.items.isNone ∨ d.item_size = 0
      · rw [if_pos hu] at h
        simp at h
      · rw [if_neg hu] at h
        by_cases hne : i ≠ d.count - 1
        · rw [if_pos hne] at h
          exact key { d with
            items := memmove d.items (i * d.item_size) (i * d.item_size + d.item_size)
              ((d.count - i - 1) * d.item_size)
            count := d.count - 1 } _ rfl rfl rfl (congrArg Prod.fst h) (congrArg Prod.snd h)
        · rw [if_neg hne] at h
          exact key { d with count := d.count - 1 } _ rfl rfl rfl (congrArg Prod.fst h)
            (congrArg Prod.snd h)
  · intro h
    simp only [da_pop_item] at h
    by_cases hu : d.items.isNone ∨ d.item_size = 0
    · rw [if_pos hu] at h
      simp at h
    · rw [if_neg hu] at h
      by_cases hz : d.count = 0
      · rw [if_pos hz] at h
        simp at h
      · rw [if_neg hz] at h
        by_cases hg : (da_get_item (some d) (d.count - 1) item).1 ≠ DA_SUCCESS
        · rw [if_pos hg] at h
          exact absurd (congrArg Prod.fst h) hg
        · rw [if_neg hg] at h
          have hk := key { d with count := d.count - 1 } _ rfl rfl rfl
          split_ifs at h with h1 h2
          · exact absurd (congrArg Prod.fst h) (fun hh => da_errors.noConfusion hh)
          · rw [if_pos h1, if_neg h2] at hk
            exact hk rfl (congrArg (fun t => t.2.1) h)
          · rw [if_neg h1] at hk
            exact hk rfl (congrArg (fun t => t.2.1) h)

theorem shrink_policy_witness :
    da_remove_item (some example_wide) 1 (some [])
      = (DA_SUCCESS, some { example_wide with
        items := some (int_bytes 10 ++ int_bytes 30 ++ int_bytes 40 ++ int_bytes 40)
        count := 3, capacity := 4 }) ∧
    da_pop_item (some example_four) (some (int_bytes 0)) (some [])
      = (DA_SUCCESS, some { example_four with count := 3 }, some (int_bytes 40)) ∧
    (3 = example_wide.count - 1 ∧
      4 = (if example_wide.count - 1 < example_wide.capacity / 2
        then max (example_wide.capacity / 2) 4 else example_wide.capacity) ∧
      (DA_INITIAL_CAPACITY ≤ example_wide.capacity → DA_INITIAL_CAPACITY ≤ 4)) ∧
    (3 = example_four.count - 1 ∧
      4 = (if example_four.count - 1 < example_four.capacity / 2
        then max (example_four.capacity / 2) 4 else example_four.capacity) ∧
      (DA_INITIAL_CAPACITY ≤ example_four.capacity → DA_INITIAL_CAPACITY ≤ 4)) :=
  ⟨by decide, by decide,
    (shrink_policy example_wide 1 none (some []) { example_wide with
        items := some (int_bytes 10 ++ int_bytes 30 ++ int_bytes 40 ++ int_bytes 40)
        count := 3, capacity := 4 } none).1 (by decide),
    (shrink_policy example_four 0 (some (int_bytes 0)) (some [])
      { example_four with count := 3 } (some (int_bytes 40))).2 (by decide)⟩

end DynamicArray

/-! ## Release and initialisation of the buffer and of the stack -/

namespace Stacks

open Mem DynamicArray DynamicArray.da_errors stack_errors

/-- C15: `da_free` on any struct leaves storage absent and `count`, `capacity`
and `item_size` zero, and a second `da_free` changes nothing; on a missing
handle it does nothing.  The same holds for `stack_free`. -/
theorem release_is_idempotent (d : dynamic_array) (s : stack) :
    da_free (some d) = some { items := none, item_size := 0, count := 0, capacity := 0 } ∧
    da_free (da_free (some d)) = da_free (some d) ∧
    da_free none = none ∧
    stack_free (some s) = some { items := none, item_size := 0, count := 0, capacity := 0 } ∧
    stack_free (stack_free (some s)) = stack_free (some s) ∧
    stack_free none = none :=
  ⟨rfl, rfl, rfl, rfl, rfl, rfl⟩

/-- C16: on a released buffer only `da_push` and `da_pop_item` return
`DA_ERR_UNINIT`; `da_get_item`, `da_set_item`, `da_insert_item` and
`da_remove_item` test the index against `count = 0` first and return
`DA_ERR_INDEX` for every index.  All six leave the released state as it is. -/
theorem use_after_release (d : dynamic_array) (i : Nat) (x dst : List Byte) (a : AllocAnswer) :
    da_get_item (da_free (some d)) i (some dst) = (DA_ERR_INDEX, some dst) ∧
    da_set_item (da_free (some d)) i (some x) = (DA_ERR_INDEX, da_free (some d)) ∧
    da_insert_item (da_free (some d)) i (some x) a = (DA_ERR_INDEX, da_free (some d)) ∧
    da_remove_item (da_free (some d)) i a = (DA_ERR_INDEX, da_free (some d)) ∧
    da_push (da_free (some d)) (some x) a = (DA_ERR_UNINIT, da_free (some d)) ∧
    da_pop_item (da_free (some d)) (some dst) a = (DA_ERR_UNINIT, da_free (some d), some dst) ∧
    DA_ERR_INDEX.code ≠ DA_ERR_UNINIT.code := by
  refine ⟨?_, ?_, ?_, ?_, ?_, ?_, by decide⟩ <;>
    simp [da_free, da_get_item, da_set_item, da_insert_item, da_remove_item, da_push,
      da_pop_item]

/-- C17, as the claim states it, fails: with an allocator that returns a block
for `malloc(0)`, `da_init(da, 0)` and `stack_init(s, 0)` return success and
leave storage present. -/
theorem zero_size_init_succeeds :
    da_init (some example_blank) 0 (some [])
      = (DA_SUCCESS, some { items := some [], item_size := 0, count := 0, capacity := 4 }) ∧
    stack_init (some ⟨none, 0, 0, 0⟩) 0 (some [])
      = (STACK_SUCCESS, some { items := some [], item_size := 0, count := 0, capacity := 4 }) := by
  decide

/-- C17, amended: `da_init(da, 0)` and `stack_init(s, 0)` return success exactly
when the allocator returns a block, and then leave storage present with
`item_size = 0`, `count = 0` and `capacity = 4`; the zero element size is
rejected by the operations instead: on that struct `da_push` and `da_pop_item`
(`stack_push`, `stack_pop`) return the UNINIT code and change nothing. -/
theorem zero_size_rejected_at_use (d0 : dynamic_array) (s0 : stack) (a0 a : AllocAnswer)
    (x dst : List Byte) :
    (a0 = none ∧ (da_init (some d0) 0 a0).1 = DA_ERR_ALLOC ∧
      (stack_init (some s0) 0 a0).1 = STACK_ERR_ALLOC) ∨
    (a0 ≠ none ∧
      da_init (some d0) 0 a0
        = (DA_SUCCESS, some { items := some [], item_size := 0, count := 0, capacity := 4 }) ∧
      stack_init (some s0) 0 a0
        = (STACK_SUCCESS, some { items := some [], item_size := 0, count := 0, capacity := 4 }) ∧
      da_push (da_init (some d0) 0 a0).2 (some x) a
        = (DA_ERR_UNINIT, (da_init (some d0) 0 a0).2) ∧
      da_pop_item (da_init (some d0) 0 a0).2 (some dst) a
        = (DA_ERR_UNINIT, (da_init (some d0) 0 a0).2, some dst) ∧
      stack_push (stack_init (some s0) 0 a0).2 (some x) a
        = (STACK_ERR_UNINIT, (stack_init (some s0) 0 a0).2) ∧
      stack_pop (stack_init (some s0) 0 a0).2 (some dst) a
        = (STACK_ERR_UNINIT, (stack_init (some s0) 0 a0).2, some dst)) := by
  cases a0 with
  | none =>
    left
    simp [da_init, stack_init, malloc]
  | some junk =>
    right
    have hd : da_init (some d0) 0 (some junk)
        = (DA_SUCCESS, some { items := some [], item_size := 0, count := 0, capacity := 4 }) := by
      simp [da_init, malloc, freshBytes, DA_INITIAL_CAPACITY]
    have hs : stack_init (some s0) 0 (some junk)
        = (STACK_SUCCESS, some { items := some [], item_size := 0, count := 0, capacity := 4 }) := by
      simp [stack_init, malloc, freshBytes, STACK_INITIAL_CAPACITY]
    refine ⟨by simp, hd, hs, ?_, ?_, ?_, ?_⟩
    · rw [hd]
      simp [da_push]
    · rw [hd]
      simp [da_pop_item]
    · rw [hs]
      simp [stack_push]
    · rw [hs]
      simp [stack_pop]

/-- C18: when the allocation in `da_init` fails, the call returns
`DA_ERR_ALLOC` with storage absent and `capacity = 0`, but `item_size` is the
size asked for and `count` keeps whatever value the struct held before the
call; on `example_stale` that is `item_size = 4` and `count = 99`. -/
theorem failed_init_keeps_count (d0 : dynamic_array) (size : Nat) :
    da_init (some d0) size none
      = (DA_ERR_ALLOC,
        some { items := none, item_size := size, count := d0.count, capacity := 0 }) ∧
    da_init (some example_stale) 4 none
      = (DA_ERR_ALLOC, some { items := none, item_size := 4, count := 99, capacity := 0 }) := by
  constructor
  · simp [da_init, malloc]
  · decide

end Stacks

/-! ## Runs of pushes and pops -/

namespace DynamicArray

open Mem da_errors

/-- A run of `da_push` calls whose allocations succeed keeps the capacity
tight: it is the initial capacity or at most twice the count. -/
theorem push_all_tight (xs : List (List Byte × List Byte)) (d : dynamic_array)
    (h : initialised d) (hsz : 0 < d.item_size) (hx : ∀ p ∈ xs, p.1.length = d.item_size)
    (hJ : d.capacity = 4 ∨ d.capacity / 2 ≤ d.count) :
    ∃ d1, push_all xs (some d) = some d1 ∧ (d1.capacity = 4 ∨ d1.capacity / 2 ≤ d1.count) := by
  induction xs generalizing d with
  | nil => exact ⟨d, rfl, hJ⟩
  | cons p xs ih =>
    rcases da_push_spec d p.1 (some p.2) h hsz (hx p (List.mem_cons_self _ _)) with
      ⟨-, ha, -⟩ | ⟨-, d1, he, hi1, hs1, hc1, hcap1, -⟩
    · exact absurd ha (by simp)
    · have hJ1 : d1.capacity = 4 ∨ d1.capacity / 2 ≤ d1.count := by
        rw [hcap1, hc1]
        split <;> omega
      obtain ⟨d2, h2, hJ2⟩ := ih d1 hi1 (by omega)
        (fun q hq => by rw [hs1]; exact hx q (List.mem_cons_of_mem _ hq)) hJ1
      refine ⟨d2, ?_, hJ2⟩
      simp only [push_all, List.foldl_cons] at h2 ⊢
      rw [he]
      exact h2

theorem eq_take_append_last {α : Type} (l : List α) (n : Nat) (v : α)
    (hl : l.length = n + 1) (hv : l[n]? = some v) : l = l.take n ++ [v] := by
  apply List.ext_getElem?
  intro k
  by_cases hk : k < n
  · rw [List.getElem?_append_left (by simp; omega), List.getElem?_take_of_lt hk]
  · rw [List.getElem?_append_right (by simp; omega)]
    have hlen : (l.take n).length = n := by simp; omega
    rw [hlen]
    by_cases hk2 : k = n
    · subst hk2
      simp [hv]
    · have : k - n = (k - n - 1) + 1 := by omega
      rw [this, List.getElem?_cons_succ]
      simp
      omega

/-- As many `da_pop_item` calls as there are live elements, every reallocation
succeeding, all return `DA_SUCCESS` and yield the live sequence last element
first; they end with `count = 0` and, from a tight capacity, with the initial
capacity. -/
theorem pop_all_spec (ps : List (List Byte × List Byte)) (d : dynamic_array)
    (h : initialised d) (hsz : 0 < d.item_size) (hn : ps.length = d.count)
    (hJ : d.capacity = 4 ∨ d.capacity / 2 ≤ d.count) :
    ∃ d2, (pop_all ps (some d)).2 = some d2 ∧
      (pop_all ps (some d)).1.map (fun o => (o.1, o.2.take d.item_size))
        = (live d).reverse.map (fun v => (DA_SUCCESS, v)) ∧
      d2.count = 0 ∧ d2.capacity = 4 := by
  induction ps generalizing d with
  | nil =>
    have h4 := initialised_cap d h
    have hc : d.count = 0 := hn.symm
    refine ⟨d, rfl, ?_, hc, by omega⟩
    unfold live slots
    rw [hc]
    rfl
  | cons p ps ih =>
    have hpos : 0 < d.count := by rw [← hn]; simp
    obtain ⟨d1, out, he, hi1, hs1, hc1, hcap1, hl1, hout⟩ :=
      da_pop_item_spec d p.1 (some p.2) h hsz hpos
    rw [if_neg (fun hh => by simp at hh)] at he
    have hJ1 : d1.capacity = 4 ∨ d1.capacity / 2 ≤ d1.count := by
      rw [hcap1, hc1]
      have h4 := initialised_cap d h
      simp only [DA_INITIAL_CAPACITY]
      by_cases hlt : d.count - 1 < d.capacity / 2
      · rw [if_pos ⟨hlt, by simp⟩]
        omega
      · rw [if_neg (fun hh => hlt hh.1)]
        omega
    obtain ⟨d2, h2, ho2, hc2, hcap2⟩ := ih d1 hi1 (by omega)
      (by rw [hc1]; simp at hn; omega) hJ1
    have hlive : live d = (live d).take (d.count - 1) ++ [out.take d.item_size] :=
      eq_take_append_last _ _ _ (by unfold live; rw [length_slots]; omega) hout
    refine ⟨d2, ?_, ?_, hc2, hcap2⟩
    · simp only [pop_all, he]
      exact h2
    · simp only [pop_all, he, List.map_cons, Option.getD_some]
      rw [hs1, hl1] at ho2
      rw [ho2]
      conv_rhs => rw [hlive]
      simp

end DynamicArray

/-! ## The stack as a view of the buffer -/

namespace Stacks

open Mem DynamicArray DynamicArray.da_errors stack_errors

theorem stack_init_eq (s : stack) (size : Nat) (a : AllocAnswer) :
    stack_init (some s) size a =
      (stack_error_of (da_init (some (da_of_stack s)) size a).1,
        (da_init (some (da_of_stack s)) size a).2.map stack_of_da) := by
  cases a <;> rfl

theorem stack_expand_eq (s : stack) (a : AllocAnswer) :
    stack_expand (some s) a =
      (stack_error_of (da_expand (some (da_of_stack s)) a).1,
        (da_expand (some (da_of_stack s)) a).2.map stack_of_da) := by
  obtain ⟨items, sz, c, cap⟩ := s
  cases items <;> cases a <;> rfl

theorem stack_shrink_eq (s : stack) (a : AllocAnswer) :
    stack_shrink (some s) a =
      (stack_error_of (da_shrink (some (da_of_stack s)) a).1,
        (da_shrink (some (da_of_stack s)) a).2.map stack_of_da) := by
  obtain ⟨items, sz, c, cap⟩ := s
  cases items <;> cases a <;> rfl

/-- The function `stack_push` is `da_push` on the same fields, with the
enumerator of the same value as result. -/
theorem stack_push_eq (s : Option stack) (item : Option (List Byte)) (a : AllocAnswer) :
    stack_push s item a =
      (stack_error_of (da_push (s.map da_of_stack) item a).1,
        (da_push (s.map da_of_stack) item a).2.map stack_of_da) := by
  cases s with
  | none => rfl
  | some s =>
    cases item with
    | none => rfl
    | some x =>
      simp only [stack_push, da_push, Option.map_some']
      by_cases hu : s.items.isNone ∨ s.item_size = 0
      · have hu2 : (da_of_stack s).items.isNone ∨ (da_of_stack s).item_size = 0 := hu
        rw [if_pos hu, if_pos hu2]
        rfl
      · have hu2 : ¬ ((da_of_stack s).items.isNone ∨ (da_of_stack s).item_size = 0) := hu
        rw [if_neg hu, if_neg hu2]
        by_cases hfull : s.count = s.capacity
        · have hfull2 : (da_of_stack s).count = (da_of_stack s).capacity := hfull
          rw [if_pos hfull, if_pos hfull2, stack_expand_eq]
          generalize da_expand (some (da_of_stack s)) a = r
          obtain ⟨c, r2⟩ := r
          cases c <;> cases r2 <;> rfl
        · have hfull2 : ¬ (da_of_stack s).count = (da_of_stack s).capacity := hfull
          rw [if_neg hfull, if_neg hfull2]
          rfl

/-- The function `stack_pop` with a present destination is `da_pop_item` on
the same fields, with the enumerator of the same value as result. -/
theorem stack_pop_eq (s : Option stack) (dst : List Byte) (a : AllocAnswer) :
    stack_pop s (some dst) a =
      (stack_error_of (da_pop_item (s.map da_of_stack) (some dst) a).1,
        (da_pop_item (s.map da_of_stack) (some dst) a).2.1.map stack_of_da,
        (da_pop_item (s.map da_of_stack) (some dst) a).2.2) := by
  cases s with
  | none => rfl
  | some s =>
    obtain ⟨items, sz, c, cap⟩ := s
    cases items with
    | none => rfl
    | some mem =>
      simp only [stack_pop, da_pop_item, Option.map_some', da_of_stack, Option.isNone_some,
        Bool.false_eq_true, false_or]
      by_cases hsz : sz = 0
      · rw [if_pos hsz, if_pos hsz]
        rfl
      · rw [if_neg hsz, if_neg hsz]
        by_cases hc : c = 0
        · rw [if_pos hc, if_pos hc]
          rfl
        · rw [if_neg hc, if_neg hc]
          have hlt : ¬ c - 1 ≥ c := by omega
          have hg : da_get_item (some ⟨some mem, sz, c, cap⟩) (c - 1) (some dst)
              = (DA_SUCCESS, some (memcpy_out dst mem ((c - 1) * sz) sz)) := by
            simp only [da_get_item, if_neg hlt]
          rw [hg, stack_shrink_eq]
          simp only [ne_eq, not_true_eq_false, if_false, da_of_stack]
          by_cases hs : c - 1 < cap / STACK_RESIZE_FACTOR
          · have hs2 : c - 1 < cap / DA_RESIZE_FACTOR := hs
            rw [if_pos hs, if_pos hs2]
            generalize da_shrink (some ⟨some mem, sz, c - 1, cap⟩) a = r
            obtain ⟨e, r2⟩ := r
            cases e <;> cases r2 <;> rfl
          · have hs2 : ¬ c - 1 < cap / DA_RESIZE_FACTOR := hs
            rw [if_neg hs, if_neg hs2]
            rfl

theorem stack_push_all_eq (xs : List (List Byte × List Byte)) (s : Option stack) :
    stack_push_all xs s = (push_all xs (s.map da_of_stack)).map stack_of_da := by
  induction xs generalizing s with
  | nil => cases s <;> rfl
  | cons p xs ih =>
    simp only [stack_push_all, push_all, List.foldl_cons] at ih ⊢
    rw [ih, stack_push_eq]
    congr 2
    cases (da_push (Option.map da_of_stack s) (some p.1) (some p.2)).2 <;> rfl

theorem stack_pop_all_eq (ps : List (List Byte × List Byte)) (s : Option stack) :
    stack_pop_all ps s =
      ((pop_all ps (s.map da_of_stack)).1.map (fun o => (stack_error_of o.1, o.2)),
        (pop_all ps (s.map da_of_stack)).2.map stack_of_da) := by
  induction ps generalizing s with
  | nil => cases s <;> rfl
  | cons p ps ih =>
    simp only [stack_pop_all, pop_all, List.map_cons]
    rw [ih, stack_pop_eq]
    have e : Option.map da_of_stack
        (Option.map stack_of_da (da_pop_item (Option.map da_of_stack s) (some p.1) (some p.2)).2.1)
        = (da_pop_item (Option.map da_of_stack s) (some p.1) (some p.2)).2.1 := by
      cases (da_pop_item (Option.map da_of_stack s) (some p.1) (some p.2)).2.1 <;> rfl
    simp only [e]

end Stacks

namespace Stacks

open Mem DynamicArray DynamicArray.da_errors stack_errors

theorem stack_error_of_success (c : da_errors) (h : stack_error_of c = STACK_SUCCESS) :
    c = DA_SUCCESS := by
  cases c <;> first | rfl | exact absurd h (by decide)

/-- C19: after a successful `stack_init` with `item_size > 0` and `stack_push`
of `x1 .. xn` (items of `item_size` bytes), `n` calls of `stack_pop`, every
allocation succeeding, all return `STACK_SUCCESS` and copy `xn, .., x1` in that
order into the destination; the stack ends with `count = 0` and
`capacity = 4`. -/
theorem stack_is_lifo (s0 : stack) (size : Nat) (a0 : AllocAnswer) (s : stack)
    (xs ps : List (List Byte × List Byte))
    (h : stack_init (some s0) size a0 = (STACK_SUCCESS, some s)) (hsz : 0 < size)
    (hx : ∀ p ∈ xs, p.1.length = size) (hn : ps.length = xs.length) :
    ∃ s1 s2, stack_push_all xs (some s) = some s1 ∧ s1.count = xs.length ∧
      (stack_pop_all ps (some s1)).2 = some s2 ∧
      (stack_pop_all ps (some s1)).1.map (fun o => (o.1, o.2.take size))
        = xs.reverse.map (fun p => (STACK_SUCCESS, p.1)) ∧
      s2.count = 0 ∧ s2.capacity = 4 := by
  rw [stack_init_eq] at h
  have hc := stack_error_of_success _ (congrArg Prod.fst h)
  have hr := congrArg Prod.snd h
  simp only at hr
  cases hd : (da_init (some (da_of_stack s0)) size a0).2 with
  | none => rw [hd] at hr; simp at hr
  | some d =>
    rw [hd] at hr
    simp only [Option.map_some', Option.some.injEq] at hr
    subst hr
    have hinit : da_init (some (da_of_stack s0)) size a0 = (DA_SUCCESS, some d) := by
      rw [← hc, ← hd]
    obtain ⟨hi, hs, hcnt, hcap⟩ := da_init_spec _ size a0 d hinit
    obtain ⟨d1, h1, hi1, hs1, hc1, hl1⟩ := push_all_spec xs d hi (by omega)
      (fun p hp => by rw [hs]; exact hx p hp)
    obtain ⟨d1b, h1b, hJ1⟩ := push_all_tight xs d hi (by omega)
      (fun p hp => by rw [hs]; exact hx p hp) (Or.inl hcap)
    rw [h1] at h1b
    simp only [Option.some.injEq] at h1b
    subst h1b
    obtain ⟨d2, h2, ho2, hc2, hcap2⟩ := pop_all_spec ps d1 hi1 (by omega) (by omega) hJ1
    have hl0 : live d = [] := by
      unfold live slots
      rw [hcnt]
      rfl
    refine ⟨stack_of_da d1, stack_of_da d2, ?_, ?_, ?_, ?_, hc2, hcap2⟩
    · rw [stack_push_all_eq]
      show Option.map stack_of_da (push_all xs (some d)) = _
      rw [h1]
      rfl
    · show d1.count = xs.length
      omega
    · rw [stack_pop_all_eq]
      show Option.map stack_of_da (pop_all ps (some d1)).2 = _
      rw [h2]
      rfl
    · rw [stack_pop_all_eq]
      show List.map _ (List.map _ (pop_all ps (some d1)).1) = _
      rw [hs1, hs, hl1, hl0, List.nil_append] at ho2
      have := congrArg (List.map (fun o : da_errors × List Byte => (stack_error_of o.1, o.2))) ho2
      simp only [List.map_map, List.map_reverse] at this ⊢
      exact this

theorem stack_is_lifo_witness :
    stack_init (some example_stack_blank) 4 (some [])
      = (STACK_SUCCESS, some example_stack_empty) ∧ 0 < 4 ∧
    (∀ p ∈ [(int_bytes 1, []), (int_bytes 2, []), (int_bytes 3, []), (int_bytes 4, []),
      (int_bytes 5, ([] : List Byte))], p.1.length = 4) ∧
    (stack_push_all [(int_bytes 1, []), (int_bytes 2, []), (int_bytes 3, []), (int_bytes 4, [])]
      (some example_stack_empty)).map (fun s => s.capacity) = some 4 ∧
    (stack_push_all [(int_bytes 1, []), (int_bytes 2, []), (int_bytes 3, []), (int_bytes 4, []),
      (int_bytes 5, [])] (some example_stack_empty)).map (fun s => s.capacity) = some 8 ∧
    (stack_pop_all (List.replicate 5 (int_bytes 0, []))
      (stack_push_all [(int_bytes 1, []), (int_bytes 2, []), (int_bytes 3, []),
        (int_bytes 4, []), (int_bytes 5, [])] (some example_stack_empty))).1
      = [(STACK_SUCCESS, int_bytes 5), (STACK_SUCCESS, int_bytes 4),
        (STACK_SUCCESS, int_bytes 3), (STACK_SUCCESS, int_bytes 2),
        (STACK_SUCCESS, int_bytes 1)] ∧
    ∃ s1 s2, stack_push_all [(int_bytes 1, []), (int_bytes 2, []), (int_bytes 3, []),
        (int_bytes 4, []), (int_bytes 5, [])] (some example_stack_empty) = some s1 ∧
      s1.count = 5 ∧
      (stack_pop_all (List.replicate 5 (int_bytes 0, [])) (some s1)).2 = some s2 ∧
      (stack_pop_all (List.replicate 5 (int_bytes 0, [])) (some s1)).1.map
          (fun o => (o.1, o.2.take 4))
        = [(int_bytes 1, []), (int_bytes 2, []), (int_bytes 3, []), (int_bytes 4, []),
          (int_bytes 5, ([] : List Byte))].reverse.map (fun p => (STACK_SUCCESS, p.1)) ∧
      s2.count = 0 ∧ s2.capacity = 4 :=
  ⟨by decide, by decide, by decide, by decide, by decide, by decide,
    stack_is_lifo example_stack_blank 4 (some []) example_stack_empty _ _ (by decide)
      (by decide) (by decide) (by decide)⟩

end Stacks

/-! ## The array queue -/

namespace Mem

theorem slots_store_append (mem : List Byte) (sz c : Nat) (x : List Byte)
    (hlen : c * sz + sz ≤ mem.length) (hx : x.length = sz) :
    slots (writeBytes mem (c * sz) x) sz (c + 1) = slots mem sz c ++ [x] := by
  apply List.ext_getElem?
  intro k
  rw [getElem?_slots]
  by_cases h1 : k < c
  · rw [if_pos (by omega), List.getElem?_append_left (by rw [length_slots]; exact h1),
      getElem?_slots, if_pos h1, slotAt_store_below _ _ _ _ _ (by omega) h1]
  · rw [List.getElem?_append_right (by rw [length_slots]; omega), length_slots]
    by_cases h2 : k = c
    · subst h2
      rw [if_pos (by omega), slotAt_store_same _ _ _ _ (by omega) hx]
      simp
    · rw [if_neg (by omega)]
      have : k - c = (k - c - 1) + 1 := by omega
      rw [this]
      simp

theorem slots_realloc (old : List Byte) (size : Nat) (a : AllocAnswer) (new : List Byte)
    (h : realloc old size a = some new) (sz c : Nat) (h1 : c * sz ≤ size)
    (h2 : c * sz ≤ old.length) : slots new sz c = slots old sz c := by
  apply slots_congr
  intro k hk
  have := slot_end_le sz hk
  exact slotAt_realloc old size a new h sz k (by omega) (by omega)

theorem slots_move_front (mem : List Byte) (sz c : Nat) (hc : 0 < c)
    (hlen : c * sz ≤ mem.length) :
    slots (writeBytes mem 0 (readBytes mem sz (sz * (c - 1)))) sz (c - 1)
      = (slots mem sz c).drop 1 := by
  have e : writeBytes mem 0 (readBytes mem sz (sz * (c - 1)))
      = writeBytes mem (0 * sz) (readBytes mem (0 * sz + sz) ((c - 0 - 1) * sz)) := by
    rw [Nat.zero_mul, Nat.zero_add, Nat.sub_zero, Nat.mul_comm]
  rw [e]
  apply List.ext_getElem?
  intro k
  rw [getElem?_slots, List.getElem?_drop, getElem?_slots]
  by_cases hk : k < c - 1
  · rw [if_pos hk, if_pos (by omega),
      slotAt_move_down_high _ _ _ _ _ hlen (Nat.zero_le _) (by omega), Nat.add_comm]
  · rw [if_neg hk, if_neg (by omega)]

end Mem

namespace ArrayQueue

open Mem

theorem uint_range_eq : UINT_RANGE = 4294967296 := by
  unfold UINT_RANGE
  norm_num

/-- The store at the end of `queue_enqueue`, on a block with a free slot. -/
theorem enqueue_store (d : queue) (mem x : List Byte) (hm : d.items = some mem)
    (hlen : mem.length = d.item_size * d.capacity) (hc : d.count < d.capacity)
    (h4 : QUEUE_INITIAL_CAPACITY ≤ d.capacity) (hx : x.length = d.item_size)
    (hb : d.count < 2 ^ 31) :
    ∃ q1, (match memcpy_into_checked d.items (d.count * d.item_size) x d.item_size with
        | none => outcome.undefined
        | some m => outcome.returned
            { d with items := some m, count := (d.count + 1) % UINT_RANGE }) = .returned q1 ∧
      well_formed q1 ∧ q1.item_size = d.item_size ∧ q1.count = d.count + 1 ∧
      q1.capacity = d.capacity ∧
      live q1 = slots mem d.item_size d.count ++ [x] := by
  have hk := slot_end_le d.item_size hc
  have e : d.item_size * d.capacity = d.capacity * d.item_size := Nat.mul_comm _ _
  have hx2 : x.take d.item_size = x := by rw [← hx]; exact List.take_length x
  have hmod : (d.count + 1) % UINT_RANGE = d.count + 1 := by
    rw [uint_range_eq]
    apply Nat.mod_eq_of_lt
    norm_num at hb
    omega
  refine ⟨{ d with
    items := some (writeBytes mem (d.count * d.item_size) x)
    count := d.count + 1 }, ?_, ?_, rfl, rfl, rfl, ?_⟩
  · simp only [hm, memcpy_into_checked, hx2, hmod]
    rw [if_pos (by omega)]
  · right
    refine ⟨_, rfl, ?_, ?_, h4⟩
    · rw [length_writeBytes _ _ _ (by omega)]
      exact hlen
    · show d.count + 1 ≤ d.capacity
      omega
  · exact slots_store_append mem d.item_size d.count x (by omega) hx

end ArrayQueue

namespace ArrayQueue

open Mem

/-- The function `queue_enqueue` on a queue in working order with fewer than
`2 ^ 31` elements, an item of `item_size` bytes and an allocator that grants
what it is asked: the call returns, and the item is the new last element. -/
theorem queue_enqueue_spec (q : queue) (x j1 j2 : List Byte) (h : well_formed q)
    (hsz : 0 < q.item_size) (hx : x.length = q.item_size) (hb : q.count < 2 ^ 31) :
    ∃ q1, queue_enqueue (some q) (some x) (some j1) (some j2) = .returned q1 ∧
      well_formed q1 ∧ q1.item_size = q.item_size ∧ q1.count = q.count + 1 ∧
      q1.capacity = (if q.capacity = 0 then 4
        else if q.count = q.capacity then 2 * q.capacity else q.capacity) ∧
      live q1 = live q ++ [x] := by
  have hsz2 : q.item_size ≠ 0 := by omega
  rcases h with ⟨hm, hc, hcap⟩ | ⟨mem, hm, hlen, hc, h4⟩
  · -- first enqueue: the block is allocated
    obtain ⟨q1, he, hw1, hs1, hc1, hcap1, hl1⟩ := enqueue_store
      { q with capacity := QUEUE_INITIAL_CAPACITY,
               items := some (freshBytes j1 (q.item_size * QUEUE_INITIAL_CAPACITY)) }
      (freshBytes j1 (q.item_size * QUEUE_INITIAL_CAPACITY)) x rfl (by simp [freshBytes])
      (by show q.count < QUEUE_INITIAL_CAPACITY; rw [hc]; decide) (Nat.le_refl _) hx hb
    refine ⟨q1, ?_, hw1, hs1, hc1, ?_, ?_⟩
    · rw [← he]
      simp only [queue_enqueue, if_neg hsz2, if_pos hcap, malloc]
      have hne : ¬ q.count = QUEUE_INITIAL_CAPACITY := by rw [hc]; decide
      simp only [if_neg hne]
    · rw [hcap1, if_pos hcap]
      rfl
    · rw [hl1]
      unfold live
      rw [hc]
      rfl
  · simp only [QUEUE_INITIAL_CAPACITY] at h4
    have hcap : q.capacity ≠ 0 := by omega
    by_cases hfull : q.count = q.capacity
    · have hmod : (q.capacity * QUEUE_RESIZE_FACTOR) % UINT_RANGE = q.capacity * 2 := by
        rw [uint_range_eq]
        apply Nat.mod_eq_of_lt
        norm_num at hb
        simp only [QUEUE_RESIZE_FACTOR]
        omega
      have hr : realloc mem (q.item_size * (q.capacity * 2)) (some j2)
          = some (mem.take (q.item_size * (q.capacity * 2)) ++
            freshBytes j2 (q.item_size * (q.capacity * 2) - mem.length)) := rfl
      have e2 : q.item_size * (q.capacity * 2)
          = q.item_size * q.capacity + q.item_size * q.capacity := by
        rw [Nat.mul_two, Nat.mul_add]
      have e : q.item_size * q.capacity = q.capacity * q.item_size := Nat.mul_comm _ _
      have hcm := Nat.mul_le_mul_right q.item_size hc
      obtain ⟨q1, he, hw1, hs1, hc1, hcap1, hl1⟩ := enqueue_store
        { q with items := some (mem.take (q.item_size * (q.capacity * 2)) ++
                   freshBytes j2 (q.item_size * (q.capacity * 2) - mem.length)),
                 capacity := q.capacity * 2 }
        _ x rfl (length_realloc mem _ (some j2) _ hr)
        (by show q.count < q.capacity * 2; omega)
        (by show 4 ≤ q.capacity * 2; omega) hx hb
      refine ⟨q1, ?_, hw1, hs1, hc1, ?_, ?_⟩
      · rw [← he]
        simp only [queue_enqueue, if_neg hsz2, if_neg hcap, if_pos hfull, hmod, hm,
          realloc_ptr, hr]
      · rw [hcap1, if_neg hcap, if_pos hfull]
        exact Nat.mul_comm _ _
      · rw [hl1]
        unfold live
        rw [hm]
        simp only [Option.getD_some]
        congr 1
        exact slots_realloc mem _ (some j2) _ hr _ _ (by omega) (by omega)
    · obtain ⟨q1, he, hw1, hs1, hc1, hcap1, hl1⟩ := enqueue_store q mem x hm hlen
        (by omega) h4 hx hb
      refine ⟨q1, ?_, hw1, hs1, hc1, ?_, ?_⟩
      · rw [← he]
        simp only [queue_enqueue, if_neg hsz2, if_neg hcap, if_neg hfull]
      · rw [hcap1, if_neg hcap, if_neg hfull]
      · rw [hl1]
        unfold live
        rw [hm]
        rfl

end ArrayQueue

namespace ArrayQueue

open Mem

/-- The function `queue_dequeue` on a non-empty queue in working order, with an
allocator that grants what it is asked: the call returns, the destination
holds the element at position 0, and every other element is one position
nearer the front. -/
theorem queue_dequeue_spec (q : queue) (dst junk : List Byte) (h : well_formed q)
    (hsz : 0 < q.item_size) (hpos : 0 < q.count) :
    ∃ q1 out, queue_dequeue (some q) (some dst) (some junk) = .returned (q1, out) ∧
      well_formed q1 ∧ q1.item_size = q.item_size ∧ q1.count = q.count - 1 ∧
      (live q)[0]? = some (out.take q.item_size) ∧ live q1 = (live q).drop 1 := by
  have hsz2 : q.item_size ≠ 0 := by omega
  have hpos2 : q.count ≠ 0 := by omega
  rcases h with ⟨-, hc, -⟩ | ⟨mem, hm, hlen, hc, h4⟩
  · omega
  simp only [QUEUE_INITIAL_CAPACITY] at h4
  have e : q.item_size * q.capacity = q.capacity * q.item_size := Nat.mul_comm _ _
  have hcm := Nat.mul_le_mul_right q.item_size hc
  have h1 := slot_end_le q.item_size hpos
  rw [Nat.zero_mul, Nat.zero_add] at h1
  have e3 : q.item_size * (q.count - 1) + q.item_size = q.count * q.item_size := by
    rw [Nat.mul_comm q.item_size, ← Nat.succ_mul]
    congr 1
    omega
  have hout : memcpy_out_checked dst q.items 0 q.item_size
      = some (memcpy_out dst mem 0 q.item_size) := by
    simp only [memcpy_out_checked, hm]
    rw [if_pos (by omega)]
  have hmove : memmove_checked q.items 0 q.item_size (q.item_size * (q.count - 1))
      = some (writeBytes mem 0 (readBytes mem q.item_size (q.item_size * (q.count - 1)))) := by
    simp only [memmove_checked, hm]
    rw [if_pos ⟨by omega, by omega⟩]
  have hrl : (readBytes mem q.item_size (q.item_size * (q.count - 1))).length
      = q.item_size * (q.count - 1) := length_readBytes _ _ _ (by omega)
  have hml : (writeBytes mem 0 (readBytes mem q.item_size (q.item_size * (q.count - 1)))).length
      = mem.length := length_writeBytes _ _ _ (by omega)
  have hfront : (live q)[0]? = some ((memcpy_out dst mem 0 q.item_size).take q.item_size) := by
    rw [take_memcpy_out _ _ _ _ (by omega)]
    unfold live
    rw [getElem?_slots, if_pos hpos, hm]
    simp only [Option.getD_some, slotAt, Nat.zero_mul]
  have hrest : slots (writeBytes mem 0 (readBytes mem q.item_size
      (q.item_size * (q.count - 1)))) q.item_size (q.count - 1) = (live q).drop 1 := by
    unfold live
    rw [hm]
    exact slots_move_front mem q.item_size q.count hpos (by omega)
  by_cases hlt : q.count - 1 < q.capacity / QUEUE_RESIZE_FACTOR
  · by_cases hsmall : q.capacity / QUEUE_RESIZE_FACTOR < QUEUE_INITIAL_CAPACITY
    · refine ⟨{ q with
        count := q.count - 1
        items := some (writeBytes mem 0 (readBytes mem q.item_size
          (q.item_size * (q.count - 1)))) }, _, ?_, ?_, rfl, rfl, hfront, hrest⟩
      · simp only [queue_dequeue, hsz2, hpos2, or_self, if_false, hout, hmove, if_pos hlt,
          if_pos hsmall]
      · right
        exact ⟨_, rfl, hml.trans hlen, by show q.count - 1 ≤ q.capacity; omega, h4⟩
    · simp only [QUEUE_RESIZE_FACTOR, QUEUE_INITIAL_CAPACITY] at hlt hsmall
      have hr : realloc (writeBytes mem 0 (readBytes mem q.item_size
          (q.item_size * (q.count - 1)))) (q.capacity / 2 * q.item_size) (some junk)
          = some ((writeBytes mem 0 (readBytes mem q.item_size
              (q.item_size * (q.count - 1)))).take (q.capacity / 2 * q.item_size) ++
            freshBytes junk (q.capacity / 2 * q.item_size - (writeBytes mem 0 (readBytes mem
              q.item_size (q.item_size * (q.count - 1)))).length)) := rfl
      have hhalf := Nat.mul_le_mul_right q.item_size (show q.count - 1 ≤ q.capacity / 2 by omega)
      have hhalf2 := Nat.mul_le_mul_right q.item_size (show q.capacity / 2 ≤ q.capacity by omega)
      have hcm1 := Nat.mul_le_mul_right q.item_size (show q.count - 1 ≤ q.capacity by omega)
      refine ⟨{ q with
        count := q.count - 1
        items := some ((writeBytes mem 0 (readBytes mem q.item_size
              (q.item_size * (q.count - 1)))).take (q.capacity / 2 * q.item_size) ++
            freshBytes junk (q.capacity / 2 * q.item_size - (writeBytes mem 0 (readBytes mem
              q.item_size (q.item_size * (q.count - 1)))).length))
        capacity := q.capacity / 2 }, _, ?_, ?_, rfl, rfl, hfront, ?_⟩
      · have hlt2 : q.count - 1 < q.capacity / QUEUE_RESIZE_FACTOR := hlt
        have hsmall2 : ¬ q.capacity / QUEUE_RESIZE_FACTOR < QUEUE_INITIAL_CAPACITY := hsmall
        simp only [queue_dequeue, hsz2, hpos2, or_self, if_false, hout, hmove, if_pos hlt2,
          if_neg hsmall2]
        simp only [QUEUE_RESIZE_FACTOR, hr]
      · right
        refine ⟨_, rfl, ?_, ?_, ?_⟩
        · rw [length_realloc _ _ (some junk) _ hr]
          exact Nat.mul_comm _ _
        · show q.count - 1 ≤ q.capacity / 2
          omega
        · show QUEUE_INITIAL_CAPACITY ≤ q.capacity / 2
          simp only [QUEUE_INITIAL_CAPACITY]
          omega
      · rw [← hrest]
        unfold live
        simp only [Option.getD_some]
        exact slots_realloc _ _ (some junk) _ hr _ _ hhalf (by omega)
  · refine ⟨{ q with
      count := q.count - 1
      items := some (writeBytes mem 0 (readBytes mem q.item_size
        (q.item_size * (q.count - 1)))) }, _, ?_, ?_, rfl, rfl, hfront, hrest⟩
    · simp only [queue_dequeue, hsz2, hpos2, or_self, if_false, hout, hmove, if_neg hlt]
    · right
      exact ⟨_, rfl, hml.trans hlen, by show q.count - 1 ≤ q.capacity; omega, h4⟩

end ArrayQueue

namespace ArrayQueue

open Mem

theorem queue_enqueue_all_append (xs ys : List (List Byte × List Byte)) (o : outcome queue) :
    queue_enqueue_all (xs ++ ys) o = queue_enqueue_all ys (queue_enqueue_all xs o) := by
  induction xs generalizing o with
  | nil => rfl
  | cons p xs ih =>
    cases o with
    | returned q => exact ih _
    | exited status => cases ys <;> rfl
    | undefined => cases ys <;> rfl

/-- A run of `queue_enqueue` calls that brings the count to at most `2 ^ 31`,
the allocator granting what it is asked: every call returns, the items join
the live sequence in order, and the capacity stays `4 * 2 ^ k`, the least such
value that holds the count. -/
theorem queue_enqueue_all_spec (xs : List (List Byte × List Byte)) (q : queue)
    (h : well_formed q) (hsz : 0 < q.item_size) (hx : ∀ p ∈ xs, p.1.length = q.item_size)
    (hb : q.count + xs.length ≤ 2 ^ 31)
    (hT : (q.capacity = 0 ∧ q.count = 0) ∨
      ∃ k, q.capacity = 4 * 2 ^ k ∧ (k = 0 ∨ q.capacity / 2 < q.count)) :
    ∃ q1, queue_enqueue_all xs (.returned q) = .returned q1 ∧ well_formed q1 ∧
      q1.item_size = q.item_size ∧ q1.count = q.count + xs.length ∧
      live q1 = live q ++ xs.map Prod.fst ∧
      ((q1.capacity = 0 ∧ q1.count = 0) ∨
        ∃ k, q1.capacity = 4 * 2 ^ k ∧ (k = 0 ∨ q1.capacity / 2 < q1.count)) := by
  induction xs generalizing q with
  | nil => exact ⟨q, rfl, h, rfl, rfl, by simp, hT⟩
  | cons p xs ih =>
    simp only [List.length_cons] at hb
    obtain ⟨q1, he, hw1, hs1, hc1, hcap1, hl1⟩ := queue_enqueue_spec q p.1 p.2 p.2 h hsz
      (hx p (List.mem_cons_self _ _)) (by omega)
    have hT1 : (q1.capacity = 0 ∧ q1.count = 0) ∨
        ∃ k, q1.capacity = 4 * 2 ^ k ∧ (k = 0 ∨ q1.capacity / 2 < q1.count) := by
      right
      rcases hT with ⟨hz, -⟩ | ⟨k, hk, ht⟩
      · exact ⟨0, by rw [hcap1, if_pos hz]; rfl, Or.inl rfl⟩
      · have hpow : 0 < 2 ^ k := Nat.pow_pos (by decide)
        have hne : q.capacity ≠ 0 := by omega
        rw [if_neg hne] at hcap1
        by_cases hfull : q.count = q.capacity
        · rw [if_pos hfull] at hcap1
          refine ⟨k + 1, ?_, Or.inr ?_⟩
          · rw [hcap1, hk, Nat.pow_succ]
            omega
          · rw [hcap1, hc1]
            omega
        · rw [if_neg hfull] at hcap1
          refine ⟨k, by rw [hcap1]; exact hk, ?_⟩
          rcases ht with ht | ht
          · exact Or.inl ht
          · right
            rw [hcap1, hc1]
            omega
    obtain ⟨q2, h2, hw2, hs2, hc2, hl2, hT2⟩ := ih q1 hw1 (by omega)
      (fun r hr => by rw [hs1]; exact hx r (List.mem_cons_of_mem _ hr)) (by omega) hT1
    refine ⟨q2, ?_, hw2, hs2.trans hs1, ?_, ?_, hT2⟩
    · simp only [queue_enqueue_all, he]
      exact h2
    · rw [hc2, hc1, List.length_cons]
      omega
    · rw [hl2, hl1]
      simp

/-- A run of at most `count` calls of `queue_dequeue`, the allocator granting
what it is asked: every call returns, the destinations hold the front elements
in order, and the rest of the live sequence stays, moved to the front. -/
theorem queue_dequeue_all_spec (ps : List (List Byte × List Byte)) (q : queue)
    (h : well_formed q) (hsz : 0 < q.item_size) (hn : ps.length ≤ q.count) :
    ∃ outs q2, queue_dequeue_all ps q = .returned (outs, q2) ∧ well_formed q2 ∧
      q2.item_size = q.item_size ∧ q2.count = q.count - ps.length ∧
      outs.map (List.take q.item_size) = (live q).take ps.length ∧
      live q2 = (live q).drop ps.length := by
  induction ps generalizing q with
  | nil => exact ⟨[], q, rfl, h, rfl, rfl, by simp, by simp⟩
  | cons p ps ih =>
    simp only [List.length_cons] at hn
    obtain ⟨q1, out, he, hw1, hs1, hc1, hf, hl1⟩ := queue_dequeue_spec q p.1 p.2 h hsz
      (by omega)
    obtain ⟨outs, q2, h2, hw2, hs2, hc2, ho2, hl2⟩ := ih q1 hw1 (by omega) (by omega)
    refine ⟨out :: outs, q2, ?_, hw2, hs2.trans hs1, ?_, ?_, ?_⟩
    · simp only [queue_dequeue_all, he, h2]
    · rw [hc2, hc1, List.length_cons]
      omega
    · rw [hs1, hl1] at ho2
      rw [List.map_cons, ho2, List.length_cons]
      cases hlq : live q with
      | nil => rw [hlq] at hf; simp at hf
      | cons v tl =>
        rw [hlq] at hf
        simp only [List.getElem?_cons_zero, Option.some.injEq] at hf
        rw [← hf]
        simp
    · rw [hl2, hl1, List.length_cons, List.drop_drop]
      congr 1
      omega

end ArrayQueue

namespace ArrayQueue

open Mem DynamicArray

/-- The enqueue that follows `2 ^ 31` enqueues into a fresh queue is undefined:
the queue is full with `capacity = 2 ^ 31`, the doubled capacity wraps to 0 in
`unsigned int`, the block is reallocated to 0 bytes and the item is stored past
its end. -/
theorem queue_enqueue_wraps (q0 : queue) (size : Nat) (xs : List (List Byte × List Byte))
    (x j1 j2 : List Byte) (hsz : 0 < size) (hx : ∀ p ∈ xs, p.1.length = size)
    (hn : xs.length = 2 ^ 31) :
    ∃ q1, queue_enqueue_all xs (queue_init (some q0) size) = .returned q1 ∧
      q1.count = 2 ^ 31 ∧ q1.capacity = 2 ^ 31 ∧
      queue_enqueue (some q1) (some x) (some j1) (some j2) = .undefined := by
  obtain ⟨q1, he, hw1, hs1, hc1, -, hT1⟩ := queue_enqueue_all_spec xs
    { items := none, item_size := size, count := 0, capacity := 0 }
    (Or.inl ⟨rfl, rfl, rfl⟩) hsz hx (by rw [hn]; exact Nat.le_of_eq (Nat.zero_add _))
    (Or.inl ⟨rfl, rfl⟩)
  have hcount : q1.count = 2 ^ 31 := by
    rw [hc1, hn]
    exact Nat.zero_add _
  have hs : q1.item_size = size := hs1
  rcases hw1 with ⟨-, hz, -⟩ | ⟨mem, hm, hlen, hle, h4⟩
  · rw [hcount] at hz
    norm_num at hz
  have hcap : q1.capacity = 2 ^ 31 := by
    rcases hT1 with ⟨-, hz⟩ | ⟨k, hk, ht⟩
    · rw [hcount] at hz
      norm_num at hz
    · rw [hcount] at hle ht
      rcases ht with ht | ht
      · rw [ht] at hk
        rw [hk] at hle
        norm_num at hle
      · rw [hk] at hle ht ⊢
        by_cases h28 : k ≤ 28
        · have := Nat.pow_le_pow_right (show 0 < 2 by decide) h28
          norm_num at this hle
          omega
        · by_cases h30 : 30 ≤ k
          · have := Nat.pow_le_pow_right (show 0 < 2 by decide) h30
            norm_num at this ht
            omega
          · have hk29 : k = 29 := by omega
            rw [hk29]
            norm_num
  refine ⟨q1, he, hcount, hcap, ?_⟩
  have hsz2 : q1.item_size ≠ 0 := by omega
  have hcap0 : q1.capacity ≠ 0 := by rw [hcap]; norm_num
  have hfull : q1.count = q1.capacity := by rw [hcount, hcap]
  have hmod : (q1.capacity * QUEUE_RESIZE_FACTOR) % UINT_RANGE = 0 := by
    rw [hcap, uint_range_eq]
    norm_num [QUEUE_RESIZE_FACTOR]
  have hr : realloc mem (q1.item_size * 0) (some j2)
      = some (mem.take (q1.item_size * 0) ++ freshBytes j2 (q1.item_size * 0 - mem.length)) :=
    rfl
  have hl := length_realloc mem _ (some j2) _ hr
  simp only [queue_enqueue, if_neg hsz2, if_neg hcap0, if_pos hfull, hmod, hm, realloc_ptr, hr,
    memcpy_into_checked]
  rw [if_neg (by rw [hl]; omega)]

/-- C20, as the claim states it, fails for `n = 2 ^ 31 + 1`: with one-byte
items and an allocator that grants every request, the enqueues do not all
return, so no dequeue follows. -/
theorem queue_capacity_wraps :
    queue_enqueue_all (List.replicate (2 ^ 31 + 1) ([0], []))
      (queue_init (some example_queue_blank) 1) = .undefined := by
  rw [List.replicate_succ', queue_enqueue_all_append]
  obtain ⟨q1, he, -, -, hu⟩ := queue_enqueue_wraps example_queue_blank 1
    (List.replicate (2 ^ 31) ([0], [])) [0] [] [] (by decide)
    (fun p hp => by rw [List.eq_of_mem_replicate hp]; rfl) (List.length_replicate _ _)
  rw [he]
  show queue_enqueue_all [] (queue_enqueue (some q1) (some [0]) (some []) (some [])) = _
  rw [hu]
  rfl

/-- C20, amended: for `n ≤ 2 ^ 31`, after `queue_init` with `item_size > 0` and
`queue_enqueue` of `x1 .. xn` (items of `item_size` bytes), `n` calls of
`queue_dequeue`, every allocation succeeding, all return and copy
`x1, .., xn` in that order into the destination, and end with `count = 0`;
after `k` of them the destinations hold `x1 .. xk` and the live sequence is
`x(k+1) .. xn`, so that each dequeue returns the element at position 0 and
moves the others one slot toward the front. -/
theorem queue_is_fifo (q0 : queue) (size : Nat) (xs ps : List (List Byte × List Byte))
    (hsz : 0 < size) (hx : ∀ p ∈ xs, p.1.length = size) (hn : ps.length = xs.length)
    (hb : xs.length ≤ 2 ^ 31) :
    ∃ qe outs qd, queue_enqueue_all xs (queue_init (some q0) size) = .returned qe ∧
      qe.count = xs.length ∧ live qe = xs.map Prod.fst ∧
      queue_dequeue_all ps qe = .returned (outs, qd) ∧
      outs.map (List.take size) = xs.map Prod.fst ∧ qd.count = 0 ∧
      ∀ k, k ≤ xs.length →
        ∃ outs_k q_k, queue_dequeue_all (ps.take k) qe = .returned (outs_k, q_k) ∧
          outs_k.map (List.take size) = (xs.take k).map Prod.fst ∧
          live q_k = (xs.drop k).map Prod.fst ∧ q_k.count = xs.length - k := by
  obtain ⟨qe, he, hwe, hse, hce, hle, -⟩ := queue_enqueue_all_spec xs
    { items := none, item_size := size, count := 0, capacity := 0 }
    (Or.inl ⟨rfl, rfl, rfl⟩) hsz hx (by rw [Nat.zero_add]; exact hb) (Or.inl ⟨rfl, rfl⟩)
  have hs : qe.item_size = size := hse
  have hc : qe.count = xs.length := by rw [hce]; exact Nat.zero_add _
  have hl : live qe = xs.map Prod.fst := by
    rw [hle]
    rfl
  have step : ∀ k, k ≤ xs.length →
      ∃ outs_k q_k, queue_dequeue_all (ps.take k) qe = .returned (outs_k, q_k) ∧
        outs_k.map (List.take size) = (xs.take k).map Prod.fst ∧
        live q_k = (xs.drop k).map Prod.fst ∧ q_k.count = xs.length - k := by
    intro k hk
    have hlen : (ps.take k).length = k := by rw [List.length_take]; omega
    obtain ⟨outs, q2, h2, -, -, hc2, ho2, hl2⟩ := queue_dequeue_all_spec (ps.take k) qe hwe
      (by omega) (by omega)
    refine ⟨outs, q2, h2, ?_, ?_, ?_⟩
    · rw [hs, hl, hlen, ← List.map_take] at ho2
      exact ho2
    · rw [hl, hlen, ← List.map_drop] at hl2
      exact hl2
    · rw [hc2, hlen, hc]
  obtain ⟨outs, qd, h2, ho, -, hcd⟩ := step xs.length (Nat.le_refl _)
  rw [← hn, List.take_length] at h2
  rw [List.take_length] at ho
  exact ⟨qe, outs, qd, he, hc, hl, h2, ho, by omega, step⟩

theorem queue_is_fifo_witness :
    0 < 4 ∧
    (∀ p ∈ [(int_bytes 1, []), (int_bytes 2, []), (int_bytes 3, []), (int_bytes 4, []),
      (int_bytes 5, ([] : List Byte))], p.1.length = 4) ∧
    (List.replicate 5 (int_bytes 0, ([] : List Byte))).length
      = [(int_bytes 1, []), (int_bytes 2, []), (int_bytes 3, []), (int_bytes 4, []),
        (int_bytes 5, ([] : List Byte))].length ∧
    [(int_bytes 1, []), (int_bytes 2, []), (int_bytes 3, []), (int_bytes 4, []),
      (int_bytes 5, ([] : List Byte))].length ≤ 2 ^ 31 ∧
    ∃ qe outs qd, queue_enqueue_all [(int_bytes 1, []), (int_bytes 2, []), (int_bytes 3, []),
        (int_bytes 4, []), (int_bytes 5, [])] (queue_init (some example_queue_blank) 4)
        = .returned qe ∧
      qe.count = 5 ∧
      live qe = [int_bytes 1, int_bytes 2, int_bytes 3, int_bytes 4, int_bytes 5] ∧
      queue_dequeue_all (List.replicate 5 (int_bytes 0, [])) qe = .returned (outs, qd) ∧
      outs.map (List.take 4)
        = [int_bytes 1, int_bytes 2, int_bytes 3, int_bytes 4, int_bytes 5] ∧
      qd.count = 0 ∧
      ∀ k, k ≤ 5 →
        ∃ outs_k q_k, queue_dequeue_all ((List.replicate 5 (int_bytes 0, [])).take k) qe
            = .returned (outs_k, q_k) ∧
          outs_k.map (List.take 4)
            = ([(int_bytes 1, []), (int_bytes 2, []), (int_bytes 3, []), (int_bytes 4, []),
              (int_bytes 5, ([] : List Byte))].take k).map Prod.fst ∧
          live q_k = ([(int_bytes 1, []), (int_bytes 2, []), (int_bytes 3, []),
            (int_bytes 4, []), (int_bytes 5, ([] : List Byte))].drop k).map Prod.fst ∧
          q_k.count = 5 - k :=
  ⟨by decide, by decide, by decide, by decide,
    queue_is_fifo example_queue_blank 4 _ _ (by decide) (by decide) (by decide) (by decide)⟩

end ArrayQueue

/-! ## Refinements between the containers, growth and hysteresis -/


/-! ## The stack and the queue as views of the buffer -/

namespace Stacks

open Mem DynamicArray DynamicArray.da_errors stack_errors

theorem code_stack_error_of (e : da_errors) : (stack_error_of e).code = e.code := by
  cases e <;> rfl

theorem map_da_of_stack_map (r : Option dynamic_array) :
    (r.map stack_of_da).map da_of_stack = r := by
  cases r <;> rfl

/-- C21: on every struct, with present item and destination pointers and the
same allocator answer, `stack_push` returns the integer code of `da_push` and
leaves the same fields (count, capacity, storage), and `stack_pop` returns the
integer code of `da_pop_item`, leaves the same fields and the same
destination. -/
theorem stack_view_is_buffer (s : stack) (x dst : List Byte) (a : AllocAnswer) :
    (stack_push (some s) (some x) a).1.code
      = (da_push (some (da_of_stack s)) (some x) a).1.code ∧
    (stack_push (some s) (some x) a).2.map da_of_stack
      = (da_push (some (da_of_stack s)) (some x) a).2 ∧
    (stack_pop (some s) (some dst) a).1.code
      = (da_pop_item (some (da_of_stack s)) (some dst) a).1.code ∧
    (stack_pop (some s) (some dst) a).2.1.map da_of_stack
      = (da_pop_item (some (da_of_stack s)) (some dst) a).2.1 ∧
    (stack_pop (some s) (some dst) a).2.2
      = (da_pop_item (some (da_of_stack s)) (some dst) a).2.2 := by
  rw [stack_push_eq, stack_pop_eq]
  exact ⟨code_stack_error_of _, map_da_of_stack_map _, code_stack_error_of _,
    map_da_of_stack_map _, rfl⟩

end Stacks


/-! ## Growth and shrink events of the eager buffer -/

namespace DynamicArray

open Mem da_errors

theorem da_expand_unchanged (d : dynamic_array) (a : AllocAnswer)
    (h : (da_expand (some d) a).1 ≠ DA_SUCCESS) : (da_expand (some d) a).2 = some d := by
  unfold da_expand at h ⊢
  cases hm : d.items with
  | none => simp [hm]
  | some mem =>
    cases a with
    | none => simp [hm, realloc]
    | some junk => simp [hm, realloc] at h

theorem da_shrink_unchanged (d : dynamic_array) (a : AllocAnswer)
    (h : (da_shrink (some d) a).1 ≠ DA_SUCCESS) : (da_shrink (some d) a).2 = some d := by
  unfold da_shrink at h ⊢
  cases hm : d.items with
  | none => simp [hm]
  | some mem =>
    cases a with
    | none => simp [hm, realloc]
    | some junk => simp [hm, realloc] at h

/-- What a call of `da_push` can do to `count` and `capacity`, whatever its
arguments: nothing, or one more element with the capacity doubled exactly when
the buffer was full. -/
theorem da_push_effect (d : dynamic_array) (item : Option (List Byte)) (a : AllocAnswer) :
    ∃ d1, (da_push (some d) item a).2 = some d1 ∧
      ((d1.count = d.count ∧ d1.capacity = d.capacity) ∨
        (d1.count = d.count + 1 ∧
          d1.capacity = (if d.count = d.capacity then 2 * d.capacity else d.capacity))) := by
  cases item with
  | none => exact ⟨d, rfl, Or.inl ⟨rfl, rfl⟩⟩
  | some x =>
    simp only [da_push]
    by_cases hu : d.items.isNone ∨ d.item_size = 0
    · rw [if_pos hu]
      exact ⟨d, rfl, Or.inl ⟨rfl, rfl⟩⟩
    · rw [if_neg hu]
      generalize hr : (if d.count = d.capacity then da_expand (some d) a
        else (DA_SUCCESS, some d)) = r
      by_cases hs : r.1 = DA_SUCCESS
      · obtain ⟨d2, h2, hc, -, hcap⟩ := grow_step_capacity d a r hr.symm hs
        rw [if_neg (not_not.mpr hs), h2]
        exact ⟨_, rfl, Or.inr ⟨by show d2.count + 1 = d.count + 1; rw [hc], hcap⟩⟩
      · rw [if_pos hs]
        refine ⟨d, ?_, Or.inl ⟨rfl, rfl⟩⟩
        by_cases hfull : d.count = d.capacity
        · rw [if_pos hfull] at hr
          subst hr
          exact da_expand_unchanged d a hs
        · rw [if_neg hfull] at hr
          subst hr
          rfl

/-- What the shrink test at the end of `da_remove_item` and `da_pop_item` can
do to `count` and `capacity`. -/
theorem shrink_check_effect (d : dynamic_array) (a : AllocAnswer) :
    ∃ d1, (if d.count < d.capacity / DA_RESIZE_FACTOR then
        (if (da_shrink (some d) a).1 ≠ DA_SUCCESS then (DA_ERR_RESIZE, (da_shrink (some d) a).2)
          else (DA_SUCCESS, (da_shrink (some d) a).2))
        else (DA_SUCCESS, some d)).2 = some d1 ∧ d1.count = d.count ∧
      (d1.capacity = d.capacity ∨
        (d.count < d.capacity / 2 ∧ d1.capacity = max (d.capacity / 2) 4)) := by
  by_cases hlt : d.count < d.capacity / DA_RESIZE_FACTOR
  · rw [if_pos hlt]
    by_cases hs : (da_shrink (some d) a).1 = DA_SUCCESS
    · rw [if_neg (not_not.mpr hs)]
      obtain ⟨d1, h1, hcap, hc, -⟩ := da_shrink_capacity d a (da_shrink (some d) a).2
        (by rw [← hs])
      exact ⟨d1, h1, hc, Or.inr ⟨hlt, hcap⟩⟩
    · rw [if_pos hs]
      exact ⟨d, da_shrink_unchanged d a hs, rfl, Or.inl rfl⟩
  · rw [if_neg hlt]
    exact ⟨d, rfl, rfl, Or.inl rfl⟩

/-- What a call of `da_remove_item` can do to `count` and `capacity`, whatever
its arguments: nothing, or one element less with the capacity kept or, when the
new count is below half of it, halved down to at least 4. -/
theorem da_remove_item_effect (d : dynamic_array) (i : Nat) (a : AllocAnswer) :
    ∃ d1, (da_remove_item (some d) i a).2 = some d1 ∧
      ((d1.count = d.count ∧ d1.capacity = d.capacity) ∨
        (d1.count = d.count - 1 ∧
          (d1.capacity = d.capacity ∨
            (d.count - 1 < d.capacity / 2 ∧ d1.capacity = max (d.capacity / 2) 4)))) := by
  simp only [da_remove_item]
  by_cases hi : i ≥ d.count
  · rw [if_pos hi]
    exact ⟨d, rfl, Or.inl ⟨rfl, rfl⟩⟩
  · rw [if_neg hi]
    by_cases hu : d.items.isNone ∨ d.item_size = 0
    · rw [if_pos hu]
      exact ⟨d, rfl, Or.inl ⟨rfl, rfl⟩⟩
    · rw [if_neg hu]
      by_cases hne : i ≠ d.count - 1
      · rw [if_pos hne]
        obtain ⟨d1, h1, hc, hcap⟩ := shrink_check_effect { d with
          items := memmove d.items (i * d.item_size) (i * d.item_size + d.item_size)
            ((d.count - i - 1) * d.item_size)
          count := d.count - 1 } a
        exact ⟨d1, h1, Or.inr ⟨hc, hcap⟩⟩
      · rw [if_neg hne]
        obtain ⟨d1, h1, hc, hcap⟩ := shrink_check_effect { d with count := d.count - 1 } a
        exact ⟨d1, h1, Or.inr ⟨hc, hcap⟩⟩

/-- What a call of `da_pop_item` can do to `count` and `capacity`, whatever its
arguments. -/
theorem da_pop_item_effect (d : dynamic_array) (item : Option (List Byte)) (a : AllocAnswer) :
    ∃ d1, (da_pop_item (some d) item a).2.1 = some d1 ∧
      ((d1.count = d.count ∧ d1.capacity = d.capacity) ∨
        (d1.count = d.count - 1 ∧
          (d1.capacity = d.capacity ∨
            (d.count - 1 < d.capacity / 2 ∧ d1.capacity = max (d.capacity / 2) 4)))) := by
  simp only [da_pop_item]
  by_cases hu : d.items.isNone ∨ d.item_size = 0
  · rw [if_pos hu]
    exact ⟨d, rfl, Or.inl ⟨rfl, rfl⟩⟩
  · rw [if_neg hu]
    by_cases hz : d.count = 0
    · rw [if_pos hz]
      exact ⟨d, rfl, Or.inl ⟨rfl, rfl⟩⟩
    · rw [if_neg hz]
      by_cases hg : (da_get_item (some d) (d.count - 1) item).1 ≠ DA_SUCCESS
      · rw [if_pos hg]
        exact ⟨d, rfl, Or.inl ⟨rfl, rfl⟩⟩
      · rw [if_neg hg]
        obtain ⟨d1, h1, hc, hcap⟩ := shrink_check_effect { d with count := d.count - 1 } a
        refine ⟨d1, ?_, Or.inr ⟨hc, hcap⟩⟩
        rw [← h1]
        split_ifs <;> rfl

/-- C24: on every struct, (a) when a `da_push` changes the capacity, a
`da_pop_item` or `da_remove_item` that follows it at once leaves the capacity as
it is, and (b) when a `da_pop_item` or `da_remove_item` changes the capacity, a
`da_push` that follows it at once leaves the capacity as it is; the arguments
and allocator answers of all the calls are arbitrary. -/
theorem no_thrashing (d d1 d2 : dynamic_array) (i j : Nat) (item1 item2 : Option (List Byte))
    (a1 a2 : AllocAnswer) :
    ((da_push (some d) item1 a1).2 = some d1 → d1.capacity ≠ d.capacity →
      ((da_pop_item (some d1) item2 a2).2.1 = some d2 → d2.capacity = d1.capacity) ∧
      ((da_remove_item (some d1) j a2).2 = some d2 → d2.capacity = d1.capacity)) ∧
    (((da_pop_item (some d) item1 a1).2.1 = some d1 ∨
        (da_remove_item (some d) i a1).2 = some d1) → d1.capacity ≠ d.capacity →
      (da_push (some d1) item2 a2).2 = some d2 → d2.capacity = d1.capacity) := by
  constructor
  · intro h1 hne
    obtain ⟨e1, he1, hp⟩ := da_push_effect d item1 a1
    rw [h1] at he1
    simp only [Option.some.injEq] at he1
    subst he1
    have hgrow : d1.count = d.count + 1 ∧ d.count = d.capacity ∧ d1.capacity = 2 * d.capacity := by
      rcases hp with ⟨-, hc⟩ | ⟨hc, hcap⟩
      · exact absurd hc hne
      · by_cases hfull : d.count = d.capacity
        · rw [if_pos hfull] at hcap
          exact ⟨hc, hfull, hcap⟩
        · rw [if_neg hfull] at hcap
          exact absurd hcap hne
    obtain ⟨hc1, hfull, hcap1⟩ := hgrow
    constructor
    · intro h2
      obtain ⟨e2, he2, hq⟩ := da_pop_item_effect d1 item2 a2
      rw [h2] at he2
      simp only [Option.some.injEq] at he2
      subst he2
      rcases hq with ⟨-, hc⟩ | ⟨-, hc | ⟨hlt, -⟩⟩
      · exact hc
      · exact hc
      · omega
    · intro h2
      obtain ⟨e2, he2, hq⟩ := da_remove_item_effect d1 j a2
      rw [h2] at he2
      simp only [Option.some.injEq] at he2
      subst he2
      rcases hq with ⟨-, hc⟩ | ⟨-, hc | ⟨hlt, -⟩⟩
      · exact hc
      · exact hc
      · omega
  · intro h1 hne h2
    have hshrink : d1.count = d.count - 1 ∧ d.count - 1 < d.capacity / 2 ∧
        d1.capacity = max (d.capacity / 2) 4 := by
      rcases h1 with h1 | h1
      · obtain ⟨e1, he1, hp⟩ := da_pop_item_effect d item1 a1
        rw [h1] at he1
        simp only [Option.some.injEq] at he1
        subst he1
        rcases hp with ⟨-, hc⟩ | ⟨hcnt, hc | ⟨hlt, hcap⟩⟩
        · exact absurd hc hne
        · exact absurd hc hne
        · exact ⟨hcnt, hlt, hcap⟩
      · obtain ⟨e1, he1, hp⟩ := da_remove_item_effect d i a1
        rw [h1] at he1
        simp only [Option.some.injEq] at he1
        subst he1
        rcases hp with ⟨-, hc⟩ | ⟨hcnt, hc | ⟨hlt, hcap⟩⟩
        · exact absurd hc hne
        · exact absurd hc hne
        · exact ⟨hcnt, hlt, hcap⟩
    obtain ⟨hc1, hlt, hcap1⟩ := hshrink
    obtain ⟨e2, he2, hq⟩ := da_push_effect d1 item2 a2
    rw [h2] at he2
    simp only [Option.some.injEq] at he2
    subst he2
    rcases hq with ⟨-, hc⟩ | ⟨-, hcap⟩
    · exact hc
    · rw [if_neg (by omega)] at hcap
      exact hcap

end DynamicArray

namespace DynamicArray

open Mem da_errors

theorem no_thrashing_witness :
    (∃ d1 d2, (da_push (some example_four) (some (int_bytes 50)) (some [])).2 = some d1 ∧
      d1.capacity ≠ example_four.capacity ∧
      (da_pop_item (some d1) (some (int_bytes 0)) (some [])).2.1 = some d2 ∧
      d2.capacity = d1.capacity) ∧
    (∃ d1 d2, (da_pop_item (some example_wide) (some (int_bytes 0)) (some [])).2.1 = some d1 ∧
      d1.capacity ≠ example_wide.capacity ∧
      (da_push (some d1) (some (int_bytes 50)) (some [])).2 = some d2 ∧
      d2.capacity = d1.capacity) :=
  ⟨⟨_, _, rfl, by decide, rfl,
      ((no_thrashing example_four _ _ 0 0 (some (int_bytes 50)) (some (int_bytes 0)) (some [])
        (some [])).1 rfl (by decide)).1 rfl⟩,
    ⟨_, _, rfl, by decide, rfl,
      (no_thrashing example_wide _ _ 0 0 (some (int_bytes 0)) (some (int_bytes 50)) (some [])
        (some [])).2 (Or.inl rfl) (by decide) rfl⟩⟩

end DynamicArray


namespace DynamicArray

open Mem da_errors

/-- A run of `da_push` calls whose allocations succeed, from a capacity
`4 * 2 ^ k` that is tight for the count: the capacity stays of that form and
tight, and the calls that change it are as many as the exponent grows. -/
theorem push_all_growth (xs : List (List Byte × List Byte)) (d : dynamic_array) (k : Nat)
    (h : initialised d) (hsz : 0 < d.item_size) (hx : ∀ p ∈ xs, p.1.length = d.item_size)
    (hk : d.capacity = 4 * 2 ^ k) (ht : k = 0 ∨ d.capacity / 2 < d.count) :
    ∃ d1 k1, push_all xs (some d) = some d1 ∧ initialised d1 ∧
      d1.count = d.count + xs.length ∧ d1.capacity = 4 * 2 ^ k1 ∧
      (k1 = 0 ∨ d1.capacity / 2 < d1.count) ∧ k ≤ k1 ∧
      growth_events xs (some d) = k1 - k := by
  induction xs generalizing d k with
  | nil => exact ⟨d, k, rfl, h, rfl, hk, ht, Nat.le_refl _, by simp [growth_events]⟩
  | cons p xs ih =>
    rcases da_push_spec d p.1 (some p.2) h hsz (hx p (List.mem_cons_self _ _)) with
      ⟨-, ha, -⟩ | ⟨-, d1, he, hi1, hs1, hc1, hcap1, -⟩
    · exact absurd ha (by simp)
    · have hpow : 0 < 2 ^ k := Nat.pow_pos (by decide)
      have hle := initialised_le d h
      by_cases hfull : d.count = d.capacity
      · rw [if_pos hfull] at hcap1
        obtain ⟨d2, k2, h2, hi2, hc2, hcap2, ht2, hk2, hg2⟩ := ih d1 (k + 1) hi1 (by omega)
          (fun q hq => by rw [hs1]; exact hx q (List.mem_cons_of_mem _ hq))
          (by rw [hcap1, hk, Nat.pow_succ]; omega) (Or.inr (by omega))
        refine ⟨d2, k2, ?_, hi2, ?_, hcap2, ht2, by omega, ?_⟩
        · simp only [push_all, List.foldl_cons] at h2 ⊢
          rw [he]
          exact h2
        · rw [hc2, hc1, List.length_cons]
          omega
        · simp only [growth_events, he, Option.map_some', hg2]
          rw [if_pos (by simp only [ne_eq, Option.some.injEq]; omega)]
          omega
      · rw [if_neg hfull] at hcap1
        obtain ⟨d2, k2, h2, hi2, hc2, hcap2, ht2, hk2, hg2⟩ := ih d1 k hi1 (by omega)
          (fun q hq => by rw [hs1]; exact hx q (List.mem_cons_of_mem _ hq))
          (by rw [hcap1]; exact hk) (by rw [hcap1, hc1]; omega)
        refine ⟨d2, k2, ?_, hi2, ?_, hcap2, ht2, hk2, ?_⟩
        · simp only [push_all, List.foldl_cons] at h2 ⊢
          rw [he]
          exact h2
        · rw [hc2, hc1, List.length_cons]
          omega
        · simp only [growth_events, he, Option.map_some', hg2]
          rw [if_neg (by simp only [ne_eq, Option.some.injEq, not_not]; exact hcap1)]
          omega

/-- C23: `da_push` of `N` items (of `item_size > 0` bytes) into a freshly
initialised buffer, every allocation succeeding, ends with `count = N` and with
the capacity `4 * 2 ^ k` for the least `k` with `N ≤ 4 * 2 ^ k`; exactly `k` of
the pushes change the capacity, and `k ≤ log2 N`. -/
theorem amortised_growth (d0 : dynamic_array) (size : Nat) (a0 : AllocAnswer)
    (d : dynamic_array) (xs : List (List Byte × List Byte))
    (h : da_init (some d0) size a0 = (DA_SUCCESS, some d)) (hsz : 0 < size)
    (hx : ∀ p ∈ xs, p.1.length = size) :
    ∃ d1 k, push_all xs (some d) = some d1 ∧ d1.count = xs.length ∧
      d1.capacity = 4 * 2 ^ k ∧ xs.length ≤ 4 * 2 ^ k ∧
      (∀ j, xs.length ≤ 4 * 2 ^ j → k ≤ j) ∧
      growth_events xs (some d) = k ∧ k ≤ Nat.log 2 xs.length := by
  obtain ⟨hi, hs, hc, hcap⟩ := da_init_spec d0 size a0 d h
  obtain ⟨d1, k, h1, hi1, hc1, hcap1, ht1, -, hg1⟩ := push_all_growth xs d 0 hi (by omega)
    (fun p hp => by rw [hs]; exact hx p hp) (by rw [hcap]; rfl) (Or.inl rfl)
  have hle := initialised_le d1 hi1
  have hcount : d1.count = xs.length := by omega
  have hleast : ∀ j, xs.length ≤ 4 * 2 ^ j → k ≤ j := by
    intro j hj
    rcases ht1 with ht1 | ht1
    · omega
    · by_contra hlt
      have hjk : j + 1 ≤ k := by omega
      have hp := Nat.pow_le_pow_right (show 0 < 2 by decide) hjk
      rw [Nat.pow_succ] at hp
      omega
  refine ⟨d1, k, h1, hcount, hcap1, by omega, hleast, by rw [hg1]; omega, ?_⟩
  by_cases hk0 : k = 0
  · omega
  · rcases ht1 with ht1 | ht1
    · omega
    · have hpk : 2 ^ k = 2 ^ (k - 1) * 2 := by
        rw [← Nat.pow_succ]
        congr 1
        omega
      have hpos : 0 < 2 ^ (k - 1) := Nat.pow_pos (by decide)
      have hn : 2 ^ k ≤ xs.length := by omega
      exact (Nat.pow_le_iff_le_log (by decide) (by omega)).mp hn

theorem amortised_growth_witness :
    da_init (some example_blank) 4 (some []) = (DA_SUCCESS, some example_empty) ∧ 0 < 4 ∧
    (∀ p ∈ [(int_bytes 1, []), (int_bytes 2, []), (int_bytes 3, []), (int_bytes 4, []),
      (int_bytes 5, ([] : List Byte))], p.1.length = 4) ∧
    growth_events [(int_bytes 1, []), (int_bytes 2, []), (int_bytes 3, []), (int_bytes 4, []),
      (int_bytes 5, [])] (some example_empty) = 1 ∧
    ∃ d1 k, push_all [(int_bytes 1, []), (int_bytes 2, []), (int_bytes 3, []),
        (int_bytes 4, []), (int_bytes 5, [])] (some example_empty) = some d1 ∧
      d1.count = 5 ∧ d1.capacity = 4 * 2 ^ k ∧ 5 ≤ 4 * 2 ^ k ∧
      (∀ j, 5 ≤ 4 * 2 ^ j → k ≤ j) ∧
      growth_events [(int_bytes 1, []), (int_bytes 2, []), (int_bytes 3, []),
        (int_bytes 4, []), (int_bytes 5, [])] (some example_empty) = k ∧
      k ≤ Nat.log 2 5 :=
  ⟨by decide, by decide, by decide, by decide,
    amortised_growth example_blank 4 (some []) example_empty _ (by decide) (by decide)
      (by decide)⟩

end DynamicArray


namespace ArrayQueue

open Mem

theorem length_store (mem : List Byte) (off : Nat) (x : List Byte) (n : Nat)
    (h : off + n ≤ mem.length) : (writeBytes mem off (x.take n)).length = mem.length := by
  apply length_writeBytes
  have : (x.take n).length ≤ n := by simp
  omega

/-- The store at the end of `queue_enqueue`, when it is defined, keeps a block
with a free slot in working order, whatever the item is. -/
theorem enqueue_store_any (d : queue) (mem x : List Byte) (q1 : queue) (hm : d.items = some mem)
    (hlen : mem.length = d.item_size * d.capacity) (hsz : 0 < d.item_size)
    (h4 : 4 ≤ d.capacity) (hr : d.capacity < UINT_RANGE)
    (he : (match memcpy_into_checked d.items (d.count * d.item_size) x d.item_size with
        | none => outcome.undefined
        | some m => outcome.returned
            { d with items := some m, count := (d.count + 1) % UINT_RANGE }) = .returned q1) :
    well_formed q1 ∧ q1.capacity = d.capacity ∧ q1.item_size = d.item_size ∧
      d.count < d.capacity := by
  simp only [hm, memcpy_into_checked] at he
  by_cases hb : d.count * d.item_size + d.item_size ≤ mem.length
  · rw [if_pos hb] at he
    simp only [outcome.returned.injEq] at he
    subst he
    have hlt : d.count < d.capacity := by
      rw [hlen, ← Nat.succ_mul, Nat.mul_comm] at hb
      exact Nat.lt_of_succ_le (Nat.le_of_mul_le_mul_left hb hsz)
    have hmod : (d.count + 1) % UINT_RANGE = d.count + 1 := Nat.mod_eq_of_lt (by omega)
    refine ⟨Or.inr ⟨_, rfl, ?_, ?_, h4⟩, rfl, rfl, hlt⟩
    · rw [length_store _ _ _ _ hb]
      exact hlen
    · show (d.count + 1) % UINT_RANGE ≤ d.capacity
      rw [hmod]
      omega
  · rw [if_neg hb] at he
    exact absurd he (by simp)

end ArrayQueue

namespace ArrayQueue

open Mem

/-- A call of `queue_enqueue` that returns keeps the invariant of the queue
states, whatever the item and the answers of the allocator are. -/
theorem queue_enqueue_returned (q : queue) (item : Option (List Byte)) (a1 a2 : AllocAnswer)
    (q1 : queue) (hI : queue_inv q)
    (he : queue_enqueue (some q) item a1 a2 = .returned q1) : queue_inv q1 := by
  obtain ⟨hw, hp, hr, -⟩ := hI
  cases item with
  | none => exact absurd he (by simp [queue_enqueue])
  | some x =>
    by_cases hsz0 : q.item_size = 0
    · exact absurd he (by simp [queue_enqueue, hsz0])
    have hsz : 0 < q.item_size := by omega
    rcases hw with ⟨hm, hc, hcap⟩ | ⟨mem, hm, hlen, hc, h4⟩
    · cases a1 with
      | none => exact absurd he (by simp [queue_enqueue, hsz0, hcap, malloc])
      | some j =>
        have hne : ¬ q.count = QUEUE_INITIAL_CAPACITY := by rw [hc]; decide
        simp only [queue_enqueue, if_neg hsz0, if_pos hcap, malloc, if_neg hne] at he
        obtain ⟨hw1, hcap1, hs1, -⟩ := enqueue_store_any
          { q with capacity := QUEUE_INITIAL_CAPACITY,
                   items := some (freshBytes j (q.item_size * QUEUE_INITIAL_CAPACITY)) }
          (freshBytes j (q.item_size * QUEUE_INITIAL_CAPACITY)) x q1 rfl
          (by simp [freshBytes]) hsz (Nat.le_refl 4)
          (by rw [uint_range_eq]; show 4 < 4294967296; decide) he
        refine ⟨hw1, Or.inr ⟨0, by rw [hcap1]; rfl⟩, ?_, Or.inr (by rw [hs1]; exact hsz)⟩
        rw [hcap1, uint_range_eq]
        show 4 < 4294967296
        decide
    · simp only [QUEUE_INITIAL_CAPACITY] at h4
      have hcap : q.capacity ≠ 0 := by omega
      by_cases hfull : q.count = q.capacity
      · cases a2 with
        | none =>
          exact absurd he (by simp [queue_enqueue, hsz0, hcap, hfull, hm, realloc_ptr, realloc])
        | some j =>
          have hr2 : realloc mem
              (q.item_size * ((q.capacity * QUEUE_RESIZE_FACTOR) % UINT_RANGE)) (some j)
              = some (mem.take (q.item_size * ((q.capacity * QUEUE_RESIZE_FACTOR) % UINT_RANGE))
                ++ freshBytes j (q.item_size * ((q.capacity * QUEUE_RESIZE_FACTOR) % UINT_RANGE)
                  - mem.length)) := rfl
          simp only [queue_enqueue, if_neg hsz0, if_neg hcap, if_pos hfull, hm, realloc_ptr,
            hr2] at he
          have hl2 := length_realloc mem _ (some j) _ hr2
          -- the store is defined only if the new block has a free slot
          have hfree : q.count < (q.capacity * QUEUE_RESIZE_FACTOR) % UINT_RANGE := by
            by_contra hnot
            have hle : (q.capacity * QUEUE_RESIZE_FACTOR) % UINT_RANGE ≤ q.count := by omega
            have hmul := Nat.mul_le_mul_left q.item_size hle
            have hb : ¬ q.count * q.item_size + q.item_size ≤ q.item_size *
                ((q.capacity * QUEUE_RESIZE_FACTOR) % UINT_RANGE) := by
              rw [Nat.mul_comm q.count]
              omega
            simp only [memcpy_into_checked, hl2, if_neg hb] at he
            exact absurd he (by simp)
          have hmod : (q.capacity * QUEUE_RESIZE_FACTOR) % UINT_RANGE = q.capacity * 2 := by
            simp only [QUEUE_RESIZE_FACTOR] at hfree ⊢
            rw [uint_range_eq] at hfree hr ⊢
            omega
          rw [hmod] at he hl2
          have hlt : q.capacity * 2 < UINT_RANGE := by
            rw [← hmod]
            exact Nat.mod_lt _ (by rw [uint_range_eq]; decide)
          obtain ⟨hw1, hcap1, hs1, -⟩ := enqueue_store_any
            { q with items := some (mem.take (q.item_size * (q.capacity * 2)) ++
                       freshBytes j (q.item_size * (q.capacity * 2) - mem.length)),
                     capacity := q.capacity * 2 }
            _ x q1 rfl hl2 hsz (by show 4 ≤ q.capacity * 2; omega) hlt he
          refine ⟨hw1, Or.inr ?_, by rw [hcap1]; exact hlt, Or.inr (by rw [hs1]; exact hsz)⟩
          rcases hp with hp | ⟨k, hk⟩
          · exact absurd hp hcap
          · exact ⟨k + 1, by rw [hcap1]; show q.capacity * 2 = _; rw [hk, Nat.pow_succ]; omega⟩
      · simp only [queue_enqueue, if_neg hsz0, if_neg hcap, if_neg hfull] at he
        obtain ⟨hw1, hcap1, hs1, -⟩ := enqueue_store_any q mem x q1 hm hlen hsz h4 hr he
        refine ⟨hw1, ?_, by rw [hcap1]; exact hr, Or.inr (by rw [hs1]; exact hsz)⟩
        rw [hcap1]
        exact hp

end ArrayQueue

namespace ArrayQueue

open Mem

/-- The function `queue_dequeue` on a non-empty queue in working order, as one
case distinction on the shrink test. -/
theorem queue_dequeue_cases (q : queue) (dst : List Byte) (a : AllocAnswer) (mem : List Byte)
    (hm : q.items = some mem) (hlen : mem.length = q.item_size * q.capacity)
    (hc : q.count ≤ q.capacity) (hsz : 0 < q.item_size) (hpos : 0 < q.count) :
    queue_dequeue (some q) (some dst) a =
      if q.count - 1 < q.capacity / 2 ∧ 4 ≤ q.capacity / 2 then
        match realloc (writeBytes mem 0 (readBytes mem q.item_size
            (q.item_size * (q.count - 1)))) (q.capacity / 2 * q.item_size) a with
        | none => .exited (-1)
        | some m =>
          .returned ({ items := some m, item_size := q.item_size, count := q.count - 1,
                       capacity := q.capacity / 2 }, memcpy_out dst mem 0 q.item_size)
      else
        .returned ({ items := some (writeBytes mem 0 (readBytes mem q.item_size
                       (q.item_size * (q.count - 1)))),
                     item_size := q.item_size, count := q.count - 1, capacity := q.capacity },
          memcpy_out dst mem 0 q.item_size) := by
  have hsz2 : q.item_size ≠ 0 := by omega
  have hpos2 : q.count ≠ 0 := by omega
  have e : q.item_size * q.capacity = q.capacity * q.item_size := Nat.mul_comm _ _
  have hcm := Nat.mul_le_mul_right q.item_size hc
  have h1 := slot_end_le q.item_size hpos
  rw [Nat.zero_mul, Nat.zero_add] at h1
  have e3 : q.item_size * (q.count - 1) + q.item_size = q.count * q.item_size := by
    rw [Nat.mul_comm q.item_size, ← Nat.succ_mul]
    congr 1
    omega
  have hout : memcpy_out_checked dst q.items 0 q.item_size
      = some (memcpy_out dst mem 0 q.item_size) := by
    simp only [memcpy_out_checked, hm]
    rw [if_pos (by omega)]
  have hmove : memmove_checked q.items 0 q.item_size (q.item_size * (q.count - 1))
      = some (writeBytes mem 0 (readBytes mem q.item_size (q.item_size * (q.count - 1)))) := by
    simp only [memmove_checked, hm]
    rw [if_pos ⟨by omega, by omega⟩]
  simp only [queue_dequeue, hsz2, hpos2, or_self, if_false, hout, hmove, QUEUE_RESIZE_FACTOR,
    QUEUE_INITIAL_CAPACITY]
  by_cases hlt : q.count - 1 < q.capacity / 2
  · by_cases hsmall : q.capacity / 2 < 4
    · rw [if_pos hlt, if_pos hsmall, if_neg (fun hh => by omega)]
    · rw [if_pos hlt, if_neg hsmall, if_pos ⟨hlt, by omega⟩]
  · rw [if_neg hlt, if_neg (fun hh => hlt hh.1)]

end ArrayQueue

namespace ArrayQueue

open Mem

/-- A call of `queue_dequeue` that returns keeps the invariant of the queue
states, whatever the destination and the answer of the allocator are. -/
theorem queue_dequeue_returned (q : queue) (item : Option (List Byte)) (a : AllocAnswer)
    (r : queue × List Byte) (hI : queue_inv q)
    (he : queue_dequeue (some q) item a = .returned r) : queue_inv r.1 := by
  obtain ⟨hw, hp, hr, hz⟩ := hI
  cases item with
  | none => exact absurd he (by simp [queue_dequeue])
  | some dst =>
    by_cases hsz0 : q.item_size = 0
    · exact absurd he (by simp [queue_dequeue, hsz0])
    by_cases hc0 : q.count = 0
    · exact absurd he (by simp [queue_dequeue, hc0])
    have hsz : 0 < q.item_size := by omega
    rcases hw with ⟨-, hc, -⟩ | ⟨mem, hm, hlen, hc, h4⟩
    · exact absurd hc hc0
    simp only [QUEUE_INITIAL_CAPACITY] at h4
    rw [queue_dequeue_cases q dst a mem hm hlen hc hsz (by omega)] at he
    have e3 : q.item_size * (q.count - 1) + q.item_size = q.count * q.item_size := by
      rw [Nat.mul_comm q.item_size, ← Nat.succ_mul]
      congr 1
      omega
    have e : q.item_size * q.capacity = q.capacity * q.item_size := Nat.mul_comm _ _
    have hcm := Nat.mul_le_mul_right q.item_size hc
    have hrl : (readBytes mem q.item_size (q.item_size * (q.count - 1))).length
        = q.item_size * (q.count - 1) := length_readBytes _ _ _ (by omega)
    have hml : (writeBytes mem 0 (readBytes mem q.item_size
        (q.item_size * (q.count - 1)))).length = mem.length :=
      length_writeBytes _ _ _ (by omega)
    by_cases hdue : q.count - 1 < q.capacity / 2 ∧ 4 ≤ q.capacity / 2
    · rw [if_pos hdue] at he
      cases hre : realloc (writeBytes mem 0 (readBytes mem q.item_size
          (q.item_size * (q.count - 1)))) (q.capacity / 2 * q.item_size) a with
      | none =>
        rw [hre] at he
        exact absurd he (by simp)
      | some m =>
        rw [hre] at he
        simp only [outcome.returned.injEq] at he
        subst he
        refine ⟨Or.inr ⟨m, rfl, ?_, ?_, hdue.2⟩, Or.inr ?_, ?_, Or.inr hsz⟩
        · rw [length_realloc _ _ a _ hre]
          exact Nat.mul_comm _ _
        · show q.count - 1 ≤ q.capacity / 2
          omega
        · rcases hp with hp | ⟨k, hk⟩
          · omega
          · cases k with
            | zero => simp at hk; omega
            | succ k =>
              refine ⟨k, ?_⟩
              show q.capacity / 2 = 4 * 2 ^ k
              rw [hk, Nat.pow_succ]
              omega
        · show q.capacity / 2 < UINT_RANGE
          omega
    · rw [if_neg hdue] at he
      simp only [outcome.returned.injEq] at he
      subst he
      exact ⟨Or.inr ⟨_, rfl, hml.trans hlen, by show q.count - 1 ≤ q.capacity; omega, h4⟩,
        hp, hr, Or.inr hsz⟩

/-- Every call that returns keeps the invariant of the queue states. -/
theorem queue_inv_run (c : queue_call) (q q1 : queue) (hI : queue_inv q)
    (he : c.run q = .returned q1) : queue_inv q1 := by
  cases c with
  | enqueue item a1 a2 => exact queue_enqueue_returned q item a1 a2 q1 hI he
  | dequeue item a =>
    simp only [queue_call.run] at he
    cases hd : queue_dequeue (some q) item a with
    | returned r =>
      rw [hd] at he
      simp only [outcome.returned.injEq] at he
      subst he
      exact queue_dequeue_returned q item a r hI hd
    | exited status => rw [hd] at he; exact absurd he (by simp)
    | undefined => rw [hd] at he; exact absurd he (by simp)

/-- Every queue state that a sequence of calls returns satisfies the
invariant. -/
theorem queue_inv_run_calls (cs : List queue_call) (o : outcome queue) (q1 : queue)
    (ho : ∀ q, o = .returned q → queue_inv q)
    (he : queue_run_calls cs o = .returned q1) : queue_inv q1 := by
  induction cs generalizing o with
  | nil => exact ho q1 he
  | cons c cs ih =>
    cases o with
    | returned q =>
      exact ih (c.run q) (fun q2 h2 => queue_inv_run c q q2 (ho q rfl) h2) he
    | exited status => exact absurd he (by simp [queue_run_calls])
    | undefined => exact absurd he (by simp [queue_run_calls])

theorem queue_inv_init (q0 : Option queue) (size : Nat) (q : queue)
    (h : queue_init q0 size = .returned q) : queue_inv q := by
  cases q0 with
  | none => exact absurd h (by simp [queue_init])
  | some d =>
    simp only [queue_init, outcome.returned.injEq] at h
    subst h
    exact ⟨Or.inl ⟨rfl, rfl, rfl⟩, Or.inl rfl, by rw [uint_range_eq]; show 0 < 4294967296; decide,
      Or.inl rfl⟩

end ArrayQueue
namespace ArrayQueue

open Mem DynamicArray DynamicArray.da_errors

theorem da_shrink_ok (d : dynamic_array) (mem junk : List Byte) (nc : Nat)
    (h : d.items = some mem)
    (hnc : nc = if d.capacity / DA_RESIZE_FACTOR < DA_INITIAL_CAPACITY then DA_INITIAL_CAPACITY
      else d.capacity / DA_RESIZE_FACTOR) :
    da_shrink (some d) (some junk) =
      (DA_SUCCESS, some { d with
        items := some (mem.take (nc * d.item_size) ++
          freshBytes junk (nc * d.item_size - mem.length))
        capacity := nc }) := by
  subst hnc
  simp [da_shrink, h, realloc]

/-- C22: on every non-empty queue state that calls of `queue_enqueue` and
`queue_dequeue` after `queue_init` have returned, with a present destination
and an allocator that grants what it is asked, `queue_dequeue` returns, its
destination is the one `da_get_item(0)` of `src/dynamic_array.c` leaves on the
same fields, and the queue it leaves has the fields (so the count, the capacity
and the live sequence) that `da_remove_item(0)` leaves, which returns
`DA_SUCCESS`. -/
theorem dequeue_is_get_then_remove (q0 : Option queue) (size : Nat) (cs : List queue_call)
    (q : queue) (dst junk : List Byte)
    (hreach : queue_run_calls cs (queue_init q0 size) = .returned q) (hne : 0 < q.count) :
    ∃ q1 out, queue_dequeue (some q) (some dst) (some junk) = .returned (q1, out) ∧
      da_get_item (some (da_of_queue q)) 0 (some dst) = (DA_SUCCESS, some out) ∧
      da_remove_item (some (da_of_queue q)) 0 (some junk)
        = (DA_SUCCESS, some (da_of_queue q1)) ∧
      (da_of_queue q1).count = q1.count ∧ (da_of_queue q1).capacity = q1.capacity ∧
      DynamicArray.live (da_of_queue q1) = live q1 ∧
      q1.count = q.count - 1 ∧ live q1 = (live q).drop 1 := by
  obtain ⟨hw, hp, hr, hz⟩ := queue_inv_run_calls cs _ q (fun q2 h2 => queue_inv_init q0 size q2 h2)
    hreach
  have hsz : 0 < q.item_size := by omega
  have hsz2 : q.item_size ≠ 0 := by omega
  rcases hw with ⟨-, hc, -⟩ | ⟨mem, hm, hlen, hc, h4⟩
  · omega
  simp only [QUEUE_INITIAL_CAPACITY] at h4
  obtain ⟨q1, out, he, hw1, hs1, hc1, hf, hl1⟩ :=
    queue_dequeue_spec q dst junk (Or.inr ⟨mem, hm, hlen, hc, h4⟩) hsz hne
  have hcases := queue_dequeue_cases q dst (some junk) mem hm hlen hc hsz hne
  rw [he] at hcases
  have hi0 : ¬ 0 ≥ q.count := by omega
  have e3 : q.item_size * (q.count - 1) + q.item_size = q.count * q.item_size := by
    rw [Nat.mul_comm q.item_size, ← Nat.succ_mul]
    congr 1
    omega
  have e : q.item_size * q.capacity = q.capacity * q.item_size := Nat.mul_comm _ _
  have hcm := Nat.mul_le_mul_right q.item_size hc
  have hrl : (readBytes mem q.item_size (q.item_size * (q.count - 1))).length
      = q.item_size * (q.count - 1) := length_readBytes _ _ _ (by omega)
  have hml : (writeBytes mem 0 (readBytes mem q.item_size
      (q.item_size * (q.count - 1)))).length = mem.length :=
    length_writeBytes _ _ _ (by omega)
  -- the block after the move of `da_remove_item(0)` is the block after the move of the queue
  have hmoved : (if 0 ≠ q.count - 1 then
        memmove (some mem) (0 * q.item_size) (0 * q.item_size + q.item_size)
          ((q.count - 0 - 1) * q.item_size)
      else some mem)
      = some (writeBytes mem 0 (readBytes mem q.item_size (q.item_size * (q.count - 1)))) := by
    by_cases h1 : 0 ≠ q.count - 1
    · rw [if_pos h1]
      show some (writeBytes mem (0 * q.item_size) (readBytes mem (0 * q.item_size + q.item_size)
        ((q.count - 0 - 1) * q.item_size))) = _
      rw [Nat.zero_mul, Nat.zero_add, Nat.sub_zero, Nat.mul_comm (q.count - 1)]
    · rw [if_neg h1]
      have h0 : q.count - 1 = 0 := by omega
      rw [h0]
      simp [writeBytes, readBytes]
  have hget : da_get_item (some (da_of_queue q)) 0 (some dst)
      = (DA_SUCCESS, some (memcpy_out dst mem 0 q.item_size)) := by
    simp only [da_get_item, da_of_queue, if_neg hi0, hm, Nat.zero_mul]
  have hrem : ∀ d2 : dynamic_array,
      d2 = { items := some (writeBytes mem 0 (readBytes mem q.item_size
               (q.item_size * (q.count - 1)))),
             item_size := q.item_size, count := q.count - 1, capacity := q.capacity } →
      da_remove_item (some (da_of_queue q)) 0 (some junk) =
        (if d2.count < d2.capacity / DA_RESIZE_FACTOR then
          (if (da_shrink (some d2) (some junk)).1 ≠ DA_SUCCESS
            then (DA_ERR_RESIZE, (da_shrink (some d2) (some junk)).2)
            else (DA_SUCCESS, (da_shrink (some d2) (some junk)).2))
          else (DA_SUCCESS, some d2)) := by
    intro d2 hd2
    subst hd2
    simp only [da_remove_item, da_of_queue, if_neg hi0, hm, Option.isNone_some,
      Bool.false_eq_true, false_or, if_neg hsz2]
    by_cases h1 : 0 ≠ q.count - 1
    · rw [if_pos h1] at hmoved
      simp only [if_pos h1, hmoved]
    · rw [if_neg h1] at hmoved
      simp only [Option.some.injEq] at hmoved
      simp only [if_neg h1, ← hmoved]
  have hrem2 := hrem _ rfl
  by_cases hdue : q.count - 1 < q.capacity / 2 ∧ 4 ≤ q.capacity / 2
  · rw [if_pos hdue] at hcases
    have hre : realloc (writeBytes mem 0 (readBytes mem q.item_size
        (q.item_size * (q.count - 1)))) (q.capacity / 2 * q.item_size) (some junk)
        = some ((writeBytes mem 0 (readBytes mem q.item_size
            (q.item_size * (q.count - 1)))).take (q.capacity / 2 * q.item_size) ++
          freshBytes junk (q.capacity / 2 * q.item_size - (writeBytes mem 0 (readBytes mem
            q.item_size (q.item_size * (q.count - 1)))).length)) := rfl
    rw [hre] at hcases
    simp only [outcome.returned.injEq, Prod.mk.injEq] at hcases
    obtain ⟨hq1, hout⟩ := hcases
    subst hq1 hout
    refine ⟨_, _, he, hget, ?_, rfl, rfl, rfl, rfl, hl1⟩
    rw [hrem2]
    have hlt : q.count - 1 < q.capacity / DA_RESIZE_FACTOR := hdue.1
    have hnc : q.capacity / 2 = (if q.capacity / DA_RESIZE_FACTOR < DA_INITIAL_CAPACITY
        then DA_INITIAL_CAPACITY else q.capacity / DA_RESIZE_FACTOR) := by
      simp only [DA_RESIZE_FACTOR, DA_INITIAL_CAPACITY]
      rw [if_neg (by omega)]
    rw [if_pos hlt, da_shrink_ok _ _ junk (q.capacity / 2) rfl hnc]
    rfl
  · rw [if_neg hdue] at hcases
    simp only [outcome.returned.injEq, Prod.mk.injEq] at hcases
    obtain ⟨hq1, hout⟩ := hcases
    subst hq1 hout
    refine ⟨_, _, he, hget, ?_, rfl, rfl, rfl, rfl, hl1⟩
    rw [hrem2]
    by_cases hlt : q.count - 1 < q.capacity / 2
    · -- the shrink of `da_remove_item` reallocates to the same four slots
      have hcap4 : q.capacity = 4 := by
        rcases hp with hp | ⟨k, hk⟩
        · omega
        · cases k with
          | zero => simpa using hk
          | succ k =>
            have hpos : 0 < 2 ^ k := Nat.pow_pos (by decide)
            rw [Nat.pow_succ] at hk
            omega
      have hlt2 : q.count - 1 < q.capacity / DA_RESIZE_FACTOR := hlt
      have hnc : 4 = (if q.capacity / DA_RESIZE_FACTOR < DA_INITIAL_CAPACITY
          then DA_INITIAL_CAPACITY else q.capacity / DA_RESIZE_FACTOR) := by
        simp only [DA_RESIZE_FACTOR, DA_INITIAL_CAPACITY]
        rw [if_pos (by omega)]
      have hlen2 : (writeBytes mem 0 (readBytes mem q.item_size
          (q.item_size * (q.count - 1)))).length = 4 * q.item_size := by
        rw [hml, hlen, hcap4]
        exact Nat.mul_comm _ _
      have hsame : (writeBytes mem 0 (readBytes mem q.item_size
            (q.item_size * (q.count - 1)))).take (4 * q.item_size) ++
          freshBytes junk (4 * q.item_size - (writeBytes mem 0 (readBytes mem q.item_size
            (q.item_size * (q.count - 1)))).length)
          = writeBytes mem 0 (readBytes mem q.item_size (q.item_size * (q.count - 1))) := by
        rw [hlen2, Nat.sub_self, ← hlen2, List.take_length]
        simp [freshBytes]
      rw [if_pos hlt2, da_shrink_ok _ _ junk 4 rfl hnc]
      simp only [ne_eq, not_true_eq_false, if_false, hsame, da_of_queue, hcap4]
    · have hlt2 : ¬ q.count - 1 < q.capacity / DA_RESIZE_FACTOR := hlt
      simp only [if_neg hlt2, da_of_queue]

theorem dequeue_is_get_then_remove_witness :
    queue_run_calls [queue_call.enqueue (some (int_bytes 1)) (some []) (some []),
        queue_call.enqueue (some (int_bytes 2)) (some []) (some []),
        queue_call.enqueue (some (int_bytes 3)) (some []) (some [])]
      (queue_init (some example_queue_blank) 4) = .returned example_queue_three ∧
    0 < example_queue_three.count ∧
    ∃ q1 out, queue_dequeue (some example_queue_three) (some (int_bytes 0)) (some [])
        = .returned (q1, out) ∧
      da_get_item (some (da_of_queue example_queue_three)) 0 (some (int_bytes 0))
        = (DA_SUCCESS, some out) ∧
      da_remove_item (some (da_of_queue example_queue_three)) 0 (some [])
        = (DA_SUCCESS, some (da_of_queue q1)) ∧
      (da_of_queue q1).count = q1.count ∧ (da_of_queue q1).capacity = q1.capacity ∧
      DynamicArray.live (da_of_queue q1) = live q1 ∧
      q1.count = example_queue_three.count - 1 ∧ live q1 = (live example_queue_three).drop 1 :=
  ⟨by decide, by decide,
    dequeue_is_get_then_remove (some example_queue_blank) 4
      [queue_call.enqueue (some (int_bytes 1)) (some []) (some []),
        queue_call.enqueue (some (int_bytes 2)) (some []) (some []),
        queue_call.enqueue (some (int_bytes 3)) (some []) (some [])]
      example_queue_three (int_bytes 0) [] (by decide) (by decide)⟩

/-- C25, as the claim states it, fails: on an empty queue with a present
destination and `item_size = 4`, `queue_dequeue` does not return to its caller;
it ends the process with `exit(1)`, as it does for a missing handle. -/
theorem dequeue_on_empty_exits :
    queue_dequeue (some example_queue_empty) (some (int_bytes 0)) (some []) = .exited 1 ∧
    queue_dequeue none (some (int_bytes 0)) (some []) = .exited 1 := by
  decide

/-- C25, amended: on every queue with `count = 0`, `queue_dequeue` ends the
process with `exit(1)` and never returns to its caller; the exit status is the
one it uses for a missing handle, a missing destination and a zero
`item_size`. -/
theorem dequeue_on_empty_is_exit (q : queue) (item : Option (List Byte)) (dst : List Byte)
    (a : AllocAnswer) (hc : q.count = 0) :
    queue_dequeue (some q) item a = .exited 1 ∧
    queue_dequeue none (some dst) a = .exited 1 ∧
    queue_dequeue (some q) none a = .exited 1 ∧
    queue_dequeue (some { q with item_size := 0 }) (some dst) a = .exited 1 := by
  refine ⟨?_, rfl, rfl, ?_⟩
  · cases item with
    | none => rfl
    | some d => simp [queue_dequeue, hc]
  · simp [queue_dequeue]

theorem dequeue_on_empty_is_exit_witness :
    example_queue_empty.count = 0 ∧
    queue_dequeue (some example_queue_empty) (some (int_bytes 0)) none = .exited 1 ∧
    queue_dequeue none (some (int_bytes 0)) none = .exited 1 ∧
    queue_dequeue (some example_queue_empty) none none = .exited 1 ∧
    queue_dequeue (some { example_queue_empty with item_size := 0 }) (some (int_bytes 0)) none
      = .exited 1 :=
  ⟨by decide,
    dequeue_on_empty_is_exit example_queue_empty (some (int_bytes 0)) (int_bytes 0) none
      (by decide)⟩

end ArrayQueue

/-! ## The claims on the lazy buffer -/

namespace LazyArray

open Mem

/-- C26: on the buffer `da_init` leaves (element size `size > 0`),
`da_insert_item` at index 0 with an allocator that grants the block returns 0
and leaves `count = 1` with `capacity = 0`, so `count ≤ capacity` fails: the
doubled capacity is `0 * 2 = 0`, the block is reallocated to zero bytes and the
item is stored past its end (`in_bounds = false`).  With an allocator that
returns NULL the call returns -1 and changes nothing; `da_append` on the same
buffer allocates four slots first and leaves `count = 1`, `capacity = 4`. -/
theorem insert_into_fresh_buffer (d0 : dynamic_array) (size : Nat) (x junk : List Byte)
    (hs : 0 < size) :
    (∃ d1, da_insert_item (some (da_init d0 size)) 0 (some x) (some junk)
        = ⟨0, some d1, some x, false⟩ ∧
      d1.count = 1 ∧ d1.capacity = 0 ∧ ¬ d1.count ≤ d1.capacity ∧
      d1.items = some (x.take size) ∧ d1.item_size = size) ∧
    da_insert_item (some (da_init d0 size)) 0 (some x) none
      = ⟨-1, some (da_init d0 size), some x, true⟩ ∧
    ∃ d2, da_append (some (da_init d0 size)) (some x) (some junk) (some junk)
        = ⟨0, some d2, some x, true⟩ ∧
      d2.count = 1 ∧ d2.capacity = 4 := by
  have hs0 : size ≠ 0 := by omega
  refine ⟨⟨⟨some (x.take size), size, 1, 0⟩, ?_, rfl, rfl, Nat.not_succ_le_zero 0, rfl, rfl⟩, ?_, ?_⟩
  · simp [da_insert_item, da_init, hs0, realloc_ptr, malloc, freshBytes, da_insert_item_store,
      memmove, memmove_checked, memcpy_into, memcpy_into_checked, readBytes, writeBytes,
      DA_RESIZE_FACTOR, UINT_RANGE]
  · simp [da_insert_item, da_init, hs0, realloc_ptr, malloc, DA_RESIZE_FACTOR, UINT_RANGE]
  · refine ⟨⟨some (writeBytes (freshBytes junk (size * 4)) 0 (x.take size)), size, 1, 4⟩,
      ?_, rfl, rfl⟩
    have h4 : size ≤ size * 4 := by omega
    simp [da_append, da_init, hs0, malloc, da_append_grow, da_append_store, memcpy_into,
      memcpy_into_checked, DA_INITIAL_CAPACITY, UINT_RANGE, freshBytes, h4]

theorem insert_into_fresh_buffer_witness :
    (∃ d1, da_insert_item (some (da_init example_blank 4)) 0 (some (int_bytes 7)) (some [])
        = ⟨0, some d1, some (int_bytes 7), false⟩ ∧
      d1.count = 1 ∧ d1.capacity = 0 ∧ ¬ d1.count ≤ d1.capacity ∧
      d1.items = some ((int_bytes 7).take 4) ∧ d1.item_size = 4) ∧
    da_insert_item (some (da_init example_blank 4)) 0 (some (int_bytes 7)) none
      = ⟨-1, some (da_init example_blank 4), some (int_bytes 7), true⟩ ∧
    ∃ d2, da_append (some (da_init example_blank 4)) (some (int_bytes 7)) (some []) (some [])
        = ⟨0, some d2, some (int_bytes 7), true⟩ ∧
      d2.count = 1 ∧ d2.capacity = 4 :=
  insert_into_fresh_buffer example_blank 4 (int_bytes 7) [] (by decide)

/-- C27: on the buffer 10, 20, 30, 40 with four free slots, `da_insert_item`
stays inside the block and returns 0, yet it does not shift the tail to the
right.  At index 0 nothing moves and 99 overwrites the 10; at index 2 the
`memmove` copies slots 3 and 4 down onto slots 2 and 3, so the 30 and the 40
are lost.  In both cases `count` becomes 5 and the fifth element is the content
of the free slot. -/
theorem lazy_insert_overwrites :
    live example_four = [int_bytes 10, int_bytes 20, int_bytes 30, int_bytes 40] ∧
    (da_insert_item (some example_four) 0 (some (int_bytes 99)) none).value = 0 ∧
    (da_insert_item (some example_four) 0 (some (int_bytes 99)) none).in_bounds = true ∧
    (da_insert_item (some example_four) 0 (some (int_bytes 99)) none).da.map live
      = some [int_bytes 99, int_bytes 20, int_bytes 30, int_bytes 40, int_bytes 0] ∧
    (da_insert_item (some example_four) 0 (some (int_bytes 99)) none).da.map live
      ≠ some [int_bytes 99, int_bytes 10, int_bytes 20, int_bytes 30, int_bytes 40] ∧
    (da_insert_item (some example_four) 2 (some (int_bytes 99)) none).value = 0 ∧
    (da_insert_item (some example_four) 2 (some (int_bytes 99)) none).in_bounds = true ∧
    (da_insert_item (some example_four) 2 (some (int_bytes 99)) none).da.map live
      = some [int_bytes 10, int_bytes 20, int_bytes 99, int_bytes 0, int_bytes 0] ∧
    (da_insert_item (some example_four) 2 (some (int_bytes 99)) none).da.map live
      ≠ some [int_bytes 10, int_bytes 20, int_bytes 99, int_bytes 30, int_bytes 40] := by
  decide

end LazyArray

/-! ## Binary search -/

namespace IntArray

theorem read_natCast (arr : List Int) (k : Nat) : read arr (k : Int) = arr[k]? := by
  simp [read]

end IntArray

namespace BinarySearch

open Mem IntArray

theorem tdiv_two_natCast (a : Nat) : Int.tdiv (a : Int) 2 = ((a / 2 : Nat) : Int) := by
  rw [Int.tdiv_eq_ediv (Int.ofNat_nonneg a) (by decide)]
  norm_cast

/-- One call of `binary_search` on a non-empty range whose bounds add up inside
the range of `int`. -/
theorem binary_search_step (fuel : Nat) (arr : List Int) (low high : Nat) (key v : Int)
    (hlh : low ≤ high) (hmax : 2 * (high : Int) ≤ INT_MAX)
    (hv : arr[(low + high) / 2]? = some v) :
    binary_search (fuel + 1) arr low high key =
      if v = key then some (.returned (((low + high) / 2 : Nat) : Int))
      else if v < key then binary_search fuel arr (((low + high) / 2 + 1 : Nat) : Int) high key
      else binary_search fuel arr low (((low + high) / 2 : Nat) : Int) key := by
  have h1 : ¬ (low : Int) > (high : Int) := by omega
  have h2 : ¬ ((low : Int) + (high : Int) < INT_MIN ∨ INT_MAX < (low : Int) + (high : Int)) := by
    simp only [INT_MAX, INT_MIN] at *
    omega
  have h3 : Int.tdiv ((low : Int) + (high : Int)) 2 = (((low + high) / 2 : Nat) : Int) := by
    rw [← tdiv_two_natCast]
    norm_cast
  rw [binary_search, if_neg h1, if_neg h2]
  simp only [h3, read_natCast, hv]
  norm_cast

/-- From neighbours to any two positions of a sorted range. -/
theorem sorted_range (arr : List Int) (low high : Nat)
    (hsorted : ∀ k, k < high → low ≤ k → arr.getD k 0 ≤ arr.getD (k + 1) 0)
    (k l : Nat) (hk : low ≤ k) (hkl : k ≤ l) (hl : l ≤ high) :
    arr.getD k 0 ≤ arr.getD l 0 := by
  induction l with
  | zero =>
    have : k = 0 := by omega
    subst this
    exact le_refl _
  | succ l ih =>
    by_cases h : k = l + 1
    · subst h
      exact le_refl _
    · exact le_trans (ih (by omega) (by omega)) (hsorted l (by omega) (by omega))

theorem getD_of_getElem? (arr : List Int) (k : Nat) (v : Int) (h : arr[k]? = some v) :
    arr.getD k 0 = v := by
  simp [List.getD, h]

theorem binary_search_finds_aux (arr : List Int) (low0 high0 : Nat) (key : Int)
    (hh : high0 < arr.length) (hmax : 2 * (high0 : Int) ≤ INT_MAX)
    (hsorted : ∀ k l, low0 ≤ k → k ≤ l → l ≤ high0 → arr.getD k 0 ≤ arr.getD l 0) :
    ∀ (d low high : Nat), high - low = d → low0 ≤ low → low ≤ high → high ≤ high0 →
      (∃ k, low ≤ k ∧ k ≤ high ∧ arr[k]? = some key) →
      ∃ i : Nat, low ≤ i ∧ i ≤ high ∧ arr[i]? = some key ∧
        ∀ fuel, high - low < fuel →
          binary_search fuel arr low high key = some (.returned (i : Int)) := by
  intro d
  induction d using Nat.strong_induction_on with
  | _ d ih =>
    intro low high hd hl0 hlh hh0 ⟨k, hk1, hk2, hk⟩
    have hmid1 : low ≤ (low + high) / 2 := by omega
    have hmid2 : (low + high) / 2 ≤ high := by omega
    have hlen : (low + high) / 2 < arr.length := by omega
    obtain ⟨v, hv⟩ : ∃ v, arr[(low + high) / 2]? = some v :=
      ⟨arr[(low + high) / 2], List.getElem?_eq_getElem hlen⟩
    have hmaxh : 2 * (high : Int) ≤ INT_MAX := by
      simp only [INT_MAX] at *
      omega
    have hkv := getD_of_getElem? arr k key hk
    have hvv := getD_of_getElem? arr _ v hv
    by_cases h1 : v = key
    · refine ⟨(low + high) / 2, hmid1, hmid2, by rw [hv, h1], ?_⟩
      intro fuel hf
      obtain ⟨f, rfl⟩ : ∃ f, fuel = f + 1 := ⟨fuel - 1, by omega⟩
      rw [binary_search_step f arr low high key v hlh hmaxh hv, if_pos h1]
    · by_cases h2 : v < key
      · have hkm : (low + high) / 2 < k := by
          by_contra hc
          have := hsorted k ((low + high) / 2) (by omega) (by omega) (by omega)
          rw [hkv, hvv] at this
          omega
        obtain ⟨i, hi1, hi2, hi3, hi4⟩ := ih (high - ((low + high) / 2 + 1)) (by omega)
          ((low + high) / 2 + 1) high rfl (by omega) (by omega) hh0 ⟨k, by omega, hk2, hk⟩
        refine ⟨i, by omega, hi2, hi3, ?_⟩
        intro fuel hf
        obtain ⟨f, rfl⟩ : ∃ f, fuel = f + 1 := ⟨fuel - 1, by omega⟩
        rw [binary_search_step f arr low high key v hlh hmaxh hv, if_neg h1, if_pos h2]
        exact hi4 f (by omega)
      · have hkm : k < (low + high) / 2 := by
          by_contra hc
          have := hsorted ((low + high) / 2) k (by omega) (by omega) (by omega)
          rw [hkv, hvv] at this
          have hne : k ≠ (low + high) / 2 := by
            intro he
            rw [he, hv] at hk
            exact h1 (Option.some.inj hk)
          omega
        obtain ⟨i, hi1, hi2, hi3, hi4⟩ := ih ((low + high) / 2 - low) (by omega)
          low ((low + high) / 2) rfl hl0 (by omega) (by omega) ⟨k, hk1, by omega, hk⟩
        refine ⟨i, hi1, by omega, hi3, ?_⟩
        intro fuel hf
        obtain ⟨f, rfl⟩ : ∃ f, fuel = f + 1 := ⟨fuel - 1, by omega⟩
        rw [binary_search_step f arr low high key v hlh hmaxh hv, if_neg h1, if_neg h2]
        exact hi4 f (by omega)

/-- C28, as the claim states it, fails on a large array: in an array of
`2 ^ 30 + 1` zeros, which is sorted, the key 0 occurs at index `2 ^ 30`, and
`binary_search(arr, 2 ^ 30, 2 ^ 30, 0)` adds `low + high = 2 ^ 31`, which is
outside the range of `int`. -/
theorem binary_search_overflows :
    (List.replicate 1073741825 (0 : Int)).length = 1073741825 ∧
    (List.replicate 1073741825 (0 : Int))[1073741824]? = some 0 ∧
    (∀ k l, k ≤ l → (List.replicate 1073741825 (0 : Int)).getD k 0
      ≤ (List.replicate 1073741825 (0 : Int)).getD l 0) ∧
    ∀ fuel, binary_search (fuel + 1) (List.replicate 1073741825 (0 : Int))
      1073741824 1073741824 0 = some .undefined := by
  refine ⟨List.length_replicate _ _, ?_, ?_, ?_⟩
  · rw [List.getElem?_replicate, if_pos (by omega)]
  · intro k l _
    simp only [List.getD, List.get?_eq_getElem?, List.getElem?_replicate]
    split_ifs <;> simp
  · intro fuel
    rw [binary_search, if_neg (by omega), if_pos (Or.inr (by simp only [INT_MAX]; omega))]

/-- C28, amended: on every array that is sorted ascending on `[low, high]` with
`low ≤ high` inside the array and `2 * high ≤ INT_MAX`, for every key that
occurs in `arr[low..high]`, `binary_search` returns with every fuel above
`high - low`, and what it returns is an index `i` with `low ≤ i ≤ high` and
`arr[i] = search_key`. -/
theorem binary_search_finds (arr : List Int) (low high : Nat) (key : Int)
    (hlh : low ≤ high) (hh : high < arr.length) (hmax : 2 * (high : Int) ≤ INT_MAX)
    (hsorted : ∀ k, k < high → low ≤ k → arr.getD k 0 ≤ arr.getD (k + 1) 0)
    (hkey : ∃ k, low ≤ k ∧ k ≤ high ∧ arr[k]? = some key) :
    ∃ i : Nat, low ≤ i ∧ i ≤ high ∧ arr[i]? = some key ∧
      ∀ fuel, high - low < fuel →
        binary_search fuel arr low high key = some (.returned (i : Int)) :=
  binary_search_finds_aux arr low high key hh hmax (sorted_range arr low high hsorted)
    (high - low) low high rfl (le_refl _) hlh (le_refl _) hkey

theorem binary_search_finds_witness :
    binary_search 75 main_array 0 74 79 = some (.returned 62) ∧
    ∃ i : Nat, 0 ≤ i ∧ i ≤ 74 ∧ main_array[i]? = some 79 ∧
      ∀ fuel, 74 - 0 < fuel →
        binary_search fuel main_array ((0 : Nat) : Int) ((74 : Nat) : Int) 79
          = some (.returned (i : Int)) :=
  ⟨by decide,
    binary_search_finds main_array 0 74 79 (by decide) (by decide) (by decide) (by decide)
      ⟨62, by decide, by decide, by decide⟩⟩

/-- C29: a key that does not occur in `arr[low..high]` and is less than
`arr[high]` is never reported: with `low ≤ high` inside the array and
`2 * high ≤ INT_MAX`, `binary_search` does not return for any amount of fuel.
The branch `high = mid` keeps `arr[high] > search_key`, so `low > high` is never
reached, and at `low = high` the call repeats itself. -/
theorem absent_key_never_returns (arr : List Int) (key : Int) (fuel : Nat) :
    ∀ (low high : Nat), low ≤ high → high < arr.length → 2 * (high : Int) ≤ INT_MAX →
      (∀ k, k < high + 1 → low ≤ k → arr[k]? ≠ some key) → key < arr.getD high 0 →
      binary_search fuel arr low high key = none := by
  induction fuel with
  | zero =>
    intro low high _ _ _ _ _
    rfl
  | succ f ih =>
    intro low high hlh hh hmax habs hlt
    have hlen : (low + high) / 2 < arr.length := by omega
    obtain ⟨v, hv⟩ : ∃ v, arr[(low + high) / 2]? = some v :=
      ⟨arr[(low + high) / 2], List.getElem?_eq_getElem hlen⟩
    have hvv := getD_of_getElem? arr _ v hv
    have h1 : ¬ v = key := by
      intro he
      exact habs ((low + high) / 2) (by omega) (by omega) (by rw [hv, he])
    rw [binary_search_step f arr low high key v hlh hmax hv, if_neg h1]
    by_cases h2 : v < key
    · rw [if_pos h2]
      have hmh : (low + high) / 2 ≠ high := by
        intro he
        rw [he] at hvv
        omega
      exact ih ((low + high) / 2 + 1) high (by omega) hh hmax
        (fun k hk1 hk2 => habs k hk1 (by omega)) hlt
    · rw [if_neg h2]
      exact ih low ((low + high) / 2) (by omega) (by omega)
        (by simp only [INT_MAX] at *; omega)
        (fun k hk1 hk2 => habs k (by omega) hk2) (by rw [hvv]; omega)

theorem absent_key_never_returns_witness :
    binary_search 1000 [5] 0 0 3 = none ∧
    binary_search 1000 main_array ((0 : Nat) : Int) ((74 : Nat) : Int) 4 = none :=
  ⟨absent_key_never_returns [5] 3 1000 0 0 (by decide) (by decide) (by decide) (by decide)
      (by decide),
    absent_key_never_returns main_array 4 1000 0 74 (by decide) (by decide) (by decide)
      (by decide) (by decide)⟩

end BinarySearch

/-! ## Quick sort: swaps, permutations and ranges -/

namespace IntArray

theorem swap_natCast (arr : List Int) (x y : Nat) (vx vy : Int) (hx : arr[x]? = some vx)
    (hy : arr[y]? = some vy) :
    swap arr (x : Int) (y : Int) = some ((arr.set x vy).set y vx) := by
  simp [swap, read_natCast, hx, hy]

theorem to_unsigned_natCast (k : Nat) (h : k < 4294967296) : to_unsigned (k : Int) = k := by
  unfold to_unsigned
  rw [Int.emod_eq_of_lt (by omega) (by omega)]
  simp

theorem to_int_natCast (k : Nat) (h : (k : Int) ≤ INT_MAX) : to_int k = (k : Int) := by
  unfold to_int
  rw [if_pos h]

theorem to_int_pred (low : Nat) (h : (low : Int) ≤ INT_MAX) :
    to_int ((low + Mem.UINT_RANGE - 1) % Mem.UINT_RANGE) = (low : Int) - 1 := by
  unfold to_int
  simp only [INT_MAX, Mem.UINT_RANGE] at *
  norm_num
  split_ifs <;> omega

theorem set_perm_cons (t : List Int) (k : Nat) (v a : Int) (h : t[k]? = some v) :
    (v :: t.set k a).Perm (a :: t) := by
  induction t generalizing k with
  | nil => simp at h
  | cons b t ih =>
    cases k with
    | zero =>
      simp only [List.getElem?_cons_zero, Option.some.injEq] at h
      subst h
      simpa using List.Perm.swap a b t
    | succ k =>
      simp only [List.getElem?_cons_succ] at h
      simp only [List.set_cons_succ]
      exact ((List.Perm.swap b v _).trans ((ih k h).cons b)).trans (List.Perm.swap a b t)

theorem swap_perm (arr : List Int) (x y : Nat) (vx vy : Int) (hx : arr[x]? = some vx)
    (hy : arr[y]? = some vy) : ((arr.set x vy).set y vx).Perm arr := by
  induction arr generalizing x y with
  | nil => simp at hx
  | cons a t ih =>
    cases x with
    | zero =>
      simp only [List.getElem?_cons_zero, Option.some.injEq] at hx
      subst hx
      cases y with
      | zero =>
        simp only [List.getElem?_cons_zero, Option.some.injEq] at hy
        subst hy
        simp
      | succ y =>
        simp only [List.getElem?_cons_succ] at hy
        simpa using set_perm_cons t y vy a hy
    | succ x =>
      simp only [List.getElem?_cons_succ] at hx
      cases y with
      | zero =>
        simp only [List.getElem?_cons_zero, Option.some.injEq] at hy
        subst hy
        simpa using set_perm_cons t x vx a hx
      | succ y =>
        simp only [List.getElem?_cons_succ] at hy
        simpa using (ih x y hx hy).cons a

/-- What a swap of two positions leaves at every position. -/
theorem getElem?_swap (arr : List Int) (x y k : Nat) (vx vy : Int) (hx : arr[x]? = some vx)
    (hy : arr[y]? = some vy) :
    ((arr.set x vy).set y vx)[k]? =
      if k = y then some vx else if k = x then some vy else arr[k]? := by
  have hxl : x < arr.length := by
    by_contra hc
    rw [List.getElem?_eq_none (by omega)] at hx
    simp at hx
  have hyl : y < arr.length := by
    by_contra hc
    rw [List.getElem?_eq_none (by omega)] at hy
    simp at hy
  simp only [List.getElem?_set, List.length_set]
  by_cases h1 : y = k
  · subst h1
    simp [hyl]
  · by_cases h2 : x = k
    · subst h2
      simp [h1, hxl, Ne.symm h1]
    · simp [h1, h2, Ne.symm h1, Ne.symm h2]

/-- The range `[low, low + n)` of a list and the rest of it. -/
theorem split_range (arr : List Int) (low n : Nat) :
    arr = arr.take low ++ ((arr.drop low).take n ++ (arr.drop low).drop n) := by
  rw [List.take_append_drop, List.take_append_drop]

theorem perm_range (arr arr1 : List Int) (low n : Nat) (hp : arr1.Perm arr)
    (hf : ∀ k, k < low ∨ low + n ≤ k → arr1[k]? = arr[k]?) :
    ((arr1.drop low).take n).Perm ((arr.drop low).take n) := by
  have h1 : arr1.take low = arr.take low := by
    apply List.ext_getElem?
    intro k
    simp only [List.getElem?_take]
    split_ifs with h
    · exact hf k (Or.inl h)
    · rfl
  have h2 : (arr1.drop low).drop n = (arr.drop low).drop n := by
    apply List.ext_getElem?
    intro k
    simp only [List.getElem?_drop]
    exact hf _ (Or.inr (by omega))
  have h3 := hp
  rw [split_range arr1 low n, split_range arr low n, h1, h2] at h3
  exact (List.perm_append_right_iff _).mp ((List.perm_append_left_iff _).mp h3)

theorem getElem?_range (arr : List Int) (low n i : Nat) (h : i < n) :
    ((arr.drop low).take n)[i]? = arr[low + i]? := by
  rw [List.getElem?_take, if_pos h, List.getElem?_drop]

/-- A property of the values in `[low, low + n)` passes to a list that permutes
that range and agrees outside it. -/
theorem range_pred_of_perm (arr arr1 : List Int) (low n : Nat) (hp : arr1.Perm arr)
    (hf : ∀ k, k < low ∨ low + n ≤ k → arr1[k]? = arr[k]?) (P : Int → Prop)
    (h : ∀ k v, low ≤ k → k < low + n → arr[k]? = some v → P v) :
    ∀ k v, low ≤ k → k < low + n → arr1[k]? = some v → P v := by
  intro k v hk1 hk2 hv
  have hperm := perm_range arr arr1 low n hp hf
  have hmem : v ∈ (arr1.drop low).take n := by
    have := getElem?_range arr1 low n (k - low) (by omega)
    rw [show low + (k - low) = k by omega, hv] at this
    exact List.getElem?_mem this
  have hmem2 := hperm.subset hmem
  obtain ⟨i, hi⟩ := List.mem_iff_getElem?.mp hmem2
  have hin : i < n := by
    by_contra hc
    rw [List.getElem?_take, if_neg hc] at hi
    simp at hi
  rw [getElem?_range arr low n i hin] at hi
  exact h (low + i) v (by omega) (by omega) hi

end IntArray

/-! ## Quick sort: `partition` -/

namespace QuickSort

open Mem IntArray

theorem partition_loop_done (pivot : Int) (high fuel : Nat) (i j : Int) (arr : List Int)
    (h : ¬ to_unsigned j < high) :
    partition_loop pivot high fuel i j arr = some (.returned (arr, i)) := by
  unfold partition_loop
  rw [if_neg h]

theorem partition_loop_le (pivot : Int) (high fuel : Nat) (i j : Int) (arr arr1 : List Int)
    (v : Int) (h : to_unsigned j < high) (hr : read arr j = some v) (hv : v ≤ pivot)
    (hi : ¬ INT_MAX < i + 1) (hs : swap arr (i + 1) j = some arr1) (hj : ¬ INT_MAX < j + 1) :
    partition_loop pivot high (fuel + 1) i j arr
      = partition_loop pivot high fuel (i + 1) (j + 1) arr1 := by
  conv_lhs => unfold partition_loop
  simp only [if_pos h, hr, if_pos hv, if_neg hi, hs, if_neg hj]

theorem partition_loop_gt (pivot : Int) (high fuel : Nat) (i j : Int) (arr : List Int)
    (v : Int) (h : to_unsigned j < high) (hr : read arr j = some v) (hv : ¬ v ≤ pivot)
    (hj : ¬ INT_MAX < j + 1) :
    partition_loop pivot high (fuel + 1) i j arr
      = partition_loop pivot high fuel i (j + 1) arr := by
  conv_lhs => unfold partition_loop
  simp only [if_pos h, hr, if_neg hv, if_neg hj]

theorem exists_getElem? (arr : List Int) (k : Nat) (h : k < arr.length) :
    ∃ v, arr[k]? = some v :=
  ⟨arr[k], List.getElem?_eq_getElem h⟩

/-- The loop of `partition`, started with the values at `[low, p)` at most the
pivot and the values at `[p, j)` above it, returns with the same property for
`j = high`; it permutes the array and touches no position outside
`[low, high)`. -/
theorem partition_loop_spec (pivot : Int) (low high : Nat) (hmax : (high : Int) ≤ INT_MAX) :
    ∀ (n : Nat) (arr : List Int) (p j : Nat), low ≤ p → p ≤ j → j ≤ high → high - j ≤ n →
      high < arr.length →
      (∀ k v, low ≤ k → k < p → arr[k]? = some v → v ≤ pivot) →
      (∀ k v, p ≤ k → k < j → arr[k]? = some v → pivot < v) →
      ∃ (arr1 : List Int) (p1 : Nat),
        partition_loop pivot high n ((p : Int) - 1) (j : Int) arr
          = some (.returned (arr1, (p1 : Int) - 1)) ∧
        low ≤ p1 ∧ p1 ≤ high ∧ arr1.length = arr.length ∧ arr1.Perm arr ∧
        (∀ k, k < low ∨ high ≤ k → arr1[k]? = arr[k]?) ∧
        (∀ k v, low ≤ k → k < p1 → arr1[k]? = some v → v ≤ pivot) ∧
        (∀ k v, p1 ≤ k → k < high → arr1[k]? = some v → pivot < v) := by
  have hhigh : high < 4294967296 := by
    simp only [INT_MAX] at hmax
    omega
  intro n
  induction n with
  | zero =>
    intro arr p j hp hpj hj hn hlen hle hgt
    have hjh : j = high := by omega
    subst hjh
    refine ⟨arr, p, ?_, hp, hpj, rfl, List.Perm.refl _, fun _ _ => rfl, hle, hgt⟩
    exact partition_loop_done pivot j 0 _ _ arr
      (by rw [to_unsigned_natCast j hhigh]; omega)
  | succ n ih =>
    intro arr p j hp hpj hj hn hlen hle hgt
    by_cases hjh : j = high
    · subst hjh
      refine ⟨arr, p, ?_, hp, hpj, rfl, List.Perm.refl _, fun _ _ => rfl, hle, hgt⟩
      exact partition_loop_done pivot j (n + 1) _ _ arr
        (by rw [to_unsigned_natCast j hhigh]; omega)
    · have hjlt : j < high := by omega
      obtain ⟨vj, hjv⟩ := exists_getElem? arr j (by omega)
      obtain ⟨vp, hpv⟩ := exists_getElem? arr p (by omega)
      have hj1 : ¬ INT_MAX < (j : Int) + 1 := by
        simp only [INT_MAX] at *
        omega
      have hp1 : ¬ INT_MAX < (p : Int) - 1 + 1 := by
        simp only [INT_MAX] at *
        omega
      have ecast : (p : Int) - 1 + 1 = (p : Int) := by omega
      have ecast2 : ((p + 1 : Nat) : Int) - 1 = (p : Int) := by omega
      have ecast3 : (j : Int) + 1 = ((j + 1 : Nat) : Int) := by omega
      have hju : to_unsigned (j : Int) < high := by
        rw [to_unsigned_natCast j (by omega)]
        exact hjlt
      have hrj : read arr (j : Int) = some vj := by rw [read_natCast, hjv]
      by_cases hv : vj ≤ pivot
      · have hsw : swap arr ((p : Int) - 1 + 1) (j : Int)
            = some ((arr.set p vj).set j vp) := by
          rw [ecast, swap_natCast arr p j _ _ hpv hjv]
        rw [partition_loop_le pivot high n _ _ arr _ _ hju hrj hv hp1 hsw hj1, ecast]
        have hget := fun k => getElem?_swap arr p j k vp vj hpv hjv
        have hle1 : ∀ k v, low ≤ k → k < p + 1 → ((arr.set p vj).set j vp)[k]? = some v →
            v ≤ pivot := by
          intro k v hk1 hk2 hkv
          rw [hget k] at hkv
          by_cases hkj : k = j
          · have hpj2 : p = j := by omega
            rw [if_pos hkj] at hkv
            have e1 : vp = v := Option.some.inj hkv
            have e2 : vp = vj := by
              rw [hpj2, hjv] at hpv
              exact (Option.some.inj hpv).symm
            rw [← e1, e2]
            exact hv
          · rw [if_neg hkj] at hkv
            by_cases hkp : k = p
            · rw [if_pos hkp] at hkv
              rw [← Option.some.inj hkv]
              exact hv
            · rw [if_neg hkp] at hkv
              exact hle k v hk1 (by omega) hkv
        have hgt1 : ∀ k v, p + 1 ≤ k → k < j + 1 → ((arr.set p vj).set j vp)[k]? = some v →
            pivot < v := by
          intro k v hk1 hk2 hkv
          rw [hget k] at hkv
          by_cases hkj : k = j
          · rw [if_pos hkj] at hkv
            rw [← Option.some.inj hkv]
            exact hgt p vp (le_refl _) (by omega) hpv
          · rw [if_neg hkj, if_neg (by omega)] at hkv
            exact hgt k v (by omega) (by omega) hkv
        obtain ⟨arr1, p1, h1, h2, h3, h4, h5, h6, h7, h8⟩ :=
          ih ((arr.set p vj).set j vp) (p + 1) (j + 1) (by omega) (by omega) (by omega)
            (by omega) (by simp only [List.length_set]; exact hlen) hle1 hgt1
        rw [ecast2, ← ecast3] at h1
        refine ⟨arr1, p1, h1, by omega, h3, by rw [h4]; simp only [List.length_set], ?_, ?_,
          h7, h8⟩
        · exact h5.trans (swap_perm arr p j _ _ hpv hjv)
        · intro k hk
          rw [h6 k hk, hget k, if_neg (by omega), if_neg (by omega)]
      · rw [partition_loop_gt pivot high n _ _ arr _ hju hrj hv hj1]
        have hgt1 : ∀ k v, p ≤ k → k < j + 1 → arr[k]? = some v → pivot < v := by
          intro k v hk1 hk2 hkv
          by_cases hkj : k = j
          · rw [hkj, hjv] at hkv
            rw [← Option.some.inj hkv]
            omega
          · exact hgt k v hk1 (by omega) hkv
        obtain ⟨arr1, p1, h1, h2, h3, h4, h5, h6, h7, h8⟩ :=
          ih arr p (j + 1) hp (by omega) (by omega) (by omega) hlen hle hgt1
        rw [← ecast3] at h1
        exact ⟨arr1, p1, h1, h2, h3, h4, h5, h6, h7, h8⟩

/-- The function `partition` on a range `low < high` inside the array, with
`high ≤ INT_MAX`: it returns an index `m` of the range, permutes the array,
touches nothing outside `[low, high]`, and leaves a value at `m` that is at
least the values before it and less than the values after it in the range. -/
theorem partition_spec (arr : List Int) (low high : Nat) (hlh : low < high)
    (hlen : high < arr.length) (hmax : (high : Int) ≤ INT_MAX) :
    ∃ (arr1 : List Int) (m : Nat) (pv : Int),
      partition arr low high = some (.returned (arr1, (m : Int))) ∧
      low ≤ m ∧ m ≤ high ∧ arr1.length = arr.length ∧ arr1.Perm arr ∧
      (∀ k, k < low ∨ high < k → arr1[k]? = arr[k]?) ∧
      arr1[m]? = some pv ∧
      (∀ k v, low ≤ k → k < m → arr1[k]? = some v → v ≤ pv) ∧
      (∀ k v, m < k → k ≤ high → arr1[k]? = some v → pv < v) := by
  obtain ⟨pv, hhv⟩ := exists_getElem? arr high hlen
  have hlow : (low : Int) ≤ INT_MAX := by
    simp only [INT_MAX] at *
    omega
  obtain ⟨arr1, p1, h1, h2, h3, h4, h5, h6, h7, h8⟩ :=
    partition_loop_spec pv low high hmax (high - low) arr low low (le_refl _) (le_refl _)
      (by omega) (le_refl _) hlen (fun k v hk1 hk2 _ => by omega) (fun k v hk1 hk2 _ => by omega)
  obtain ⟨a, hp1v⟩ := exists_getElem? arr1 p1 (by omega)
  have hhv1 : arr1[high]? = some pv := by rw [h6 high (Or.inr (le_refl _)), hhv]
  have hi1 : ¬ INT_MAX < (p1 : Int) - 1 + 1 := by
    simp only [INT_MAX] at *
    omega
  have ecast : (p1 : Int) - 1 + 1 = (p1 : Int) := by omega
  have hget := fun k => getElem?_swap arr1 p1 high k a pv hp1v hhv1
  refine ⟨(arr1.set p1 pv).set high a, p1, pv, ?_, h2, h3,
    by simp only [List.length_set]; exact h4, (swap_perm arr1 p1 high _ _ hp1v hhv1).trans h5,
    ?_, ?_, ?_, ?_⟩
  · have hsw : swap arr1 (p1 : Int) (high : Int) = some ((arr1.set p1 pv).set high a) :=
      swap_natCast arr1 p1 high _ _ hp1v hhv1
    have hi2 : ¬ INT_MAX < (p1 : Int) := by
      rw [← ecast]
      exact hi1
    unfold partition
    simp only [hhv, to_int_pred low hlow, to_int_natCast low hlow, h1, sub_add_cancel,
      if_neg hi2, hsw]
  · intro k hk
    rw [hget k, if_neg (by omega), if_neg (by omega)]
    exact h6 k (by omega)
  · rw [hget p1]
    by_cases he : p1 = high
    · rw [if_pos he]
      rw [he, hhv1] at hp1v
      rw [← Option.some.inj hp1v]
    · rw [if_neg he, if_pos rfl]
  · intro k v hk1 hk2 hkv
    rw [hget k, if_neg (by omega), if_neg (by omega)] at hkv
    exact h7 k v hk1 hk2 hkv
  · intro k v hk1 hk2 hkv
    rw [hget k] at hkv
    by_cases hkh : k = high
    · rw [if_pos hkh] at hkv
      rw [← Option.some.inj hkv]
      exact h8 p1 a (le_refl _) (by omega) hp1v
    · rw [if_neg hkh, if_neg (by omega)] at hkv
      exact h8 k v (by omega) (by omega) hkv

end QuickSort

/-! ## Quick sort: `quick_sort` -/

namespace QuickSort

open Mem IntArray

theorem quick_sort_empty (fuel : Nat) (arr : List Int) (low high : Nat) (h : ¬ low < high) :
    quick_sort (fuel + 1) arr low high = some (.returned arr) := by
  rw [quick_sort, if_neg h]

theorem quick_sort_step (fuel : Nat) (arr arr1 arr2 : List Int) (low high : Nat) (mid : Int)
    (h : low < high) (hp : partition arr low high = some (.returned (arr1, mid)))
    (hl : (if mid > 0 then quick_sort fuel arr1 low (to_unsigned (mid - 1))
      else some (.returned arr1)) = some (.returned arr2))
    (hm : ¬ INT_MAX < mid + 1) :
    quick_sort (fuel + 1) arr low high = quick_sort fuel arr2 (to_unsigned (mid + 1)) high := by
  rw [quick_sort, if_pos h, hp]
  simp only []
  rw [hl]
  simp only []
  rw [if_neg hm]

theorem quick_sort_step_overflow (fuel : Nat) (arr arr1 arr2 : List Int) (low high : Nat)
    (mid : Int) (h : low < high) (hp : partition arr low high = some (.returned (arr1, mid)))
    (hl : (if mid > 0 then quick_sort fuel arr1 low (to_unsigned (mid - 1))
      else some (.returned arr1)) = some (.returned arr2))
    (hm : INT_MAX < mid + 1) :
    quick_sort (fuel + 1) arr low high = some .undefined := by
  rw [quick_sort, if_pos h, hp]
  simp only []
  rw [hl]
  simp only []
  rw [if_pos hm]

/-- The function `quick_sort` on a range below `INT_MAX` inside the array, with
at least one unit of fuel and at least as many as the range has positions:
it returns an array of the same length that is a permutation of the first,
agrees with it outside `[low, high]` and is non-decreasing on `[low, high]`. -/
theorem quick_sort_spec : ∀ (d : Nat) (arr : List Int) (low high : Nat),
    high + 1 - low ≤ d → high < arr.length → (high : Int) < INT_MAX →
    ∃ arr3 : List Int,
      (∀ fuel, high + 1 - low ≤ fuel → 1 ≤ fuel →
        quick_sort fuel arr low high = some (.returned arr3)) ∧
      arr3.length = arr.length ∧ arr3.Perm arr ∧
      (∀ k, k < low ∨ high < k → arr3[k]? = arr[k]?) ∧
      (∀ k l x y, low ≤ k → k ≤ l → l ≤ high → arr3[k]? = some x → arr3[l]? = some y →
        x ≤ y) := by
  intro d
  induction d with
  | zero =>
    intro arr low high hd hlen hmax
    refine ⟨arr, ?_, rfl, List.Perm.refl _, fun _ _ => rfl, ?_⟩
    · intro fuel _ hf
      obtain ⟨f, rfl⟩ : ∃ f, fuel = f + 1 := ⟨fuel - 1, by omega⟩
      exact quick_sort_empty f arr low high (by omega)
    · intro k l x y hk hkl hl _ _
      omega
  | succ d ih =>
    intro arr low high hd hlen hmax
    by_cases hlh : low < high
    · obtain ⟨arr1, m, pv, hp, hm1, hm2, hl1, hperm1, hf1, hpv, hle, hgt⟩ :=
        partition_spec arr low high hlh hlen (le_of_lt hmax)
      have hmax2 : ¬ INT_MAX < (m : Int) + 1 := by
        simp only [INT_MAX] at *
        omega
      have hmu : to_unsigned ((m : Int) + 1) = m + 1 := by
        have e : (m : Int) + 1 = ((m + 1 : Nat) : Int) := by omega
        rw [e, to_unsigned_natCast]
        simp only [INT_MAX] at hmax
        omega
      -- the call on the left part
      have hleft : ∃ arr2 : List Int,
          (∀ f, high - low ≤ f →
            (if (m : Int) > 0 then quick_sort f arr1 low (to_unsigned ((m : Int) - 1))
              else some (.returned arr1)) = some (.returned arr2)) ∧
          arr2.length = arr1.length ∧ arr2.Perm arr1 ∧
          (∀ k, k < low ∨ m ≤ k → arr2[k]? = arr1[k]?) ∧
          (∀ k l x y, low ≤ k → k ≤ l → l < m → arr2[k]? = some x → arr2[l]? = some y →
            x ≤ y) := by
        by_cases hm0 : m = 0
        · subst hm0
          refine ⟨arr1, ?_, rfl, List.Perm.refl _, fun _ _ => rfl, ?_⟩
          · intro f _
            rw [if_neg (by simp)]
          · intro k l x y _ _ hl _ _
            omega
        · obtain ⟨arr2, h1, h2, h3, h4, h5⟩ := ih arr1 low (m - 1) (by omega) (by omega)
            (by simp only [INT_MAX] at *; omega)
          have hmu1 : to_unsigned ((m : Int) - 1) = m - 1 := by
            have e : (m : Int) - 1 = ((m - 1 : Nat) : Int) := by omega
            rw [e, to_unsigned_natCast]
            simp only [INT_MAX] at hmax
            omega
          refine ⟨arr2, ?_, h2, h3, ?_, ?_⟩
          · intro f hf
            rw [if_pos (by omega), hmu1]
            exact h1 f (by omega) (by omega)
          · intro k hk
            exact h4 k (by omega)
          · intro k l x y hk hkl hl hx hy
            exact h5 k l x y hk hkl (by omega) hx hy
      obtain ⟨arr2, hrun2, hl2, hperm2, hf2, hs2⟩ := hleft
      -- the call on the right part
      obtain ⟨arr3, hrun3, hl3, hperm3, hf3, hs3⟩ := ih arr2 (m + 1) high (by omega)
        (by omega) hmax
      -- the values left of `m` stay at most the pivot, those right of it stay above it
      have hle2 : ∀ k v, low ≤ k → k < m → arr2[k]? = some v → v ≤ pv := by
        have := range_pred_of_perm arr1 arr2 low (m - low) hperm2
          (fun k hk => hf2 k (by omega)) (fun v => v ≤ pv)
          (fun k v hk1 hk2 hkv => hle k v hk1 (by omega) hkv)
        intro k v hk1 hk2 hkv
        exact this k v hk1 (by omega) hkv
      have hgt2 : ∀ k v, m < k → k ≤ high → arr2[k]? = some v → pv < v := by
        intro k v hk1 hk2 hkv
        rw [hf2 k (by omega)] at hkv
        exact hgt k v hk1 hk2 hkv
      have hgt3 : ∀ k v, m < k → k ≤ high → arr3[k]? = some v → pv < v := by
        have := range_pred_of_perm arr2 arr3 (m + 1) (high - m) hperm3
          (fun k hk => hf3 k (by omega)) (fun v => pv < v)
          (fun k v hk1 hk2 hkv => hgt2 k v (by omega) (by omega) hkv)
        intro k v hk1 hk2 hkv
        exact this k v (by omega) (by omega) hkv
      have hle3 : ∀ k v, low ≤ k → k < m → arr3[k]? = some v → v ≤ pv := by
        intro k v hk1 hk2 hkv
        rw [hf3 k (by omega)] at hkv
        exact hle2 k v hk1 hk2 hkv
      have hpv3 : arr3[m]? = some pv := by
        rw [hf3 m (by omega), hf2 m (by omega), hpv]
      refine ⟨arr3, ?_, by rw [hl3, hl2, hl1], (hperm3.trans hperm2).trans hperm1, ?_, ?_⟩
      · intro fuel hf _
        obtain ⟨f, rfl⟩ : ∃ f, fuel = f + 1 := ⟨fuel - 1, by omega⟩
        rw [quick_sort_step f arr arr1 arr2 low high (m : Int) hlh hp (hrun2 f (by omega)) hmax2,
          hmu]
        exact hrun3 f (by omega) (by omega)
      · intro k hk
        rw [hf3 k (by omega), hf2 k (by omega), hf1 k (by omega)]
      · intro k l x y hk hkl hl hx hy
        by_cases hlm : l < m
        · rw [hf3 k (by omega)] at hx
          rw [hf3 l (by omega)] at hy
          exact hs2 k l x y hk hkl hlm hx hy
        · by_cases hkm : m < k
          · exact hs3 k l x y (by omega) hkl hl hx hy
          · -- `k ≤ m ≤ l`
            have hxle : x ≤ pv := by
              by_cases hkm2 : k = m
              · rw [hkm2, hpv3] at hx
                rw [← Option.some.inj hx]
              · exact hle3 k x hk (by omega) hx
            have hyge : pv ≤ y := by
              by_cases hlm2 : l = m
              · rw [hlm2, hpv3] at hy
                rw [← Option.some.inj hy]
              · exact le_of_lt (hgt3 l y (by omega) hl hy)
            exact le_trans hxle hyge
    · refine ⟨arr, ?_, rfl, List.Perm.refl _, fun _ _ => rfl, ?_⟩
      · intro fuel _ hf
        obtain ⟨f, rfl⟩ : ∃ f, fuel = f + 1 := ⟨fuel - 1, by omega⟩
        exact quick_sort_empty f arr low high hlh
      · intro k l x y hk hkl hl hx hy
        have hkl2 : k = l := by omega
        rw [hkl2, hy] at hx
        rw [Option.some.inj hx]

end QuickSort

namespace QuickSort

open Mem IntArray

/-- On every array with `arr[INT_MAX - 1] ≤ arr[INT_MAX]`, the call
`quick_sort(arr, INT_MAX - 1, INT_MAX)` is undefined: `partition` returns
`INT_MAX` and `mid + 1` leaves the range of `int`. -/
theorem quick_sort_top (arr : List Int) (v1 v2 : Int) (h1 : arr[2147483646]? = some v1)
    (h2 : arr[2147483647]? = some v2) (hle : v1 ≤ v2) (fuel : Nat) :
    quick_sort (fuel + 2) arr 2147483646 2147483647 = some .undefined := by
  have hget1 := fun k => getElem?_swap arr 2147483646 2147483646 k v1 v1 h1 h1
  have h3 : ((arr.set 2147483646 v1).set 2147483646 v1)[2147483646]? = some v1 := by
    rw [hget1, if_pos rfl]
  have h4 : ((arr.set 2147483646 v1).set 2147483646 v1)[2147483647]? = some v2 := by
    rw [hget1, if_neg (by omega), if_neg (by omega), h2]
  have hu1 : to_unsigned ((2147483646 : Nat) : Int) = 2147483646 :=
    to_unsigned_natCast _ (by omega)
  have hu2 : to_unsigned ((2147483647 : Nat) : Int) = 2147483647 :=
    to_unsigned_natCast _ (by omega)
  have hloop : partition_loop v2 2147483647 1 (((2147483646 : Nat) : Int) - 1)
      ((2147483646 : Nat) : Int) arr
      = some (.returned ((arr.set 2147483646 v1).set 2147483646 v1,
          ((2147483646 : Nat) : Int))) := by
    rw [partition_loop_le v2 2147483647 0 _ _ arr
      ((arr.set 2147483646 v1).set 2147483646 v1) v1 (by rw [hu1]; omega)
      (by rw [read_natCast, h1]) hle (by simp only [INT_MAX]; omega)
      (by
        have e : ((2147483646 : Nat) : Int) - 1 + 1 = ((2147483646 : Nat) : Int) := by omega
        rw [e, swap_natCast arr 2147483646 2147483646 v1 v1 h1 h1])
      (by simp only [INT_MAX]; omega)]
    have e1 : ((2147483646 : Nat) : Int) - 1 + 1 = ((2147483646 : Nat) : Int) := by omega
    have e2 : ((2147483646 : Nat) : Int) + 1 = ((2147483647 : Nat) : Int) := by omega
    rw [e1, e2]
    exact partition_loop_done v2 2147483647 0 _ _ _ (by rw [hu2]; omega)
  have hpart : partition arr 2147483646 2147483647
      = some (.returned (((arr.set 2147483646 v1).set 2147483646 v1).set 2147483647 v2
          |>.set 2147483647 v2, ((2147483647 : Nat) : Int))) := by
    have hlow : ((2147483646 : Nat) : Int) ≤ INT_MAX := by
      simp only [INT_MAX]
      omega
    have hsw : swap ((arr.set 2147483646 v1).set 2147483646 v1) ((2147483647 : Nat) : Int)
        ((2147483647 : Nat) : Int)
        = some ((((arr.set 2147483646 v1).set 2147483646 v1).set 2147483647 v2).set
            2147483647 v2) :=
      swap_natCast _ 2147483647 2147483647 v2 v2 h4 h4
    have e2 : ((2147483646 : Nat) : Int) + 1 = ((2147483647 : Nat) : Int) := by omega
    have hi : ¬ INT_MAX < ((2147483647 : Nat) : Int) := by
      simp only [INT_MAX]
      omega
    unfold partition
    simp only [h2, to_int_pred 2147483646 hlow, to_int_natCast 2147483646 hlow]
    rw [show 2147483647 - 2147483646 = 1 from rfl, hloop]
    simp only [e2, if_neg hi, hsw]
  have hleft : (if ((2147483647 : Nat) : Int) > 0 then
        quick_sort (fuel + 1) ((((arr.set 2147483646 v1).set 2147483646 v1).set 2147483647
          v2).set 2147483647 v2) 2147483646 (to_unsigned (((2147483647 : Nat) : Int) - 1))
      else some (.returned ((((arr.set 2147483646 v1).set 2147483646 v1).set 2147483647
          v2).set 2147483647 v2)))
      = some (.returned ((((arr.set 2147483646 v1).set 2147483646 v1).set 2147483647
          v2).set 2147483647 v2)) := by
    have e : ((2147483647 : Nat) : Int) - 1 = ((2147483646 : Nat) : Int) := by omega
    rw [if_pos (by omega), e, hu1]
    exact quick_sort_empty fuel _ _ _ (by omega)
  exact quick_sort_step_overflow (fuel + 1) arr _ _ 2147483646 2147483647 _ (by omega) hpart
    hleft (by simp only [INT_MAX]; omega)

/-- C30, as the claim states it, fails at the top of the `int` range: in an
array of `2 ^ 31` zeros the indices `INT_MAX - 1 ≤ INT_MAX` lie within the
array, and `quick_sort(arr, INT_MAX - 1, INT_MAX)` computes `mid + 1` with
`mid = INT_MAX`, which is outside the range of `int`. -/
theorem quick_sort_overflows :
    (List.replicate 2147483648 (0 : Int)).length = 2147483648 ∧
    2147483646 ≤ 2147483647 ∧ 2147483647 < (List.replicate 2147483648 (0 : Int)).length ∧
    ∀ fuel, quick_sort (fuel + 2) (List.replicate 2147483648 (0 : Int)) 2147483646 2147483647
      = some .undefined := by
  refine ⟨List.length_replicate _ _, by omega, ?_, ?_⟩
  · rw [List.length_replicate]
    omega
  · intro fuel
    exact quick_sort_top _ 0 0 (by rw [List.getElem?_replicate, if_pos (by omega)])
      (by rw [List.getElem?_replicate, if_pos (by omega)]) (le_refl _) fuel

/-- C30, amended: for every `int` array and indices `low ≤ high` within the
array with `high < INT_MAX`, `quick_sort(arr, low, high)` returns with every
fuel above `high - low`; the array it leaves has the same length, is
non-decreasing on `[low, high]`, holds on `[low, high]` a permutation of the
values that were there, and is unchanged outside `[low, high]`. -/
theorem quick_sort_sorts (arr : List Int) (low high : Nat) (hlh : low ≤ high)
    (hlen : high < arr.length) (hmax : (high : Int) < INT_MAX) :
    ∃ sorted : List Int,
      (∀ fuel, high - low < fuel → quick_sort fuel arr low high = some (.returned sorted)) ∧
      sorted.length = arr.length ∧
      (∀ k l x y, low ≤ k → k ≤ l → l ≤ high → sorted[k]? = some x → sorted[l]? = some y →
        x ≤ y) ∧
      ((sorted.drop low).take (high + 1 - low)).Perm ((arr.drop low).take (high + 1 - low)) ∧
      (∀ k, k < low ∨ high < k → sorted[k]? = arr[k]?) := by
  obtain ⟨arr3, h1, h2, h3, h4, h5⟩ :=
    quick_sort_spec (high + 1 - low) arr low high (le_refl _) hlen hmax
  refine ⟨arr3, fun fuel hf => h1 fuel (by omega) (by omega), h2, h5, ?_, h4⟩
  exact perm_range arr arr3 low (high + 1 - low) h3 (fun k hk => h4 k (by omega))

theorem quick_sort_sorts_witness :
    quick_sort 4 [9, 3, 1, 2, 0] 1 3 = some (.returned [9, 1, 2, 3, 0]) ∧
    ∃ sorted : List Int,
      (∀ fuel, 3 - 1 < fuel → quick_sort fuel [9, 3, 1, 2, 0] 1 3 = some (.returned sorted)) ∧
      sorted.length = [9, 3, 1, 2, 0].length ∧
      (∀ k l x y, 1 ≤ k → k ≤ l → l ≤ 3 → sorted[k]? = some x → sorted[l]? = some y →
        x ≤ y) ∧
      ((sorted.drop 1).take (3 + 1 - 1)).Perm ((([9, 3, 1, 2, 0] : List Int).drop 1).take
        (3 + 1 - 1)) ∧
      (∀ k, k < 1 ∨ 3 < k → sorted[k]? = ([9, 3, 1, 2, 0] : List Int)[k]?) :=
  ⟨by decide,
    quick_sort_sorts [9, 3, 1, 2, 0] 1 3 (by decide) (by decide) (by decide)⟩

end QuickSort

/-! ## Failure of the first allocation of the lazy buffer -/

namespace LazyArray

open Mem

/-- C32: on a buffer `d` with `capacity = 0` (and `item_size > 0`), a
`da_append` whose `malloc` fails returns -1 after it has set `capacity` to 4 and
`items` to NULL, so the capacity differs from the one before the call; the next
`da_append` on that state skips the allocation, stores through the null pointer
and returns 0.  On a full buffer `e` with `capacity > 0`, a failure of the
`realloc` returns -1 and changes nothing. -/
theorem append_failure_mutates (d e : dynamic_array) (x : List Byte) (a1 a2 : AllocAnswer)
    (hs : d.item_size ≠ 0) (hc : d.capacity = 0) (hlt : d.count < 4)
    (hes : e.item_size ≠ 0) (hec : e.capacity ≠ 0) (hef : e.count = e.capacity) :
    da_append (some d) (some x) none a2
      = ⟨-1, some ⟨none, d.item_size, d.count, 4⟩, some x, true⟩ ∧
    (da_append (some d) (some x) none a2).da.map (fun r => r.capacity) ≠ some d.capacity ∧
    (da_append (some ⟨none, d.item_size, d.count, 4⟩) (some x) a1 a2).value = 0 ∧
    (da_append (some ⟨none, d.item_size, d.count, 4⟩) (some x) a1 a2).in_bounds = false ∧
    da_append (some e) (some x) a1 none = ⟨-1, some e, some x, true⟩ := by
  have h1 : da_append (some d) (some x) none a2
      = ⟨-1, some ⟨none, d.item_size, d.count, 4⟩, some x, true⟩ := by
    simp [da_append, hs, hc, malloc, DA_INITIAL_CAPACITY]
  have hne : ¬ d.count = 4 := by omega
  refine ⟨h1, ?_, ?_, ?_, ?_⟩
  · rw [h1, hc]
    simp
  · simp [da_append, hs, da_append_grow, da_append_store, hne]
  · simp [da_append, hs, da_append_grow, da_append_store, hne, memcpy_into_checked]
  · cases hm : e.items with
    | none => simp [da_append, hes, hec, da_append_grow, hef, hm, realloc_ptr, malloc]
    | some mem => simp [da_append, hes, hec, da_append_grow, hef, hm, realloc_ptr, realloc]

theorem append_failure_mutates_witness :
    da_append (some (da_init example_blank 4)) (some (int_bytes 7)) none none
      = ⟨-1, some ⟨none, (da_init example_blank 4).item_size,
          (da_init example_blank 4).count, 4⟩, some (int_bytes 7), true⟩ ∧
    (da_append (some (da_init example_blank 4)) (some (int_bytes 7)) none none).da.map
      (fun r => r.capacity) ≠ some (da_init example_blank 4).capacity ∧
    (da_append (some ⟨none, (da_init example_blank 4).item_size,
      (da_init example_blank 4).count, 4⟩) (some (int_bytes 7)) (some []) none).value = 0 ∧
    (da_append (some ⟨none, (da_init example_blank 4).item_size,
      (da_init example_blank 4).count, 4⟩) (some (int_bytes 7)) (some []) none).in_bounds
        = false ∧
    da_append (some ⟨some (List.replicate 16 0), 4, 4, 4⟩) (some (int_bytes 7)) (some []) none
      = ⟨-1, some ⟨some (List.replicate 16 0), 4, 4, 4⟩, some (int_bytes 7), true⟩ :=
  append_failure_mutates (da_init example_blank 4) ⟨some (List.replicate 16 0), 4, 4, 4⟩
    (int_bytes 7) (some []) none (by decide) (by decide) (by decide) (by decide) (by decide)
    (by decide)

end LazyArray

/-! ## The occupancy of the eager buffer -/

namespace DynamicArray

open Mem da_errors

/-- The shrink test of `da_remove_item` and `da_pop_item` with an allocator that
grants the block, on a struct whose storage is present: the capacity is halved
(not below 4) exactly when `count < capacity / 2`. -/
theorem shrink_check_granted (d : dynamic_array) (junk : List Byte) (hm : d.items.isSome) :
    ∃ d1, (if d.count < d.capacity / DA_RESIZE_FACTOR then
        (if (da_shrink (some d) (some junk)).1 ≠ DA_SUCCESS then
            (DA_ERR_RESIZE, (da_shrink (some d) (some junk)).2)
          else (DA_SUCCESS, (da_shrink (some d) (some junk)).2))
        else (DA_SUCCESS, some d)).2 = some d1 ∧ d1.count = d.count ∧
      d1.capacity = (if d.count < d.capacity / 2 then max (d.capacity / 2) 4
        else d.capacity) := by
  obtain ⟨mem, hmem⟩ := Option.isSome_iff_exists.mp hm
  have hs : (da_shrink (some d) (some junk)).1 = DA_SUCCESS := by
    simp [da_shrink, hmem, realloc]
  by_cases hlt : d.count < d.capacity / DA_RESIZE_FACTOR
  · have hlt2 : d.count < d.capacity / 2 := hlt
    rw [if_pos hlt, if_neg (not_not.mpr hs), if_pos hlt2]
    obtain ⟨d1, h1, hcap, hc, -⟩ := da_shrink_capacity d (some junk)
      (da_shrink (some d) (some junk)).2 (by rw [← hs])
    exact ⟨d1, h1, hc, hcap⟩
  · have hlt2 : ¬ d.count < d.capacity / 2 := hlt
    rw [if_neg hlt, if_neg hlt2]
    exact ⟨d, rfl, rfl, rfl⟩

/-- What a call of `da_insert_item` can do to `count` and `capacity`, whatever
its arguments. -/
theorem da_insert_item_effect (d : dynamic_array) (i : Nat) (item : Option (List Byte))
    (a : AllocAnswer) :
    ∃ d1, (da_insert_item (some d) i item a).2 = some d1 ∧
      ((d1.count = d.count ∧ d1.capacity = d.capacity) ∨
        (d1.count = d.count + 1 ∧
          d1.capacity = (if d.count = d.capacity then 2 * d.capacity else d.capacity))) := by
  cases item with
  | none => exact ⟨d, rfl, Or.inl ⟨rfl, rfl⟩⟩
  | some x =>
    simp only [da_insert_item]
    by_cases hi : i ≥ d.count
    · rw [if_pos hi]
      exact ⟨d, rfl, Or.inl ⟨rfl, rfl⟩⟩
    · rw [if_neg hi]
      by_cases hu : d.items.isNone ∨ d.item_size = 0
      · rw [if_pos hu]
        exact ⟨d, rfl, Or.inl ⟨rfl, rfl⟩⟩
      · rw [if_neg hu]
        generalize hr : (if d.count = d.capacity then da_expand (some d) a
          else (DA_SUCCESS, some d)) = r
        by_cases hs : r.1 = DA_SUCCESS
        · obtain ⟨d2, h2, hc, -, hcap⟩ := grow_step_capacity d a r hr.symm hs
          rw [if_neg (not_not.mpr hs), h2]
          exact ⟨_, rfl, Or.inr ⟨by simp [hc], by simp [hcap]⟩⟩
        · rw [if_pos hs]
          refine ⟨d, ?_, Or.inl ⟨rfl, rfl⟩⟩
          by_cases hfull : d.count = d.capacity
          · rw [if_pos hfull] at hr
            rw [← hr] at hs ⊢
            exact da_expand_unchanged d a hs
          · rw [if_neg hfull] at hr
            rw [← hr] at hs
            exact absurd rfl hs

/-- What a call of `da_remove_item` does to `count` and `capacity` when the
allocator grants the block. -/
theorem da_remove_item_granted (d : dynamic_array) (i : Nat) (junk : List Byte) :
    ∃ d1, (da_remove_item (some d) i (some junk)).2 = some d1 ∧
      ((d1.count = d.count ∧ d1.capacity = d.capacity) ∨
        (0 < d.count ∧ d1.count = d.count - 1 ∧
          d1.capacity = (if d.count - 1 < d.capacity / 2 then max (d.capacity / 2) 4
            else d.capacity))) := by
  simp only [da_remove_item]
  by_cases hi : i ≥ d.count
  · rw [if_pos hi]
    exact ⟨d, rfl, Or.inl ⟨rfl, rfl⟩⟩
  · rw [if_neg hi]
    by_cases hu : d.items.isNone ∨ d.item_size = 0
    · rw [if_pos hu]
      exact ⟨d, rfl, Or.inl ⟨rfl, rfl⟩⟩
    · rw [if_neg hu]
      have hsome : d.items.isSome := by
        cases hm : d.items with
        | none => exact absurd (Or.inl (by rw [hm]; rfl)) hu
        | some mem => rfl
      by_cases hne : i ≠ d.count - 1
      · rw [if_pos hne]
        obtain ⟨d1, h1, hc, hcap⟩ := shrink_check_granted { d with
          items := memmove d.items (i * d.item_size) (i * d.item_size + d.item_size)
            ((d.count - i - 1) * d.item_size)
          count := d.count - 1 } junk (by
            obtain ⟨mem, hmem⟩ := Option.isSome_iff_exists.mp hsome
            simp [memmove, hmem])
        exact ⟨d1, h1, Or.inr ⟨by omega, hc, hcap⟩⟩
      · rw [if_neg hne]
        obtain ⟨d1, h1, hc, hcap⟩ := shrink_check_granted { d with count := d.count - 1 } junk
          hsome
        exact ⟨d1, h1, Or.inr ⟨by omega, hc, hcap⟩⟩

/-- What a call of `da_pop_item` does to `count` and `capacity` when the
allocator grants the block. -/
theorem da_pop_item_granted (d : dynamic_array) (item : Option (List Byte))
    (junk : List Byte) :
    ∃ d1, (da_pop_item (some d) item (some junk)).2.1 = some d1 ∧
      ((d1.count = d.count ∧ d1.capacity = d.capacity) ∨
        (0 < d.count ∧ d1.count = d.count - 1 ∧
          d1.capacity = (if d.count - 1 < d.capacity / 2 then max (d.capacity / 2) 4
            else d.capacity))) := by
  simp only [da_pop_item]
  by_cases hu : d.items.isNone ∨ d.item_size = 0
  · rw [if_pos hu]
    exact ⟨d, rfl, Or.inl ⟨rfl, rfl⟩⟩
  · rw [if_neg hu]
    have hsome : d.items.isSome := by
      cases hm : d.items with
      | none => exact absurd (Or.inl (by rw [hm]; rfl)) hu
      | some mem => rfl
    by_cases hz : d.count = 0
    · rw [if_pos hz]
      exact ⟨d, rfl, Or.inl ⟨rfl, rfl⟩⟩
    · rw [if_neg hz]
      by_cases hg : (da_get_item (some d) (d.count - 1) item).1 ≠ DA_SUCCESS
      · rw [if_pos hg]
        exact ⟨d, rfl, Or.inl ⟨rfl, rfl⟩⟩
      · rw [if_neg hg]
        obtain ⟨d1, h1, hc, hcap⟩ := shrink_check_granted { d with count := d.count - 1 } junk
          hsome
        refine ⟨d1, ?_, Or.inr ⟨by omega, hc, hcap⟩⟩
        rw [← h1]
        split_ifs <;> rfl

theorem da_set_item_effect (d : dynamic_array) (i : Nat) (item : Option (List Byte)) :
    ∃ d1, (da_set_item (some d) i item).2 = some d1 ∧ d1.count = d.count ∧
      d1.capacity = d.capacity := by
  cases item with
  | none => exact ⟨d, rfl, rfl, rfl⟩
  | some x =>
    simp only [da_set_item]
    split_ifs
    · exact ⟨d, rfl, rfl, rfl⟩
    · exact ⟨d, rfl, rfl, rfl⟩
    · exact ⟨_, rfl, rfl, rfl⟩

/-- One call with a granting allocator keeps the occupancy bound: the capacity
is `4 * 2 ^ k` and at most `max 4 (2 * count)`. -/
theorem occupancy_step (c : da_call) (d : dynamic_array) (hg : c.granted = true)
    (hK : ∃ k, d.capacity = 4 * 2 ^ k ∧ d.capacity ≤ max 4 (2 * d.count)) :
    ∃ d1, c.run (some d) = some d1 ∧
      ∃ k, d1.capacity = 4 * 2 ^ k ∧ d1.capacity ≤ max 4 (2 * d1.count) := by
  obtain ⟨k, hk, hb⟩ := hK
  have hpow : 0 < 2 ^ k := Nat.pow_pos (by decide)
  have grow : ∀ d1 : dynamic_array,
      ((d1.count = d.count ∧ d1.capacity = d.capacity) ∨
        (d1.count = d.count + 1 ∧
          d1.capacity = (if d.count = d.capacity then 2 * d.capacity else d.capacity))) →
      ∃ k, d1.capacity = 4 * 2 ^ k ∧ d1.capacity ≤ max 4 (2 * d1.count) := by
    intro d1 h
    rcases h with ⟨hc, hcap⟩ | ⟨hc, hcap⟩
    · exact ⟨k, by rw [hcap, hk], by rw [hcap, hc]; exact hb⟩
    · by_cases hfull : d.count = d.capacity
      · rw [if_pos hfull] at hcap
        refine ⟨k + 1, by rw [hcap, hk, Nat.pow_succ]; omega, ?_⟩
        rw [hcap, hc]
        omega
      · rw [if_neg hfull] at hcap
        refine ⟨k, by rw [hcap, hk], ?_⟩
        rw [hcap, hc]
        omega
  have shrink : ∀ d1 : dynamic_array,
      ((d1.count = d.count ∧ d1.capacity = d.capacity) ∨
        (0 < d.count ∧ d1.count = d.count - 1 ∧
          d1.capacity = (if d.count - 1 < d.capacity / 2 then max (d.capacity / 2) 4
            else d.capacity))) →
      ∃ k, d1.capacity = 4 * 2 ^ k ∧ d1.capacity ≤ max 4 (2 * d1.count) := by
    intro d1 h
    rcases h with ⟨hc, hcap⟩ | ⟨hpos, hc, hcap⟩
    · exact ⟨k, by rw [hcap, hk], by rw [hcap, hc]; exact hb⟩
    · by_cases hlt : d.count - 1 < d.capacity / 2
      · rw [if_pos hlt] at hcap
        cases k with
        | zero =>
          refine ⟨0, ?_, ?_⟩
          · rw [hcap, hk]
            decide
          · rw [hcap, hk]
            simp
        | succ j =>
          have hj : 0 < 2 ^ j := Nat.pow_pos (by decide)
          have h2 : d.capacity / 2 = 4 * 2 ^ j := by
            rw [hk, Nat.pow_succ]
            omega
          refine ⟨j, by rw [hcap, h2]; omega, ?_⟩
          rw [hcap, h2, hc]
          rw [hk, Nat.pow_succ] at hb
          omega
      · rw [if_neg hlt] at hcap
        refine ⟨k, by rw [hcap, hk], ?_⟩
        rw [hcap, hc]
        omega
  cases c with
  | push item a =>
    obtain ⟨d1, h1, he⟩ := da_push_effect d item a
    exact ⟨d1, h1, grow d1 he⟩
  | insert_item index item a =>
    obtain ⟨d1, h1, he⟩ := da_insert_item_effect d index item a
    exact ⟨d1, h1, grow d1 he⟩
  | remove_item index a =>
    cases a with
    | none => simp [da_call.granted] at hg
    | some junk =>
      obtain ⟨d1, h1, he⟩ := da_remove_item_granted d index junk
      exact ⟨d1, h1, shrink d1 he⟩
  | pop_item item a =>
    cases a with
    | none => simp [da_call.granted] at hg
    | some junk =>
      obtain ⟨d1, h1, he⟩ := da_pop_item_granted d item junk
      exact ⟨d1, h1, shrink d1 he⟩
  | set_item index item =>
    obtain ⟨d1, h1, hc, hcap⟩ := da_set_item_effect d index item
    exact ⟨d1, h1, k, by rw [hcap, hk], by rw [hcap, hc]; exact hb⟩
  | get_item index item => exact ⟨d, rfl, k, hk, hb⟩

theorem occupancy_run_calls (cs : List da_call) (d : dynamic_array)
    (hg : ∀ c ∈ cs, c.granted = true)
    (hK : ∃ k, d.capacity = 4 * 2 ^ k ∧ d.capacity ≤ max 4 (2 * d.count)) :
    ∃ d1, run_calls cs (some d) = some d1 ∧
      ∃ k, d1.capacity = 4 * 2 ^ k ∧ d1.capacity ≤ max 4 (2 * d1.count) := by
  induction cs generalizing d with
  | nil => exact ⟨d, rfl, hK⟩
  | cons c cs ih =>
    obtain ⟨d1, h1, hK1⟩ := occupancy_step c d (hg c (List.mem_cons_self _ _)) hK
    obtain ⟨d2, h2, hK2⟩ := ih d1 (fun c2 hc2 => hg c2 (List.mem_cons_of_mem _ hc2)) hK1
    refine ⟨d2, ?_, hK2⟩
    simp only [run_calls, List.foldl_cons] at h2 ⊢
    rw [h1]
    exact h2

/-- C33: in every state reached from a successful `da_init` by `da_push`,
`da_insert_item`, `da_remove_item` and `da_pop_item` calls (and `da_set_item`,
`da_get_item`) to each of which the allocator grants the block it asks for, the
capacity is `4 * 2 ^ k` for some `k` and is at most `max 4 (2 * count)`; so a
buffer with `count = 0` has capacity 4. -/
theorem occupancy_bound (d0 : dynamic_array) (size : Nat) (a0 : AllocAnswer)
    (d : dynamic_array) (h : da_init (some d0) size a0 = (DA_SUCCESS, some d))
    (cs : List da_call) (hg : ∀ c ∈ cs, c.granted = true) :
    ∃ d1 k, run_calls cs (some d) = some d1 ∧ d1.capacity = 4 * 2 ^ k ∧
      d1.capacity ≤ max 4 (2 * d1.count) ∧ (d1.count = 0 → d1.capacity = 4) := by
  obtain ⟨-, -, hc, hcap⟩ := da_init_spec d0 size a0 d h
  have hcap4 : d.capacity = 4 := hcap
  obtain ⟨d1, h1, k, hk, hb⟩ := occupancy_run_calls cs d hg
    ⟨0, by rw [hcap4]; rfl, by rw [hcap4]; simp⟩
  refine ⟨d1, k, h1, hk, hb, ?_⟩
  intro hz
  have hpow : 0 < 2 ^ k := Nat.pow_pos (by decide)
  rw [hz] at hb
  simp at hb
  omega

theorem occupancy_bound_witness :
    da_init (some example_blank) 4 (some []) = (DA_SUCCESS, some example_empty) ∧
    (∀ c ∈ [da_call.push (some (int_bytes 1)) (some []), da_call.push (some (int_bytes 2)) (some []),
        da_call.push (some (int_bytes 3)) (some []), da_call.push (some (int_bytes 4)) (some []),
        da_call.push (some (int_bytes 5)) (some []),
        da_call.remove_item 0 (some []), da_call.remove_item 0 (some []),
        da_call.pop_item (some (int_bytes 0)) (some []),
        da_call.pop_item (some (int_bytes 0)) (some []),
        da_call.pop_item (some (int_bytes 0)) (some [])], c.granted = true) ∧
    ∃ d1 k, run_calls
        [da_call.push (some (int_bytes 1)) (some []), da_call.push (some (int_bytes 2)) (some []),
        da_call.push (some (int_bytes 3)) (some []), da_call.push (some (int_bytes 4)) (some []),
        da_call.push (some (int_bytes 5)) (some []),
        da_call.remove_item 0 (some []), da_call.remove_item 0 (some []),
        da_call.pop_item (some (int_bytes 0)) (some []),
        da_call.pop_item (some (int_bytes 0)) (some []),
        da_call.pop_item (some (int_bytes 0)) (some [])]
        (some example_empty) = some d1 ∧ d1.capacity = 4 * 2 ^ k ∧
      d1.capacity ≤ max 4 (2 * d1.count) ∧ (d1.count = 0 → d1.capacity = 4) :=
  ⟨by decide, by decide,
    occupancy_bound example_blank 4 (some []) example_empty (by decide) _ (by decide)⟩

end DynamicArray

/-! ## Merge sort: the loops of `merge` -/

namespace IntArray

theorem write_append (P T : List Int) (g v : Int) :
    write (P ++ (g :: T)) (P.length : Int) v = some (P ++ (v :: T)) := by
  unfold write
  rw [if_pos ⟨Int.ofNat_nonneg _, by simp⟩]
  simp [List.set_append]

theorem read_drop (src : List Int) (i : Nat) (v : Int) (rest : List Int)
    (h : src.drop i = v :: rest) : read src (i : Int) = some v := by
  rw [read_natCast]
  have h0 : (src.drop i)[0]? = some v := by rw [h]; simp
  rw [List.getElem?_drop] at h0
  exact h0

end IntArray

namespace MergeSort

open Mem IntArray

theorem and_then_returned {α β : Type} (a : α) (f : α → Option (outcome β)) :
    and_then (some (.returned a)) f = f a := rfl

theorem copy_out_spec (arr : List Int) :
    ∀ (n start : Nat), start + n ≤ arr.length → start + n ≤ 4294967296 →
      copy_out arr start n = some ((arr.drop start).take n) := by
  intro n
  induction n with
  | zero =>
    intro start _ _
    simp [copy_out]
  | succ n ih =>
    intro start h1 h2
    have hlt : start < arr.length := by omega
    have hmod : start % UINT_RANGE = start := Nat.mod_eq_of_lt (by
      show start < 4294967296
      omega)
    rw [copy_out, hmod, List.getElem?_eq_getElem hlt]
    simp only []
    rw [ih (start + 1) (by omega) (by omega), List.drop_eq_getElem_cons hlt, List.take_succ_cons]
    rfl

theorem merge_rest_done (src : List Int) (n : Int) (fuel : Nat) (i k : Int) (arr : List Int)
    (h : ¬ i < n) : merge_rest src n fuel i k arr = some (.returned (k, arr)) := by
  unfold merge_rest
  rw [if_neg h]

theorem merge_rest_step (src : List Int) (n : Int) (fuel : Nat) (i k : Int)
    (arr arr1 : List Int) (v : Int) (h : i < n) (hr : read src i = some v)
    (hw : write arr k v = some arr1) (hi : ¬ (INT_MAX < i + 1 ∨ INT_MAX < k + 1)) :
    merge_rest src n (fuel + 1) i k arr = merge_rest src n fuel (i + 1) (k + 1) arr1 := by
  conv_lhs => unfold merge_rest
  simp only [if_pos h, hr, hw, if_neg hi]

/-- The loop that copies the rest of `src` stores `src[i..]` from position `k`
on. -/
theorem merge_rest_spec (src B : List Int) (hsrc : (src.length : Int) ≤ INT_MAX) :
    ∀ (fuel i : Nat) (P G : List Int), i ≤ src.length → G.length = src.length - i →
      src.length - i ≤ fuel → ((P.length + (src.length - i) : Nat) : Int) ≤ INT_MAX →
      merge_rest src (src.length : Int) fuel (i : Int) (P.length : Int) (P ++ (G ++ B))
        = some (.returned (((P.length + (src.length - i) : Nat) : Int),
            P ++ (src.drop i ++ B))) := by
  intro fuel
  induction fuel with
  | zero =>
    intro i P G hi hG hf _
    have hi2 : i = src.length := by omega
    subst hi2
    have hG0 : G = [] := List.eq_nil_of_length_eq_zero (by omega)
    subst hG0
    rw [merge_rest_done _ _ _ _ _ _ (by omega)]
    simp
  | succ f ih =>
    intro i P G hi hG hf hmax
    by_cases hi2 : i = src.length
    · subst hi2
      have hG0 : G = [] := List.eq_nil_of_length_eq_zero (by omega)
      subst hG0
      rw [merge_rest_done _ _ _ _ _ _ (by omega)]
      simp
    · have hlt : i < src.length := by omega
      obtain ⟨g, G1, rfl⟩ : ∃ g G1, G = g :: G1 := by
        cases G with
        | nil => simp at hG; omega
        | cons g G1 => exact ⟨g, G1, rfl⟩
      have hdrop : src.drop i = src[i] :: src.drop (i + 1) := List.drop_eq_getElem_cons hlt
      have hr := read_drop src i _ _ hdrop
      have hw : write (P ++ (g :: G1 ++ B)) (P.length : Int) src[i]
          = some (P ++ (src[i] :: (G1 ++ B))) := write_append P (G1 ++ B) g src[i]
      have hov : ¬ (INT_MAX < (i : Int) + 1 ∨ INT_MAX < (P.length : Int) + 1) := by
        simp only [INT_MAX] at *
        simp only [List.length_cons] at hG
        omega
      rw [merge_rest_step src _ f _ _ _ _ _ (by omega) hr hw hov]
      have e1 : (i : Int) + 1 = ((i + 1 : Nat) : Int) := by omega
      have e2 : (P.length : Int) + 1 = (((P ++ [src[i]]).length : Nat) : Int) := by
        simp
      have e3 : P ++ (src[i] :: (G1 ++ B)) = (P ++ [src[i]]) ++ (G1 ++ B) := by simp
      simp only [List.length_cons] at hG
      rw [e1, e2, e3, ih (i + 1) (P ++ [src[i]]) G1 (by omega) (by omega) (by omega)
        (by simp only [List.length_append, List.length_singleton]
            have : P.length + 1 + (src.length - (i + 1)) = P.length + (src.length - i) := by
              omega
            rw [this]
            exact hmax)]
      rw [hdrop]
      simp only [List.length_append, List.length_singleton, List.append_assoc,
        List.singleton_append, List.cons_append]
      have : P.length + 1 + (src.length - (i + 1)) = P.length + (src.length - i) := by omega
      rw [this]
      simp

end MergeSort

namespace MergeSort

open Mem IntArray

theorem merge_both_done (left right : List Int) (n1 n2 : Int) (fuel : Nat) (i j k : Int)
    (arr : List Int) (h : ¬ (i < n1 ∧ j < n2)) :
    merge_both left right n1 n2 fuel i j k arr = some (.returned (i, j, k, arr)) := by
  unfold merge_both
  rw [if_neg h]

theorem merge_both_le (left right : List Int) (n1 n2 : Int) (fuel : Nat) (i j k : Int)
    (arr arr1 : List Int) (l r : Int) (h : i < n1 ∧ j < n2) (hl : read left i = some l)
    (hr : read right j = some r) (hle : l ≤ r) (hw : write arr k l = some arr1)
    (hi : ¬ (INT_MAX < i + 1 ∨ INT_MAX < k + 1)) :
    merge_both left right n1 n2 (fuel + 1) i j k arr
      = merge_both left right n1 n2 fuel (i + 1) j (k + 1) arr1 := by
  conv_lhs => unfold merge_both
  simp only [if_pos h, hl, hr, if_pos hle, hw, if_neg hi]

theorem merge_both_gt (left right : List Int) (n1 n2 : Int) (fuel : Nat) (i j k : Int)
    (arr arr1 : List Int) (l r : Int) (h : i < n1 ∧ j < n2) (hl : read left i = some l)
    (hr : read right j = some r) (hle : ¬ l ≤ r) (hw : write arr k r = some arr1)
    (hi : ¬ (INT_MAX < j + 1 ∨ INT_MAX < k + 1)) :
    merge_both left right n1 n2 (fuel + 1) i j k arr
      = merge_both left right n1 n2 fuel i (j + 1) (k + 1) arr1 := by
  conv_lhs => unfold merge_both
  simp only [if_pos h, hl, hr, if_neg hle, hw, if_neg hi]

/-- The three loops of `merge`, started at `i`, `j` and `k` with
`(n1 - i) + (n2 - j)` positions to fill from `k` on, store there the merge of
`left[i..]` and `right[j..]` and touch nothing else. -/
theorem merge_loops_spec (L R B : List Int)
    (hmax : ((L.length + R.length : Nat) : Int) ≤ INT_MAX) :
    ∀ (fuel i j : Nat) (P G : List Int), i ≤ L.length → j ≤ R.length →
      G.length = (L.length - i) + (R.length - j) →
      (L.length - i) + (R.length - j) ≤ fuel →
      ((P.length + G.length : Nat) : Int) ≤ INT_MAX →
      merge_loops L R (L.length : Int) (R.length : Int) fuel (i : Int) (j : Int)
          (P.length : Int) (P ++ (G ++ B))
        = some (.returned
            (P ++ ((L.drop i).merge (R.drop j) (fun a b => decide (a ≤ b)) ++ B))) := by
  have hL : (L.length : Int) ≤ INT_MAX := by
    simp only [INT_MAX] at *
    omega
  have hR : (R.length : Int) ≤ INT_MAX := by
    simp only [INT_MAX] at *
    omega
  -- the state in which the first loop ends
  have hend : ∀ (fuel i j : Nat) (P G : List Int), i ≤ L.length → j ≤ R.length →
      G.length = (L.length - i) + (R.length - j) →
      ((P.length + G.length : Nat) : Int) ≤ INT_MAX → (i = L.length ∨ j = R.length) →
      merge_loops L R (L.length : Int) (R.length : Int) fuel (i : Int) (j : Int)
          (P.length : Int) (P ++ (G ++ B))
        = some (.returned
            (P ++ ((L.drop i).merge (R.drop j) (fun a b => decide (a ≤ b)) ++ B))) := by
    intro fuel i j P G hi hj hG hPG hor
    unfold merge_loops
    rw [merge_both_done _ _ _ _ _ _ _ _ _ (by omega), and_then_returned]
    simp only [Int.toNat_ofNat]
    by_cases hiL : i = L.length
    · subst hiL
      rw [merge_rest_done _ _ _ _ _ _ (by omega), and_then_returned]
      simp only []
      rw [merge_rest_spec R B hR R.length j P G hj (by omega) (by omega)
        (by simp only [INT_MAX] at *; omega), and_then_returned]
      simp only [List.drop_length, List.nil_merge]
    · have hjR : j = R.length := by omega
      subst hjR
      rw [merge_rest_spec L B hL L.length i P G hi (by omega) (by omega)
        (by simp only [INT_MAX] at *; omega), and_then_returned]
      simp only []
      rw [merge_rest_done _ _ _ _ _ _ (by omega), and_then_returned]
      simp only [List.drop_length, List.merge_right]
  intro fuel
  induction fuel with
  | zero =>
    intro i j P G hi hj hG hf hPG
    exact hend 0 i j P G hi hj hG hPG (by omega)
  | succ f ih =>
    intro i j P G hi hj hG hf hPG
    by_cases hor : i = L.length ∨ j = R.length
    · exact hend (f + 1) i j P G hi hj hG hPG hor
    · have hiL : i < L.length := by omega
      have hjR : j < R.length := by omega
      obtain ⟨g, G1, rfl⟩ : ∃ g G1, G = g :: G1 := by
        cases G with
        | nil => simp at hG; omega
        | cons g G1 => exact ⟨g, G1, rfl⟩
      simp only [List.length_cons] at hG hPG
      have hdl : L.drop i = L[i] :: L.drop (i + 1) := List.drop_eq_getElem_cons hiL
      have hdr : R.drop j = R[j] :: R.drop (j + 1) := List.drop_eq_getElem_cons hjR
      have hrl := read_drop L i _ _ hdl
      have hrr := read_drop R j _ _ hdr
      have e1 : (i : Int) + 1 = ((i + 1 : Nat) : Int) := by omega
      have e2 : (j : Int) + 1 = ((j + 1 : Nat) : Int) := by omega
      have hcond : (i : Int) < (L.length : Int) ∧ (j : Int) < (R.length : Int) := by omega
      have hov1 : ¬ (INT_MAX < (i : Int) + 1 ∨ INT_MAX < (P.length : Int) + 1) := by
        simp only [INT_MAX] at *
        omega
      have hov2 : ¬ (INT_MAX < (j : Int) + 1 ∨ INT_MAX < (P.length : Int) + 1) := by
        simp only [INT_MAX] at *
        omega
      rw [hdl, hdr, List.cons_merge_cons]
      by_cases hle : L[i] ≤ R[j]
      · have hw : write (P ++ (g :: G1 ++ B)) (P.length : Int) L[i]
            = some (P ++ (L[i] :: (G1 ++ B))) := write_append P (G1 ++ B) g L[i]
        have e3 : (P.length : Int) + 1 = (((P ++ [L[i]]).length : Nat) : Int) := by simp
        have e4 : P ++ (L[i] :: (G1 ++ B)) = (P ++ [L[i]]) ++ (G1 ++ B) := by simp
        have hstep : merge_loops L R (L.length : Int) (R.length : Int) (f + 1) (i : Int)
            (j : Int) (P.length : Int) (P ++ (g :: G1 ++ B))
            = merge_loops L R (L.length : Int) (R.length : Int) f ((i + 1 : Nat) : Int)
              (j : Int) (((P ++ [L[i]]).length : Nat) : Int) ((P ++ [L[i]]) ++ (G1 ++ B)) := by
          unfold merge_loops
          rw [merge_both_le L R _ _ f _ _ _ _ _ _ _ hcond hrl hrr hle hw hov1, e1, e3, e4]
        rw [hstep, ih (i + 1) j (P ++ [L[i]]) G1 (by omega) hj (by omega) (by omega)
          (by simp only [List.length_append, List.length_singleton]
              simp only [INT_MAX] at *
              omega)]
        rw [if_pos (by simpa using hle), ← hdr]
        simp
      · have hw : write (P ++ (g :: G1 ++ B)) (P.length : Int) R[j]
            = some (P ++ (R[j] :: (G1 ++ B))) := write_append P (G1 ++ B) g R[j]
        have e3 : (P.length : Int) + 1 = (((P ++ [R[j]]).length : Nat) : Int) := by simp
        have e4 : P ++ (R[j] :: (G1 ++ B)) = (P ++ [R[j]]) ++ (G1 ++ B) := by simp
        have hstep : merge_loops L R (L.length : Int) (R.length : Int) (f + 1) (i : Int)
            (j : Int) (P.length : Int) (P ++ (g :: G1 ++ B))
            = merge_loops L R (L.length : Int) (R.length : Int) f (i : Int)
              ((j + 1 : Nat) : Int) (((P ++ [R[j]]).length : Nat) : Int)
              ((P ++ [R[j]]) ++ (G1 ++ B)) := by
          unfold merge_loops
          rw [merge_both_gt L R _ _ f _ _ _ _ _ _ _ hcond hrl hrr hle hw hov2, e2, e3, e4]
        rw [hstep, ih i (j + 1) (P ++ [R[j]]) G1 hi (by omega) (by omega) (by omega)
          (by simp only [List.length_append, List.length_singleton]
              simp only [INT_MAX] at *
              omega)]
        rw [if_neg (by simpa using hle), ← hdl]
        simp

/-- The function `merge` on two adjacent non-empty runs `L` and `R` that end
below `INT_MAX`: it replaces them by their merge and touches nothing else. -/
theorem merge_spec (A L R B : List Int) (hL : 1 ≤ L.length) (hR : 1 ≤ R.length)
    (hmax : ((A.length + L.length + R.length : Nat) : Int) ≤ INT_MAX) :
    merge (A ++ (L ++ (R ++ B))) A.length (A.length + L.length - 1)
        (A.length + L.length + R.length - 1)
      = some (.returned (A ++ (L.merge R (fun a b => decide (a ≤ b)) ++ B))) := by
  have hb : A.length + L.length + R.length ≤ 2147483647 := by
    simp only [INT_MAX] at hmax
    omega
  have hn1 : to_int ((A.length + L.length - 1 + UINT_RANGE - A.length + 1) % UINT_RANGE)
      = (L.length : Int) := by
    have e : (A.length + L.length - 1 + UINT_RANGE - A.length + 1) % UINT_RANGE = L.length := by
      simp only [UINT_RANGE]
      omega
    rw [e, to_int_natCast _ (by simp only [INT_MAX]; omega)]
  have hn2 : to_int ((A.length + L.length + R.length - 1 + UINT_RANGE
      - (A.length + L.length - 1)) % UINT_RANGE) = (R.length : Int) := by
    have e : (A.length + L.length + R.length - 1 + UINT_RANGE
        - (A.length + L.length - 1)) % UINT_RANGE = R.length := by
      simp only [UINT_RANGE]
      omega
    rw [e, to_int_natCast _ (by simp only [INT_MAX]; omega)]
  have hc1 : copy_out (A ++ (L ++ (R ++ B))) A.length L.length = some L := by
    rw [copy_out_spec _ _ _ (by simp) (by omega)]
    simp
  have hc2 : copy_out (A ++ (L ++ (R ++ B))) (A.length + L.length - 1 + 1) R.length
      = some R := by
    have e : A.length + L.length - 1 + 1 = A.length + L.length := by omega
    rw [e, copy_out_spec _ _ _ (by simp; omega) (by omega)]
    have e2 : A ++ (L ++ (R ++ B)) = (A ++ L) ++ (R ++ B) := by simp
    have e3 : A.length + L.length = (A ++ L).length := by simp
    rw [e2, e3, List.drop_left]
    simp
  unfold merge
  simp only [hn1, hn2, Int.toNat_ofNat, hc1, hc2]
  rw [if_neg (by omega), to_int_natCast _ (by simp only [INT_MAX]; omega)]
  have e4 : A ++ (L ++ (R ++ B)) = A ++ ((L ++ R) ++ B) := by simp
  rw [e4]
  have := merge_loops_spec L R B (by simp only [INT_MAX]; omega) (L.length + R.length) 0 0 A
    (L ++ R) (by omega) (by omega) (by simp) (by omega)
    (by simp only [List.length_append, INT_MAX]; omega)
  simpa using this

end MergeSort

/-! ## Merge sort: `merge_sort` -/

namespace MergeSort

open Mem IntArray

theorem merge_sort_single (fuel : Nat) (arr : List Int) (low high : Nat) (h : ¬ low < high) :
    merge_sort (fuel + 1) arr low high = some (.returned arr) := by
  rw [merge_sort, if_neg h]

theorem merge_sort_step (fuel : Nat) (arr arr1 arr2 : List Int) (low high m : Nat)
    (h : low < high) (hm : (low + high) % UINT_RANGE / 2 = m)
    (hmax : ((m + 1 : Nat) : Int) ≤ INT_MAX)
    (h1 : merge_sort fuel arr low m = some (.returned arr1))
    (h2 : merge_sort fuel arr1 (m + 1) high = some (.returned arr2)) :
    merge_sort (fuel + 1) arr low high = merge arr2 low m high := by
  have hb : m + 1 ≤ 2147483647 := by
    simp only [INT_MAX] at hmax
    omega
  have e1 : to_int m = (m : Int) := to_int_natCast m (by simp only [INT_MAX]; omega)
  have e2 : to_unsigned (m : Int) = m := to_unsigned_natCast m (by omega)
  have e3 : to_unsigned ((m : Int) + 1) = m + 1 := by
    have e : (m : Int) + 1 = ((m + 1 : Nat) : Int) := by omega
    rw [e, to_unsigned_natCast _ (by omega)]
  have e4 : ¬ INT_MAX < (m : Int) + 1 := by
    simp only [INT_MAX]
    omega
  rw [merge_sort, if_pos h]
  simp only [hm, e1, e2, h1, and_then_returned, if_neg e4, e3, h2]

/-- The function `merge_sort` on a non-empty range `S` that ends below `INT_MAX`,
with at least as many units of fuel as the range has positions: it replaces `S`
by a sorted permutation of it and touches nothing else. -/
theorem merge_sort_spec : ∀ (d : Nat) (A S B : List Int), S.length ≤ d → 1 ≤ S.length →
    ((A.length + S.length : Nat) : Int) ≤ INT_MAX →
    ∃ S1 : List Int,
      (∀ fuel, S.length ≤ fuel →
        merge_sort fuel (A ++ (S ++ B)) A.length (A.length + S.length - 1)
          = some (.returned (A ++ (S1 ++ B)))) ∧
      S1.Sorted (· ≤ ·) ∧ S1.Perm S := by
  intro d
  induction d with
  | zero =>
    intro A S B hd h1 _
    omega
  | succ d ih =>
    intro A S B hd h1 hmax
    have hb : A.length + S.length ≤ 2147483647 := by
      simp only [INT_MAX] at hmax
      omega
    by_cases hone : S.length = 1
    · refine ⟨S, ?_, ?_, List.Perm.refl _⟩
      · intro fuel hf
        obtain ⟨f, rfl⟩ : ∃ f, fuel = f + 1 := ⟨fuel - 1, by omega⟩
        exact merge_sort_single f _ _ _ (by omega)
      · obtain ⟨x, rfl⟩ := List.length_eq_one.mp hone
        exact List.sorted_singleton x
    · -- the two halves
      have hlen1 : (S.take ((S.length - 1) / 2 + 1)).length = (S.length - 1) / 2 + 1 := by
        rw [List.length_take]
        omega
      have hlen2 : (S.drop ((S.length - 1) / 2 + 1)).length
          = S.length - ((S.length - 1) / 2 + 1) := List.length_drop _ _
      have hsplit : S = S.take ((S.length - 1) / 2 + 1) ++ S.drop ((S.length - 1) / 2 + 1) :=
        (List.take_append_drop _ _).symm
      generalize hL : S.take ((S.length - 1) / 2 + 1) = L at hlen1 hsplit
      generalize hR : S.drop ((S.length - 1) / 2 + 1) = R at hlen2 hsplit
      have hSlen : S.length = L.length + R.length := by
        rw [hsplit, List.length_append]
      obtain ⟨L1, hrunL, hsL, hpL⟩ := ih A L (R ++ B) (by omega) (by omega)
        (by simp only [INT_MAX]; omega)
      have hL1 : L1.length = L.length := hpL.length_eq
      obtain ⟨R1, hrunR, hsR, hpR⟩ := ih (A ++ L1) R B (by omega) (by omega)
        (by simp only [List.length_append, INT_MAX]; omega)
      have hR1 : R1.length = R.length := hpR.length_eq
      refine ⟨L1.merge R1 (fun a b => decide (a ≤ b)), ?_, hsL.merge hsR, ?_⟩
      · intro fuel hf
        obtain ⟨f, rfl⟩ : ∃ f, fuel = f + 1 := ⟨fuel - 1, by omega⟩
        have hm : (A.length + (A.length + S.length - 1)) % UINT_RANGE / 2
            = A.length + L.length - 1 := by
          simp only [UINT_RANGE]
          omega
        have hrun1 : merge_sort f (A ++ (S ++ B)) A.length (A.length + L.length - 1)
            = some (.returned (A ++ (L1 ++ (R ++ B)))) := by
          have := hrunL f (by omega)
          rw [hsplit]
          simpa using this
        have hrun2 : merge_sort f (A ++ (L1 ++ (R ++ B))) (A.length + L.length - 1 + 1)
            (A.length + S.length - 1) = some (.returned (A ++ (L1 ++ (R1 ++ B)))) := by
          have := hrunR f (by omega)
          have e1 : (A ++ L1).length = A.length + L.length - 1 + 1 := by
            rw [List.length_append, hL1]
            omega
          have e2 : (A ++ L1).length + R.length - 1 = A.length + S.length - 1 := by
            rw [List.length_append, hL1]
            omega
          rw [e2, e1] at this
          simpa using this
        rw [merge_sort_step f _ _ _ _ _ _ (by omega) hm (by simp only [INT_MAX]; omega)
          hrun1 hrun2]
        have := merge_spec A L1 R1 B (by omega) (by omega)
          (by simp only [INT_MAX]; omega)
        have e3 : A.length + L1.length - 1 = A.length + L.length - 1 := by rw [hL1]
        have e4 : A.length + L1.length + R1.length - 1 = A.length + S.length - 1 := by
          rw [hL1, hR1]
          omega
        rw [e3, e4] at this
        exact this
      · have h1 := List.perm_merge (fun a b => decide (a ≤ b)) L1 R1
        have h2 : (L1 ++ R1).Perm (L ++ R) := hpL.append hpR
        rw [hsplit]
        exact h1.trans h2

end MergeSort

namespace MergeSort

open Mem IntArray

theorem getElem?_mid (A S B : List Int) (k : Nat) (h1 : A.length ≤ k)
    (h2 : k < A.length + S.length) : (A ++ (S ++ B))[k]? = S[k - A.length]? := by
  rw [List.getElem?_append_right h1, List.getElem?_append_left (by omega)]

theorem getElem?_frame (A S S1 B : List Int) (hlen : S1.length = S.length) (k : Nat)
    (h : k < A.length ∨ A.length + S.length ≤ k) :
    (A ++ (S1 ++ B))[k]? = (A ++ (S ++ B))[k]? := by
  rcases h with h | h
  · rw [List.getElem?_append_left h, List.getElem?_append_left h]
  · rw [List.getElem?_append_right (by omega), List.getElem?_append_right (by omega),
      List.getElem?_append_right (by omega), List.getElem?_append_right (by omega), hlen]

/-- On every array whose positions `INT_MAX - 1` and `INT_MAX` hold `v1` and
`v2`, the call `merge_sort(arr, INT_MAX - 1, INT_MAX)` is undefined: `merge`
stores its last value at `k = INT_MAX` and then increments `k`. -/
theorem merge_sort_top (A B : List Int) (v1 v2 : Int) (hA : A.length = 2147483646)
    (fuel : Nat) :
    merge_sort (fuel + 2) (A ++ (v1 :: v2 :: B)) 2147483646 2147483647
      = some .undefined := by
  have h1 : merge_sort (fuel + 1) (A ++ (v1 :: v2 :: B)) 2147483646 2147483646
      = some (.returned (A ++ (v1 :: v2 :: B))) := merge_sort_single fuel _ _ _ (by omega)
  have h2 : merge_sort (fuel + 1) (A ++ (v1 :: v2 :: B)) (2147483646 + 1) 2147483647
      = some (.returned (A ++ (v1 :: v2 :: B))) := merge_sort_single fuel _ _ _ (by omega)
  rw [merge_sort_step (fuel + 1) _ _ _ 2147483646 2147483647 2147483646 (by omega)
    (by norm_num [UINT_RANGE]) (by simp only [INT_MAX]; omega) h1 h2]
  have hn1 : to_int ((2147483646 + UINT_RANGE - 2147483646 + 1) % UINT_RANGE) = 1 := by
    simp only [UINT_RANGE]
    rfl
  have hn2 : to_int ((2147483647 + UINT_RANGE - 2147483646) % UINT_RANGE) = 1 := by
    simp only [UINT_RANGE]
    rfl
  have hlow : to_int 2147483646 = ((A.length : Nat) : Int) := by
    rw [hA]
    rfl
  have hc1 : copy_out (A ++ (v1 :: v2 :: B)) 2147483646 1 = some [v1] := by
    have hmod : 2147483646 % UINT_RANGE = A.length := by
      rw [hA]
      rfl
    simp only [copy_out, hmod]
    rw [List.getElem?_append_right (le_refl _)]
    simp
  have hc2 : copy_out (A ++ (v1 :: v2 :: B)) (2147483646 + 1) 1 = some [v2] := by
    have hmod : (2147483646 + 1) % UINT_RANGE = A.length + 1 := by
      rw [hA]
      rfl
    simp only [copy_out, hmod]
    rw [List.getElem?_append_right (by omega)]
    simp
  have hr1 : read [v1] 0 = some v1 := rfl
  have hr2 : read [v2] 0 = some v2 := rfl
  have hk1 : ∀ w : Int, ((A.length : Nat) : Int) + 1 = (((A ++ [w]).length : Nat) : Int) := by
    intro w
    simp
  have hov : ¬ (INT_MAX < (0 : Int) + 1 ∨ INT_MAX < ((A.length : Nat) : Int) + 1) := by
    simp only [INT_MAX]
    omega
  have hov2 : ∀ w : Int, (INT_MAX < (0 : Int) + 1 ∨
      INT_MAX < (((A ++ [w]).length : Nat) : Int) + 1) := by
    intro w
    right
    simp only [INT_MAX, List.length_append, List.length_singleton]
    omega
  have hlast : ∀ (src : List Int) (w u x : Int), read src 0 = some x →
      merge_rest src 1 1 0 (((A ++ [w]).length : Nat) : Int) ((A ++ [w]) ++ (u :: B))
        = some .undefined := by
    intro src w u x hx
    unfold merge_rest
    simp only [if_pos (show (0 : Int) < 1 by decide), hx, write_append (A ++ [w]) B u x,
      if_pos (hov2 w)]
  unfold merge
  simp only [hn1, hn2, hc1, hc2, hlow]
  rw [if_neg (by decide)]
  simp only [show (1 : Int).toNat = 1 from rfl, merge_loops, hc1, hc2]
  by_cases hle : v1 ≤ v2
  · rw [merge_both_le [v1] [v2] 1 1 1 0 0 _ _ _ v1 v2
      (by decide) hr1 hr2 hle (write_append A (v2 :: B) v1 v1) hov,
      merge_both_done _ _ _ _ _ _ _ _ _ (by decide), and_then_returned]
    simp only []
    rw [merge_rest_done _ _ _ _ _ _ (by decide), and_then_returned]
    simp only []
    have e : A ++ (v1 :: v2 :: B) = (A ++ [v1]) ++ (v2 :: B) := by simp
    rw [hk1 v1, e, hlast [v2] v1 v2 v2 hr2]
    rfl
  · rw [merge_both_gt [v1] [v2] 1 1 1 0 0 _ _ _ v1 v2
      (by decide) hr1 hr2 hle (write_append A (v2 :: B) v1 v2) hov,
      merge_both_done _ _ _ _ _ _ _ _ _ (by decide), and_then_returned]
    simp only []
    have e : A ++ (v2 :: v2 :: B) = (A ++ [v2]) ++ (v2 :: B) := by simp
    rw [hk1 v2, e, hlast [v1] v2 v2 v1 hr1]
    rfl

/-- C31, as the claim states it, fails at the top of the `int` range: in an
array of `2 ^ 31` zeros the indices `INT_MAX - 1 ≤ INT_MAX` lie within the
array, and `merge_sort(arr, INT_MAX - 1, INT_MAX)` reaches `merge`, which stores
at `k = INT_MAX` and computes `k++`, outside the range of `int`. -/
theorem merge_sort_overflows :
    (List.replicate 2147483648 (0 : Int)).length = 2147483648 ∧
    2147483646 ≤ 2147483647 ∧ 2147483647 < (List.replicate 2147483648 (0 : Int)).length ∧
    ∀ fuel, merge_sort (fuel + 2) (List.replicate 2147483648 (0 : Int)) 2147483646 2147483647
      = some .undefined := by
  refine ⟨List.length_replicate _ _, by omega, ?_, ?_⟩
  · rw [List.length_replicate]
    omega
  · intro fuel
    have e : List.replicate 2147483648 (0 : Int)
        = List.replicate 2147483646 (0 : Int) ++ ((0 : Int) :: (0 : Int) :: []) := by
      have : (2147483648 : Nat) = 2147483646 + 2 := rfl
      rw [this, List.replicate_add]
      rfl
    rw [e]
    exact merge_sort_top _ [] 0 0 (List.length_replicate _ _) fuel

/-- C31, amended: for every `int` array and indices `low ≤ high` within the
array with `high < INT_MAX`, `merge_sort(arr, low, high)` returns with every
fuel above `high - low`; the array it leaves has the same length, is
non-decreasing on `[low, high]`, holds on `[low, high]` a permutation of the
values that were there, and is unchanged outside `[low, high]`. -/
theorem merge_sort_sorts (arr : List Int) (low high : Nat) (hlh : low ≤ high)
    (hlen : high < arr.length) (hmax : (high : Int) < INT_MAX) :
    ∃ sorted : List Int,
      (∀ fuel, high - low < fuel → merge_sort fuel arr low high = some (.returned sorted)) ∧
      sorted.length = arr.length ∧
      (∀ k l x y, low ≤ k → k ≤ l → l ≤ high → sorted[k]? = some x → sorted[l]? = some y →
        x ≤ y) ∧
      ((sorted.drop low).take (high + 1 - low)).Perm ((arr.drop low).take (high + 1 - low)) ∧
      (∀ k, k < low ∨ high < k → sorted[k]? = arr[k]?) := by
  obtain ⟨A, S, B, harr, hA, hS⟩ : ∃ A S B : List Int, arr = A ++ (S ++ B) ∧ A.length = low ∧
      S.length = high + 1 - low :=
    ⟨_, _, _, split_range arr low (high + 1 - low), by rw [List.length_take]; omega,
      by rw [List.length_take, List.length_drop]; omega⟩
  subst harr
  obtain ⟨S1, hrun, hsorted, hperm⟩ := merge_sort_spec S.length A S B (le_refl _) (by omega)
    (by simp only [INT_MAX] at *; omega)
  have hS1 : S1.length = S.length := hperm.length_eq
  have hhigh : A.length + S.length - 1 = high := by omega
  rw [hhigh, hA] at hrun
  have hslice : ∀ T : List Int, T.length = S.length →
      ((A ++ (T ++ B)).drop low).take (high + 1 - low) = T := by
    intro T hT
    have e : high + 1 - low = T.length := by omega
    rw [e, ← hA, List.drop_left, List.take_left]
  refine ⟨A ++ (S1 ++ B), fun fuel hf => hrun fuel (by omega), ?_, ?_, ?_, ?_⟩
  · simp only [List.length_append, hS1]
  · intro k l x y hk hkl hl hx hy
    rw [getElem?_mid A S1 B k (by omega) (by omega)] at hx
    rw [getElem?_mid A S1 B l (by omega) (by omega)] at hy
    by_cases he : k = l
    · rw [he, hy] at hx
      rw [Option.some.inj hx]
    · have hk2 : k - A.length < S1.length := by omega
      have hl2 : l - A.length < S1.length := by omega
      rw [List.getElem?_eq_getElem hk2] at hx
      rw [List.getElem?_eq_getElem hl2] at hy
      have := List.pairwise_iff_getElem.mp hsorted (k - A.length) (l - A.length) hk2 hl2
        (by omega)
      rw [← Option.some.inj hx, ← Option.some.inj hy]
      exact this
  · rw [hslice S1 hS1, hslice S rfl]
    exact hperm
  · intro k hk
    exact getElem?_frame A S S1 B hS1 k (by omega)

theorem merge_sort_sorts_witness :
    merge_sort 3 [9, 3, 1, 2, 0] 1 3 = some (.returned [9, 1, 2, 3, 0]) ∧
    ∃ sorted : List Int,
      (∀ fuel, 3 - 1 < fuel → merge_sort fuel [9, 3, 1, 2, 0] 1 3 = some (.returned sorted)) ∧
      sorted.length = [9, 3, 1, 2, 0].length ∧
      (∀ k l x y, 1 ≤ k → k ≤ l → l ≤ 3 → sorted[k]? = some x → sorted[l]? = some y →
        x ≤ y) ∧
      ((sorted.drop 1).take (3 + 1 - 1)).Perm ((([9, 3, 1, 2, 0] : List Int).drop 1).take
        (3 + 1 - 1)) ∧
      (∀ k, k < 1 ∨ 3 < k → sorted[k]? = ([9, 3, 1, 2, 0] : List Int)[k]?) :=
  ⟨by decide,
    merge_sort_sorts [9, 3, 1, 2, 0] 1 3 (by decide) (by decide) (by decide)⟩

end MergeSort

/-! ## The linked list: the heap and the chains -/

namespace LinkedList

open Mem sll_errors

theorem load_eq (h : Heap) (p : Nat) : load h p = (h[p]?).getD none := by
  simp [load, List.getD_eq_getElem?_getD]

theorem load_lt (h : Heap) (p : Nat) (hl : (load h p).isSome) : p < h.length := by
  by_contra hc
  rw [load_eq, List.getElem?_eq_none (by omega)] at hl
  simp at hl

theorem load_set (h : Heap) (a p : Nat) (x : Option Node) (ha : (load h a).isSome) :
    load (h.set a x) p = if p = a then x else load h p := by
  have hlt := load_lt h a ha
  rw [load_eq, load_eq, List.getElem?_set]
  by_cases hp : p = a
  · subst hp
    simp [hlt]
  · rw [if_neg (Ne.symm hp), if_neg hp]

theorem load_place (h : Heap) (q p : Nat) (n : Node) :
    load (place h q n) p = if p = q then some n else load h p := by
  unfold place
  rw [load_eq, load_eq, List.getElem?_set]
  by_cases hp : p = q
  · subst hp
    rw [if_pos rfl, if_pos rfl, if_pos (by simp; omega)]
    rfl
  · rw [if_neg (Ne.symm hp), if_neg hp]
    by_cases hlt : p < h.length
    · rw [List.getElem?_append_left hlt]
    · have hn : h[p]? = none := List.getElem?_eq_none (by omega)
      rw [List.getElem?_append_right (by omega), hn, List.getElem?_replicate]
      split_ifs <;> rfl

theorem load_fresh (h : Heap) (p : Nat) : load h (fresh h p) = none := by
  unfold fresh
  by_cases hl : (load h p).isSome
  · rw [if_pos hl, load_eq, List.getElem?_eq_none (le_refl _)]
    rfl
  · rw [if_neg hl]
    cases hp : load h p with
    | none => rfl
    | some nd => rw [hp] at hl; exact absurd rfl hl

theorem chain_to_nil (h : Heap) (stop p : Option Nat) :
    chain_to h stop p [] = true ↔ p = stop := by
  simp [chain_to]

theorem chain_to_cons (h : Heap) (stop p : Option Nat) (a : Nat) (rest : List Nat) :
    chain_to h stop p (a :: rest) = true ↔
      p = some a ∧ ∃ nd, load h a = some nd ∧ chain_to h stop nd.next rest = true := by
  simp only [chain_to, Bool.and_eq_true, decide_eq_true_eq]
  constructor
  · rintro ⟨hp, hm⟩
    cases hl : load h a with
    | none => rw [hl] at hm; exact absurd hm (by simp)
    | some nd =>
      rw [hl] at hm
      exact ⟨hp, nd, rfl, hm⟩
  · rintro ⟨hp, nd, hl, hc⟩
    rw [hl]
    exact ⟨hp, hc⟩

theorem chain_to_congr (h1 h2 : Heap) (stop : Option Nat) (nodes : List Nat) :
    ∀ p, (∀ a ∈ nodes, load h2 a = load h1 a) →
      chain_to h2 stop p nodes = chain_to h1 stop p nodes := by
  induction nodes with
  | nil =>
    intro p _
    rfl
  | cons a rest ih =>
    intro p hl
    have ha := hl a (List.mem_cons_self _ _)
    cases hl1 : load h1 a with
    | none => simp only [chain_to, ha, hl1]
    | some nd =>
      simp only [chain_to, ha, hl1]
      rw [ih nd.next (fun b hb => hl b (List.mem_cons_of_mem _ hb))]

theorem chain_live (h : Heap) (stop : Option Nat) (nodes : List Nat) :
    ∀ p, chain_to h stop p nodes = true → ∀ a ∈ nodes, (load h a).isSome := by
  induction nodes with
  | nil =>
    intro p _ a ha
    simp at ha
  | cons b rest ih =>
    intro p hc a ha
    obtain ⟨-, nd, hl, hr⟩ := (chain_to_cons h stop p b rest).mp hc
    rcases List.mem_cons.mp ha with rfl | ha
    · rw [hl]
      rfl
    · exact ih nd.next hr a ha

theorem chain_append (h : Heap) (stop : Option Nat) (xs ys : List Nat) :
    ∀ p, chain_to h stop p (xs ++ ys) = true ↔
      ∃ q, chain_to h q p xs = true ∧ chain_to h stop q ys = true := by
  induction xs with
  | nil =>
    intro p
    simp only [List.nil_append, chain_to_nil]
    constructor
    · intro hc
      exact ⟨p, rfl, hc⟩
    · rintro ⟨q, rfl, hc⟩
      exact hc
  | cons a rest ih =>
    intro p
    simp only [List.cons_append, chain_to_cons]
    constructor
    · rintro ⟨hp, nd, hl, hc⟩
      obtain ⟨q, h1, h2⟩ := (ih nd.next).mp hc
      exact ⟨q, ⟨hp, nd, hl, h1⟩, h2⟩
    · rintro ⟨q, ⟨hp, nd, hl, h1⟩, h2⟩
      exact ⟨hp, nd, hl, (ih nd.next).mpr ⟨q, h1, h2⟩⟩

theorem walk_chain (h : Heap) (q : Option Nat) (xs : List Nat) :
    ∀ p, chain_to h q p xs = true → walk h xs.length p = .returned q := by
  induction xs with
  | nil =>
    intro p hc
    rw [(chain_to_nil h q p).mp hc]
    rfl
  | cons a rest ih =>
    intro p hc
    obtain ⟨hp, nd, hl, hr⟩ := (chain_to_cons h q p a rest).mp hc
    subst hp
    simp only [List.length_cons, walk, get_next, hl, Option.map_some']
    exact ih nd.next hr

/-- The loop of `sll_delete_tail` on a chain of at least two nodes stops at the
last node but one, after as many tests as there are nodes before the last. -/
theorem find_new_tail_chain (h : Heap) (nt t : Nat) (xs : List Nat) :
    ∀ (p : Option Nat) (fuel : Nat), chain_to h none p (xs ++ [nt, t]) = true →
      find_new_tail h fuel p =
        if fuel ≤ xs.length then none else some (.returned (some nt)) := by
  induction xs with
  | nil =>
    intro p fuel hc
    obtain ⟨hp, nd, hl, hr⟩ := (chain_to_cons h none p nt [t]).mp hc
    obtain ⟨hp2, nd2, hl2, hr2⟩ := (chain_to_cons h none nd.next t []).mp hr
    have hn := (chain_to_nil h none nd2.next).mp hr2
    subst hp
    cases fuel with
    | zero => rfl
    | succ f =>
      simp only [find_new_tail, get_next, hl, Option.map_some', hp2, hl2, hn]
      simp
  | cons a rest ih =>
    intro p fuel hc
    obtain ⟨hp, nd, hl, hr⟩ := (chain_to_cons h none p a (rest ++ [nt, t])).mp hc
    subst hp
    -- the node after `a` has a successor
    obtain ⟨b, tl, htl⟩ : ∃ b tl, rest ++ [nt, t] = b :: tl := by
      cases rest with
      | nil => exact ⟨nt, [t], rfl⟩
      | cons b tl => exact ⟨b, tl ++ [nt, t], rfl⟩
    have hr2 := hr
    rw [htl] at hr2
    obtain ⟨hp2, nd2, hl2, hr3⟩ := (chain_to_cons h none nd.next b tl).mp hr2
    have hne : nd2.next ≠ none := by
      intro hnone
      rw [hnone] at hr3
      cases tl with
      | nil =>
        cases rest with
        | nil => simp at htl
        | cons c tl2 =>
          have := congrArg List.length htl
          simp at this
      | cons c tl2 =>
        have := (chain_to_cons h none none c tl2).mp hr3
        simp at this
    cases fuel with
    | zero => simp [find_new_tail]
    | succ f =>
      simp only [find_new_tail, get_next, hl, Option.map_some', hp2, hl2]
      rw [if_pos hne, ← hp2, ih nd.next f hr]
      simp only [List.length_cons, Nat.add_le_add_iff_right]

end LinkedList

/-! ## The linked list: the operations keep the bookkeeping -/

namespace LinkedList

open Mem sll_errors

theorem exists_split (nodes : List Nat) (k : Nat) (hk : k < nodes.length) :
    ∃ xs a ys, nodes = xs ++ a :: ys ∧ xs.length = k :=
  ⟨nodes.take k, nodes[k], nodes.drop (k + 1),
    by rw [← List.drop_eq_getElem_cons hk, List.take_append_drop],
    by rw [List.length_take]; omega⟩

theorem exists_last (nodes : List Nat) (hn : nodes ≠ []) :
    ∃ xs t, nodes = xs ++ [t] :=
  ⟨nodes.dropLast, nodes.getLast hn, (List.dropLast_append_getLast hn).symm⟩

theorem get_next_load (h : Heap) (a : Nat) (nd : Node) (hl : load h a = some nd) :
    get_next h (some a) = some nd.next := by
  simp [get_next, hl]

theorem set_next_load (h : Heap) (a : Nat) (nd : Node) (q : Option Nat)
    (hl : load h a = some nd) :
    set_next h (some a) q = some (h.set a (some { nd with next := q })) := by
  simp [set_next, hl]

theorem free_load (h : Heap) (a : Nat) (hl : (load h a).isSome) :
    free h (some a) = some (h.set a none) := by
  simp [free, hl]

theorem live_of_load (h : Heap) (a : Nat) (nd : Node) (hl : load h a = some nd) :
    (load h a).isSome := by
  rw [hl]
  rfl

/-- A node of a chain is not the address the allocator hands out. -/
theorem ne_fresh (h : Heap) (p a : Nat) (ha : (load h a).isSome) : a ≠ fresh h p := by
  intro he
  rw [he, load_fresh] at ha
  exact absurd ha (by simp)

theorem head_of_linked (h : Heap) (l : SList) (nodes : List Nat) (hw : linked h l nodes) :
    (l.head = none ↔ l.length = 0) ∧ (l.tail = none ↔ l.length = 0) := by
  obtain ⟨hc, -, hlen, ht⟩ := hw
  cases nodes with
  | nil =>
    have := (chain_to_nil h none l.head).mp hc
    simp only [List.length_nil] at hlen
    rw [ht]
    simp [this, ← hlen]
  | cons a rest =>
    obtain ⟨hp, -⟩ := (chain_to_cons h none l.head a rest).mp hc
    simp only [List.length_cons] at hlen
    rw [ht, hp]
    constructor
    · constructor
      · intro hh
        exact absurd hh (by simp)
      · intro hh
        omega
    · constructor
      · intro hh
        rw [List.getLast?_eq_none_iff] at hh
        exact absurd hh (by simp)
      · intro hh
        omega

theorem nodes_ne_nil (h : Heap) (l : SList) (nodes : List Nat) (hw : linked h l nodes)
    (hg : ¬ (l.head = none ∨ l.length = 0)) : nodes ≠ [] := by
  intro hn
  obtain ⟨-, -, hlen, -⟩ := hw
  rw [hn] at hlen
  exact hg (Or.inr hlen.symm)

/-- The function `sll_prepend_node` returns and keeps the bookkeeping. -/
theorem sll_prepend_node_linked (h : Heap) (l : SList) (nodes : List Nat) (data a : Option Nat)
    (hw : linked h l nodes) :
    ∃ code h2 l2 nodes2, sll_prepend_node h (some l) data a = .returned (code, h2, some l2) ∧
      linked h2 l2 nodes2 := by
  cases data with
  | none => exact ⟨_, h, l, nodes, rfl, hw⟩
  | some dv =>
    simp only [sll_prepend_node]
    by_cases hg : l.head = none ∨ l.length = 0
    · rw [if_pos hg]
      exact ⟨_, h, l, nodes, rfl, hw⟩
    · rw [if_neg hg]
      cases a with
      | none => exact ⟨_, h, l, nodes, rfl, hw⟩
      | some p =>
        have hne := nodes_ne_nil h l nodes hw hg
        obtain ⟨hc, hnd, hlen, ht⟩ := hw
        have hlive := chain_live h none nodes l.head hc
        simp only [sll_create_node]
        rw [if_neg (by simp)]
        have hq : load (place h (fresh h p) { data := some dv, next := none }) (fresh h p)
            = some { data := some dv, next := none } := by
          rw [load_place, if_pos rfl]
        rw [set_next_load _ _ _ l.head hq]
        refine ⟨_, _, _, fresh h p :: nodes, rfl, ?_, ?_, ?_, ?_⟩
        · rw [chain_to_cons]
          refine ⟨rfl, { data := some dv, next := l.head }, ?_, ?_⟩
          · rw [load_set _ _ _ _ (live_of_load _ _ _ hq), if_pos rfl]
          · show chain_to _ none l.head nodes = true
            rw [chain_to_congr h _ none nodes l.head, hc]
            intro b hb
            have hbq := ne_fresh h p b (hlive b hb)
            rw [load_set _ _ _ _ (live_of_load _ _ _ hq), if_neg hbq, load_place, if_neg hbq]
        · exact List.nodup_cons.mpr ⟨fun hm => ne_fresh h p _ (hlive _ hm) rfl, hnd⟩
        · simp only [List.length_cons, hlen]
        · show l.tail = (fresh h p :: nodes).getLast?
          rw [ht]
          cases nodes with
          | nil => exact absurd rfl hne
          | cons b rest => rw [List.getLast?_cons_cons]

/-- The function `sll_append_node` returns and keeps the bookkeeping. -/
theorem sll_append_node_linked (h : Heap) (l : SList) (nodes : List Nat) (data a : Option Nat)
    (hw : linked h l nodes) :
    ∃ code h2 l2 nodes2, sll_append_node h (some l) data a = .returned (code, h2, some l2) ∧
      linked h2 l2 nodes2 := by
  cases data with
  | none => exact ⟨_, h, l, nodes, rfl, hw⟩
  | some dv =>
    simp only [sll_append_node]
    by_cases hg : l.head = none ∨ l.length = 0
    · rw [if_pos hg]
      exact ⟨_, h, l, nodes, rfl, hw⟩
    · rw [if_neg hg]
      cases a with
      | none => exact ⟨_, h, l, nodes, rfl, hw⟩
      | some p =>
        have hne := nodes_ne_nil h l nodes hw hg
        obtain ⟨hc, hnd, hlen, ht⟩ := hw
        have hlive := chain_live h none nodes l.head hc
        obtain ⟨xs, t, rfl⟩ := exists_last nodes hne
        have htail : l.tail = some t := by
          rw [ht]
          simp
        obtain ⟨mid, hc1, hc2⟩ := (chain_append h none xs [t] l.head).mp hc
        obtain ⟨hmid, ndt, hlt, hc3⟩ := (chain_to_cons h none mid t []).mp hc2
        have hnone := (chain_to_nil h none ndt.next).mp hc3
        subst hmid
        have htq : t ≠ fresh h p := ne_fresh h p t (live_of_load _ _ _ hlt)
        have htx : t ∉ xs := by
          intro hm
          have := List.nodup_append.mp hnd
          exact this.2.2 hm (List.mem_singleton_self t)
        simp only [sll_create_node]
        rw [if_neg (by simp), htail]
        have hq : load (place h (fresh h p) { data := some dv, next := none }) (fresh h p)
            = some { data := some dv, next := none } := by
          rw [load_place, if_pos rfl]
        have ht1 : load (place h (fresh h p) { data := some dv, next := none }) t
            = some ndt := by
          rw [load_place, if_neg htq, hlt]
        rw [set_next_load _ _ _ (some (fresh h p)) ht1]
        refine ⟨_, _, _, (xs ++ [t]) ++ [fresh h p], rfl, ?_, ?_, ?_, ?_⟩
        · rw [List.append_assoc, chain_append]
          refine ⟨some t, ?_, ?_⟩
          · rw [chain_to_congr h _ (some t) xs l.head, hc1]
            intro b hb
            have hbq := ne_fresh h p b (hlive b (List.mem_append_left _ hb))
            have hbt : b ≠ t := fun he => htx (he ▸ hb)
            rw [load_set _ _ _ _ (live_of_load _ _ _ ht1), if_neg hbt, load_place, if_neg hbq]
          · show chain_to _ none (some t) [t, fresh h p] = true
            rw [chain_to_cons]
            refine ⟨rfl, { ndt with next := some (fresh h p) }, ?_, ?_⟩
            · rw [load_set _ _ _ _ (live_of_load _ _ _ ht1), if_pos rfl]
            · rw [chain_to_cons]
              refine ⟨rfl, { data := some dv, next := none }, ?_, ?_⟩
              · rw [load_set _ _ _ _ (live_of_load _ _ _ ht1), if_neg (Ne.symm htq), hq]
              · rfl
        · rw [List.nodup_append]
          refine ⟨hnd, List.nodup_singleton _, ?_⟩
          intro b hb hb2
          rw [List.mem_singleton] at hb2
          exact ne_fresh h p b (hlive b hb) hb2
        · simp only [List.length_append, List.length_singleton] at hlen ⊢
          rw [hlen]
        · simp

end LinkedList

namespace LinkedList

open Mem sll_errors

/-- In a chain `xs ++ pv :: ys` from `head`, as many steps of `next` as `xs` has
nodes lead to `pv`, and one more to the pointer `pv->next`, from which the rest
of the chain starts. -/
theorem chain_at (h : Heap) (head : Option Nat) (xs ys : List Nat) (pv : Nat)
    (hc : chain_to h none head (xs ++ pv :: ys) = true) :
    ∃ nd, load h pv = some nd ∧ chain_to h (some pv) head xs = true ∧
      chain_to h none nd.next ys = true ∧
      walk h xs.length head = .returned (some pv) ∧
      walk h (xs.length + 1) head = .returned nd.next := by
  obtain ⟨mid, hc1, hc2⟩ := (chain_append h none xs (pv :: ys) head).mp hc
  obtain ⟨hmid, nd, hl, hc3⟩ := (chain_to_cons h none mid pv ys).mp hc2
  subst hmid
  refine ⟨nd, hl, hc1, hc3, walk_chain h (some pv) xs head hc1, ?_⟩
  have hc4 : chain_to h nd.next head (xs ++ [pv]) = true := by
    rw [chain_append]
    refine ⟨some pv, hc1, ?_⟩
    rw [chain_to_cons]
    exact ⟨rfl, nd, hl, (chain_to_nil h nd.next nd.next).mpr rfl⟩
  have := walk_chain h nd.next (xs ++ [pv]) head hc4
  rw [List.length_append, List.length_singleton] at this
  exact this

/-- The function `sll_insert_node` returns and keeps the bookkeeping. -/
theorem sll_insert_node_linked (h : Heap) (l : SList) (nodes : List Nat) (index : Nat)
    (data a : Option Nat) (hw : linked h l nodes) :
    ∃ code h2 l2 nodes2, sll_insert_node h (some l) index data a
        = .returned (code, h2, some l2) ∧ linked h2 l2 nodes2 := by
  cases data with
  | none => exact ⟨_, h, l, nodes, rfl, hw⟩
  | some dv =>
    simp only [sll_insert_node]
    by_cases hg : l.head = none ∨ l.length = 0
    · rw [if_pos hg]
      exact ⟨_, h, l, nodes, rfl, hw⟩
    · rw [if_neg hg]
      by_cases hi0 : index = 0
      · rw [if_pos hi0]
        exact sll_prepend_node_linked h l nodes (some dv) a hw
      · rw [if_neg hi0]
        by_cases hbig : index > l.length
        · rw [if_pos hbig]
          exact ⟨_, h, l, nodes, rfl, hw⟩
        · rw [if_neg hbig]
          obtain ⟨hc, hnd, hlen, ht⟩ := hw
          have hlive := chain_live h none nodes l.head hc
          obtain ⟨xs, pv, ys, rfl, hxs⟩ := exists_split nodes (index - 1) (by omega)
          obtain ⟨ndpv, hlpv, hseg, hrest, hw1, hw2⟩ := chain_at h l.head xs ys pv hc
          simp only [List.length_append, List.length_cons] at hlen
          have hidx : xs.length + 1 = index := by omega
          -- the pointer `at_index`
          have hat : sll_get_at_index h (some l) index = .returned ndpv.next := by
            simp only [sll_get_at_index]
            by_cases hge : index ≥ l.length
            · rw [if_pos (Or.inr (Or.inr hge))]
              have hys : ys = [] := List.eq_nil_of_length_eq_zero (by omega)
              rw [hys] at hrest
              rw [(chain_to_nil h none ndpv.next).mp hrest]
            · rw [if_neg (by
                intro hh
                rcases hh with hh | hh | hh
                · exact hg (Or.inl hh)
                · exact hg (Or.inr hh)
                · exact hge hh), ← hidx, hw2]
          rw [← hxs, hw1, hat]
          simp only []
          cases a with
          | none => exact ⟨_, h, l, xs ++ pv :: ys, rfl, hc, hnd, by
              simp only [List.length_append, List.length_cons]; exact hlen, ht⟩
          | some p =>
            have hpvq : pv ≠ fresh h p := ne_fresh h p pv (live_of_load _ _ _ hlpv)
            have hnd2 := List.nodup_append.mp hnd
            have hpvxs : pv ∉ xs := fun hm => hnd2.2.2 hm (List.mem_cons_self _ _)
            have hpvys : pv ∉ ys := (List.nodup_cons.mp hnd2.2.1).1
            simp only [sll_create_node]
            rw [if_neg (by simp)]
            have hq : load (place h (fresh h p) { data := some dv, next := none }) (fresh h p)
                = some { data := some dv, next := none } := by
              rw [load_place, if_pos rfl]
            have hpv1 : load (place h (fresh h p) { data := some dv, next := none }) pv
                = some ndpv := by
              rw [load_place, if_neg hpvq, hlpv]
            rw [set_next_load _ _ _ (some (fresh h p)) hpv1]
            simp only []
            have hq2 : load ((place h (fresh h p) { data := some dv, next := none }).set pv
                (some { ndpv with next := some (fresh h p) })) (fresh h p)
                = some { data := some dv, next := none } := by
              rw [load_set _ _ _ _ (live_of_load _ _ _ hpv1), if_neg (Ne.symm hpvq), hq]
            rw [set_next_load _ _ _ ndpv.next hq2]
            simp only []
            -- what the final heap holds
            have hfin : ∀ b, b ≠ pv → b ≠ fresh h p →
                load (((place h (fresh h p) { data := some dv, next := none }).set pv
                  (some { ndpv with next := some (fresh h p) })).set (fresh h p)
                  (some { data := some dv, next := ndpv.next })) b = load h b := by
              intro b hb1 hb2
              rw [load_set _ _ _ _ (live_of_load _ _ _ hq2), if_neg hb2,
                load_set _ _ _ _ (live_of_load _ _ _ hpv1), if_neg hb1, load_place, if_neg hb2]
            refine ⟨_, _, _, xs ++ pv :: fresh h p :: ys, rfl, ?_, ?_, ?_, ?_⟩
            · rw [chain_append]
              refine ⟨some pv, ?_, ?_⟩
              · have : ∀ ll : SList, ll.head = l.head →
                    chain_to (((place h (fresh h p) { data := some dv, next := none }).set pv
                      (some { ndpv with next := some (fresh h p) })).set (fresh h p)
                      (some { data := some dv, next := ndpv.next })) (some pv) ll.head xs
                    = true := by
                  intro ll hll
                  rw [hll, chain_to_congr h _ (some pv) xs l.head, hseg]
                  intro b hb
                  exact hfin b (fun he => hpvxs (he ▸ hb))
                    (ne_fresh h p b (hlive b (List.mem_append_left _ hb)))
                apply this
                split_ifs <;> rfl
              · rw [chain_to_cons]
                refine ⟨rfl, { ndpv with next := some (fresh h p) }, ?_, ?_⟩
                · rw [load_set _ _ _ _ (live_of_load _ _ _ hq2), if_neg hpvq,
                    load_set _ _ _ _ (live_of_load _ _ _ hpv1), if_pos rfl]
                · rw [chain_to_cons]
                  refine ⟨rfl, { data := some dv, next := ndpv.next }, ?_, ?_⟩
                  · rw [load_set _ _ _ _ (live_of_load _ _ _ hq2), if_pos rfl]
                  · show chain_to _ none ndpv.next ys = true
                    rw [chain_to_congr h _ none ys ndpv.next, hrest]
                    intro b hb
                    exact hfin b (fun he => hpvys (he ▸ hb))
                      (ne_fresh h p b (hlive b
                        (List.mem_append_right _ (List.mem_cons_of_mem _ hb))))
            · rw [List.nodup_append]
              refine ⟨hnd2.1, ?_, ?_⟩
              · rw [List.nodup_cons]
                refine ⟨?_, ?_⟩
                · intro hm
                  rcases List.mem_cons.mp hm with he | hm2
                  · exact hpvq he
                  · exact hpvys hm2
                · rw [List.nodup_cons]
                  exact ⟨fun hm => ne_fresh h p _ (hlive _
                    (List.mem_append_right _ (List.mem_cons_of_mem _ hm))) rfl,
                    (List.nodup_cons.mp hnd2.2.1).2⟩
              · intro b hb1 hb2
                rcases List.mem_cons.mp hb2 with he | hb3
                · exact hpvxs (he ▸ hb1)
                · rcases List.mem_cons.mp hb3 with he | hb4
                  · exact ne_fresh h p b (hlive b (List.mem_append_left _ hb1)) he
                  · exact hnd2.2.2 hb1 (List.mem_cons_of_mem _ hb4)
            · simp only [List.length_append, List.length_cons]
              split_ifs <;> (try dsimp only) <;> omega
            · by_cases hil : index = l.length
              · have hys : ys = [] := List.eq_nil_of_length_eq_zero (by omega)
                rw [if_pos hil, hys]
                simp
              · rw [if_neg hil]
                show l.tail = _
                rw [ht]
                have hys : ys ≠ [] := by
                  intro he
                  have := congrArg List.length he
                  simp only [List.length_nil] at this
                  omega
                obtain ⟨zs, t, rfl⟩ := exists_last ys hys
                have e1 : xs ++ pv :: (zs ++ [t]) = (xs ++ pv :: zs) ++ [t] := by simp
                have e2 : xs ++ pv :: fresh h p :: (zs ++ [t])
                    = (xs ++ pv :: fresh h p :: zs) ++ [t] := by simp
                rw [e1, e2, List.getLast?_concat, List.getLast?_concat]

end LinkedList

namespace LinkedList

open Mem sll_errors

/-- The function `sll_delete_head` returns and keeps the bookkeeping. -/
theorem sll_delete_head_linked (h : Heap) (l : SList) (nodes : List Nat)
    (hw : linked h l nodes) :
    ∃ code h2 l2 nodes2, sll_delete_head h (some l) = .returned (code, h2, some l2) ∧
      linked h2 l2 nodes2 := by
  simp only [sll_delete_head]
  by_cases hg : l.head = none ∨ l.length = 0
  · rw [if_pos hg]
    exact ⟨_, h, l, nodes, rfl, hw⟩
  · rw [if_neg hg]
    have hne := nodes_ne_nil h l nodes hw hg
    obtain ⟨hc, hnd, hlen, ht⟩ := hw
    cases nodes with
    | nil => exact absurd rfl hne
    | cons a rest =>
      obtain ⟨hp, nd, hl, hr⟩ := (chain_to_cons h none l.head a rest).mp hc
      have harest : a ∉ rest := (List.nodup_cons.mp hnd).1
      rw [hp, get_next_load h a nd hl]
      simp only []
      rw [free_load h a (live_of_load _ _ _ hl)]
      simp only [List.length_cons] at hlen
      refine ⟨_, _, _, rest, rfl, ?_, (List.nodup_cons.mp hnd).2, ?_, ?_⟩
      · have : ∀ ll : SList, ll.head = nd.next →
            chain_to (h.set a none) none ll.head rest = true := by
          intro ll hll
          rw [hll, chain_to_congr h _ none rest nd.next, hr]
          intro b hb
          rw [load_set _ _ _ _ (live_of_load _ _ _ hl), if_neg (fun (he : b = a) => harest (he ▸ hb))]
        apply this
        split_ifs <;> rfl
      · split_ifs <;> (try dsimp only) <;> omega
      · by_cases h1 : l.length = 1
        · have hrest : rest = [] := List.eq_nil_of_length_eq_zero (by omega)
          rw [if_pos h1, hrest]
          rfl
        · rw [if_neg h1]
          show l.tail = rest.getLast?
          rw [ht]
          cases rest with
          | nil =>
            simp only [List.length_nil] at hlen
            omega
          | cons b tl => rw [List.getLast?_cons_cons]

/-- The function `sll_delete_tail` returns when its fuel is at least the length
of the list, and when it returns it keeps the bookkeeping. -/
theorem sll_delete_tail_linked (fuel : Nat) (h : Heap) (l : SList) (nodes : List Nat)
    (hw : linked h l nodes) :
    (sll_delete_tail fuel h (some l) = none ∧ fuel < l.length) ∨
    ∃ code h2 l2 nodes2, sll_delete_tail fuel h (some l) = some (.returned (code, h2, some l2)) ∧
      linked h2 l2 nodes2 := by
  simp only [sll_delete_tail]
  by_cases hg : l.head = none ∨ l.length = 0
  · rw [if_pos hg]
    exact Or.inr ⟨_, h, l, nodes, rfl, hw⟩
  · rw [if_neg hg]
    have hne := nodes_ne_nil h l nodes hw hg
    obtain ⟨hc, hnd, hlen, ht⟩ := hw
    have hlive := chain_live h none nodes l.head hc
    by_cases h1 : l.length = 1
    · rw [if_pos h1]
      obtain ⟨a, rfl⟩ := List.length_eq_one.mp (hlen.trans h1)
      obtain ⟨hp, nd, hl, -⟩ := (chain_to_cons h none l.head a []).mp hc
      rw [hp, free_load h a (live_of_load _ _ _ hl)]
      refine Or.inr ⟨_, _, _, [], rfl, rfl, List.nodup_nil, ?_, rfl⟩
      simp only [List.length_nil]
      omega
    · rw [if_neg h1]
      obtain ⟨ys, t, rfl⟩ := exists_last nodes hne
      have hys : ys ≠ [] := by
        intro he
        rw [he] at hlen
        simp only [List.nil_append, List.length_singleton] at hlen
        omega
      obtain ⟨xs, nt, rfl⟩ := exists_last ys hys
      have e : xs ++ [nt] ++ [t] = xs ++ [nt, t] := by simp
      rw [e] at hc hnd hlen ht hlive
      rw [find_new_tail_chain h nt t xs l.head fuel hc]
      simp only [List.length_append, List.length_cons, List.length_nil] at hlen
      by_cases hf : fuel ≤ xs.length
      · rw [if_pos hf]
        exact Or.inl ⟨rfl, by omega⟩
      · rw [if_neg hf]
        simp only []
        obtain ⟨ndnt, hlnt, hseg, hrest, -, -⟩ := chain_at h l.head xs [t] nt hc
        obtain ⟨hnext, ndt, hlt, -⟩ := (chain_to_cons h none ndnt.next t []).mp hrest
        have hnd2 := List.nodup_append.mp hnd
        have hntt : nt ≠ t := by
          intro he
          have := (List.nodup_cons.mp hnd2.2.1).1
          exact this (he ▸ List.mem_singleton_self t)
        rw [get_next_load h nt ndnt hlnt, hnext]
        simp only []
        rw [free_load h t (live_of_load _ _ _ hlt)]
        simp only []
        have hnt1 : load (h.set t none) nt = some ndnt := by
          rw [load_set _ _ _ _ (live_of_load _ _ _ hlt), if_neg hntt, hlnt]
        rw [set_next_load _ _ _ none hnt1]
        refine Or.inr ⟨_, _, _, xs ++ [nt], rfl, ?_, ?_, ?_, ?_⟩
        · rw [chain_append]
          refine ⟨some nt, ?_, ?_⟩
          · show chain_to _ (some nt) l.head xs = true
            rw [chain_to_congr h _ (some nt) xs l.head, hseg]
            intro b hb
            have hbnt : b ≠ nt := fun he => hnd2.2.2 hb (he ▸ List.mem_cons_self _ _)
            have hbt : b ≠ t := fun he =>
              hnd2.2.2 hb (by rw [he]; exact List.mem_cons_of_mem _ (List.mem_singleton_self t))
            rw [load_set _ _ _ _ (live_of_load _ _ _ hnt1), if_neg hbnt,
              load_set _ _ _ _ (live_of_load _ _ _ hlt), if_neg hbt]
          · rw [chain_to_cons]
            refine ⟨rfl, { ndnt with next := none }, ?_, rfl⟩
            rw [load_set _ _ _ _ (live_of_load _ _ _ hnt1), if_pos rfl]
        · rw [List.nodup_append]
          refine ⟨hnd2.1, List.nodup_singleton _, ?_⟩
          intro b hb1 hb2
          rw [List.mem_singleton] at hb2
          exact hnd2.2.2 hb1 (hb2 ▸ List.mem_cons_self _ _)
        · simp only [List.length_append, List.length_singleton]
          omega
        · simp

/-- The function `sll_delete_at_index` returns when its fuel is at least the
length of the list, and when it returns it keeps the bookkeeping. -/
theorem sll_delete_at_index_linked (fuel : Nat) (h : Heap) (l : SList) (nodes : List Nat)
    (index : Nat) (hw : linked h l nodes) :
    (sll_delete_at_index fuel h (some l) index = none ∧ fuel < l.length) ∨
    ∃ code h2 l2 nodes2, sll_delete_at_index fuel h (some l) index
        = some (.returned (code, h2, some l2)) ∧ linked h2 l2 nodes2 := by
  simp only [sll_delete_at_index]
  by_cases hg : l.head = none ∨ l.length = 0
  · rw [if_pos hg]
    exact Or.inr ⟨_, h, l, nodes, rfl, hw⟩
  · rw [if_neg hg]
    by_cases hbig : index ≥ l.length
    · rw [if_pos hbig]
      exact Or.inr ⟨_, h, l, nodes, rfl, hw⟩
    · rw [if_neg hbig]
      by_cases hi0 : index = 0
      · rw [if_pos hi0]
        obtain ⟨code, h2, l2, nodes2, he, hw2⟩ := sll_delete_head_linked h l nodes hw
        exact Or.inr ⟨code, h2, l2, nodes2, by rw [he], hw2⟩
      · rw [if_neg hi0]
        by_cases hil : index = l.length - 1
        · rw [if_pos hil]
          exact sll_delete_tail_linked fuel h l nodes hw
        · rw [if_neg hil]
          obtain ⟨hc, hnd, hlen, ht⟩ := hw
          have hlive := chain_live h none nodes l.head hc
          obtain ⟨xs, pv, ys0, rfl, hxs⟩ := exists_split nodes (index - 1) (by omega)
          simp only [List.length_append, List.length_cons] at hlen
          obtain ⟨x, ys, rfl⟩ : ∃ x ys, ys0 = x :: ys := by
            cases ys0 with
            | nil =>
              simp only [List.length_nil] at hlen
              omega
            | cons x ys => exact ⟨x, ys, rfl⟩
          simp only [List.length_cons] at hlen
          have hys : ys ≠ [] := by
            intro he
            have := congrArg List.length he
            simp only [List.length_nil] at this
            omega
          obtain ⟨ndpv, hlpv, hseg, hrest, hw1, hw2⟩ := chain_at h l.head xs (x :: ys) pv hc
          obtain ⟨hnext, ndx, hlx, hrest2⟩ := (chain_to_cons h none ndpv.next x ys).mp hrest
          have e : xs ++ pv :: x :: ys = (xs ++ [pv]) ++ x :: ys := by simp
          have hc2 := hc
          rw [e] at hc2
          obtain ⟨ndx2, hlx2, -, -, -, hw3⟩ := chain_at h l.head (xs ++ [pv]) ys x hc2
          rw [hlx] at hlx2
          cases hlx2
          simp only [List.length_append, List.length_singleton] at hw3
          have hidx : xs.length + 1 = index := by omega
          have hnotguard : ∀ i, i < l.length → ¬ (l.head = none ∨ l.length = 0 ∨ i ≥ l.length) := by
            intro i hi hh
            rcases hh with hh | hh | hh
            · exact hg (Or.inl hh)
            · exact hg (Or.inr hh)
            · omega
          have hat : sll_get_at_index h (some l) index = .returned (some x) := by
            simp only [sll_get_at_index]
            rw [if_neg (hnotguard index (by omega)), ← hidx, hw2, hnext]
          have hnx : sll_get_at_index h (some l) (index + 1) = .returned ndx.next := by
            simp only [sll_get_at_index]
            rw [if_neg (hnotguard (index + 1) (by omega)), ← hidx, hw3]
          rw [← hxs, hw1, hat, hnx]
          simp only []
          have hnd2 := List.nodup_append.mp hnd
          have hnd3 := List.nodup_cons.mp hnd2.2.1
          have hnd4 := List.nodup_cons.mp hnd3.2
          have hpvx : pv ≠ x := fun he => hnd3.1 (he ▸ List.mem_cons_self _ _)
          rw [set_next_load h pv ndpv ndx.next hlpv]
          simp only []
          have hx1 : load (h.set pv (some { ndpv with next := ndx.next })) x = some ndx := by
            rw [load_set _ _ _ _ (live_of_load _ _ _ hlpv), if_neg (Ne.symm hpvx), hlx]
          rw [free_load _ x (live_of_load _ _ _ hx1)]
          have hfin : ∀ b, b ≠ pv → b ≠ x →
              load ((h.set pv (some { ndpv with next := ndx.next })).set x none) b
                = load h b := by
            intro b hb1 hb2
            rw [load_set _ _ _ _ (live_of_load _ _ _ hx1), if_neg hb2,
              load_set _ _ _ _ (live_of_load _ _ _ hlpv), if_neg hb1]
          refine Or.inr ⟨_, _, _, xs ++ pv :: ys, rfl, ?_, ?_, ?_, ?_⟩
          · rw [chain_append]
            refine ⟨some pv, ?_, ?_⟩
            · show chain_to _ (some pv) l.head xs = true
              rw [chain_to_congr h _ (some pv) xs l.head, hseg]
              intro b hb
              exact hfin b (fun he => hnd2.2.2 hb (he ▸ List.mem_cons_self _ _))
                (fun he => hnd2.2.2 hb (he ▸ List.mem_cons_of_mem _ (List.mem_cons_self _ _)))
            · rw [chain_to_cons]
              refine ⟨rfl, { ndpv with next := ndx.next }, ?_, ?_⟩
              · rw [load_set _ _ _ _ (live_of_load _ _ _ hx1), if_neg hpvx,
                  load_set _ _ _ _ (live_of_load _ _ _ hlpv), if_pos rfl]
              · show chain_to _ none ndx.next ys = true
                rw [chain_to_congr h _ none ys ndx.next, hrest2]
                intro b hb
                exact hfin b (fun he => hnd3.1 (he ▸ List.mem_cons_of_mem _ hb))
                  (fun he => hnd4.1 (he ▸ hb))
          · rw [List.nodup_append]
            refine ⟨hnd2.1, List.nodup_cons.mpr ⟨fun hm => hnd3.1 (List.mem_cons_of_mem _ hm),
              hnd4.2⟩, ?_⟩
            intro b hb1 hb2
            rcases List.mem_cons.mp hb2 with he | hb3
            · exact hnd2.2.2 hb1 (he ▸ List.mem_cons_self _ _)
            · exact hnd2.2.2 hb1 (List.mem_cons_of_mem _ (List.mem_cons_of_mem _ hb3))
          · simp only [List.length_append, List.length_cons]
            omega
          · show l.tail = _
            rw [ht]
            obtain ⟨zs, t, rfl⟩ := exists_last ys hys
            have e1 : xs ++ pv :: x :: (zs ++ [t]) = (xs ++ pv :: x :: zs) ++ [t] := by simp
            have e2 : xs ++ pv :: (zs ++ [t]) = (xs ++ pv :: zs) ++ [t] := by simp
            rw [e1, e2, List.getLast?_concat, List.getLast?_concat]

end LinkedList

/-! ## The linked list: the reachable states -/

namespace LinkedList

open Mem sll_errors

theorem sll_list_init_linked (h0 : Heap) (l0 : SList) (data a0 : Option Nat) (h : Heap)
    (l : SList)
    (hinit : sll_list_init h0 (some l0) data a0 = .returned (SLL_SUCCESS, h, some l)) :
    ∃ nodes, linked h l nodes := by
  cases a0 with
  | none => simp [sll_list_init, sll_create_node] at hinit
  | some p =>
    simp only [sll_list_init, sll_create_node] at hinit
    rw [if_neg (by simp)] at hinit
    simp only [outcome.returned.injEq, Prod.mk.injEq, true_and, Option.some.injEq] at hinit
    obtain ⟨rfl, rfl⟩ := hinit
    refine ⟨[fresh h0 p], ?_, List.nodup_singleton _, rfl, rfl⟩
    rw [chain_to_cons]
    refine ⟨rfl, { data := data, next := none }, ?_, rfl⟩
    rw [load_place, if_pos rfl]

/-- One call on a list with its bookkeeping in order returns, unless its fuel
is less than the length of the list, and keeps the bookkeeping. -/
theorem sll_call_linked (c : sll_call) (h : Heap) (l : SList) (nodes : List Nat)
    (hw : linked h l nodes) :
    (c.run (h, some l) = none ∧ c.fuel_ge l.length = false) ∨
    ∃ h2 l2 nodes2, c.run (h, some l) = some (.returned (h2, some l2)) ∧
      linked h2 l2 nodes2 := by
  cases c with
  | prepend data a =>
    obtain ⟨code, h2, l2, nodes2, he, hw2⟩ := sll_prepend_node_linked h l nodes data a hw
    exact Or.inr ⟨h2, l2, nodes2, by simp only [sll_call.run, he], hw2⟩
  | append data a =>
    obtain ⟨code, h2, l2, nodes2, he, hw2⟩ := sll_append_node_linked h l nodes data a hw
    exact Or.inr ⟨h2, l2, nodes2, by simp only [sll_call.run, he], hw2⟩
  | insert index data a =>
    obtain ⟨code, h2, l2, nodes2, he, hw2⟩ := sll_insert_node_linked h l nodes index data a hw
    exact Or.inr ⟨h2, l2, nodes2, by simp only [sll_call.run, he], hw2⟩
  | delete_head =>
    obtain ⟨code, h2, l2, nodes2, he, hw2⟩ := sll_delete_head_linked h l nodes hw
    exact Or.inr ⟨h2, l2, nodes2, by simp only [sll_call.run, he], hw2⟩
  | delete_tail fuel =>
    rcases sll_delete_tail_linked fuel h l nodes hw with ⟨he, hf⟩ |
      ⟨code, h2, l2, nodes2, he, hw2⟩
    · exact Or.inl ⟨by simp only [sll_call.run, he], by
        simp only [sll_call.fuel_ge, decide_eq_false_iff_not]; omega⟩
    · exact Or.inr ⟨h2, l2, nodes2, by simp only [sll_call.run, he], hw2⟩
  | delete_at_index index fuel =>
    rcases sll_delete_at_index_linked fuel h l nodes index hw with ⟨he, hf⟩ |
      ⟨code, h2, l2, nodes2, he, hw2⟩
    · exact Or.inl ⟨by simp only [sll_call.run, he], by
        simp only [sll_call.fuel_ge, decide_eq_false_iff_not]; omega⟩
    · exact Or.inr ⟨h2, l2, nodes2, by simp only [sll_call.run, he], hw2⟩

theorem sll_run_calls_linked (cs : List sll_call) :
    ∀ (h : Heap) (l : SList) (nodes : List Nat) (h1 : Heap) (s1 : Option SList),
      linked h l nodes → sll_run_calls cs (h, some l) = some (.returned (h1, s1)) →
      ∃ l1 nodes1, s1 = some l1 ∧ linked h1 l1 nodes1 := by
  induction cs with
  | nil =>
    intro h l nodes h1 s1 hw hrun
    simp only [sll_run_calls, Option.some.injEq, outcome.returned.injEq, Prod.mk.injEq] at hrun
    obtain ⟨rfl, rfl⟩ := hrun
    exact ⟨l, nodes, rfl, hw⟩
  | cons c cs ih =>
    intro h l nodes h1 s1 hw hrun
    rcases sll_call_linked c h l nodes hw with ⟨he, -⟩ | ⟨h2, l2, nodes2, he, hw2⟩
    · simp only [sll_run_calls, he] at hrun
      exact absurd hrun (by simp)
    · simp only [sll_run_calls, he] at hrun
      exact ih h2 l2 nodes2 h1 s1 hw2 hrun

/-- C34: in every state that a run of `sll_prepend_node`, `sll_append_node`,
`sll_insert_node`, `sll_delete_head`, `sll_delete_tail` and
`sll_delete_at_index` calls reaches from a successful `sll_list_init`, with any
arguments and any answers of the allocator, the chain from `head` that follows
`next` ends at NULL, `length` is the number of its nodes, `tail` is the last of
them, and `head` and `tail` are NULL exactly when `length = 0`; every further
call whose fuel is at least `length` returns. -/
theorem list_bookkeeping (h0 : Heap) (l0 : SList) (data a0 : Option Nat) (h : Heap)
    (l : SList)
    (hinit : sll_list_init h0 (some l0) data a0 = .returned (SLL_SUCCESS, h, some l))
    (cs : List sll_call) (h1 : Heap) (s1 : Option SList)
    (hrun : sll_run_calls cs (h, some l) = some (.returned (h1, s1))) :
    ∃ l1 nodes, s1 = some l1 ∧ chain_to h1 none l1.head nodes = true ∧
      l1.length = nodes.length ∧ l1.tail = nodes.getLast? ∧
      (l1.head = none ↔ l1.length = 0) ∧ (l1.tail = none ↔ l1.length = 0) ∧
      ∀ c : sll_call, c.fuel_ge l1.length = true →
        ∃ s2, c.run (h1, some l1) = some (.returned s2) := by
  obtain ⟨nodes0, hw0⟩ := sll_list_init_linked h0 l0 data a0 h l hinit
  obtain ⟨l1, nodes, rfl, hw⟩ := sll_run_calls_linked cs h l nodes0 h1 s1 hw0 hrun
  obtain ⟨hh, ht⟩ := head_of_linked h1 l1 nodes hw
  refine ⟨l1, nodes, rfl, hw.1, hw.2.2.1.symm, hw.2.2.2, hh, ht, ?_⟩
  intro c hc
  rcases sll_call_linked c h1 l1 nodes hw with ⟨-, hf⟩ | ⟨h2, l2, nodes2, he, -⟩
  · rw [hc] at hf
    exact absurd hf (by simp)
  · exact ⟨_, he⟩

theorem list_bookkeeping_witness :
    sll_list_init [] (some example_list) (some 100) (some 0)
      = .returned (SLL_SUCCESS, [some { data := some 100, next := none }],
          some { head := some 0, tail := some 0, length := 1 }) ∧
    sll_run_calls [sll_call.append (some 101) (some 1), sll_call.prepend (some 102) (some 0),
        sll_call.insert 1 (some 103) (some 7), sll_call.delete_at_index 1 4,
        sll_call.delete_tail 3]
      ([some { data := some 100, next := none }],
        some { head := some 0, tail := some 0, length := 1 })
      = some (.returned ([some { data := some 100, next := none }, none,
          some { data := some 102, next := some 0 }, none, none, none, none, none],
          some { head := some 2, tail := some 0, length := 2 })) ∧
    ∃ l1 nodes, some ({ head := some 2, tail := some 0, length := 2 } : SList) = some l1 ∧
      chain_to [some { data := some 100, next := none }, none,
          some { data := some 102, next := some 0 }, none, none, none, none, none]
        none l1.head nodes = true ∧
      l1.length = nodes.length ∧ l1.tail = nodes.getLast? ∧
      (l1.head = none ↔ l1.length = 0) ∧ (l1.tail = none ↔ l1.length = 0) ∧
      ∀ c : sll_call, c.fuel_ge l1.length = true →
        ∃ s2, c.run ([some { data := some 100, next := none }, none,
          some { data := some 102, next := some 0 }, none, none, none, none, none], some l1)
            = some (.returned s2) :=
  ⟨by decide, by decide,
    list_bookkeeping [] example_list (some 100) (some 0)
      [some { data := some 100, next := none }]
      { head := some 0, tail := some 0, length := 1 } (by decide)
      [sll_call.append (some 101) (some 1), sll_call.prepend (some 102) (some 0),
        sll_call.insert 1 (some 103) (some 7), sll_call.delete_at_index 1 4,
        sll_call.delete_tail 3]
      [some { data := some 100, next := none }, none,
        some { data := some 102, next := some 0 }, none, none, none, none, none]
      (some { head := some 2, tail := some 0, length := 2 }) (by decide)⟩

end LinkedList
